import Mathlib

/-!
# A verification development for the host NUFFT plan (`nufft_plan.cc`)

The definitions below are a shallow embedding of the host code of
`tensorflow_nufft/cc/kernels/nufft_plan.cc`.

Conventions of the embedding.

* `FloatType` is modelled by `ℚ` (exact arithmetic), `int64_t` and `int` by `ℤ`
  (no overflow is modelled: every quantity here is bounded by an array length).
* A C array (pointer) is a total map `ℤ → α` from index to content; the array of
  length `n` is the restriction of that map to `[0, n)`.  A store `a[i] = v` is
  `Function.update a i v`.  A pointer `p + off` is modelled by passing the map
  `p` together with the base offset `off`.
* A loop `for (k = lo; k < hi; ++k) body` is `forRange lo hi body`, a left fold
  of the body over `lo, lo+1, ..., hi-1` on the explicit state.
* An OpenMP parallel region whose threads touch disjoint data, or only add into
  shared cells in exact arithmetic, is run thread after thread (iteration after
  iteration) in ascending index order.
-/

namespace NufftPlan

/-! ## Loops and conversions -/

/-- The loop `for (k = lo; k < hi; ++k) s = body k s`. -/
def forRange {σ : Type} (lo hi : ℤ) (body : ℤ → σ → σ) (s : σ) : σ :=
  (List.range (hi - lo).toNat).foldl (fun st (d : ℕ) => body (lo + (d : ℤ)) st) s

/-- The loop `for (k = lo; k < hi; k += step) s = body k s`, for `step ≥ 1`. -/
def forRangeStep {σ : Type} (lo hi step : ℤ) (body : ℤ → σ → σ) (s : σ) : σ :=
  (List.range ((hi - lo + step - 1) / step).toNat).foldl
    (fun st (d : ℕ) => body (lo + step * (d : ℤ)) st) s

/-- The C++ conversion `(int64_t) x` of a floating point value: truncation
towards zero. -/
def truncToInt (x : ℚ) : ℤ := if 0 ≤ x then ⌊x⌋ else ⌈x⌉

/-- The C++ integer division `a / b`, which truncates towards zero. -/
def cdiv (a b : ℤ) : ℤ := Int.tdiv a b

/-! ## Subproblem breakpoints of `spreadSorted` -/

/-- The value `(int64_t)(0.5 + M * p / (double)nb)` stored in `brk[p]`. -/
def brkValue (M nb p : ℤ) : ℤ :=
  truncToInt (1 / 2 + ((M * p : ℤ) : ℚ) / (nb : ℚ))

/-- The array `brk` after the loop
`for (int p = 0; p <= nb; ++p) brk[p] = (int64_t)(0.5 + M * p / (double)nb);`
on a freshly value-initialised `std::vector<int64_t> brk(nb+1)`. -/
def fill_brk (M nb : ℤ) : ℤ → ℤ :=
  forRange 0 (nb + 1) (fun p brk => Function.update brk p (brkValue M nb p)) (fun _ => 0)

/-! ## Plan state used by the deconvolver -/

/-- The enumeration `ModeOrder`. -/
inductive ModeOrder where
  | FFT
  | CMCL
deriving DecidableEq, Repr

/-- The enumeration `SpreadDirection`. -/
inductive SpreadDirection where
  | SPREAD
  | INTERP
deriving DecidableEq, Repr

/-- The type `DType = std::complex<FloatType>`, in exact arithmetic. -/
@[ext]
structure DType where
  re : ℚ
  im : ℚ
deriving DecidableEq, Repr

/-- The complex zero `std::complex(0.0, 0.0)`. -/
def DType.zero : DType := ⟨0, 0⟩

/-- The product `a * z` of a real `FloatType` and a complex value. -/
def DType.scale (a : ℚ) (z : DType) : DType := ⟨a * z.re, a * z.im⟩

/-- The quotient `z / a` of a complex value by a real `FloatType`. -/
def DType.divReal (z : DType) (a : ℚ) : DType := ⟨z.re / a, z.im / a⟩

/-- The expression `prefactor * z / f` of the deconvolver, which C++ parses as
`(prefactor * z) / f`. -/
def deconvVal (prefactor : ℚ) (z : DType) (f : ℚ) : DType :=
  DType.divReal (DType.scale prefactor z) f

/-- The members of `Plan<CPUDevice, FloatType>` read by the deconvolver:
`grid_dims_`, `fine_dims_`, `fseries_data_` (three arrays), `options_.mode_order`
and `spread_params_.spread_direction`. -/
structure Plan where
  grid_dims_ : ℤ → ℤ
  fine_dims_ : ℤ → ℤ
  fseries_data_ : ℤ → ℤ → ℚ
  mode_order : ModeOrder
  spread_direction : SpreadDirection

/-- The method `Plan<CPUDevice, FloatType>::deconvolve_1d(fk, fw, prefactor)`.
The pointers `fk` and `fw` are given as arrays with base offsets `fkOff` and
`fwOff`; the result is the pair of arrays `(fk, fw)` on return. -/
def deconvolve_1d (P : Plan) (fk fw : ℤ → DType) (fkOff fwOff : ℤ) (prefactor : ℚ) :
    (ℤ → DType) × (ℤ → DType) :=
  let kmin : ℤ := cdiv (-(P.grid_dims_ 0)) 2
  let kmax0 : ℤ := cdiv (P.grid_dims_ 0 - 1) 2
  let kmax : ℤ := if P.grid_dims_ 0 = 0 then -1 else kmax0
  let pp0 : ℤ := match P.mode_order with
    | ModeOrder.FFT => 0
    | ModeOrder.CMCL => -kmin
  let pn0 : ℤ := match P.mode_order with
    | ModeOrder.FFT => kmax + 1
    | ModeOrder.CMCL => 0
  match P.spread_direction with
  | SpreadDirection.SPREAD =>
    -- Non-negative frequencies.
    let s1 := forRange 0 (kmax + 1)
      (fun k (st : (ℤ → DType) × ℤ) =>
        (Function.update st.1 (fkOff + st.2)
          (deconvVal prefactor (fw (fwOff + k)) (P.fseries_data_ 0 k)), st.2 + 1))
      (fk, pp0)
    -- Negative frequencies.
    let s2 := forRange kmin 0
      (fun k (st : (ℤ → DType) × ℤ) =>
        (Function.update st.1 (fkOff + st.2)
          (deconvVal prefactor (fw (fwOff + (P.fine_dims_ 0 + k))) (P.fseries_data_ 0 (-k))),
         st.2 + 1))
      (s1.1, pn0)
    (s2.1, fw)
  | SpreadDirection.INTERP =>
    -- Zero-padding.
    let fw0 := forRange (kmax + 1) (P.fine_dims_ 0 + kmin)
      (fun k (a : ℤ → DType) => Function.update a (fwOff + k) DType.zero) fw
    -- Non-negative frequencies.
    let s1 := forRange 0 (kmax + 1)
      (fun k (st : (ℤ → DType) × ℤ) =>
        (Function.update st.1 (fwOff + k)
          (deconvVal prefactor (fk (fkOff + st.2)) (P.fseries_data_ 0 k)), st.2 + 1))
      (fw0, pp0)
    -- Negative frequencies.
    let s2 := forRange kmin 0
      (fun k (st : (ℤ → DType) × ℤ) =>
        (Function.update st.1 (fwOff + (P.fine_dims_ 0 + k))
          (deconvVal prefactor (fk (fkOff + st.2)) (P.fseries_data_ 0 (-k))), st.2 + 1))
      (s1.1, pn0)
    (fk, s2.1)

/-- The method `Plan<CPUDevice, FloatType>::deconvolve_2d(fk, fw, prefactor)`;
the loop state is `(fk, fw, pp)`. -/
def deconvolve_2d (P : Plan) (fk fw : ℤ → DType) (fkOff fwOff : ℤ) (prefactor : ℚ) :
    (ℤ → DType) × (ℤ → DType) :=
  let ker2 : ℤ → ℚ := P.fseries_data_ 1
  let ms : ℤ := P.grid_dims_ 0
  let mt : ℤ := P.grid_dims_ 1
  let nf1 : ℤ := P.fine_dims_ 0
  let nf2 : ℤ := P.fine_dims_ 1
  let k2min : ℤ := cdiv (-mt) 2
  let k2max0 : ℤ := cdiv (mt - 1) 2
  let k2max : ℤ := if mt = 0 then -1 else k2max0
  let pp0 : ℤ := match P.mode_order with
    | ModeOrder.FFT => 0
    | ModeOrder.CMCL => -k2min * ms
  let pn0 : ℤ := match P.mode_order with
    | ModeOrder.FFT => (k2max + 1) * ms
    | ModeOrder.CMCL => 0
  -- Zero-padding.
  let fw0 : ℤ → DType :=
    if P.spread_direction = SpreadDirection.INTERP then
      forRange (nf1 * (k2max + 1)) (nf1 * (nf2 + k2min))
        (fun j (a : ℤ → DType) => Function.update a (fwOff + j) DType.zero) fw
    else fw
  -- Non-negative frequencies.
  let s1 := forRange 0 (k2max + 1)
    (fun k2 (st : ((ℤ → DType) × (ℤ → DType)) × ℤ) =>
      (deconvolve_1d P st.1.1 st.1.2 (fkOff + st.2) (fwOff + nf1 * k2) (prefactor / ker2 k2),
       st.2 + ms))
    ((fk, fw0), pp0)
  -- Negative frequencies.
  let s2 := forRange k2min 0
    (fun k2 (st : ((ℤ → DType) × (ℤ → DType)) × ℤ) =>
      (deconvolve_1d P st.1.1 st.1.2 (fkOff + st.2) (fwOff + nf1 * (nf2 + k2))
        (prefactor / ker2 (-k2)),
       st.2 + ms))
    (s1.1, pn0)
  s2.1

/-- The method `Plan<CPUDevice, FloatType>::deconvolve_3d(fk, fw, prefactor)`;
the loop state is `(fk, fw, pp)`. -/
def deconvolve_3d (P : Plan) (fk fw : ℤ → DType) (fkOff fwOff : ℤ) (prefactor : ℚ) :
    (ℤ → DType) × (ℤ → DType) :=
  let ker3 : ℤ → ℚ := P.fseries_data_ 2
  let ms : ℤ := P.grid_dims_ 0
  let mt : ℤ := P.grid_dims_ 1
  let mu : ℤ := P.grid_dims_ 2
  let nf1 : ℤ := P.fine_dims_ 0
  let nf2 : ℤ := P.fine_dims_ 1
  let nf3 : ℤ := P.fine_dims_ 2
  let k3min : ℤ := cdiv (-mu) 2
  let k3max0 : ℤ := cdiv (mu - 1) 2
  let k3max : ℤ := if mu = 0 then -1 else k3max0
  let pp0 : ℤ := match P.mode_order with
    | ModeOrder.FFT => 0
    | ModeOrder.CMCL => -k3min * ms * mt
  let pn0 : ℤ := match P.mode_order with
    | ModeOrder.FFT => (k3max + 1) * ms * mt
    | ModeOrder.CMCL => 0
  let np : ℤ := nf1 * nf2
  -- Zero-padding.
  let fw0 : ℤ → DType :=
    if P.spread_direction = SpreadDirection.INTERP then
      forRange (np * (k3max + 1)) (np * (nf3 + k3min))
        (fun j (a : ℤ → DType) => Function.update a (fwOff + j) DType.zero) fw
    else fw
  -- Non-negative frequencies.
  let s1 := forRange 0 (k3max + 1)
    (fun k3 (st : ((ℤ → DType) × (ℤ → DType)) × ℤ) =>
      (deconvolve_2d P st.1.1 st.1.2 (fkOff + st.2) (fwOff + np * k3) (prefactor / ker3 k3),
       st.2 + ms * mt))
    ((fk, fw0), pp0)
  -- Negative frequencies.
  let s2 := forRange k3min 0
    (fun k3 (st : ((ℤ → DType) × (ℤ → DType)) × ℤ) =>
      (deconvolve_2d P st.1.1 st.1.2 (fkOff + st.2) (fwOff + np * (nf3 + k3))
        (prefactor / ker3 (-k3)),
       st.2 + ms * mt))
    (s1.1, pn0)
  s2.1

/-- The position in `fk` of mode `k` on an axis with `ms` modes: `k mod ms` in FFT
order, `k + floor(ms/2)` in CMCL order. -/
def modePos (order : ModeOrder) (ms k : ℤ) : ℤ :=
  match order with
  | ModeOrder.FFT => k % ms
  | ModeOrder.CMCL => k + ms / 2

/-- Start, relative to the base of `fk`, of the chunk of non-negative modes
(`pp` on entry): `0` in FFT order, `floor(ms/2)` in CMCL order. -/
def posBase (order : ModeOrder) (ms : ℤ) : ℤ :=
  match order with
  | ModeOrder.FFT => 0
  | ModeOrder.CMCL => ms / 2

/-- Position, relative to the base of `fk`, that mode `0` would take if the chunk
of negative modes were continued upwards: `ms` in FFT order, `floor(ms/2)` in
CMCL order. -/
def negBase (order : ModeOrder) (ms : ℤ) : ℤ :=
  match order with
  | ModeOrder.FFT => ms
  | ModeOrder.CMCL => ms / 2

/-- The mode stored at position `i` of `fk` on an axis with `ms` modes: the
inverse of `modePos` on the used modes. -/
def modeAt (order : ModeOrder) (ms i : ℤ) : ℤ :=
  match order with
  | ModeOrder.FFT => if i ≤ (ms - 1) / 2 then i else i - ms
  | ModeOrder.CMCL => i - ms / 2

/-- A one-mode plan with fine dimension 2 and all Fourier-series coefficients
equal to 2, in FFT order. -/
def planOneMode (dir : SpreadDirection) : Plan where
  grid_dims_ := fun _ => 1
  fine_dims_ := fun _ => 2
  fseries_data_ := fun _ _ => 2
  mode_order := ModeOrder.FFT
  spread_direction := dir

/-- A four-mode plan with fine dimension 8 and coefficients `1, 2, 3, ...`. -/
def planFourModes (order : ModeOrder) (dir : SpreadDirection) : Plan where
  grid_dims_ := fun _ => 4
  fine_dims_ := fun _ => 8
  fseries_data_ := fun _ k => (k : ℚ) + 1
  mode_order := order
  spread_direction := dir

/-- A sample complex array `a[i] = (i, 1)`. -/
def sampleArray : ℤ → DType := fun i => ⟨(i : ℚ), 1⟩

/-- A 3-D plan with `2 x 3 x 2` modes on a `4 x 6 x 4` fine grid. -/
def planCube (order : ModeOrder) (dir : SpreadDirection) : Plan where
  grid_dims_ := fun a => if a = 0 then 2 else if a = 1 then 3 else 2
  fine_dims_ := fun a => if a = 0 then 4 else if a = 1 then 6 else 4
  fseries_data_ := fun a k => (a : ℚ) + (k : ℚ) + 1
  mode_order := order
  spread_direction := dir

/-- The plan `planCube` in FFT order, forward direction. -/
def planCubeFwd : Plan := planCube ModeOrder.FFT SpreadDirection.SPREAD

/-! ## Interpolation kernels -/

/-- The constant `MAX_KERNEL_WIDTH`. -/
def MAX_KERNEL_WIDTH : ℤ := 16

/-- The two statements `if (x<0) x+=N; if (x>=N) x-=N;` that wrap a coordinate
into the periodic box. -/
def wrapOnce (x N : ℤ) : ℤ :=
  let x1 := if x < 0 then x + N else x
  if x1 ≥ N then x1 - N else x1

/-- One pass of an accumulation loop of `interp_line`:
`out[0] += du[2*j]*ker[dx]; out[1] += du[2*j+1]*ker[dx]; ++j;` on the state
`(out, j)`. -/
def lineStep (du ker : ℤ → ℚ) (dx : ℤ) (st : (ℚ × ℚ) × ℤ) : (ℚ × ℚ) × ℤ :=
  ((st.1.1 + du (2 * st.2) * ker dx, st.1.2 + du (2 * st.2 + 1) * ker dx), st.2 + 1)

/-- The function `interp_line(target, du, ker, i1, N1, ns)`; the result is the
pair `(target[0], target[1])`. -/
def interp_line (du ker : ℤ → ℚ) (i1 N1 ns : ℤ) : ℚ × ℚ :=
  if i1 < 0 then
    -- wraps at left
    let s1 := forRange 0 (-i1) (lineStep du ker) ((0, 0), i1 + N1)
    let s2 := forRange (-i1) ns (lineStep du ker) (s1.1, s1.2 - N1)
    s2.1
  else if i1 + ns ≥ N1 then
    -- wraps at right
    let s1 := forRange 0 (N1 - i1) (lineStep du ker) ((0, 0), i1)
    let s2 := forRange (N1 - i1) ns (lineStep du ker) (s1.1, s1.2 - N1)
    s2.1
  else
    -- doesn't wrap
    (forRange 0 ns (lineStep du ker) ((0, 0), i1)).1

/-- The non-wrapping branch of `interp_square`. -/
def interp_square_nowrap (du ker1 ker2 : ℤ → ℚ) (i1 i2 N1 ns : ℤ) : ℚ × ℚ :=
  forRange 0 ns
    (fun dy (out : ℚ × ℚ) =>
      (forRange 0 ns
        (fun dx (st : (ℚ × ℚ) × ℤ) =>
          ((st.1.1 + du (2 * st.2) * (ker1 dx * ker2 dy),
            st.1.2 + du (2 * st.2 + 1) * (ker1 dx * ker2 dy)), st.2 + 1))
        (out, N1 * (i2 + dy) + i1)).1)
    (0, 0)

/-- The pointer lists `j1`, `j2` set up in the wrapping branch of
`interp_square`; the loop state is `((x, y), (j1, j2))`. -/
def square_ptr_lists (i1 i2 N1 N2 ns : ℤ) : (ℤ → ℤ) × (ℤ → ℤ) :=
  (forRange 0 ns
    (fun d (st : (ℤ × ℤ) × ((ℤ → ℤ) × (ℤ → ℤ))) =>
      ((wrapOnce st.1.1 N1 + 1, wrapOnce st.1.2 N2 + 1),
        (Function.update st.2.1 d (wrapOnce st.1.1 N1),
          Function.update st.2.2 d (wrapOnce st.1.2 N2))))
    ((i1, i2), ((fun _ => 0), (fun _ => 0)))).2

/-- The wrapping (pointer list) branch of `interp_square`. -/
def interp_square_wrap (du ker1 ker2 : ℤ → ℚ) (i1 i2 N1 N2 ns : ℤ) : ℚ × ℚ :=
  let j1 := (square_ptr_lists i1 i2 N1 N2 ns).1
  let j2 := (square_ptr_lists i1 i2 N1 N2 ns).2
  forRange 0 ns
    (fun dy (out : ℚ × ℚ) =>
      forRange 0 ns
        (fun dx (o : ℚ × ℚ) =>
          (o.1 + du (2 * (N1 * j2 dy + j1 dx)) * (ker1 dx * ker2 dy),
            o.2 + du (2 * (N1 * j2 dy + j1 dx) + 1) * (ker1 dx * ker2 dy)))
        out)
    (0, 0)

/-- The function `interp_square(target, du, ker1, ker2, i1, i2, N1, N2, ns)`. -/
def interp_square (du ker1 ker2 : ℤ → ℚ) (i1 i2 N1 N2 ns : ℤ) : ℚ × ℚ :=
  if i1 ≥ 0 ∧ i1 + ns ≤ N1 ∧ i2 ≥ 0 ∧ i2 + ns ≤ N2 then
    interp_square_nowrap du ker1 ker2 i1 i2 N1 ns
  else
    interp_square_wrap du ker1 ker2 i1 i2 N1 N2 ns

/-- The non-wrapping branch of `interp_cube`. -/
def interp_cube_nowrap (du ker1 ker2 ker3 : ℤ → ℚ) (i1 i2 i3 N1 N2 ns : ℤ) : ℚ × ℚ :=
  forRange 0 ns
    (fun dz (out : ℚ × ℚ) =>
      forRange 0 ns
        (fun dy (out : ℚ × ℚ) =>
          (forRange 0 ns
            (fun dx (st : (ℚ × ℚ) × ℤ) =>
              ((st.1.1 + du (2 * st.2) * (ker1 dx * (ker2 dy * ker3 dz)),
                st.1.2 + du (2 * st.2 + 1) * (ker1 dx * (ker2 dy * ker3 dz))), st.2 + 1))
            (out, N1 * N2 * (i3 + dz) + N1 * (i2 + dy) + i1)).1)
        out)
    (0, 0)

/-- The pointer lists `j1`, `j2`, `j3` set up in the wrapping branch of
`interp_cube`; the loop state is `((x, y, z), (j1, j2, j3))`. -/
def cube_ptr_lists (i1 i2 i3 N1 N2 N3 ns : ℤ) : (ℤ → ℤ) × (ℤ → ℤ) × (ℤ → ℤ) :=
  (forRange 0 ns
    (fun d (st : (ℤ × ℤ × ℤ) × ((ℤ → ℤ) × (ℤ → ℤ) × (ℤ → ℤ))) =>
      ((wrapOnce st.1.1 N1 + 1, wrapOnce st.1.2.1 N2 + 1, wrapOnce st.1.2.2 N3 + 1),
        (Function.update st.2.1 d (wrapOnce st.1.1 N1),
          Function.update st.2.2.1 d (wrapOnce st.1.2.1 N2),
          Function.update st.2.2.2 d (wrapOnce st.1.2.2 N3))))
    ((i1, i2, i3), ((fun _ => 0), (fun _ => 0), (fun _ => 0)))).2

/-- The wrapping (pointer list) branch of `interp_cube`. -/
def interp_cube_wrap (du ker1 ker2 ker3 : ℤ → ℚ) (i1 i2 i3 N1 N2 N3 ns : ℤ) : ℚ × ℚ :=
  let j1 := (cube_ptr_lists i1 i2 i3 N1 N2 N3 ns).1
  let j2 := (cube_ptr_lists i1 i2 i3 N1 N2 N3 ns).2.1
  let j3 := (cube_ptr_lists i1 i2 i3 N1 N2 N3 ns).2.2
  forRange 0 ns
    (fun dz (out : ℚ × ℚ) =>
      forRange 0 ns
        (fun dy (out : ℚ × ℚ) =>
          forRange 0 ns
            (fun dx (o : ℚ × ℚ) =>
              (o.1 + du (2 * (N1 * N2 * j3 dz + N1 * j2 dy + j1 dx)) *
                  (ker1 dx * (ker2 dy * ker3 dz)),
                o.2 + du (2 * (N1 * N2 * j3 dz + N1 * j2 dy + j1 dx) + 1) *
                  (ker1 dx * (ker2 dy * ker3 dz))))
            out)
        out)
    (0, 0)

/-- The function
`interp_cube(target, du, ker1, ker2, ker3, i1, i2, i3, N1, N2, N3, ns)`. -/
def interp_cube (du ker1 ker2 ker3 : ℤ → ℚ) (i1 i2 i3 N1 N2 N3 ns : ℤ) : ℚ × ℚ :=
  if i1 ≥ 0 ∧ i1 + ns ≤ N1 ∧ i2 ≥ 0 ∧ i2 + ns ≤ N2 ∧ i3 ≥ 0 ∧ i3 + ns ≤ N3 then
    interp_cube_nowrap du ker1 ker2 ker3 i1 i2 i3 N1 N2 ns
  else
    interp_cube_wrap du ker1 ker2 ker3 i1 i2 i3 N1 N2 N3 ns

/-- The sum of `f 0, ..., f (n-1)`. -/
def sumRange (n : ℤ) (f : ℤ → ℚ) : ℚ :=
  ∑ d in Finset.range n.toNat, f (d : ℤ)

/-- Reference value of 1-D periodic interpolation: the sum over the footprint of
`du[cell (i1 + dx) mod N1]` times the kernel weight; `c = 0` selects the real
and `c = 1` the imaginary part of the interleaved array. -/
def periodicSum1 (du ker : ℤ → ℚ) (i1 N1 ns c : ℤ) : ℚ :=
  sumRange ns (fun dx => du (2 * ((i1 + dx) % N1) + c) * ker dx)

/-- Reference value of 2-D periodic interpolation: the tensor-product sum over the
`ns × ns` footprint of `du[cell ((i1 + dx) mod N1, (i2 + dy) mod N2)]` times the
product of the kernel weights. -/
def periodicSum2 (du ker1 ker2 : ℤ → ℚ) (i1 i2 N1 N2 ns c : ℤ) : ℚ :=
  sumRange ns (fun dy => sumRange ns (fun dx =>
    du (2 * (N1 * ((i2 + dy) % N2) + (i1 + dx) % N1) + c) * (ker1 dx * ker2 dy)))

/-- Reference value of 3-D periodic interpolation over the `ns × ns × ns`
footprint. -/
def periodicSum3 (du ker1 ker2 ker3 : ℤ → ℚ) (i1 i2 i3 N1 N2 N3 ns c : ℤ) : ℚ :=
  sumRange ns (fun dz => sumRange ns (fun dy => sumRange ns (fun dx =>
    du (2 * (N1 * N2 * ((i3 + dz) % N3) + N1 * ((i2 + dy) % N2) + (i1 + dx) % N1) + c) *
      (ker1 dx * (ker2 dy * ker3 dz)))))

/-- A sample real array `a[i] = i`. -/
def sampleGrid : ℤ → ℚ := fun i => (i : ℚ)

/-- Sample kernel weights `ker[d] = d + 1`. -/
def sampleKer : ℤ → ℚ := fun d => (d : ℚ) + 1

/-! ## Spreader options and the interpolator -/

/-- The enumeration `SortPoints`. -/
inductive SortPoints where
  | AUTO
  | NO
  | YES
deriving DecidableEq, Repr

/-- The members of `SpreadParameters<FloatType>` read by the sorting, spreading
and interpolation routines.  (`verbosity` only selects diagnostics, `pirange`
is ignored by the identity macro `FOLD_AND_RESCALE`, and the kernel evaluation
selected by `kerevalmeth` is represented by a kernel function `K`.) -/
structure SpreadParameters where
  kernel_width : ℤ
  spread_direction : SpreadDirection
  sort_points : SortPoints
  num_threads : ℤ
  sort_threads : ℤ
  max_subproblem_size : ℤ
  atomic_threshold : ℤ
  spread_only : Bool
  kernel_scale : ℚ

/-- The function `get_transform_rank(n1, n2, n3)`. -/
def get_transform_rank (_n1 n2 n3 : ℤ) : ℤ :=
  let rank : ℤ := 1
  let rank := if n2 > 1 then rank + 1 else rank
  if n3 > 1 then rank + 1 else rank

/-- The constant `CHUNK_SIZE` of `interpSorted`. -/
def CHUNK_SIZE : ℤ := 16

/-- The kernel values `ker[0..ns)` for a kernel shift `x`: `set_kernel_args` stores
the arguments `x + dx` and the kernel evaluation (`eval_kernel`, or the Horner
evaluation at the same points) maps each of them to its weight `K (x + dx)`. -/
def kernel_values (K : ℚ → ℚ) (x : ℚ) : ℤ → ℚ := fun dx => K (x + (dx : ℚ))

/-- The loop "Setup buffers for this chunk" of `interpSorted`, for the chunk of
`bufsize` points starting at `i`: the buffers `(jlist, xjlist, yjlist, zjlist)`.
The scratch buffers are written before they are read, so they start from zero. -/
def interp_chunk_setup (sort_indices : ℤ → ℤ) (kx ky kz : ℤ → ℚ) (ndims i bufsize : ℤ) :
    (ℤ → ℤ) × (ℤ → ℚ) × (ℤ → ℚ) × (ℤ → ℚ) :=
  forRange 0 bufsize
    (fun ibuf (st : (ℤ → ℤ) × (ℤ → ℚ) × (ℤ → ℚ) × (ℤ → ℚ)) =>
      (Function.update st.1 ibuf (sort_indices (i + ibuf)),
        Function.update st.2.1 ibuf (kx (sort_indices (i + ibuf))),
        (if ndims ≥ 2 then Function.update st.2.2.1 ibuf (ky (sort_indices (i + ibuf)))
          else st.2.2.1),
        (if ndims = 3 then Function.update st.2.2.2 ibuf (kz (sort_indices (i + ibuf)))
          else st.2.2.2)))
    ((fun _ => 0), (fun _ => 0), (fun _ => 0), (fun _ => 0))

/-- One pass of the loop "Loop over targets in chunk" of `interpSorted`: from
the coordinates `(xj, yj, zj)` of a target to the pair `(target[0], target[1])`
after the spread-only scaling; `old` is the previous content of `target`, kept by
the `default` case of the `switch`. -/
def interp_point (K : ℚ → ℚ) (data_uniform : ℤ → ℚ) (N1 N2 N3 : ℤ)
    (opts : SpreadParameters) (ndims : ℤ) (xj yj zj : ℚ) (old : ℚ × ℚ) : ℚ × ℚ :=
  let ns := opts.kernel_width
  let ns2 : ℚ := (ns : ℚ) / 2
  let i1 : ℤ := ⌈xj - ns2⌉
  let i2 : ℤ := if ndims > 1 then ⌈yj - ns2⌉ else 0
  let i3 : ℤ := if ndims > 1 then ⌈zj - ns2⌉ else 0
  let x1 : ℚ := (i1 : ℚ) - xj
  let x2 : ℚ := if ndims > 1 then (i2 : ℚ) - yj else 0
  let x3 : ℚ := if ndims > 2 then (i3 : ℚ) - zj else 0
  let ker1 := kernel_values K x1
  let ker2 := kernel_values K x2
  let ker3 := kernel_values K x3
  let target : ℚ × ℚ :=
    if ndims = 1 then interp_line data_uniform ker1 i1 N1 ns
    else if ndims = 2 then interp_square data_uniform ker1 ker2 i1 i2 N1 N2 ns
    else if ndims = 3 then interp_cube data_uniform ker1 ker2 ker3 i1 i2 i3 N1 N2 N3 ns
    else old
  if opts.spread_only then (target.1 * opts.kernel_scale, target.2 * opts.kernel_scale)
  else target

/-- The loop "Loop over targets in chunk" of `interpSorted`: the buffer `outbuf`. -/
def interp_chunk_outbuf (K : ℚ → ℚ) (data_uniform : ℤ → ℚ) (N1 N2 N3 : ℤ)
    (opts : SpreadParameters) (ndims bufsize : ℤ) (xjlist yjlist zjlist : ℤ → ℚ) : ℤ → ℚ :=
  forRange 0 bufsize
    (fun ibuf (outbuf : ℤ → ℚ) =>
      let xj := xjlist ibuf
      let yj : ℚ := if ndims > 1 then yjlist ibuf else 0
      let zj : ℚ := if ndims > 2 then zjlist ibuf else 0
      let target := interp_point K data_uniform N1 N2 N3 opts ndims xj yj zj
        (outbuf (2 * ibuf), outbuf (2 * ibuf + 1))
      Function.update (Function.update outbuf (2 * ibuf) target.1) (2 * ibuf + 1) target.2)
    (fun _ => 0)

/-- The body of the chunk loop of `interpSorted` for the chunk starting at `i`:
it sets up the buffers, fills `outbuf` and copies it to `data_nonuniform`. -/
def interp_chunk (K : ℚ → ℚ) (chunk : ℤ) (sort_indices : ℤ → ℤ) (N1 N2 N3 : ℤ)
    (data_uniform : ℤ → ℚ) (M : ℤ) (kx ky kz : ℤ → ℚ) (opts : SpreadParameters)
    (i : ℤ) (data_nonuniform : ℤ → ℚ) : ℤ → ℚ :=
  let ndims := get_transform_rank N1 N2 N3
  let bufsize : ℤ := if i + chunk > M then M - i else chunk
  let bufs := interp_chunk_setup sort_indices kx ky kz ndims i bufsize
  let jlist := bufs.1
  let outbuf := interp_chunk_outbuf K data_uniform N1 N2 N3 opts ndims bufsize
    bufs.2.1 bufs.2.2.1 bufs.2.2.2
  -- Copy result buffer to output array
  forRange 0 bufsize
    (fun ibuf (dn : ℤ → ℚ) =>
      Function.update (Function.update dn (2 * jlist ibuf) (outbuf (2 * ibuf)))
        (2 * jlist ibuf + 1) (outbuf (2 * ibuf + 1)))
    data_nonuniform

/-- The function `interpSorted` with the chunk size as a parameter: the chunk loop
`for (i = 0; i < M; i += chunk)`, run chunk after chunk.  The result is the
return code and the array `data_nonuniform`. -/
def interpSortedChunked (K : ℚ → ℚ) (chunk : ℤ) (sort_indices : ℤ → ℤ) (N1 N2 N3 : ℤ)
    (data_uniform : ℤ → ℚ) (M : ℤ) (kx ky kz : ℤ → ℚ) (data_nonuniform : ℤ → ℚ)
    (opts : SpreadParameters) : ℤ × (ℤ → ℚ) :=
  (0, forRangeStep 0 M chunk
    (interp_chunk K chunk sort_indices N1 N2 N3 data_uniform M kx ky kz opts)
    data_nonuniform)

/-- The function `interpSorted(sort_indices, N1, N2, N3, data_uniform, M, kx, ky,
kz, data_nonuniform, opts, did_sort)`, with kernel function `K`. -/
def interpSorted (K : ℚ → ℚ) (sort_indices : ℤ → ℤ) (N1 N2 N3 : ℤ)
    (data_uniform : ℤ → ℚ) (M : ℤ) (kx ky kz : ℤ → ℚ) (data_nonuniform : ℤ → ℚ)
    (opts : SpreadParameters) (_did_sort : Bool) : ℤ × (ℤ → ℚ) :=
  interpSortedChunked K CHUNK_SIZE sort_indices N1 N2 N3 data_uniform M kx ky kz
    data_nonuniform opts

/-- The kernel scale applied by the interpolator and the spreader:
`kernel_scale` in spread-only mode, `1` otherwise. -/
def scaleOf (opts : SpreadParameters) : ℚ :=
  if opts.spread_only then opts.kernel_scale else 1

/-- Reference value of rank-1 interpolation at a point of coordinate `x`:
`scale * sum over dx in [0, ns) of grid[(ceil(x - ns/2) + dx) mod N1] *
K(ceil(x - ns/2) - x + dx)`; `c = 0` is the real and `c = 1` the imaginary part. -/
def interpRef (K : ℚ → ℚ) (grid : ℤ → ℚ) (N1 ns : ℤ) (scale x : ℚ) (c : ℤ) : ℚ :=
  scale * sumRange ns (fun dx =>
    grid (2 * ((⌈x - (ns : ℚ) / 2⌉ + dx) % N1) + c) *
      K (((⌈x - (ns : ℚ) / 2⌉ : ℤ) : ℚ) - x + (dx : ℚ)))

/-- The array `s[0..M)` is a permutation of `0, ..., M-1`: every entry lies in
`[0, M)` and every value of `[0, M)` appears at exactly one position. -/
def IsPermutation (s : ℤ → ℤ) (M : ℤ) : Prop :=
  (∀ p, 0 ≤ p → p < M → 0 ≤ s p ∧ s p < M) ∧
  (∀ j, 0 ≤ j → j < M → ∃! p, (0 ≤ p ∧ p < M) ∧ s p = j)

/-- What rank-1 interpolation must leave in `data_nonuniform` (`out`), given its
previous content `dn`: for every point `j` of `[0, M)` the complex entry `j` is the
reference value at the coordinate `kx[j]` of that point in the caller's order, and
nothing outside the `2 * M` entries is changed. -/
def InterpSpec (K : ℚ → ℚ) (grid : ℤ → ℚ) (N1 M : ℤ) (kx : ℤ → ℚ) (opts : SpreadParameters)
    (dn out : ℤ → ℚ) : Prop :=
  (∀ j, 0 ≤ j → j < M →
    out (2 * j) = interpRef K grid N1 opts.kernel_width (scaleOf opts) (kx j) 0 ∧
    out (2 * j + 1) = interpRef K grid N1 opts.kernel_width (scaleOf opts) (kx j) 1) ∧
  (∀ q, q < 0 ∨ 2 * M ≤ q → out q = dn q)

/-- Sample spreader options: kernel width 2, spread-only scaling by 3. -/
def sampleOpts : SpreadParameters where
  kernel_width := 2
  spread_direction := SpreadDirection.INTERP
  sort_points := SortPoints.AUTO
  num_threads := 1
  sort_threads := 0
  max_subproblem_size := 10000
  atomic_threshold := 10
  spread_only := true
  kernel_scale := 3

/-- The index array that swaps two points. -/
def swapTwo : ℤ → ℤ := fun p => 1 - p

/-- Two sample coordinates in `[0, 4]`: `kx[0] = 1/2`, `kx[1] = 4`. -/
def sampleCoords : ℤ → ℚ := fun j => if j = 0 then 1 / 2 else 4

/-! ## Point sorting -/

/-- The bin index computed (four times, identically) in the bin sorts:
`i1 + nbins1 * (i2 + nbins2 * i3)` with `i_a` the coordinate divided by the bin
size, truncated; `ky` and `kz` are read only if `n2 > 1`, `n3 > 1`. -/
def bin_index (kx ky kz : ℤ → ℚ) (n2 n3 : ℤ) (bin_size_x bin_size_y bin_size_z : ℚ)
    (nbins1 nbins2 : ℤ) (i : ℤ) : ℤ :=
  let i1 : ℤ := truncToInt (kx i / bin_size_x)
  let i2 : ℤ := if n2 > 1 then truncToInt (ky i / bin_size_y) else 0
  let i3 : ℤ := if n3 > 1 then truncToInt (kz i / bin_size_z) else 0
  i1 + nbins1 * (i2 + nbins2 * i3)

/-- The cumulative sum `offsets = [0 cumsum(counts(1:end-1))]` of the bin sorts, on
a fresh zero-initialised vector. -/
def bin_offsets (counts : ℤ → ℤ) (num_bins : ℤ) : ℤ → ℤ :=
  forRange 1 num_bins
    (fun i (offsets : ℤ → ℤ) => Function.update offsets i (offsets (i - 1) + counts (i - 1)))
    (Function.update (fun _ => 0) 0 0)

/-- The last loop of the bin sorts, `ret[inv[i]] = i`. -/
def invert_map (inv : ℤ → ℤ) (num_points : ℤ) (ret : ℤ → ℤ) : ℤ → ℤ :=
  forRange 0 num_points (fun i (r : ℤ → ℤ) => Function.update r (inv i) i) ret

/-- The body of `bin_sort_singlethread` after the bin numbers are fixed: count,
cumulate, fill the inverse map, invert. -/
def bin_sort_single_core (bin : ℤ → ℤ) (num_bins num_points : ℤ) (ret : ℤ → ℤ) : ℤ → ℤ :=
  let counts := forRange 0 num_points
    (fun i (c : ℤ → ℤ) => Function.update c (bin i) (c (bin i) + 1)) (fun _ => 0)
  let offsets := bin_offsets counts num_bins
  let st := forRange 0 num_points
    (fun i (st : (ℤ → ℤ) × (ℤ → ℤ)) =>
      (Function.update st.1 (bin i) (st.1 (bin i) + 1), Function.update st.2 i (st.1 (bin i))))
    (offsets, (fun _ => 0))
  invert_map st.2 num_points ret

/-- The function `bin_sort_singlethread(ret, num_points, kx, ky, kz, n1, n2, n3,
pirange, bin_size_x, bin_size_y, bin_size_z, debug)`; the result is `ret`. -/
def bin_sort_singlethread (ret : ℤ → ℤ) (num_points : ℤ) (kx ky kz : ℤ → ℚ)
    (n1 n2 n3 : ℤ) (bin_size_x bin_size_y bin_size_z : ℚ) : ℤ → ℤ :=
  let nbins1 : ℤ := truncToInt ((n1 : ℚ) / bin_size_x + 1)
  let nbins2 : ℤ := if n2 > 1 then truncToInt ((n2 : ℚ) / bin_size_y + 1) else 1
  let nbins3 : ℤ := if n3 > 1 then truncToInt ((n3 : ℚ) / bin_size_z + 1) else 1
  let num_bins := nbins1 * nbins2 * nbins3
  bin_sort_single_core
    (bin_index kx ky kz n2 n3 bin_size_x bin_size_y bin_size_z nbins1 nbins2)
    num_bins num_points ret

/-- A store `a[t][b] = v` into a vector of vectors. -/
def update2 (a : ℤ → ℤ → ℤ) (t b v : ℤ) : ℤ → ℤ → ℤ :=
  Function.update a t (Function.update (a t) b v)

/-- The body of `bin_sort_multithread` after the bin numbers are fixed.  Each
thread `t` owns the points `[brk[t], brk[t+1])`, the rows `ct[t]`, `ot[t]` and its
entries of `inv`; the threads are run one after the other. -/
def bin_sort_multi_core (bin : ℤ → ℤ) (num_bins num_points : ℤ) (num_threads0 : ℤ)
    (ret : ℤ → ℤ) : ℤ → ℤ :=
  let num_threads := min num_points num_threads0
  let brk := fill_brk num_points num_threads
  let ct := forRange 0 num_threads
    (fun t (ct : ℤ → ℤ → ℤ) =>
      forRange (brk t) (brk (t + 1))
        (fun i (ct : ℤ → ℤ → ℤ) => update2 ct t (bin i) (ct t (bin i) + 1)) ct)
    (fun _ _ => 0)
  let counts := forRange 0 num_bins
    (fun b (counts : ℤ → ℤ) =>
      forRange 0 num_threads
        (fun t (counts : ℤ → ℤ) => Function.update counts b (counts b + ct t b)) counts)
    (fun _ => 0)
  let offsets := bin_offsets counts num_bins
  let ot0 := forRange 0 num_bins
    (fun b (ot : ℤ → ℤ → ℤ) => update2 ot 0 b (offsets b)) (fun _ _ => 0)
  let ot := forRange 1 num_threads
    (fun t (ot : ℤ → ℤ → ℤ) =>
      forRange 0 num_bins
        (fun b (ot : ℤ → ℤ → ℤ) => update2 ot t b (ot (t - 1) b + ct (t - 1) b)) ot)
    ot0
  let st := forRange 0 num_threads
    (fun t (st : (ℤ → ℤ → ℤ) × (ℤ → ℤ)) =>
      forRange (brk t) (brk (t + 1))
        (fun i (st : (ℤ → ℤ → ℤ) × (ℤ → ℤ)) =>
          (update2 st.1 t (bin i) (st.1 t (bin i) + 1),
            Function.update st.2 i (st.1 t (bin i))))
        st)
    (ot, (fun _ => 0))
  invert_map st.2 num_points ret

/-- The function `bin_sort_multithread(ret, num_points, kx, ky, kz, n1, n2, n3,
pirange, bin_size_x, bin_size_y, bin_size_z, debug, num_threads)`. -/
def bin_sort_multithread (ret : ℤ → ℤ) (num_points : ℤ) (kx ky kz : ℤ → ℚ)
    (n1 n2 n3 : ℤ) (bin_size_x bin_size_y bin_size_z : ℚ) (num_threads : ℤ) : ℤ → ℤ :=
  let nbins1 : ℤ := truncToInt ((n1 : ℚ) / bin_size_x + 1)
  let nbins2 : ℤ := if n2 > 1 then truncToInt ((n2 : ℚ) / bin_size_y + 1) else 1
  let nbins3 : ℤ := if n3 > 1 then truncToInt ((n3 : ℚ) / bin_size_z + 1) else 1
  let num_bins := nbins1 * nbins2 * nbins3
  bin_sort_multi_core
    (bin_index kx ky kz n2 n3 bin_size_x bin_size_y bin_size_z nbins1 nbins2)
    num_bins num_points num_threads ret

/-- The function `bin_sort_points(sort_indices, n1, n2, n3, num_points, kx, ky,
kz, opts)`; `omp_max_threads` is the value of `OMP_GET_MAX_THREADS()`.  The result
is the returned flag `did_sort` and the array `sort_indices`. -/
def bin_sort_points (omp_max_threads : ℤ) (sort_indices : ℤ → ℤ) (n1 n2 n3 num_points : ℤ)
    (kx ky kz : ℤ → ℚ) (opts : SpreadParameters) : Bool × (ℤ → ℤ) :=
  let rank := get_transform_rank n1 n2 n3
  let grid_size := n1 * n2 * n3
  let bin_size_x : ℚ := 16
  let bin_size_y : ℚ := 4
  let bin_size_z : ℚ := 4
  let should_sort : Bool :=
    !(decide (rank = 1) &&
      (decide (opts.spread_direction = SpreadDirection.INTERP) ||
        decide (num_points > 1000 * n1)))
  let max_threads : ℤ :=
    if opts.num_threads > 0 then min omp_max_threads opts.num_threads else omp_max_threads
  if opts.sort_points = SortPoints.YES ∨
      (opts.sort_points = SortPoints.AUTO ∧ should_sort = true) then
    let sort_threads : ℤ :=
      if opts.sort_threads = 0 then (if 10 * num_points > grid_size then max_threads else 1)
      else opts.sort_threads
    if sort_threads = 1 then
      (true, bin_sort_singlethread sort_indices num_points kx ky kz n1 n2 n3
        bin_size_x bin_size_y bin_size_z)
    else
      (true, bin_sort_multithread sort_indices num_points kx ky kz n1 n2 n3
        bin_size_x bin_size_y bin_size_z sort_threads)
  else
    (false, forRange 0 num_points (fun i (s : ℤ → ℤ) => Function.update s i i) sort_indices)

/-- The number of points `j < i` in bin `b`. -/
def countBelow (bin : ℤ → ℤ) (b i : ℤ) : ℤ :=
  ∑ j in Finset.range i.toNat, if bin (j : ℤ) = b then 1 else 0

/-- The first output slot of bin `b`: the number of points, among the first `M`,
in the bins `0, ..., b-1`. -/
def binStart (bin : ℤ → ℤ) (M b : ℤ) : ℤ :=
  ∑ c in Finset.range b.toNat, countBelow bin (c : ℤ) M

/-- The output slot of point `i` in a stable bin sort. -/
def sortSlot (bin : ℤ → ℤ) (M i : ℤ) : ℤ :=
  binStart bin M (bin i) + countBelow bin (bin i) i

/-- Sample spreader options for sorting: forced sort, automatic thread choice. -/
def sortOpts : SpreadParameters where
  kernel_width := 2
  spread_direction := SpreadDirection.SPREAD
  sort_points := SortPoints.YES
  num_threads := 0
  sort_threads := 0
  max_subproblem_size := 10000
  atomic_threshold := 10
  spread_only := false
  kernel_scale := 1

/-- Three sample coordinates in `[0, 40]`: `33, 5, 17`. -/
def sortCoords : ℤ → ℚ := fun j => if j = 0 then 33 else if j = 1 then 5 else 17

/-! ## Spreading -/

/-- Modelled from the spec: the helper `array_range(n, a, &lo, &hi)` of
`nufft_util`, whose source is not part of the repository files at hand.  It
returns the smallest and the largest of `a[0..n)` (the bounds of "the minimal
enclosing axis-aligned cuboid"); it is only called with `n ≥ 1`. -/
def array_range (n : ℤ) (a : ℤ → ℚ) : ℚ × ℚ :=
  forRange 0 n
    (fun m (st : ℚ × ℚ) =>
      (if a m < st.1 then a m else st.1, if a m > st.2 then a m else st.2))
    (a 0, a 0)

/-- The function `get_subgrid(offset1, offset2, offset3, size1, size2, size3, M,
kx, ky, kz, ns, ndims)`; the result is `((offset1, offset2, offset3),
(size1, size2, size3))`. -/
def get_subgrid (M : ℤ) (kx ky kz : ℤ → ℚ) (ns ndims : ℤ) : (ℤ × ℤ × ℤ) × (ℤ × ℤ × ℤ) :=
  let ns2 : ℚ := (ns : ℚ) / 2
  let rx := array_range M kx
  let offset1 : ℤ := ⌈rx.1 - ns2⌉
  let size1 : ℤ := ⌈rx.2 - ns2⌉ - offset1 + ns
  let ry := array_range M ky
  let offset2 : ℤ := if ndims > 1 then ⌈ry.1 - ns2⌉ else 0
  let size2 : ℤ := if ndims > 1 then ⌈ry.2 - ns2⌉ - offset2 + ns else 1
  let rz := array_range M kz
  let offset3 : ℤ := if ndims > 2 then ⌈rz.1 - ns2⌉ else 0
  let size3 : ℤ := if ndims > 2 then ⌈rz.2 - ns2⌉ - offset3 + ns else 1
  ((offset1, offset2, offset3), (size1, size2, size3))

/-- The inner loop of `spread_subproblem_1d`:
`du[2*j] += re0*ker[dx]; du[2*j+1] += im0*ker[dx]; ++j;` on the state `(du, j)`. -/
def spreadStep (re0 im0 : ℚ) (ker : ℤ → ℚ) (dx : ℤ) (st : (ℤ → ℚ) × ℤ) : (ℤ → ℚ) × ℤ :=
  let du1 := Function.update st.1 (2 * st.2) (st.1 (2 * st.2) + re0 * ker dx)
  (Function.update du1 (2 * st.2 + 1) (du1 (2 * st.2 + 1) + im0 * ker dx), st.2 + 1)

/-- The function `spread_subproblem_1d(off1, size1, du, M, kx, dd, opts)`, with
kernel function `K`; `du` is the buffer on entry and the result is `du` on
return. -/
def spread_subproblem_1d (K : ℚ → ℚ) (off1 size1 : ℤ) (du : ℤ → ℚ) (M : ℤ)
    (kx dd : ℤ → ℚ) (opts : SpreadParameters) : ℤ → ℚ :=
  let ns := opts.kernel_width
  let ns2 : ℚ := (ns : ℚ) / 2
  let du0 := forRange 0 (2 * size1) (fun i (a : ℤ → ℚ) => Function.update a i 0) du
  forRange 0 M
    (fun i (du : ℤ → ℚ) =>
      let re0 := dd (2 * i)
      let im0 := dd (2 * i + 1)
      let i1 : ℤ := ⌈kx i - ns2⌉
      let x1 : ℚ := (i1 : ℚ) - kx i
      let x1 : ℚ := if x1 < -ns2 then -ns2 else x1
      let x1 : ℚ := if x1 > -ns2 + 1 then -ns2 + 1 else x1
      let ker := kernel_values K x1
      (forRange 0 ns (spreadStep re0 im0 ker) (du, i1 - off1)).1)
    du0

/-- The loop `trg[dx] += kerval*ker1val[dx]` (`dx < 2*ns`) of the 2-D and 3-D
subproblem spreaders, with `trg = du + 2*j` and
`ker1val = (re0*ker1[0], im0*ker1[0], re0*ker1[1], ...)`. -/
def spreadRow (re0 im0 kerval : ℚ) (ker1 : ℤ → ℚ) (ns j : ℤ) (du : ℤ → ℚ) : ℤ → ℚ :=
  forRange 0 (2 * ns)
    (fun dx (du : ℤ → ℚ) =>
      Function.update du (2 * j + dx)
        (du (2 * j + dx) +
          kerval * (if dx % 2 = 0 then re0 * ker1 (dx / 2) else im0 * ker1 (dx / 2))))
    du

/-- The function `spread_subproblem_2d(off1, off2, size1, size2, du, M, kx, ky,
dd, opts)`. -/
def spread_subproblem_2d (K : ℚ → ℚ) (off1 off2 size1 size2 : ℤ) (du : ℤ → ℚ) (M : ℤ)
    (kx ky dd : ℤ → ℚ) (opts : SpreadParameters) : ℤ → ℚ :=
  let ns := opts.kernel_width
  let ns2 : ℚ := (ns : ℚ) / 2
  let du0 := forRange 0 (2 * size1 * size2) (fun i (a : ℤ → ℚ) => Function.update a i 0) du
  forRange 0 M
    (fun i (du : ℤ → ℚ) =>
      let re0 := dd (2 * i)
      let im0 := dd (2 * i + 1)
      let i1 : ℤ := ⌈kx i - ns2⌉
      let i2 : ℤ := ⌈ky i - ns2⌉
      let x1 : ℚ := (i1 : ℚ) - kx i
      let x2 : ℚ := (i2 : ℚ) - ky i
      let ker1 := kernel_values K x1
      let ker2 := kernel_values K x2
      forRange 0 ns
        (fun dy (du : ℤ → ℚ) =>
          spreadRow re0 im0 (ker2 dy) ker1 ns (size1 * (i2 - off2 + dy) + i1 - off1) du)
        du)
    du0

/-- The function `spread_subproblem_3d(off1, off2, off3, size1, size2, size3, du,
M, kx, ky, kz, dd, opts)`. -/
def spread_subproblem_3d (K : ℚ → ℚ) (off1 off2 off3 size1 size2 size3 : ℤ) (du : ℤ → ℚ)
    (M : ℤ) (kx ky kz dd : ℤ → ℚ) (opts : SpreadParameters) : ℤ → ℚ :=
  let ns := opts.kernel_width
  let ns2 : ℚ := (ns : ℚ) / 2
  let du0 := forRange 0 (2 * size1 * size2 * size3)
    (fun i (a : ℤ → ℚ) => Function.update a i 0) du
  forRange 0 M
    (fun i (du : ℤ → ℚ) =>
      let re0 := dd (2 * i)
      let im0 := dd (2 * i + 1)
      let i1 : ℤ := ⌈kx i - ns2⌉
      let i2 : ℤ := ⌈ky i - ns2⌉
      let i3 : ℤ := ⌈kz i - ns2⌉
      let x1 : ℚ := (i1 : ℚ) - kx i
      let x2 : ℚ := (i2 : ℚ) - ky i
      let x3 : ℚ := (i3 : ℚ) - kz i
      let ker1 := kernel_values K x1
      let ker2 := kernel_values K x2
      let ker3 := kernel_values K x3
      forRange 0 ns
        (fun dz (du : ℤ → ℚ) =>
          forRange 0 ns
            (fun dy (du : ℤ → ℚ) =>
              spreadRow re0 im0 (ker2 dy * ker3 dz) ker1 ns
                (size1 * size2 * (i3 - off3 + dz) + size1 * (i2 - off2 + dy) + i1 - off1) du)
            du)
        du)
    du0

/-- A wrapped pointer list `o2` / `o3` of `add_wrapped_subgrid`:
`if (y<0) y+=N; if (y>=N) y-=N; o[i] = y++;` for `i < size`; the loop state is
`(y, o)`. -/
def wrap_list (offset N size : ℤ) : ℤ → ℤ :=
  (forRange 0 size
    (fun i (st : ℤ × (ℤ → ℤ)) =>
      (wrapOnce st.1 N + 1, Function.update st.2 i (wrapOnce st.1 N)))
    (offset, (fun _ => 0))).2

/-- A loop `for (j = lo; j < hi; j++) out[j+o] += in[j];` of `add_wrapped_subgrid`,
with `out = data_uniform + outOff` and `in = du0 + inOff`. -/
def addRun (lo hi o outOff inOff : ℤ) (du0 : ℤ → ℚ) (data_uniform : ℤ → ℚ) : ℤ → ℚ :=
  forRange lo hi
    (fun j (out : ℤ → ℚ) =>
      Function.update out (outOff + (j + o)) (out (outOff + (j + o)) + du0 (inOff + j)))
    data_uniform

/-- The function `add_wrapped_subgrid(offset1, offset2, offset3, size1, size2,
size3, N1, N2, N3, data_uniform, du0)`; the result is `data_uniform`. -/
def add_wrapped_subgrid (offset1 offset2 offset3 size1 size2 size3 N1 N2 N3 : ℤ)
    (data_uniform du0 : ℤ → ℚ) : ℤ → ℚ :=
  let o2 := wrap_list offset2 N2 size2
  let o3 := wrap_list offset3 N3 size3
  let nlo : ℤ := if offset1 < 0 then -offset1 else 0
  let nhi : ℤ := if offset1 + size1 > N1 then offset1 + size1 - N1 else 0
  forRange 0 size3
    (fun dz (out : ℤ → ℚ) =>
      let oz := N1 * N2 * o3 dz
      forRange 0 size2
        (fun dy (out : ℤ → ℚ) =>
          let oy := oz + N1 * o2 dy
          let inOff := 2 * size1 * (dy + size2 * dz)
          let out1 := addRun 0 (2 * nlo) (2 * (offset1 + N1)) (2 * oy) inOff du0 out
          let out2 := addRun (2 * nlo) (2 * (size1 - nhi)) (2 * offset1) (2 * oy) inOff du0 out1
          addRun (2 * (size1 - nhi)) (2 * size1) (2 * (offset1 - N1)) (2 * oy) inOff du0 out2)
        out)
    data_uniform

/-- The function `add_wrapped_subgrid_thread_safe`: the same loops with every
`+=` under `#pragma omp atomic`, hence the same result once the subproblems are
run one after the other. -/
def add_wrapped_subgrid_thread_safe (offset1 offset2 offset3 size1 size2 size3 N1 N2 N3 : ℤ)
    (data_uniform du0 : ℤ → ℚ) : ℤ → ℚ :=
  add_wrapped_subgrid offset1 offset2 offset3 size1 size2 size3 N1 N2 N3 data_uniform du0

/-- The copies `kx0`, `ky0`, `kz0`, `dd0` made for subproblem `[lo, lo + M0)` of
`spreadSorted`; the loop state is `(kx0, ky0, kz0, dd0)`, on fresh buffers. -/
def subproblem_copy (sort_indices : ℤ → ℤ) (N2 N3 : ℤ) (kx ky kz data_nonuniform : ℤ → ℚ)
    (lo M0 : ℤ) : (ℤ → ℚ) × (ℤ → ℚ) × (ℤ → ℚ) × (ℤ → ℚ) :=
  forRange 0 M0
    (fun j (st : (ℤ → ℚ) × (ℤ → ℚ) × (ℤ → ℚ) × (ℤ → ℚ)) =>
      let kk := sort_indices (j + lo)
      (Function.update st.1 j (kx kk),
        (if N2 > 1 then Function.update st.2.1 j (ky kk) else st.2.1),
        (if N3 > 1 then Function.update st.2.2.1 j (kz kk) else st.2.2.1),
        Function.update (Function.update st.2.2.2 (j * 2) (data_nonuniform (kk * 2)))
          (j * 2 + 1) (data_nonuniform (kk * 2 + 1))))
    ((fun _ => 0), (fun _ => 0), (fun _ => 0), (fun _ => 0))

/-- The body of the subproblem loop of `spreadSorted` for subproblem `isub`: copy
the points, get the subgrid, spread into a fresh buffer `du0`, add it to
`data_uniform`.  Buffers obtained from `malloc` are taken zero-filled; each is
overwritten over its whole length before it is read. -/
def spread_one_subproblem (K : ℚ → ℚ) (nthr : ℤ) (sort_indices : ℤ → ℤ) (N1 N2 N3 : ℤ)
    (kx ky kz data_nonuniform : ℤ → ℚ) (opts : SpreadParameters) (brk : ℤ → ℤ)
    (isub : ℤ) (data_uniform : ℤ → ℚ) : ℤ → ℚ :=
  let ndims := get_transform_rank N1 N2 N3
  let ns := opts.kernel_width
  let M0 := brk (isub + 1) - brk isub
  let cp := subproblem_copy sort_indices N2 N3 kx ky kz data_nonuniform (brk isub) M0
  let kx0 := cp.1
  let ky0 := cp.2.1
  let kz0 := cp.2.2.1
  let dd0 := cp.2.2.2
  let sg := get_subgrid M0 kx0 ky0 kz0 ns ndims
  let offset1 := sg.1.1
  let offset2 := sg.1.2.1
  let offset3 := sg.1.2.2
  let size1 := sg.2.1
  let size2 := sg.2.2.1
  let size3 := sg.2.2.2
  let du0 : ℤ → ℚ :=
    if ndims = 1 then spread_subproblem_1d K offset1 size1 (fun _ => 0) M0 kx0 dd0 opts
    else if ndims = 2 then
      spread_subproblem_2d K offset1 offset2 size1 size2 (fun _ => 0) M0 kx0 ky0 dd0 opts
    else
      spread_subproblem_3d K offset1 offset2 offset3 size1 size2 size3 (fun _ => 0) M0
        kx0 ky0 kz0 dd0 opts
  if nthr > opts.atomic_threshold then
    add_wrapped_subgrid_thread_safe offset1 offset2 offset3 size1 size2 size3 N1 N2 N3
      data_uniform du0
  else
    add_wrapped_subgrid offset1 offset2 offset3 size1 size2 size3 N1 N2 N3 data_uniform du0

/-- The main loop of `spreadSorted` for a given number `nb` of subproblems: the
breakpoints `brk`, then the subproblems one after the other. -/
def spread_subproblems (K : ℚ → ℚ) (nthr nb : ℤ) (sort_indices : ℤ → ℤ) (N1 N2 N3 : ℤ)
    (data_uniform : ℤ → ℚ) (M : ℤ) (kx ky kz data_nonuniform : ℤ → ℚ)
    (opts : SpreadParameters) : ℤ → ℚ :=
  let brk := fill_brk M nb
  forRange 0 nb
    (spread_one_subproblem K nthr sort_indices N1 N2 N3 kx ky kz data_nonuniform opts brk)
    data_uniform

/-- The number `nb` of subproblems chosen by `spreadSorted`. -/
def spread_num_subproblems (nthr N M : ℤ) (opts : SpreadParameters) (did_sort : Bool) : ℤ :=
  let nb : ℤ := min nthr M
  let nb : ℤ :=
    if nb * opts.max_subproblem_size < M then 1 + cdiv (M - 1) opts.max_subproblem_size
    else nb
  let nb : ℤ := if M * 1000 < N then M else nb
  if did_sort = false ∧ nthr = 1 then 1 else nb

/-- The function `spreadSorted(sort_indices, N1, N2, N3, data_uniform, M, kx, ky,
kz, data_nonuniform, opts, did_sort)`, with kernel function `K`;
`omp_max_threads` is the value of `OMP_GET_MAX_THREADS()`.  The result is the
return code and the array `data_uniform`. -/
def spreadSorted (K : ℚ → ℚ) (omp_max_threads : ℤ) (sort_indices : ℤ → ℤ) (N1 N2 N3 : ℤ)
    (data_uniform : ℤ → ℚ) (M : ℤ) (kx ky kz data_nonuniform : ℤ → ℚ)
    (opts : SpreadParameters) (did_sort : Bool) : ℤ × (ℤ → ℚ) :=
  let N := N1 * N2 * N3
  let nthr : ℤ :=
    if opts.num_threads > 0 then min omp_max_threads opts.num_threads else omp_max_threads
  -- zero the output array
  let zeroed := forRange 0 (2 * N) (fun i (a : ℤ → ℚ) => Function.update a i 0) data_uniform
  if M = 0 then (0, zeroed)
  else
    let nb := spread_num_subproblems nthr N M opts did_sort
    let spread := spread_subproblems K nthr nb sort_indices N1 N2 N3 zeroed M kx ky kz
      data_nonuniform opts
    if opts.spread_only then
      (0, forRange 0 (2 * N)
        (fun i (a : ℤ → ℚ) => Function.update a i (a i * opts.kernel_scale)) spread)
    else (0, spread)

/-- The contribution of a point with coordinate `x` and weight component `w` to
grid cell `g` in rank-1 periodic spreading: the sum over the offsets `dx` of
`[0, ns)` with `(ceil(x - ns/2) + dx) mod N1 = g` of
`w * K(ceil(x - ns/2) - x + dx)`. -/
def pointTerm (K : ℚ → ℚ) (N1 ns : ℤ) (x w : ℚ) (g : ℤ) : ℚ :=
  sumRange ns (fun dx =>
    if (⌈x - (ns : ℚ) / 2⌉ + dx) % N1 = g then
      w * K (((⌈x - (ns : ℚ) / 2⌉ : ℤ) : ℚ) - x + (dx : ℚ))
    else 0)

/-- Reference value of rank-1 periodic spreading in grid cell `g`: the sum over
all points `j` of their contributions; `c = 0` is the real and `c = 1` the
imaginary part. -/
def spreadRef (K : ℚ → ℚ) (N1 ns M : ℤ) (kx weights : ℤ → ℚ) (g c : ℤ) : ℚ :=
  sumRange M (fun j => pointTerm K N1 ns (kx j) (weights (2 * j + c)) g)

/-- The grid `grid` (interleaved real and imaginary parts) holds the rank-1
periodic spreading of the `M` points `kx` with weights `weights`: every cell `g`
of `[0, N1)` holds `spreadRef` in both parts. -/
def SpreadSpec (K : ℚ → ℚ) (N1 ns M : ℤ) (kx weights : ℤ → ℚ) (grid : ℤ → ℚ) : Prop :=
  ∀ g, 0 ≤ g → g < N1 → ∀ c, 0 ≤ c → c ≤ 1 →
    grid (2 * g + c) = spreadRef K N1 ns M kx weights g c

/-! ## Plan set-up, batching and the batch loops -/

/-- The enumeration `TransformType`. -/
inductive TransformType where
  | TYPE_1
  | TYPE_2
  | TYPE_3
deriving DecidableEq, Repr

/-- The enumeration `KernelEvalAlgo`. -/
inductive KernelEvalAlgo where
  | AUTO
  | DIRECT
  | HORNER
deriving DecidableEq, Repr

/-- The values of the runtime's `Status` that the plans build: `OkStatus()`,
`errors::Unimplemented(msg)`, `errors::InvalidArgument(msg)` and
`errors::Internal(msg)`. -/
inductive Status where
  | OK
  | Unimplemented (msg : String)
  | InvalidArgument (msg : String)
  | Internal (msg : String)
deriving DecidableEq, Repr

/-- The members of `InternalOptions` read by `initialize` and by the kernel
evaluation checks. -/
structure InternalOptions where
  num_threads : ℤ
  max_batch_size : ℤ
  upsampling_factor : ℚ

/-- The members of `Plan<CPUDevice, FloatType>` written by the first part of
`initialize` and read by the batch loops; `num_points_` is set by `set_points`,
`fft_direction_` is kept as its integer sign. -/
structure PlanState where
  rank_ : ℤ
  type_ : TransformType
  fft_direction_ : ℤ
  num_transforms_ : ℤ
  tol_ : ℚ
  options_ : InternalOptions
  grid_dims_ : ℤ → ℤ
  grid_size_ : ℤ
  num_batches_ : ℤ
  batch_size_ : ℤ
  num_points_ : ℤ

/-- The block "Select batch size" of `initialize`: the pair
`(num_batches_, batch_size_)`. -/
def select_batch_size (max_batch_size num_transforms num_threads : ℤ) : ℤ × ℤ :=
  if max_batch_size = 0 then
    let num_batches := 1 + cdiv (num_transforms - 1) num_threads
    (num_batches, 1 + cdiv (num_transforms - 1) num_batches)
  else
    let batch_size := min max_batch_size num_transforms
    (1 + cdiv (num_transforms - 1) batch_size, batch_size)

/-- The plan after the assignments of `initialize` from "Store input values to
plan" to "Select batch size"; `omp_max_threads` is the value of
`OMP_GET_MAX_THREADS()` and `kEpsilon` the machine epsilon of `FloatType`. -/
def initialize_store (omp_max_threads : ℤ) (kEpsilon : ℚ) (plan : PlanState)
    (type : TransformType) (rank : ℤ) (grid_dims : ℤ → ℤ) (fft_direction : ℤ)
    (num_transforms : ℤ) (tol : ℚ) (options : InternalOptions) : PlanState :=
  let d0 : ℤ := grid_dims 0
  let d1 : ℤ := if rank > 1 then grid_dims 1 else 1
  let d2 : ℤ := if rank > 2 then grid_dims 2 else 1
  let num_threads : ℤ := if options.num_threads > 0 then options.num_threads else omp_max_threads
  let sel := select_batch_size options.max_batch_size num_transforms num_threads
  { rank_ := rank
    type_ := type
    fft_direction_ := fft_direction
    num_transforms_ := num_transforms
    tol_ := max tol kEpsilon
    options_ :=
      { num_threads := num_threads
        max_batch_size := options.max_batch_size
        upsampling_factor := options.upsampling_factor }
    grid_dims_ := fun i => if i = 0 then d0 else if i = 1 then d1 else if i = 2 then d2
      else plan.grid_dims_ i
    grid_size_ := d0 * d1 * d2
    num_batches_ := sel.1
    batch_size_ := sel.2
    num_points_ := plan.num_points_ }

/-- The method `Plan<CPUDevice, FloatType>::initialize(type, rank, grid_dims,
fft_direction, num_transforms, tol, options)`.  The steps after "Select batch
size" (default options, interpolator, fine grid, spreader, Fourier series, FFT
plan) are the parameter `rest`; the result is the returned status and the
plan. -/
def initialize_plan (omp_max_threads : ℤ) (kEpsilon : ℚ) (rest : PlanState → Status × PlanState)
    (plan : PlanState) (type : TransformType) (rank : ℤ) (grid_dims : ℤ → ℤ)
    (fft_direction : ℤ) (num_transforms : ℤ) (tol : ℚ) (options : InternalOptions) :
    Status × PlanState :=
  if type = TransformType.TYPE_3 then
    (Status.Unimplemented "type-3 transforms are not implemented", plan)
  else if rank < 1 ∨ rank > 3 then
    (Status.Unimplemented ("rank " ++ toString rank ++ " is not implemented"), plan)
  else if num_transforms < 1 then
    (Status.InvalidArgument "num_transforms must be >= 1", plan)
  else
    rest (initialize_store omp_max_threads kEpsilon plan type rank grid_dims fft_direction
      num_transforms tol options)

/-- The method `Plan<CPUDevice, FloatType>::default_kernel_eval_algo()`. -/
def default_kernel_eval_algo (options_ : InternalOptions) : KernelEvalAlgo :=
  if options_.upsampling_factor = 2 ∨ options_.upsampling_factor = 5 / 4 then
    KernelEvalAlgo.HORNER
  else KernelEvalAlgo.DIRECT

/-- The method `Plan<CPUDevice, FloatType>::check_kernel_eval_algo(kernel_eval_algo)`. -/
def check_kernel_eval_algo (options_ : InternalOptions) (kernel_eval_algo : KernelEvalAlgo) :
    Status :=
  if kernel_eval_algo = KernelEvalAlgo.HORNER ∧ options_.upsampling_factor ≠ 2 ∧
      options_.upsampling_factor ≠ 5 / 4 then
    Status.Unimplemented
      ("Horner kernel evaluation algorithm is only implemented for " ++
        "upsampling factor equal to 2.0 or 1.25 (CPU).")
  else Status.OK

/-- A loop `for (int b = b0; cond(b); b++) body`, whose body may return early with
an error status: the body yields a status and the new state, and the loop goes
on while the status is `OK`.  `fuel` bounds the number of tests of `cond`; the
result is `none` if it is used up. -/
def forWhile {σ : Type} (cond : ℤ → Bool) (body : ℤ → σ → Status × σ) :
    ℕ → ℤ → σ → Option (Status × σ)
  | 0, _, _ => none
  | fuel + 1, b, s =>
    if cond b then
      if (body b s).1 = Status.OK then forWhile cond body fuel (b + 1) (body b s).2
      else some (body b s)
    else some (Status.OK, s)

/-- The three steps a batch is made of, as state transformers on the buffers
`σ`: `spread_or_interp_sorted_batch(batch_size, cBatch, fBatch)` with the
pointers given as offsets into `cj` and `fk` (`none` is `nullptr`),
`deconvolve_batch(batch_size, fkBatch)` and `fftw::execute(fft_plan_)`. -/
structure BatchOps (σ : Type) where
  spread_or_interp_sorted_batch : ℤ → ℤ → Option ℤ → σ → Status × σ
  deconvolve_batch : ℤ → ℤ → σ → Status × σ
  fftw_execute : σ → σ

/-- The local `batch_size` of batch `b` in `execute` and in `spread_or_interp`:
`std::min(num_transforms_ - b*batch_size_, batch_size_)`. -/
def current_batch_size (P : PlanState) (b : ℤ) : ℤ :=
  min (P.num_transforms_ - b * P.batch_size_) P.batch_size_

/-- The body of the batch loop of `execute` for batch `b`; a failing step
returns its status at once (`TF_RETURN_IF_ERROR`). -/
def execute_batch {σ : Type} (ops : BatchOps σ) (P : PlanState) (b : ℤ) (s : σ) : Status × σ :=
  let batch_size := current_batch_size P b
  let bB := b * P.batch_size_
  let cjb := bB * P.num_points_
  let fkb := bB * P.grid_size_
  -- STEP 1
  let r1 :=
    if P.type_ = TransformType.TYPE_1 then ops.spread_or_interp_sorted_batch batch_size cjb none s
    else ops.deconvolve_batch batch_size fkb s
  if r1.1 ≠ Status.OK then r1
  else
    -- STEP 2
    let s2 := ops.fftw_execute r1.2
    -- STEP 3
    if P.type_ = TransformType.TYPE_1 then ops.deconvolve_batch batch_size fkb s2
    else ops.spread_or_interp_sorted_batch batch_size cjb none s2

/-- The method `Plan<CPUDevice, FloatType>::execute(cj, fk)`, on the buffers `s`. -/
def execute {σ : Type} (ops : BatchOps σ) (P : PlanState) (fuel : ℕ) (s : σ) :
    Option (Status × σ) :=
  if P.type_ ≠ TransformType.TYPE_3 then
    forWhile (fun b => decide (b * P.batch_size_ < P.num_transforms_)) (execute_batch ops P)
      fuel 0 s
  else some (Status.Unimplemented "Type-3 transforms not implemented yet.", s)

/-- The body of the batch loop of `spread_or_interp` for batch `batch_index`; the
status of `spread_or_interp_sorted_batch` is dropped there. -/
def spread_or_interp_batch {σ : Type} (ops : BatchOps σ) (P : PlanState) (batch_index : ℤ)
    (s : σ) : Status × σ :=
  let batch_size := current_batch_size P batch_index
  (Status.OK,
    (ops.spread_or_interp_sorted_batch batch_size
      (batch_index * P.batch_size_ * P.num_points_)
      (some (batch_index * P.batch_size_ * P.grid_size_)) s).2)

/-- The method `Plan<CPUDevice, FloatType>::spread_or_interp(cj, fk)`. -/
def spread_or_interp {σ : Type} (ops : BatchOps σ) (P : PlanState) (fuel : ℕ) (s : σ) :
    Option (Status × σ) :=
  forWhile (fun b => decide (b * P.batch_size_ < P.num_transforms_))
    (spread_or_interp_batch ops P) fuel 0 s

/-- Batch operations that only record their calls: the state is the list of
`(batch_size, first transform offset)` of the calls of
`spread_or_interp_sorted_batch`, latest first. -/
def recordOps : BatchOps (List (ℤ × ℤ)) where
  spread_or_interp_sorted_batch := fun batch_size cBatch _ s => (Status.OK, (batch_size, cBatch) :: s)
  deconvolve_batch := fun _ _ s => (Status.OK, s)
  fftw_execute := fun s => s

/-- Sample options: automatic threads, at most 2 transforms per batch. -/
def sampleInternalOptions : InternalOptions where
  num_threads := 0
  max_batch_size := 2
  upsampling_factor := 2

/-- A blank plan, as before `initialize`. -/
def blankPlan : PlanState where
  rank_ := 0
  type_ := TransformType.TYPE_1
  fft_direction_ := 0
  num_transforms_ := 0
  tol_ := 0
  options_ := sampleInternalOptions
  grid_dims_ := fun _ => 0
  grid_size_ := 0
  num_batches_ := 0
  batch_size_ := 0
  num_points_ := 3

/-- The plan stored by `initialize` for 5 transforms of rank 1 on 8 modes, with
at most 2 transforms per batch and 4 available threads. -/
def samplePlan5 : PlanState :=
  initialize_store 4 0 blankPlan TransformType.TYPE_1 1 (fun _ => 8) 1 5 (1 / 1000)
    sampleInternalOptions

/-- Sample options with an upsampling factor, 1.5, that has no Horner tables. -/
def oddFactorOptions : InternalOptions where
  num_threads := 0
  max_batch_size := 0
  upsampling_factor := 3 / 2

/-- Sample spreader options with subproblems capped at 2 points. -/
def cappedOpts : SpreadParameters where
  kernel_width := 2
  spread_direction := SpreadDirection.SPREAD
  sort_points := SortPoints.YES
  num_threads := 0
  sort_threads := 0
  max_subproblem_size := 2
  atomic_threshold := 10
  spread_only := false
  kernel_scale := 1

/-- The breakpoints `brk` of `bin_sort_multithread`, for the thread count reduced
to `min(num_points, num_threads)`. -/
def multithread_brk (num_points num_threads0 : ℤ) : ℤ → ℤ :=
  fill_brk num_points (min num_points num_threads0)

/-- The per-thread bin counts `ct` of `bin_sort_multithread` after pass 1. -/
def multithread_ct (bin : ℤ → ℤ) (num_points num_threads0 : ℤ) : ℤ → ℤ → ℤ :=
  let num_threads := min num_points num_threads0
  let brk := fill_brk num_points num_threads
  forRange 0 num_threads
    (fun t (ct : ℤ → ℤ → ℤ) =>
      forRange (brk t) (brk (t + 1))
        (fun i (ct : ℤ → ℤ → ℤ) => update2 ct t (bin i) (ct t (bin i) + 1)) ct)
    (fun _ _ => 0)

/-- The per-thread offsets `ot` of `bin_sort_multithread` after they are built
and before pass 2. -/
def multithread_ot (bin : ℤ → ℤ) (num_bins num_points num_threads0 : ℤ) : ℤ → ℤ → ℤ :=
  let num_threads := min num_points num_threads0
  let ct := multithread_ct bin num_points num_threads0
  let counts := forRange 0 num_bins
    (fun b (counts : ℤ → ℤ) =>
      forRange 0 num_threads
        (fun t (counts : ℤ → ℤ) => Function.update counts b (counts b + ct t b)) counts)
    (fun _ => 0)
  let offsets := bin_offsets counts num_bins
  let ot0 := forRange 0 num_bins
    (fun b (ot : ℤ → ℤ → ℤ) => update2 ot 0 b (offsets b)) (fun _ _ => 0)
  forRange 1 num_threads
    (fun t (ot : ℤ → ℤ → ℤ) =>
      forRange 0 num_bins
        (fun b (ot : ℤ → ℤ → ℤ) => update2 ot t b (ot (t - 1) b + ct (t - 1) b)) ot)
    ot0

/-- The inverse map `inv` of `bin_sort_multithread` after pass 2: `inv[i]` is the
slot written for point `i`. -/
def multithread_inv (bin : ℤ → ℤ) (num_bins num_points num_threads0 : ℤ) : ℤ → ℤ :=
  let num_threads := min num_points num_threads0
  let brk := fill_brk num_points num_threads
  (forRange 0 num_threads
    (fun t (st : (ℤ → ℤ → ℤ) × (ℤ → ℤ)) =>
      forRange (brk t) (brk (t + 1))
        (fun i (st : (ℤ → ℤ → ℤ) × (ℤ → ℤ)) =>
          (update2 st.1 t (bin i) (st.1 t (bin i) + 1),
            Function.update st.2 i (st.1 t (bin i))))
        st)
    (multithread_ot bin num_bins num_points num_threads0, (fun _ => 0))).2

/-- Sample bin numbers of five points: `1, 0, 1, 0, 1`. -/
def sampleBins : ℤ → ℤ := fun i => if i % 2 = 0 then 1 else 0

/-! ## Further host routines -/

/-- The method `Plan<CPUDevice, FloatType>::default_upsampling_factor()`. -/
def default_upsampling_factor (P : PlanState) : ℚ :=
  let upsampling_factor : ℚ := 2
  if P.tol_ ≥ 1 / 1000000000 then
    if (P.rank_ = 1 ∧ P.grid_size_ > 10000000) ∨
        (P.rank_ = 2 ∧ P.grid_size_ > 300000) ∨
        (P.rank_ = 3 ∧ P.grid_size_ > 3000000) then 5 / 4
    else upsampling_factor
  else upsampling_factor

/-- The assignment of `spread_params_.spread_direction` in `initialize`:
`SPREAD` for TYPE_1, `INTERP` otherwise. -/
def initial_spread_direction (type : TransformType) : SpreadDirection :=
  if type = TransformType.TYPE_1 then SpreadDirection.SPREAD else SpreadDirection.INTERP

/-- The function `spreadinterpSorted(sort_indices, N1, N2, N3, data_uniform, M, kx,
ky, kz, data_nonuniform, opts, did_sort)`; the result is the return code and the
arrays `data_uniform` and `data_nonuniform`. -/
def spreadinterpSorted (K : ℚ → ℚ) (omp_max_threads : ℤ) (sort_indices : ℤ → ℤ)
    (N1 N2 N3 : ℤ) (data_uniform : ℤ → ℚ) (M : ℤ) (kx ky kz data_nonuniform : ℤ → ℚ)
    (opts : SpreadParameters) (did_sort : Bool) : ℤ × (ℤ → ℚ) × (ℤ → ℚ) :=
  if opts.spread_direction = SpreadDirection.SPREAD then
    (0, (spreadSorted K omp_max_threads sort_indices N1 N2 N3 data_uniform M kx ky kz
      data_nonuniform opts did_sort).2, data_nonuniform)
  else
    (0, data_uniform, (interpSorted K sort_indices N1 N2 N3 data_uniform M kx ky kz
      data_nonuniform opts did_sort).2)

/-- The steps of a batch, as recorded by `traceOps`. -/
inductive Step where
  | spread_or_interp
  | fft
  | deconvolve
deriving DecidableEq, Repr

/-- Batch operations that append the name of the step to a trace. -/
def traceOps : BatchOps (List Step) where
  spread_or_interp_sorted_batch := fun _ _ _ s => (Status.OK, s ++ [Step.spread_or_interp])
  deconvolve_batch := fun _ _ s => (Status.OK, s ++ [Step.deconvolve])
  fftw_execute := fun s => s ++ [Step.fft]

/-- The value `m` is the least of `a[0..M)`. -/
def IsMinOf (m : ℚ) (a : ℤ → ℚ) (M : ℤ) : Prop :=
  (∃ i, 0 ≤ i ∧ i < M ∧ a i = m) ∧ ∀ i, 0 ≤ i → i < M → m ≤ a i

/-- The value `m` is the greatest of `a[0..M)`. -/
def IsMaxOf (m : ℚ) (a : ℤ → ℚ) (M : ℤ) : Prop :=
  (∃ i, 0 ≤ i ∧ i < M ∧ a i = m) ∧ ∀ i, 0 ≤ i → i < M → a i ≤ m

/-- The two points `0.2` and `4.9` of the example in the comment of `get_subgrid`. -/
def exampleCoords : ℤ → ℚ := fun i => if i = 0 then 1 / 5 else 49 / 10

/-- A plan of rank 2 on 400000 modes with tolerance `1e-6`. -/
def largePlan : PlanState where
  rank_ := 2
  type_ := TransformType.TYPE_1
  fft_direction_ := 1
  num_transforms_ := 1
  tol_ := 1 / 1000000
  options_ := sampleInternalOptions
  grid_dims_ := fun i => if i = 0 then 800 else if i = 1 then 500 else 1
  grid_size_ := 400000
  num_batches_ := 1
  batch_size_ := 1
  num_points_ := 0

/-- A plan whose type is TYPE_3. -/
def type3Plan : PlanState where
  rank_ := 1
  type_ := TransformType.TYPE_3
  fft_direction_ := 1
  num_transforms_ := 5
  tol_ := 1 / 1000
  options_ := sampleInternalOptions
  grid_dims_ := fun _ => 8
  grid_size_ := 8
  num_batches_ := 3
  batch_size_ := 2
  num_points_ := 3

/-! ## The device plan: spreader set-up -/

/-- The enumeration `KernelEvaluationMethod` of the device options. -/
inductive KernelEvaluationMethod where
  | AUTO
  | DIRECT
  | HORNER
deriving DecidableEq, Repr

/-- The enumeration `SpreadMethod`. -/
inductive SpreadMethod where
  | AUTO
  | NUPTS_DRIVEN
  | SUBPROBLEM
  | PAUL
  | BLOCK_GATHER
deriving DecidableEq, Repr

/-- The floating-point constants and library functions read by the device code:
`kEpsilon<FloatType>`, `kPi<FloatType>`, `kOneOverTwoPi<FloatType>`, `log10`,
`log` and `sqrt`.  Their floating-point values are rational numbers. -/
structure FloatEnv where
  kEpsilon : ℚ
  kPi : ℚ
  kOneOverTwoPi : ℚ
  log10 : ℚ → ℚ
  log : ℚ → ℚ
  sqrt : ℚ → ℚ

/-- The members of the device `SpreadParameters<FloatType>` written by
`setup_spreader` and `setup_spreader_for_nufft`. -/
structure GpuSpreadParameters where
  spread_direction : SpreadDirection
  pirange : ℤ
  upsampling_factor : ℚ
  nspread : ℤ
  ES_halfwidth : ℚ
  ES_c : ℚ
  ES_beta : ℚ
  spread_only : Bool
  ES_scale : ℚ
  sort_points : SortPoints
  spread_method : SpreadMethod

/-- The two argument checks at the head of the device `setup_spreader`: the error
returned, or `none` if the arguments are accepted.  `fmt` is the formatting of a
`double` in an error message. -/
def setup_spreader_gpu_check (fmt : ℚ → String) (upsampling_factor : ℚ)
    (kernel_evaluation_method : KernelEvaluationMethod) : Option Status :=
  if upsampling_factor ≠ 2 then
    if kernel_evaluation_method = KernelEvaluationMethod.HORNER then
      some (Status.Internal
        ("Horner kernel evaluation only supports the standard " ++
          "upsampling factor of 2.0, but got " ++ fmt upsampling_factor))
    else if upsampling_factor ≤ 1 then
      some (Status.Internal
        ("upsampling_factor must be > 1.0, but is " ++ fmt upsampling_factor))
    else none
  else none

/-- The kernel width `ns` chosen by the device `setup_spreader`. -/
def setup_spreader_gpu_width (env : FloatEnv) (kMaxKernelWidth : ℤ) (eps upsampling_factor : ℚ) :
    ℤ :=
  let eps : ℚ := if eps < env.kEpsilon then env.kEpsilon else eps
  let ns : ℤ := ⌈-(env.log10 (eps / 10))⌉
  let ns : ℤ :=
    if upsampling_factor ≠ 2 then
      ⌈-(env.log eps) / (env.kPi * env.sqrt (1 - 1 / upsampling_factor))⌉
    else ns
  let ns : ℤ := max 2 ns
  if ns > kMaxKernelWidth then kMaxKernelWidth else ns

/-- The device function `setup_spreader(rank, eps, upsampling_factor,
kernel_evaluation_method, spread_params)` of `nufft_plan.cu.cc`;
`kMaxKernelWidth` is the constant of that name and `calculate_scale_factor` the
routine of that name.  The result is the status and `spread_params`. -/
def setup_spreader_gpu (env : FloatEnv) (kMaxKernelWidth : ℤ) (fmt : ℚ → String)
    (calculate_scale_factor : ℤ → GpuSpreadParameters → ℚ) (rank : ℤ) (eps : ℚ)
    (upsampling_factor : ℚ) (kernel_evaluation_method : KernelEvaluationMethod)
    (spread_params : GpuSpreadParameters) : Status × GpuSpreadParameters :=
  match setup_spreader_gpu_check fmt upsampling_factor kernel_evaluation_method with
  | some e => (e, spread_params)
  | none =>
    let ns := setup_spreader_gpu_width env kMaxKernelWidth eps upsampling_factor
    let beta_over_ns : ℚ := 23 / 10
    let beta_over_ns : ℚ := if ns = 2 then 22 / 10 else beta_over_ns
    let beta_over_ns : ℚ := if ns = 3 then 226 / 100 else beta_over_ns
    let beta_over_ns : ℚ := if ns = 4 then 238 / 100 else beta_over_ns
    let beta_over_ns : ℚ :=
      if upsampling_factor ≠ 2 then 97 / 100 * env.kPi * (1 - 1 / (2 * upsampling_factor))
      else beta_over_ns
    let sp : GpuSpreadParameters :=
      { spread_direction := SpreadDirection.SPREAD
        pirange := 1
        upsampling_factor := upsampling_factor
        nspread := ns
        ES_halfwidth := (ns : ℚ) / 2
        ES_c := 4 / ((ns * ns : ℤ) : ℚ)
        ES_beta := beta_over_ns * (ns : ℚ)
        spread_only := spread_params.spread_only
        ES_scale := spread_params.ES_scale
        sort_points := spread_params.sort_points
        spread_method := spread_params.spread_method }
    if sp.spread_only then
      (Status.OK,
        { spread_direction := sp.spread_direction
          pirange := sp.pirange
          upsampling_factor := sp.upsampling_factor
          nspread := sp.nspread
          ES_halfwidth := sp.ES_halfwidth
          ES_c := sp.ES_c
          ES_beta := sp.ES_beta
          spread_only := sp.spread_only
          ES_scale := calculate_scale_factor rank sp
          sort_points := sp.sort_points
          spread_method := sp.spread_method })
    else (Status.OK, sp)

/-- A sample floating-point environment: rational stand-ins for the constants,
and functions that return fixed values. -/
def sampleEnv : FloatEnv where
  kEpsilon := 1 / 10000000000000000
  kPi := 355 / 113
  kOneOverTwoPi := 113 / 710
  log10 := fun _ => -7
  log := fun _ => -14
  sqrt := fun _ => 1 / 2

/-- Sample device spreader parameters, before set-up. -/
def sampleGpuParams : GpuSpreadParameters where
  spread_direction := SpreadDirection.INTERP
  pirange := 0
  upsampling_factor := 0
  nspread := 0
  ES_halfwidth := 0
  ES_c := 0
  ES_beta := 0
  spread_only := false
  ES_scale := 0
  sort_points := SortPoints.YES
  spread_method := SpreadMethod.SUBPROBLEM

/-! ## The device plan: binning of the points

A device kernel runs one work-item per index `i` of `[0, M)`, in an order that the
hardware chooses.  The kernels below take that order as the parameter `order`: the
`k`-th work-item to run is `order k`.  A kernel whose work-item `i` writes entry
`i` only, and reads nothing that the kernel writes, is run in ascending order. -/

/-- The macro `RESCALE(x, N, p)`. -/
def RESCALE (env : FloatEnv) (x : ℚ) (N : ℤ) (p : ℤ) : ℚ :=
  if p ≠ 0 then
    (x * env.kOneOverTwoPi +
      (if x < -env.kPi then 3 / 2 else if x ≥ env.kPi then -(1 / 2) else 1 / 2)) * (N : ℚ)
  else if x < 0 then x + (N : ℚ) else if x ≥ (N : ℚ) then x - (N : ℚ) else x

/-- The three statements that compute a bin coordinate in the device kernels:
`binx = floor(x_rescaled/bin_size_x); binx = binx >= nbinx ? binx-1 : binx;
binx = binx < 0 ? 0 : binx`. -/
def binCoord (x_rescaled : ℚ) (bin_size_x nbinx : ℤ) : ℤ :=
  let binx : ℤ := ⌊x_rescaled / (bin_size_x : ℚ)⌋
  let binx : ℤ := if binx ≥ nbinx then binx - 1 else binx
  if binx < 0 then 0 else binx

/-- The device function `CalcGlobalIdxV2`. -/
def CalcGlobalIdxV2 (xidx yidx zidx nbinx nbiny _nbinz : ℤ) : ℤ :=
  xidx + yidx * nbinx + zidx * nbinx * nbiny

/-- The kernel `CalcBinSizeNoGhost2DKernel`; `atomicAdd` returns the old value of
the counter and increments it.  The result is `(bin_size, sortidx)`. -/
def CalcBinSizeNoGhost2DKernel (env : FloatEnv) (order : ℤ → ℤ)
    (M nf1 nf2 bin_size_x bin_size_y nbinx nbiny : ℤ) (bin_size : ℤ → ℤ) (x y : ℤ → ℚ)
    (sortidx : ℤ → ℤ) (pirange : ℤ) : (ℤ → ℤ) × (ℤ → ℤ) :=
  forRange 0 M
    (fun k (st : (ℤ → ℤ) × (ℤ → ℤ)) =>
      let i := order k
      let binx := binCoord (RESCALE env (x i) nf1 pirange) bin_size_x nbinx
      let biny := binCoord (RESCALE env (y i) nf2 pirange) bin_size_y nbiny
      let binidx := binx + biny * nbinx
      let oldidx := st.1 binidx
      let bin_size := Function.update st.1 binidx (oldidx + 1)
      let sortidx := Function.update st.2 i oldidx
      if binx ≥ nbinx ∨ biny ≥ nbiny then (bin_size, Function.update sortidx i (-biny))
      else (bin_size, sortidx))
    (bin_size, sortidx)

/-- The kernel `CalcBinSizeNoGhost3DKernel`. -/
def CalcBinSizeNoGhost3DKernel (env : FloatEnv) (order : ℤ → ℤ)
    (M nf1 nf2 nf3 bin_size_x bin_size_y bin_size_z nbinx nbiny nbinz : ℤ) (bin_size : ℤ → ℤ)
    (x y z : ℤ → ℚ) (sortidx : ℤ → ℤ) (pirange : ℤ) : (ℤ → ℤ) × (ℤ → ℤ) :=
  forRange 0 M
    (fun k (st : (ℤ → ℤ) × (ℤ → ℤ)) =>
      let i := order k
      let binx := binCoord (RESCALE env (x i) nf1 pirange) bin_size_x nbinx
      let biny := binCoord (RESCALE env (y i) nf2 pirange) bin_size_y nbiny
      let binz := binCoord (RESCALE env (z i) nf3 pirange) bin_size_z nbinz
      let binidx := binx + biny * nbinx + binz * nbinx * nbiny
      let oldidx := st.1 binidx
      (Function.update st.1 binidx (oldidx + 1), Function.update st.2 i oldidx))
    (bin_size, sortidx)

/-- The kernel `CalcInvertofGlobalSortIdx2DKernel`; the result is `index`. -/
def CalcInvertofGlobalSortIdx2DKernel (env : FloatEnv) (order : ℤ → ℤ)
    (M bin_size_x bin_size_y nbinx nbiny : ℤ) (bin_startpts sortidx : ℤ → ℤ) (x y : ℤ → ℚ)
    (index : ℤ → ℤ) (pirange nf1 nf2 : ℤ) : ℤ → ℤ :=
  forRange 0 M
    (fun k (index : ℤ → ℤ) =>
      let i := order k
      let binx := binCoord (RESCALE env (x i) nf1 pirange) bin_size_x nbinx
      let biny := binCoord (RESCALE env (y i) nf2 pirange) bin_size_y nbiny
      let binidx := binx + biny * nbinx
      Function.update index (bin_startpts binidx + sortidx i) i)
    index

/-- The kernel `CalcInvertofGlobalSortIdx3DKernel`. -/
def CalcInvertofGlobalSortIdx3DKernel (env : FloatEnv) (order : ℤ → ℤ)
    (M bin_size_x bin_size_y bin_size_z nbinx nbiny nbinz : ℤ) (bin_startpts sortidx : ℤ → ℤ)
    (x y z : ℤ → ℚ) (index : ℤ → ℤ) (pirange nf1 nf2 nf3 : ℤ) : ℤ → ℤ :=
  forRange 0 M
    (fun k (index : ℤ → ℤ) =>
      let i := order k
      let binx := binCoord (RESCALE env (x i) nf1 pirange) bin_size_x nbinx
      let biny := binCoord (RESCALE env (y i) nf2 pirange) bin_size_y nbiny
      let binz := binCoord (RESCALE env (z i) nf3 pirange) bin_size_z nbinz
      let binidx := CalcGlobalIdxV2 binx biny binz nbinx nbiny nbinz
      Function.update index (bin_startpts binidx + sortidx i) i)
    index

/-- The kernel `TrivialGlobalSortIdxKernel`. -/
def TrivialGlobalSortIdxKernel (M : ℤ) (index : ℤ → ℤ) : ℤ → ℤ :=
  forRange 0 M (fun i (index : ℤ → ℤ) => Function.update index i i) index

/-- The kernel `CalcSubproblemKernel`; the division is a floating-point one,
modelled exactly. -/
def CalcSubproblemKernel (bin_size num_subprob : ℤ → ℤ) (maxsubprobsize numbins : ℤ) : ℤ → ℤ :=
  forRange 0 numbins
    (fun i (num_subprob : ℤ → ℤ) =>
      Function.update num_subprob i ⌈(bin_size i : ℚ) / (maxsubprobsize : ℚ)⌉)
    num_subprob

/-- The kernel `MapBinToSubproblemKernel`. -/
def MapBinToSubproblemKernel (order : ℤ → ℤ) (d_subprob_to_bin d_subprobstartpts
    d_numsubprob : ℤ → ℤ) (numbins : ℤ) : ℤ → ℤ :=
  forRange 0 numbins
    (fun k (d_subprob_to_bin : ℤ → ℤ) =>
      let i := order k
      forRange 0 (d_numsubprob i)
        (fun j (d_subprob_to_bin : ℤ → ℤ) =>
          Function.update d_subprob_to_bin (d_subprobstartpts i + j) i)
        d_subprob_to_bin)
    d_subprob_to_bin

/-- Modelled from the spec: the library routine `thrust::exclusive_scan`, an
exclusive prefix sum: entry `i` of the result, for `i` in `[0, n)`, is the sum of
the entries `0, ..., i-1` of `a`. -/
def exclusive_scan (a : ℤ → ℤ) (n : ℤ) (result : ℤ → ℤ) : ℤ → ℤ :=
  (forRange 0 n
    (fun i (st : (ℤ → ℤ) × ℤ) => (Function.update st.1 i st.2, st.2 + a i))
    (result, 0)).1

/-- Modelled from the spec: the library routine `thrust::inclusive_scan`, an
inclusive prefix sum, written at the pointer `result + off`: entry `off + i` of the
result, for `i` in `[0, n)`, is the sum of the entries `0, ..., i` of `a`. -/
def inclusive_scan (a : ℤ → ℤ) (n : ℤ) (result : ℤ → ℤ) (off : ℤ) : ℤ → ℤ :=
  (forRange 0 n
    (fun i (st : (ℤ → ℤ) × ℤ) => (Function.update st.1 (off + i) (st.2 + a i), st.2 + a i))
    (result, 0)).1

/-- The call `memset(p, 0, n * sizeof(int))`. -/
def memset_zero (p : ℤ → ℤ) (n : ℤ) : ℤ → ℤ :=
  fun i => if 0 ≤ i ∧ i < n then 0 else p i

/-- The member `gpu_bin_size` of the options. -/
structure GpuBinSize where
  x : ℤ
  y : ℤ
  z : ℤ

/-- The options read by the device `init_spreader`. -/
structure GpuOptions where
  spread_method : SpreadMethod
  gpu_bin_size : GpuBinSize
  gpu_max_subproblem_size : ℤ

/-- The members of the device plan read and written by `init_spreader`;
`points_ a` is the coordinate array of axis `a`. -/
structure GpuPlan where
  rank_ : ℤ
  num_points_ : ℤ
  grid_dims_ : ℤ → ℤ
  points_ : ℤ → ℤ → ℚ
  options_ : GpuOptions
  spread_params_ : GpuSpreadParameters
  binsize : ℤ → ℤ
  binstartpts : ℤ → ℤ
  sortidx : ℤ → ℤ
  idxnupts : ℤ → ℤ
  numsubprob : ℤ → ℤ
  subprobstartpts : ℤ → ℤ
  subprob_to_bin : ℤ → ℤ
  totalnumsubprob : ℤ

/-- The local array `bin_size` of the two `init_spreader_*` routines. -/
def gpu_bin_size_array (o : GpuOptions) : ℤ → ℤ :=
  fun i => if i = 0 then o.gpu_bin_size.x else if i = 1 then o.gpu_bin_size.y
    else o.gpu_bin_size.z

/-- The error of the two `init_spreader_*` routines for a negative bin size. -/
def invalid_bin_size (bin_size : ℤ → ℤ) : Status :=
  Status.InvalidArgument
    ("Invalid bin size: (" ++ toString (bin_size 0) ++ ", " ++ toString (bin_size 1) ++ ", " ++
      toString (bin_size 2) ++ ")")

/-- The loop of the two `init_spreader_*` routines that computes `num_bins` and
`bin_count`: `num_bins[i] = (grid_dims_[i] + bin_size[i] - 1) / bin_size[i]` and
`bin_count *= num_bins[i]` for `i < rank_`. -/
def gpu_num_bins (rank_ : ℤ) (grid_dims_ bin_size : ℤ → ℤ) : (ℤ → ℤ) × ℤ :=
  forRange 0 rank_
    (fun i (st : (ℤ → ℤ) × ℤ) =>
      let num_bins := Function.update st.1 i (cdiv (grid_dims_ i + bin_size i - 1) (bin_size i))
      (num_bins, st.2 * num_bins i))
    ((fun _ => 1), 1)

/-- The member function `init_spreader_nupts_driven` of the device plan; `order1`
and `order2` are the orders in which the work-items of its two kernels run. -/
def init_spreader_nupts_driven (env : FloatEnv) (order1 order2 : ℤ → ℤ) (P : GpuPlan) :
    Status × GpuPlan :=
  if P.spread_params_.sort_points = SortPoints.YES then
    let bin_size := gpu_bin_size_array P.options_
    if bin_size 0 < 0 ∨ bin_size 1 < 0 ∨ bin_size 2 < 0 then (invalid_bin_size bin_size, P)
    else
      let nb := gpu_num_bins P.rank_ P.grid_dims_ bin_size
      let num_bins := nb.1
      let bin_count := nb.2
      let binsize0 := memset_zero P.binsize bin_count
      if P.rank_ = 2 then
        let c := CalcBinSizeNoGhost2DKernel env order1 P.num_points_ (P.grid_dims_ 0)
          (P.grid_dims_ 1) (bin_size 0) (bin_size 1) (num_bins 0) (num_bins 1) binsize0
          (P.points_ 0) (P.points_ 1) P.sortidx P.spread_params_.pirange
        let binstartpts := exclusive_scan c.1 bin_count P.binstartpts
        let idxnupts := CalcInvertofGlobalSortIdx2DKernel env order2 P.num_points_ (bin_size 0)
          (bin_size 1) (num_bins 0) (num_bins 1) binstartpts c.2 (P.points_ 0) (P.points_ 1)
          P.idxnupts P.spread_params_.pirange (P.grid_dims_ 0) (P.grid_dims_ 1)
        (Status.OK,
          { P with binsize := c.1, sortidx := c.2, binstartpts := binstartpts,
                   idxnupts := idxnupts })
      else if P.rank_ = 3 then
        let c := CalcBinSizeNoGhost3DKernel env order1 P.num_points_ (P.grid_dims_ 0)
          (P.grid_dims_ 1) (P.grid_dims_ 2) (bin_size 0) (bin_size 1) (bin_size 2)
          (num_bins 0) (num_bins 1) (num_bins 2) binsize0
          (P.points_ 0) (P.points_ 1) (P.points_ 2) P.sortidx P.spread_params_.pirange
        let binstartpts := exclusive_scan c.1 bin_count P.binstartpts
        let idxnupts := CalcInvertofGlobalSortIdx3DKernel env order2 P.num_points_ (bin_size 0)
          (bin_size 1) (bin_size 2) (num_bins 0) (num_bins 1) (num_bins 2) binstartpts c.2
          (P.points_ 0) (P.points_ 1) (P.points_ 2) P.idxnupts P.spread_params_.pirange
          (P.grid_dims_ 0) (P.grid_dims_ 1) (P.grid_dims_ 2)
        (Status.OK,
          { P with binsize := c.1, sortidx := c.2, binstartpts := binstartpts,
                   idxnupts := idxnupts })
      else
        (Status.Unimplemented ("Invalid rank: " ++ toString P.rank_),
          { P with binsize := binsize0 })
  else
    (Status.OK, { P with idxnupts := TrivialGlobalSortIdxKernel P.num_points_ P.idxnupts })

/-- The part of `init_spreader_subproblem` after the points are binned:
`CalcSubproblemKernel`, the inclusive scan into `d_subprobstartpts + 1`, the
`cudaMemset` of `d_subprobstartpts[0]`, the read of `totalnumsubprob`, and
`MapBinToSubproblemKernel` into the fresh array `d_subprob_to_bin`.  The result is
`(numsubprob, subprobstartpts, totalnumsubprob, subprob_to_bin)`. -/
def init_subproblems (order3 : ℤ → ℤ) (d_binsize d_numsubprob d_subprobstartpts
    fresh : ℤ → ℤ) (maxsubprobsize bin_count : ℤ) : (ℤ → ℤ) × (ℤ → ℤ) × ℤ × (ℤ → ℤ) :=
  let d_numsubprob := CalcSubproblemKernel d_binsize d_numsubprob maxsubprobsize bin_count
  let d_subprobstartpts := inclusive_scan d_numsubprob bin_count d_subprobstartpts 1
  let d_subprobstartpts := memset_zero d_subprobstartpts 1
  let totalnumsubprob := d_subprobstartpts bin_count
  let d_subprob_to_bin :=
    MapBinToSubproblemKernel order3 fresh d_subprobstartpts d_numsubprob bin_count
  (d_numsubprob, d_subprobstartpts, totalnumsubprob, d_subprob_to_bin)

/-- The member function `init_spreader_subproblem` of the device plan; `order1`,
`order2` and `order3` are the orders in which the work-items of its kernels run,
and `fresh` is the content of the newly allocated `d_subprob_to_bin`. -/
def init_spreader_subproblem (env : FloatEnv) (order1 order2 order3 fresh : ℤ → ℤ)
    (P : GpuPlan) : Status × GpuPlan :=
  let maxsubprobsize := P.options_.gpu_max_subproblem_size
  let bin_size := gpu_bin_size_array P.options_
  if bin_size 0 < 0 ∨ bin_size 1 < 0 ∨ bin_size 2 < 0 then (invalid_bin_size bin_size, P)
  else
    let nb := gpu_num_bins P.rank_ P.grid_dims_ bin_size
    let num_bins := nb.1
    let bin_count := nb.2
    let pirange := P.spread_params_.pirange
    let binsize0 := memset_zero P.binsize bin_count
    if P.rank_ = 2 then
      let c := CalcBinSizeNoGhost2DKernel env order1 P.num_points_ (P.grid_dims_ 0)
        (P.grid_dims_ 1) (bin_size 0) (bin_size 1) (num_bins 0) (num_bins 1) binsize0
        (P.points_ 0) (P.points_ 1) P.sortidx pirange
      let binstartpts := exclusive_scan c.1 bin_count P.binstartpts
      let idxnupts := CalcInvertofGlobalSortIdx2DKernel env order2 P.num_points_ (bin_size 0)
        (bin_size 1) (num_bins 0) (num_bins 1) binstartpts c.2 (P.points_ 0) (P.points_ 1)
        P.idxnupts pirange (P.grid_dims_ 0) (P.grid_dims_ 1)
      let s := init_subproblems order3 c.1 P.numsubprob P.subprobstartpts fresh maxsubprobsize
        bin_count
      (Status.OK,
        { P with binsize := c.1, sortidx := c.2, binstartpts := binstartpts,
                 idxnupts := idxnupts, numsubprob := s.1, subprobstartpts := s.2.1,
                 totalnumsubprob := s.2.2.1, subprob_to_bin := s.2.2.2 })
    else if P.rank_ = 3 then
      let c := CalcBinSizeNoGhost3DKernel env order1 P.num_points_ (P.grid_dims_ 0)
        (P.grid_dims_ 1) (P.grid_dims_ 2) (bin_size 0) (bin_size 1) (bin_size 2)
        (num_bins 0) (num_bins 1) (num_bins 2) binsize0
        (P.points_ 0) (P.points_ 1) (P.points_ 2) P.sortidx pirange
      let binstartpts := exclusive_scan c.1 bin_count P.binstartpts
      let idxnupts := CalcInvertofGlobalSortIdx3DKernel env order2 P.num_points_ (bin_size 0)
        (bin_size 1) (bin_size 2) (num_bins 0) (num_bins 1) (num_bins 2) binstartpts c.2
        (P.points_ 0) (P.points_ 1) (P.points_ 2) P.idxnupts pirange
        (P.grid_dims_ 0) (P.grid_dims_ 1) (P.grid_dims_ 2)
      let s := init_subproblems order3 c.1 P.numsubprob P.subprobstartpts fresh maxsubprobsize
        bin_count
      (Status.OK,
        { P with binsize := c.1, sortidx := c.2, binstartpts := binstartpts,
                 idxnupts := idxnupts, numsubprob := s.1, subprobstartpts := s.2.1,
                 totalnumsubprob := s.2.2.1, subprob_to_bin := s.2.2.2 })
    else
      (Status.Unimplemented ("Invalid rank: " ++ toString P.rank_),
        { P with binsize := binsize0 })

/-- The member function `init_spreader` of the device plan.  The enumeration value
AUTO has no case in the `switch` and falls through to `return Status::OK()`. -/
def init_spreader (env : FloatEnv) (order1 order2 order3 fresh : ℤ → ℤ) (P : GpuPlan) :
    Status × GpuPlan :=
  match P.options_.spread_method with
  | SpreadMethod.NUPTS_DRIVEN => init_spreader_nupts_driven env order1 order2 P
  | SpreadMethod.SUBPROBLEM => init_spreader_subproblem env order1 order2 order3 fresh P
  | SpreadMethod.PAUL => (Status.Unimplemented "init_spreader_paul", P)
  | SpreadMethod.BLOCK_GATHER => (Status.Unimplemented "init_spreader_block_gather", P)
  | SpreadMethod.AUTO => (Status.OK, P)

/-- The bin number `binx + biny*nbinx` that the two rank-2 kernels compute for the
point `(x, y)`. -/
def binId2D (env : FloatEnv) (nf1 nf2 bin_size_x bin_size_y nbinx nbiny : ℤ) (x y : ℚ)
    (pirange : ℤ) : ℤ :=
  binCoord (RESCALE env x nf1 pirange) bin_size_x nbinx +
    binCoord (RESCALE env y nf2 pirange) bin_size_y nbiny * nbinx

/-- The sum `a[0] + ... + a[n-1]` of integers. -/
def prefixSum (a : ℤ → ℤ) (n : ℤ) : ℤ :=
  ∑ c in Finset.range n.toNat, a (c : ℤ)

/-- A sample device plan: rank 2, two points, a `4 × 4` grid, bins of size
`2 × 2`, coordinates already in grid units (`pirange = 0`). -/
def gpuSamplePlan : GpuPlan where
  rank_ := 2
  num_points_ := 2
  grid_dims_ := fun _ => 4
  points_ := fun _ => sampleCoords
  options_ :=
    { spread_method := SpreadMethod.NUPTS_DRIVEN
      gpu_bin_size := { x := 2, y := 2, z := 1 }
      gpu_max_subproblem_size := 1024 }
  spread_params_ := sampleGpuParams
  binsize := fun _ => 7
  binstartpts := fun _ => 0
  sortidx := fun _ => 0
  idxnupts := fun _ => 0
  numsubprob := fun _ => 0
  subprobstartpts := fun _ => 0
  subprob_to_bin := fun _ => 0
  totalnumsubprob := 0

/-- A sample device plan with a negative bin size and no sorting of the points. -/
def unsortedPlan : GpuPlan where
  rank_ := 2
  num_points_ := 2
  grid_dims_ := fun _ => 4
  points_ := fun _ => sampleCoords
  options_ :=
    { spread_method := SpreadMethod.NUPTS_DRIVEN
      gpu_bin_size := { x := -1, y := 2, z := 1 }
      gpu_max_subproblem_size := 1024 }
  spread_params_ :=
    { spread_direction := SpreadDirection.SPREAD
      pirange := 1
      upsampling_factor := 2
      nspread := 7
      ES_halfwidth := 7 / 2
      ES_c := 4 / 49
      ES_beta := 161 / 10
      spread_only := false
      ES_scale := 1
      sort_points := SortPoints.NO
      spread_method := SpreadMethod.NUPTS_DRIVEN }
  binsize := fun _ => 0
  binstartpts := fun _ => 0
  sortidx := fun _ => 0
  idxnupts := fun _ => 0
  numsubprob := fun _ => 0
  subprobstartpts := fun _ => 0
  subprob_to_bin := fun _ => 0
  totalnumsubprob := 0

/-- Sample bin counts: bin `i` holds `5 * i` points. -/
def sampleCounts : ℤ → ℤ := fun i => 5 * i

/-! ## Kernel arguments -/

/-- The function `set_kernel_args(args, x, opts)`: it fills `args[0..ns)` with
`x, x+1, ..., x+ns-1`. -/
def set_kernel_args (args : ℤ → ℚ) (x : ℚ) (opts : SpreadParameters) : ℤ → ℚ :=
  let ns := opts.kernel_width
  forRange 0 ns (fun i (args : ℤ → ℚ) => Function.update args i (x + (i : ℚ))) args

/-! ## The deconvolver on buffers of given lengths -/

/-- The read `a[i]` from a buffer of `len` entries: `none` when `i` is outside
`[0, len)`. -/
def readAt {α : Type} (len : ℤ) (a : ℤ → α) (i : ℤ) : Option α :=
  if 0 ≤ i ∧ i < len then some (a i) else none

/-- The write `a[i] = v` to a buffer of `len` entries: `none` when `i` is outside
`[0, len)`. -/
def writeAt {α : Type} (len : ℤ) (a : ℤ → α) (i : ℤ) (v : α) : Option (ℤ → α) :=
  if 0 ≤ i ∧ i < len then some (Function.update a i v) else none

/-- The loop `for (k = lo; k < hi; ++k)` with a body that may access a buffer out
of range: the result is `none` as soon as one pass has done so. -/
def forRangeChecked {σ : Type} (lo hi : ℤ) (body : ℤ → σ → Option σ) (s : σ) : Option σ :=
  forRange lo hi (fun k (st : Option σ) => st.bind (body k)) (some s)

/-- The method `Plan<CPUDevice, FloatType>::deconvolve_1d(fk, fw, prefactor)` with
every array access checked: `fk` is a buffer of `fkLen` entries, `fw` one of
`fwLen` entries and `fseries_data_[0]` one of `coeffLen` entries.  The result is
`none` if an index outside its buffer is used, else the pair `(fk, fw)` on
return. -/
def deconvolve_1d_checked (P : Plan) (fkLen fwLen coeffLen : ℤ) (fk fw : ℤ → DType)
    (prefactor : ℚ) : Option ((ℤ → DType) × (ℤ → DType)) :=
  let kmin : ℤ := cdiv (-(P.grid_dims_ 0)) 2
  let kmax0 : ℤ := cdiv (P.grid_dims_ 0 - 1) 2
  let kmax : ℤ := if P.grid_dims_ 0 = 0 then -1 else kmax0
  let pp0 : ℤ := match P.mode_order with
    | ModeOrder.FFT => 0
    | ModeOrder.CMCL => -kmin
  let pn0 : ℤ := match P.mode_order with
    | ModeOrder.FFT => kmax + 1
    | ModeOrder.CMCL => 0
  match P.spread_direction with
  | SpreadDirection.SPREAD =>
    -- Non-negative frequencies.
    (forRangeChecked 0 (kmax + 1)
      (fun k (st : (ℤ → DType) × ℤ) =>
        (readAt fwLen fw k).bind fun w =>
        (readAt coeffLen (P.fseries_data_ 0) k).bind fun c =>
        (writeAt fkLen st.1 st.2 (deconvVal prefactor w c)).bind fun a =>
        some (a, st.2 + 1))
      (fk, pp0)).bind fun s1 =>
    -- Negative frequencies.
    (forRangeChecked kmin 0
      (fun k (st : (ℤ → DType) × ℤ) =>
        (readAt fwLen fw (P.fine_dims_ 0 + k)).bind fun w =>
        (readAt coeffLen (P.fseries_data_ 0) (-k)).bind fun c =>
        (writeAt fkLen st.1 st.2 (deconvVal prefactor w c)).bind fun a =>
        some (a, st.2 + 1))
      (s1.1, pn0)).bind fun s2 =>
    some (s2.1, fw)
  | SpreadDirection.INTERP =>
    -- Zero-padding.
    (forRangeChecked (kmax + 1) (P.fine_dims_ 0 + kmin)
      (fun k (a : ℤ → DType) => writeAt fwLen a k DType.zero) fw).bind fun fw0 =>
    -- Non-negative frequencies.
    (forRangeChecked 0 (kmax + 1)
      (fun k (st : (ℤ → DType) × ℤ) =>
        (readAt fkLen fk st.2).bind fun z =>
        (readAt coeffLen (P.fseries_data_ 0) k).bind fun c =>
        (writeAt fwLen st.1 k (deconvVal prefactor z c)).bind fun a =>
        some (a, st.2 + 1))
      (fw0, pp0)).bind fun s1 =>
    -- Negative frequencies.
    (forRangeChecked kmin 0
      (fun k (st : (ℤ → DType) × ℤ) =>
        (readAt fkLen fk st.2).bind fun z =>
        (readAt coeffLen (P.fseries_data_ 0) (-k)).bind fun c =>
        (writeAt fwLen st.1 (P.fine_dims_ 0 + k) (deconvVal prefactor z c)).bind fun a =>
        some (a, st.2 + 1))
      (s1.1, pn0)).bind fun s2 =>
    some (fk, s2.1)

/-! ## The elements of a batch -/

/-- A pointer to the grid of one transform: into the caller's buffer `fk` or into
the plan's workspace `fine_data_`, with its offset in `DType` units. -/
inductive GridPtr where
  | fk (offset : ℤ)
  | fine_data_ (offset : ℤ)
deriving DecidableEq, Repr

/-- The routines run on one transform of a batch, as state transformers on the
buffers `σ`: `spreadinterpSorted(..., fwi, ..., ci, ...)` with the grid pointer
`fwi` and the offset of `ci` in `cj`; `deconvolve_1d(fki, fwi)`,
`deconvolve_2d(fki, fwi)` and `deconvolve_3d(fki, fwi)` with the offset of `fki`
in `fk` and that of `fwi` in `fine_data_`; and `fftw::execute(fft_plan_)`. -/
structure ElemOps (σ : Type) where
  spreadinterpSorted : GridPtr → ℤ → σ → σ
  deconvolve_1d : ℤ → ℤ → σ → σ
  deconvolve_2d : ℤ → ℤ → σ → σ
  deconvolve_3d : ℤ → ℤ → σ → σ
  fftw_execute : σ → σ

/-- The method `Plan<CPUDevice, FloatType>::spread_or_interp_sorted_batch(
batch_size, cBatch, fBatch)`; `fine_size_` is the plan member of that name, and
the parallel loop over the batch is run in ascending order. -/
def spread_or_interp_sorted_batch {σ : Type} (E : ElemOps σ) (P : PlanState) (fine_size_ : ℤ)
    (batch_size cBatch : ℤ) (fBatch : Option ℤ) (s : σ) : Status × σ :=
  (Status.OK,
    forRange 0 batch_size
      (fun i s =>
        let fwi : GridPtr := match fBatch with
          | none => GridPtr.fine_data_ (i * fine_size_)
          | some f => GridPtr.fk (f + i * fine_size_)
        let ci : ℤ := cBatch + i * P.num_points_
        E.spreadinterpSorted fwi ci s)
      s)

/-- The method `Plan<CPUDevice, FloatType>::deconvolve_batch(batch_size,
fkBatch)`; the parallel loop over the batch is run in ascending order. -/
def deconvolve_batch {σ : Type} (E : ElemOps σ) (P : PlanState) (fine_size_ : ℤ)
    (batch_size fkBatch : ℤ) (s : σ) : Status × σ :=
  (Status.OK,
    forRange 0 batch_size
      (fun elem_index s =>
        let fwi : ℤ := elem_index * fine_size_
        let fki : ℤ := fkBatch + elem_index * P.grid_size_
        if P.rank_ = 1 then E.deconvolve_1d fki fwi s
        else if P.rank_ = 2 then E.deconvolve_2d fki fwi s
        else if P.rank_ = 3 then E.deconvolve_3d fki fwi s
        else s)
      s)

/-- The batch steps of the plan `P`, run on the element routines `E`. -/
def planOps {σ : Type} (E : ElemOps σ) (P : PlanState) (fine_size_ : ℤ) : BatchOps σ where
  spread_or_interp_sorted_batch := spread_or_interp_sorted_batch E P fine_size_
  deconvolve_batch := deconvolve_batch E P fine_size_
  fftw_execute := E.fftw_execute

/-- A call of an element routine: the routine and its pointers. -/
inductive ElemCall where
  | spreadinterp (fwi : GridPtr) (ci : ℤ)
  | deconvolve (rank fki fwi : ℤ)
  | fft
deriving DecidableEq, Repr

/-- Element routines that only record their calls, in order. -/
def recordElems : ElemOps (List ElemCall) where
  spreadinterpSorted := fun fwi ci s => s ++ [ElemCall.spreadinterp fwi ci]
  deconvolve_1d := fun fki fwi s => s ++ [ElemCall.deconvolve 1 fki fwi]
  deconvolve_2d := fun fki fwi s => s ++ [ElemCall.deconvolve 2 fki fwi]
  deconvolve_3d := fun fki fwi s => s ++ [ElemCall.deconvolve 3 fki fwi]
  fftw_execute := fun s => s ++ [ElemCall.fft]

/-- The plan `samplePlan5` (5 transforms, batches of 2, 8 modes) with 3 points. -/
def samplePlan5Points : PlanState := { samplePlan5 with num_points_ := 3 }

/-! ## Generic facts about loops -/

theorem forRange_empty {σ : Type} (lo hi : ℤ) (body : ℤ → σ → σ) (s : σ) (h : hi ≤ lo) :
    forRange lo hi body s = s := by
  unfold forRange
  have : (hi - lo).toNat = 0 := by omega
  rw [this]; rfl

theorem forRange_succ {σ : Type} (lo hi : ℤ) (body : ℤ → σ → σ) (s : σ) (h : lo ≤ hi) :
    forRange lo (hi + 1) body s = body hi (forRange lo hi body s) := by
  unfold forRange
  have h1 : (hi + 1 - lo).toNat = (hi - lo).toNat + 1 := by omega
  rw [h1, List.range_succ, List.foldl_append]
  simp only [List.foldl_cons, List.foldl_nil]
  have h2 : lo + (((hi - lo).toNat : ℕ) : ℤ) = hi := by omega
  rw [h2]

/-- Loop invariant rule: an invariant `P k` that holds on entry and is preserved
by every iteration holds on exit. -/
theorem forRange_induct {σ : Type} (P : ℤ → σ → Prop) (lo hi : ℤ) (body : ℤ → σ → σ)
    (s : σ) (hle : lo ≤ hi) (h0 : P lo s)
    (hstep : ∀ k st, lo ≤ k → k < hi → P k st → P (k + 1) (body k st)) :
    P hi (forRange lo hi body s) := by
  have key : ∀ n : ℕ, lo + (n : ℤ) ≤ hi → P (lo + n) (forRange lo (lo + n) body s) := by
    intro n
    induction n with
    | zero =>
      intro _
      simp only [Nat.cast_zero, add_zero]
      rw [forRange_empty _ _ _ _ (le_refl _)]
      exact h0
    | succ n ih =>
      intro hn
      have hn1 : lo + (n : ℤ) ≤ hi := by push_cast at hn; omega
      have := ih hn1
      have e : lo + ((n + 1 : ℕ) : ℤ) = (lo + n) + 1 := by push_cast; ring
      rw [e, forRange_succ _ _ _ _ (by omega)]
      exact hstep _ _ (by omega) (by push_cast at hn; omega) this
  have := key (hi - lo).toNat (by omega)
  have e : lo + (((hi - lo).toNat : ℕ) : ℤ) = hi := by omega
  rw [e] at this
  exact this

theorem truncToInt_of_nonneg (x : ℚ) (h : 0 ≤ x) : truncToInt x = ⌊x⌋ := by
  unfold truncToInt; simp [h]

theorem fill_brk_eq (M nb p : ℤ) (hnb : 0 ≤ nb) (h0 : 0 ≤ p) (h1 : p ≤ nb) :
    fill_brk M nb p = brkValue M nb p := by
  unfold fill_brk
  have := forRange_induct
    (fun k (brk : ℤ → ℤ) => ∀ q, 0 ≤ q → q < k → brk q = brkValue M nb q)
    0 (nb + 1) (fun p brk => Function.update brk p (brkValue M nb p)) (fun _ => 0)
    (by omega) (by intro q h h'; omega)
    (by
      intro k st hk0 hk1 ih q hq0 hq1
      beta_reduce
      by_cases hq : q = k
      · subst hq; simp
      · rw [Function.update_noteq hq]; exact ih q hq0 (by omega))
  exact this p h0 (by omega)

theorem brkValue_eq_floor (M nb p : ℤ) (hM : 0 ≤ M) (hnb : 1 ≤ nb) (hp : 0 ≤ p) :
    brkValue M nb p = ⌊(1 / 2 : ℚ) + ((M * p : ℤ) : ℚ) / (nb : ℚ)⌋ := by
  unfold brkValue
  apply truncToInt_of_nonneg
  have h1 : (0 : ℚ) ≤ ((M * p : ℤ) : ℚ) := by exact_mod_cast mul_nonneg hM hp
  have h2 : (0 : ℚ) < (nb : ℚ) := by exact_mod_cast (by omega : (0 : ℤ) < nb)
  positivity

theorem brkValue_zero (M nb : ℤ) : brkValue M nb 0 = 0 := by
  unfold brkValue truncToInt
  norm_num

theorem brkValue_last (M nb : ℤ) (hM : 0 ≤ M) (hnb : 1 ≤ nb) : brkValue M nb nb = M := by
  rw [brkValue_eq_floor M nb nb hM hnb (by omega)]
  have h2 : (nb : ℚ) ≠ 0 := by exact_mod_cast (by omega : nb ≠ 0)
  have : ((M * nb : ℤ) : ℚ) / (nb : ℚ) = (M : ℚ) := by
    push_cast; field_simp
  rw [this, Int.floor_eq_iff]
  constructor <;> linarith

theorem brkValue_mono (M nb p : ℤ) (hM : 0 ≤ M) (hnb : 1 ≤ nb) (hp : 0 ≤ p) :
    brkValue M nb p ≤ brkValue M nb (p + 1) := by
  rw [brkValue_eq_floor M nb p hM hnb hp, brkValue_eq_floor M nb (p + 1) hM hnb (by omega)]
  apply Int.floor_mono
  have h2 : (0 : ℚ) < (nb : ℚ) := by exact_mod_cast (by omega : (0 : ℤ) < nb)
  have h3 : ((M * p : ℤ) : ℚ) ≤ ((M * (p + 1) : ℤ) : ℚ) := by
    exact_mod_cast (by nlinarith : M * p ≤ M * (p + 1))
  have := div_le_div_of_nonneg_right h3 (le_of_lt h2)
  linarith

/-- A step-wise non-decreasing integer sequence is non-decreasing on every range. -/
theorem mono_of_step (f : ℤ → ℤ) (lo hi : ℤ)
    (hstep : ∀ p, lo ≤ p → p < hi → f p ≤ f (p + 1)) :
    ∀ a b, lo ≤ a → a ≤ b → b ≤ hi → f a ≤ f b := by
  intro a b ha hab hb
  have key : ∀ n : ℕ, a + (n : ℤ) ≤ hi → f a ≤ f (a + n) := by
    intro n
    induction n with
    | zero => intro _; simp
    | succ n ih =>
      intro hn
      push_cast at hn
      have h1 := ih (by omega)
      have h2 := hstep (a + n) (by omega) (by omega)
      have e : a + ((n + 1 : ℕ) : ℤ) = a + n + 1 := by push_cast; ring
      rw [e]; omega
  have := key (b - a).toNat (by omega)
  have e : a + (((b - a).toNat : ℕ) : ℤ) = b := by omega
  rwa [e] at this

/-- A non-decreasing sequence of breakpoints from `0` to `M` cuts `[0, M)` into
consecutive slices: every index lies in exactly one of them. -/
theorem slices_partition (f : ℤ → ℤ) (nb M : ℤ) (hnb : 0 ≤ nb) (h0 : f 0 = 0) (hlast : f nb = M)
    (hstep : ∀ p, 0 ≤ p → p < nb → f p ≤ f (p + 1)) (j : ℤ) (hj0 : 0 ≤ j) (hj1 : j < M) :
    ∃! p, 0 ≤ p ∧ p < nb ∧ f p ≤ j ∧ j < f (p + 1) := by
  have ex : ∀ n : ℕ, (n : ℤ) ≤ nb → j < f n →
      ∃ p, 0 ≤ p ∧ p < (n : ℤ) ∧ f p ≤ j ∧ j < f (p + 1) := by
    intro n
    induction n with
    | zero => intro _ h; simp only [Nat.cast_zero] at h; omega
    | succ n ih =>
      intro hn h
      push_cast at hn h
      by_cases hc : j < f n
      · obtain ⟨p, hp0, hp1, hp2, hp3⟩ := ih (by omega) hc
        exact ⟨p, hp0, by push_cast; omega, hp2, hp3⟩
      · exact ⟨n, by omega, by push_cast; omega, by omega, h⟩
  have hex := ex nb.toNat (by omega) (by rw [Int.toNat_of_nonneg hnb, hlast]; exact hj1)
  obtain ⟨p, hp0, hp1, hp2, hp3⟩ := hex
  refine ⟨p, ⟨hp0, by omega, hp2, hp3⟩, ?_⟩
  rintro q ⟨hq0, hq1, hq2, hq3⟩
  have hm := mono_of_step f 0 nb hstep
  rcases lt_trichotomy q p with h | h | h
  · have := hm (q + 1) p (by omega) (by omega) (by omega); omega
  · exact h
  · have := hm (p + 1) q (by omega) (by omega) (by omega); omega


/-- C4: for `M ≥ 1` points and `nb ≥ 1` subproblems, the breakpoint array filled in
`spreadSorted` starts at `0`, ends at `M`, is non-decreasing, and every point
index of `[0, M)` lies in exactly one slice `[brk[p], brk[p+1])`. -/
theorem brk_partition (M nb : ℤ) (hM : 1 ≤ M) (hnb : 1 ≤ nb) :
    fill_brk M nb 0 = 0 ∧ fill_brk M nb nb = M ∧
    (∀ p, 0 ≤ p → p ≤ nb → fill_brk M nb p = ⌊(1 / 2 : ℚ) + ((M * p : ℤ) : ℚ) / (nb : ℚ)⌋) ∧
    (∀ p, 0 ≤ p → p < nb → fill_brk M nb p ≤ fill_brk M nb (p + 1)) ∧
    (∀ j, 0 ≤ j → j < M →
      ∃! p, 0 ≤ p ∧ p < nb ∧ fill_brk M nb p ≤ j ∧ j < fill_brk M nb (p + 1)) := by
  have e := fun p h0 h1 => fill_brk_eq M nb p (by omega) h0 h1
  have a0 : fill_brk M nb 0 = 0 := by rw [e 0 (by omega) (by omega), brkValue_zero]
  have a1 : fill_brk M nb nb = M := by
    rw [e nb (by omega) (by omega), brkValue_last M nb (by omega) hnb]
  have a2 : ∀ p, 0 ≤ p → p < nb → fill_brk M nb p ≤ fill_brk M nb (p + 1) := by
    intro p h0 h1
    rw [e p h0 (by omega), e (p + 1) (by omega) (by omega)]
    exact brkValue_mono M nb p (by omega) hnb h0
  refine ⟨a0, a1, ?_, a2, ?_⟩
  · intro p h0 h1
    rw [e p h0 h1, brkValue_eq_floor M nb p (by omega) hnb h0]
  · intro j hj0 hj1
    exact slices_partition (fill_brk M nb) nb M (by omega) a0 a1 a2 j hj0 hj1

theorem brk_partition_witness :
    fill_brk 5 2 0 = 0 ∧ fill_brk 5 2 2 = 5 ∧
    (∀ p, 0 ≤ p → p ≤ 2 → fill_brk 5 2 p = ⌊(1 / 2 : ℚ) + ((5 * p : ℤ) : ℚ) / ((2 : ℤ) : ℚ)⌋) ∧
    (∀ p, 0 ≤ p → p < 2 → fill_brk 5 2 p ≤ fill_brk 5 2 (p + 1)) ∧
    (∀ j, 0 ≤ j → j < 5 →
      ∃! p, 0 ≤ p ∧ p < 2 ∧ fill_brk 5 2 p ≤ j ∧ j < fill_brk 5 2 (p + 1)) :=
  brk_partition 5 2 (by decide) (by decide)

theorem cdiv_neg_two (m : ℤ) (h : 0 ≤ m) : cdiv (-m) 2 = -(m / 2) := by
  unfold cdiv
  rw [Int.neg_tdiv, Int.tdiv_eq_ediv h (by norm_num)]

theorem cdiv_pred_two (m : ℤ) (h : 1 ≤ m) : cdiv (m - 1) 2 = (m - 1) / 2 := by
  unfold cdiv
  rw [Int.tdiv_eq_ediv (by omega) (by norm_num)]

/-- Eliminating a post-incremented counter from a loop. -/
theorem forRange_counter {σ : Type} (lo hi : ℤ) (hle : lo ≤ hi) (F : ℤ → ℤ → σ → σ) (s : σ)
    (base step : ℤ) :
    forRange lo hi (fun k (st : σ × ℤ) => (F k st.2 st.1, st.2 + step)) (s, base) =
      (forRange lo hi (fun k st => F k (base + step * (k - lo)) st) s,
        base + step * (hi - lo)) := by
  refine forRange_induct
    (fun k (st : σ × ℤ) =>
      st = (forRange lo k (fun k st => F k (base + step * (k - lo)) st) s,
        base + step * (k - lo)))
    lo hi _ (s, base) hle ?_ ?_
  · beta_reduce
    rw [forRange_empty _ _ _ _ (le_refl _)]; simp
  · intro k st hk0 hk1 ih
    beta_reduce
    rw [forRange_succ _ _ _ _ hk0, ih]
    simp only [Prod.mk.injEq, true_and]
    ring

/-- A loop that stores `v k` at index `c + k` for `k = lo, ..., hi - 1`. -/
theorem forRange_fill {α : Type} (lo hi c : ℤ) (hle : lo ≤ hi) (v : ℤ → α) (a : ℤ → α) :
    forRange lo hi (fun k (a : ℤ → α) => Function.update a (c + k) (v k)) a =
      fun i => if lo ≤ i - c ∧ i - c < hi then v (i - c) else a i := by
  refine forRange_induct
    (fun k (st : ℤ → α) => st = fun i => if lo ≤ i - c ∧ i - c < k then v (i - c) else a i)
    lo hi _ a hle ?_ ?_
  · funext i
    have : ¬ (lo ≤ i - c ∧ i - c < lo) := by omega
    simp [this]
  · intro k st hk0 hk1 ih
    funext i
    beta_reduce
    rw [ih]
    by_cases h : i = c + k
    · subst h
      have h1 : lo ≤ c + k - c ∧ c + k - c < k + 1 := by omega
      have h2 : c + k - c = k := by omega
      rw [Function.update_same, if_pos h1, h2]
    · rw [Function.update_noteq h]
      by_cases h2 : lo ≤ i - c ∧ i - c < k
      · have : lo ≤ i - c ∧ i - c < k + 1 := by omega
        simp [h2, this]
      · have : ¬ (lo ≤ i - c ∧ i - c < k + 1) := by omega
        simp [h2, this]

theorem kmax_eq (m : ℤ) (h : 0 ≤ m) :
    (if m = 0 then (-1 : ℤ) else cdiv (m - 1) 2) = (m - 1) / 2 := by
  by_cases h0 : m = 0
  · subst h0; simp
  · rw [if_neg h0, cdiv_pred_two m (by omega)]

/-- A loop that stores `v k` at `off + pp` and post-increments `pp`. -/
theorem forRange_push {α : Type} (lo hi off base : ℤ) (hle : lo ≤ hi) (v : ℤ → α)
    (a : ℤ → α) :
    forRange lo hi
      (fun k (st : (ℤ → α) × ℤ) => (Function.update st.1 (off + st.2) (v k), st.2 + 1))
      (a, base) =
    (fun i => if lo ≤ i - (off + base - lo) ∧ i - (off + base - lo) < hi
        then v (i - (off + base - lo)) else a i, base + (hi - lo)) := by
  have e := forRange_counter lo hi hle
    (fun k pp (a : ℤ → α) => Function.update a (off + pp) (v k)) a base 1
  beta_reduce at e
  rw [e]
  have e2 : (fun k (st : ℤ → α) => Function.update st (off + (base + 1 * (k - lo))) (v k)) =
      (fun k (st : ℤ → α) => Function.update st ((off + base - lo) + k) (v k)) := by
    funext k st
    ring_nf
  rw [e2, forRange_fill lo hi _ hle]
  simp

/-- A loop that stores at `off + k` a value read through a post-incremented
counter `pp`. -/
theorem forRange_pull {α : Type} (lo hi off base : ℤ) (hle : lo ≤ hi) (g : ℤ → ℤ → α)
    (a : ℤ → α) :
    forRange lo hi
      (fun k (st : (ℤ → α) × ℤ) => (Function.update st.1 (off + k) (g k st.2), st.2 + 1))
      (a, base) =
    (fun i => if lo ≤ i - off ∧ i - off < hi
        then g (i - off) (base + (i - off - lo)) else a i, base + (hi - lo)) := by
  have e := forRange_counter lo hi hle
    (fun k pp (a : ℤ → α) => Function.update a (off + k) (g k pp)) a base 1
  beta_reduce at e
  rw [e]
  have e2 := forRange_fill lo hi off hle (fun k => g k (base + 1 * (k - lo))) a
  beta_reduce at e2
  rw [e2]
  simp

/-- The fill loop without any assumption on its bounds. -/
theorem forRange_fill_any {α : Type} (lo hi c : ℤ) (v : ℤ → α) (a : ℤ → α) :
    forRange lo hi (fun k (a : ℤ → α) => Function.update a (c + k) (v k)) a =
      fun i => if lo ≤ i - c ∧ i - c < hi then v (i - c) else a i := by
  by_cases hle : lo ≤ hi
  · exact forRange_fill lo hi c hle v a
  · rw [forRange_empty _ _ _ _ (by omega)]
    funext i
    have : ¬ (lo ≤ i - c ∧ i - c < hi) := by omega
    rw [if_neg this]

/-- Forward (SPREAD) `deconvolve_1d`, as a closed description of the two arrays
on return. -/
theorem deconvolve_1d_spread (P : Plan) (hdir : P.spread_direction = SpreadDirection.SPREAD)
    (hms : 0 ≤ P.grid_dims_ 0) (fk fw : ℤ → DType) (fkOff fwOff : ℤ) (prefactor : ℚ) :
    deconvolve_1d P fk fw fkOff fwOff prefactor =
      (fun i =>
        if -(P.grid_dims_ 0 / 2) ≤ i - (fkOff + negBase P.mode_order (P.grid_dims_ 0)) ∧
            i - (fkOff + negBase P.mode_order (P.grid_dims_ 0)) < 0 then
          deconvVal prefactor
            (fw (fwOff + (P.fine_dims_ 0 + (i - (fkOff + negBase P.mode_order (P.grid_dims_ 0))))))
            (P.fseries_data_ 0 (-(i - (fkOff + negBase P.mode_order (P.grid_dims_ 0)))))
        else if 0 ≤ i - (fkOff + posBase P.mode_order (P.grid_dims_ 0)) ∧
            i - (fkOff + posBase P.mode_order (P.grid_dims_ 0)) < (P.grid_dims_ 0 - 1) / 2 + 1 then
          deconvVal prefactor
            (fw (fwOff + (i - (fkOff + posBase P.mode_order (P.grid_dims_ 0)))))
            (P.fseries_data_ 0 (i - (fkOff + posBase P.mode_order (P.grid_dims_ 0))))
        else fk i, fw) := by
  have hk1 : (0 : ℤ) ≤ (P.grid_dims_ 0 - 1) / 2 + 1 := by omega
  have hk2 : -(P.grid_dims_ 0 / 2) ≤ (0 : ℤ) := by omega
  have hsum : (P.grid_dims_ 0 - 1) / 2 + 1 + P.grid_dims_ 0 / 2 = P.grid_dims_ 0 := by omega
  cases hmo : P.mode_order
  · simp only [deconvolve_1d, hdir, hmo, cdiv_neg_two _ hms, kmax_eq _ hms, negBase, posBase]
    rw [forRange_push 0 _ _ _ hk1, forRange_push _ 0 _ _ hk2]
    simp only [Prod.mk.injEq, and_true]
    funext i
    have e1 : fkOff + ((P.grid_dims_ 0 - 1) / 2 + 1) - -(P.grid_dims_ 0 / 2) =
        fkOff + P.grid_dims_ 0 := by omega
    have e2 : fkOff + 0 - 0 = fkOff + 0 := by omega
    rw [e1, e2]
  · simp only [deconvolve_1d, hdir, hmo, cdiv_neg_two _ hms, kmax_eq _ hms, negBase, posBase]
    rw [forRange_push 0 _ _ _ hk1, forRange_push _ 0 _ _ hk2]
    simp only [Prod.mk.injEq, and_true]
    funext i
    have e1 : fkOff + 0 - -(P.grid_dims_ 0 / 2) = fkOff + P.grid_dims_ 0 / 2 := by omega
    have e2 : fkOff + - -(P.grid_dims_ 0 / 2) - 0 = fkOff + P.grid_dims_ 0 / 2 := by omega
    rw [e1, e2]

/-- Backward (INTERP) `deconvolve_1d`, as a closed description of the two arrays
on return. -/
theorem deconvolve_1d_interp (P : Plan) (hdir : P.spread_direction = SpreadDirection.INTERP)
    (hms : 0 ≤ P.grid_dims_ 0) (fk fw : ℤ → DType) (fkOff fwOff : ℤ) (prefactor : ℚ) :
    deconvolve_1d P fk fw fkOff fwOff prefactor =
      (fk, fun i =>
        if -(P.grid_dims_ 0 / 2) ≤ i - (fwOff + P.fine_dims_ 0) ∧
            i - (fwOff + P.fine_dims_ 0) < 0 then
          deconvVal prefactor
            (fk (fkOff + (negBase P.mode_order (P.grid_dims_ 0) + (i - (fwOff + P.fine_dims_ 0)))))
            (P.fseries_data_ 0 (-(i - (fwOff + P.fine_dims_ 0))))
        else if 0 ≤ i - fwOff ∧ i - fwOff < (P.grid_dims_ 0 - 1) / 2 + 1 then
          deconvVal prefactor
            (fk (fkOff + (posBase P.mode_order (P.grid_dims_ 0) + (i - fwOff))))
            (P.fseries_data_ 0 (i - fwOff))
        else if (P.grid_dims_ 0 - 1) / 2 + 1 ≤ i - fwOff ∧
            i - fwOff < P.fine_dims_ 0 + -(P.grid_dims_ 0 / 2) then DType.zero
        else fw i) := by
  have hk1 : (0 : ℤ) ≤ (P.grid_dims_ 0 - 1) / 2 + 1 := by omega
  have hk2 : -(P.grid_dims_ 0 / 2) ≤ (0 : ℤ) := by omega
  cases hmo : P.mode_order
  · simp only [deconvolve_1d, hdir, hmo, cdiv_neg_two _ hms, kmax_eq _ hms, negBase, posBase,
      ← add_assoc]
    have p1 := fun a base => forRange_pull 0 ((P.grid_dims_ 0 - 1) / 2 + 1) fwOff base hk1
      (fun k pp => deconvVal prefactor (fk (fkOff + pp)) (P.fseries_data_ 0 k)) a
    have p2 := fun a base => forRange_pull (-(P.grid_dims_ 0 / 2)) 0 (fwOff + P.fine_dims_ 0) base hk2
      (fun k pp => deconvVal prefactor (fk (fkOff + pp)) (P.fseries_data_ 0 (-k))) a
    beta_reduce at p1 p2
    rw [forRange_fill_any, p1, p2]
    simp only [Prod.mk.injEq, true_and]
    funext i
    by_cases c1 : -(P.grid_dims_ 0 / 2) ≤ i - (fwOff + P.fine_dims_ 0) ∧
        i - (fwOff + P.fine_dims_ 0) < 0
    · rw [if_pos c1, if_pos c1]
      congr 2
      omega
    · rw [if_neg c1, if_neg c1]
      by_cases c2 : 0 ≤ i - fwOff ∧ i - fwOff < (P.grid_dims_ 0 - 1) / 2 + 1
      · rw [if_pos c2, if_pos c2]
        congr 2
        omega
      · rw [if_neg c2, if_neg c2]
  · simp only [deconvolve_1d, hdir, hmo, cdiv_neg_two _ hms, kmax_eq _ hms, negBase, posBase,
      ← add_assoc]
    have p1 := fun a base => forRange_pull 0 ((P.grid_dims_ 0 - 1) / 2 + 1) fwOff base hk1
      (fun k pp => deconvVal prefactor (fk (fkOff + pp)) (P.fseries_data_ 0 k)) a
    have p2 := fun a base => forRange_pull (-(P.grid_dims_ 0 / 2)) 0 (fwOff + P.fine_dims_ 0) base hk2
      (fun k pp => deconvVal prefactor (fk (fkOff + pp)) (P.fseries_data_ 0 (-k))) a
    beta_reduce at p1 p2
    rw [forRange_fill_any, p1, p2]
    simp only [Prod.mk.injEq, true_and]
    funext i
    by_cases c1 : -(P.grid_dims_ 0 / 2) ≤ i - (fwOff + P.fine_dims_ 0) ∧
        i - (fwOff + P.fine_dims_ 0) < 0
    · rw [if_pos c1, if_pos c1]
      congr 2
      omega
    · rw [if_neg c1, if_neg c1]
      by_cases c2 : 0 ≤ i - fwOff ∧ i - fwOff < (P.grid_dims_ 0 - 1) / 2 + 1
      · rw [if_pos c2, if_pos c2]
        congr 2
        omega
      · rw [if_neg c2, if_neg c2]

theorem emod_of_range (k n : ℤ) (h0 : 0 ≤ k) (h1 : k < n) : k % n = k :=
  Int.emod_eq_of_lt h0 h1

theorem emod_of_neg_range (k n : ℤ) (h0 : -n ≤ k) (h1 : k < 0) : k % n = k + n := by
  rw [← Int.add_emod_self]
  exact Int.emod_eq_of_lt (by omega) (by omega)

theorem emod_of_high_range (k n : ℤ) (h0 : n ≤ k) (h1 : k < 2 * n) : k % n = k - n := by
  have e : k = (k - n) + n := by ring
  rw [e, Int.add_emod_self, Int.emod_eq_of_lt (by omega) (by omega)]
  ring

theorem modePos_eq (order : ModeOrder) (ms k : ℤ) (h0 : -(ms / 2) ≤ k)
    (h1 : k ≤ (ms - 1) / 2) :
    modePos order ms k =
      if 0 ≤ k then posBase order ms + k else negBase order ms + k := by
  cases order
  · simp only [modePos, posBase, negBase]
    by_cases hk : 0 ≤ k
    · rw [if_pos hk, emod_of_range k ms hk (by omega)]; ring
    · rw [if_neg hk, emod_of_neg_range k ms (by omega) (by omega)]; ring
  · simp only [modePos, posBase, negBase]
    split <;> ring

theorem modeAt_modePos (order : ModeOrder) (ms k : ℤ) (h0 : -(ms / 2) ≤ k)
    (h1 : k ≤ (ms - 1) / 2) : modeAt order ms (modePos order ms k) = k := by
  rw [modePos_eq order ms k h0 h1]
  cases order <;> simp only [modeAt, posBase, negBase] <;> split <;> try split
  all_goals omega

theorem modePos_modeAt (order : ModeOrder) (ms i : ℤ) (h0 : 0 ≤ i) (h1 : i < ms) :
    -(ms / 2) ≤ modeAt order ms i ∧ modeAt order ms i ≤ (ms - 1) / 2 ∧
      modePos order ms (modeAt order ms i) = i := by
  have r : -(ms / 2) ≤ modeAt order ms i ∧ modeAt order ms i ≤ (ms - 1) / 2 := by
    cases order <;> simp only [modeAt] <;> try split
    all_goals omega
  refine ⟨r.1, r.2, ?_⟩
  rw [modePos_eq order ms _ r.1 r.2]
  cases order <;> simp only [modeAt, posBase, negBase] <;> split <;> try split
  all_goals omega

/-- Every position of `[0, ms)` holds exactly one used mode. -/
theorem modePos_unique (order : ModeOrder) (ms i : ℤ) (h0 : 0 ≤ i) (h1 : i < ms) :
    ∃! k, -(ms / 2) ≤ k ∧ k ≤ (ms - 1) / 2 ∧ modePos order ms k = i := by
  obtain ⟨a, b, c⟩ := modePos_modeAt order ms i h0 h1
  refine ⟨modeAt order ms i, ⟨a, b, c⟩, ?_⟩
  rintro k ⟨ka, kb, kc⟩
  rw [← kc, modeAt_modePos order ms k ka kb]

theorem modePos_range (order : ModeOrder) (ms k : ℤ) (h0 : -(ms / 2) ≤ k)
    (h1 : k ≤ (ms - 1) / 2) : 0 ≤ modePos order ms k ∧ modePos order ms k < ms := by
  rw [modePos_eq order ms k h0 h1]
  cases order <;> simp only [posBase, negBase] <;> split
  all_goals omega

/-- The index of `fw` read for mode `k` is `k mod nf`. -/
theorem fwIndex_eq (nf ms k : ℤ) (hnf : ms ≤ nf) (h0 : -(ms / 2) ≤ k)
    (h1 : k ≤ (ms - 1) / 2) : k % nf = if 0 ≤ k then k else nf + k := by
  by_cases hk : 0 ≤ k
  · rw [if_pos hk, emod_of_range k nf hk (by omega)]
  · rw [if_neg hk, emod_of_neg_range k nf (by omega) (by omega)]; ring

/-- Forward (SPREAD) `deconvolve_1d` mode by mode, with the frame it leaves
untouched. -/
theorem deconvolve_1d_spread_modes (P : Plan)
    (hdir : P.spread_direction = SpreadDirection.SPREAD)
    (hms : 0 ≤ P.grid_dims_ 0) (hnf : P.grid_dims_ 0 ≤ P.fine_dims_ 0)
    (fk fw : ℤ → DType) (prefactor : ℚ) :
    (∀ k, -(P.grid_dims_ 0 / 2) ≤ k → k ≤ (P.grid_dims_ 0 - 1) / 2 →
      (deconvolve_1d P fk fw 0 0 prefactor).1 (modePos P.mode_order (P.grid_dims_ 0) k) =
        deconvVal prefactor (fw (k % P.fine_dims_ 0)) (P.fseries_data_ 0 |k|)) ∧
    (∀ i, 0 ≤ i → i < P.grid_dims_ 0 →
      ∃! k, -(P.grid_dims_ 0 / 2) ≤ k ∧ k ≤ (P.grid_dims_ 0 - 1) / 2 ∧
        modePos P.mode_order (P.grid_dims_ 0) k = i) ∧
    (∀ i, i < 0 ∨ P.grid_dims_ 0 ≤ i → (deconvolve_1d P fk fw 0 0 prefactor).1 i = fk i) ∧
    (deconvolve_1d P fk fw 0 0 prefactor).2 = fw := by
  rw [deconvolve_1d_spread P hdir hms]
  refine ⟨?_, fun i h0 h1 => modePos_unique _ _ i h0 h1, ?_, rfl⟩
  · intro k h0 h1
    rw [modePos_eq _ _ k h0 h1, fwIndex_eq _ _ k hnf h0 h1]
    by_cases hk : 0 ≤ k
    · simp only [if_pos hk]
      have c1 : ¬ (-(P.grid_dims_ 0 / 2) ≤
          posBase P.mode_order (P.grid_dims_ 0) + k - (0 + negBase P.mode_order (P.grid_dims_ 0)) ∧
          posBase P.mode_order (P.grid_dims_ 0) + k - (0 + negBase P.mode_order (P.grid_dims_ 0)) < 0) := by
        cases P.mode_order <;> simp only [posBase, negBase] <;> omega
      have c2 : 0 ≤ posBase P.mode_order (P.grid_dims_ 0) + k -
            (0 + posBase P.mode_order (P.grid_dims_ 0)) ∧
          posBase P.mode_order (P.grid_dims_ 0) + k - (0 + posBase P.mode_order (P.grid_dims_ 0)) <
            (P.grid_dims_ 0 - 1) / 2 + 1 := by omega
      rw [if_neg c1, if_pos c2, abs_of_nonneg hk]
      have e : posBase P.mode_order (P.grid_dims_ 0) + k -
          (0 + posBase P.mode_order (P.grid_dims_ 0)) = k := by ring
      rw [e, zero_add]
    · simp only [if_neg hk]
      have c1 : -(P.grid_dims_ 0 / 2) ≤
          negBase P.mode_order (P.grid_dims_ 0) + k - (0 + negBase P.mode_order (P.grid_dims_ 0)) ∧
          negBase P.mode_order (P.grid_dims_ 0) + k - (0 + negBase P.mode_order (P.grid_dims_ 0)) < 0 := by
        omega
      rw [if_pos c1, abs_of_neg (by omega)]
      have e : negBase P.mode_order (P.grid_dims_ 0) + k -
          (0 + negBase P.mode_order (P.grid_dims_ 0)) = k := by ring
      rw [e, zero_add]
  · intro i hi
    have c1 : ¬ (-(P.grid_dims_ 0 / 2) ≤ i - (0 + negBase P.mode_order (P.grid_dims_ 0)) ∧
        i - (0 + negBase P.mode_order (P.grid_dims_ 0)) < 0) := by
      cases P.mode_order <;> simp only [posBase, negBase] <;> omega
    have c2 : ¬ (0 ≤ i - (0 + posBase P.mode_order (P.grid_dims_ 0)) ∧
        i - (0 + posBase P.mode_order (P.grid_dims_ 0)) < (P.grid_dims_ 0 - 1) / 2 + 1) := by
      cases P.mode_order <;> simp only [posBase, negBase] <;> omega
    simp only [if_neg c1, if_neg c2]

/-- C5: forward (SPREAD) `deconvolve_1d` on a plan with `0 ≤ ms ≤ nf` stores at the
position of every used mode `k` the value `prefactor * fw[k mod nf] / fseries[|k|]`;
every index of `[0, ms)` is the position of exactly one used mode, and nothing
outside `fk[0..ms)`, nor `fw`, is changed. -/
theorem deconvolve_1d_forward_modes (P : Plan)
    (hdir : P.spread_direction = SpreadDirection.SPREAD)
    (hms : 0 ≤ P.grid_dims_ 0) (hnf : P.grid_dims_ 0 ≤ P.fine_dims_ 0)
    (fk fw : ℤ → DType) (prefactor : ℚ) :
    (∀ k, -(P.grid_dims_ 0 / 2) ≤ k → k ≤ (P.grid_dims_ 0 - 1) / 2 →
      (deconvolve_1d P fk fw 0 0 prefactor).1 (modePos P.mode_order (P.grid_dims_ 0) k) =
        deconvVal prefactor (fw (k % P.fine_dims_ 0)) (P.fseries_data_ 0 |k|)) ∧
    (∀ i, 0 ≤ i → i < P.grid_dims_ 0 →
      ∃! k, -(P.grid_dims_ 0 / 2) ≤ k ∧ k ≤ (P.grid_dims_ 0 - 1) / 2 ∧
        modePos P.mode_order (P.grid_dims_ 0) k = i) ∧
    (∀ i, i < 0 ∨ P.grid_dims_ 0 ≤ i → (deconvolve_1d P fk fw 0 0 prefactor).1 i = fk i) ∧
    (deconvolve_1d P fk fw 0 0 prefactor).2 = fw :=
  deconvolve_1d_spread_modes P hdir hms hnf fk fw prefactor

/-- Backward (INTERP) `deconvolve_1d` mode by mode, with the zero padding. -/
theorem deconvolve_1d_interp_modes (P : Plan)
    (hdir : P.spread_direction = SpreadDirection.INTERP)
    (hms : 0 ≤ P.grid_dims_ 0) (hnf : P.grid_dims_ 0 ≤ P.fine_dims_ 0)
    (fk fw : ℤ → DType) (prefactor : ℚ) :
    (∀ k, -(P.grid_dims_ 0 / 2) ≤ k → k ≤ (P.grid_dims_ 0 - 1) / 2 →
      (deconvolve_1d P fk fw 0 0 prefactor).2 (k % P.fine_dims_ 0) =
        deconvVal prefactor (fk (modePos P.mode_order (P.grid_dims_ 0) k))
          (P.fseries_data_ 0 |k|)) ∧
    (∀ i, (P.grid_dims_ 0 - 1) / 2 < i → i < P.fine_dims_ 0 - P.grid_dims_ 0 / 2 →
      (deconvolve_1d P fk fw 0 0 prefactor).2 i = DType.zero) ∧
    (∀ i, 0 ≤ i → i < P.fine_dims_ 0 →
      (∃ k, -(P.grid_dims_ 0 / 2) ≤ k ∧ k ≤ (P.grid_dims_ 0 - 1) / 2 ∧ k % P.fine_dims_ 0 = i) ∨
      ((P.grid_dims_ 0 - 1) / 2 < i ∧ i < P.fine_dims_ 0 - P.grid_dims_ 0 / 2)) ∧
    (∀ fw2 i, 0 ≤ i → i < P.fine_dims_ 0 →
      (deconvolve_1d P fk fw 0 0 prefactor).2 i = (deconvolve_1d P fk fw2 0 0 prefactor).2 i) ∧
    (deconvolve_1d P fk fw 0 0 prefactor).1 = fk := by
  refine ⟨?_, ?_, ?_, ?_, ?_⟩
  · intro k h0 h1
    rw [deconvolve_1d_interp P hdir hms, modePos_eq _ _ k h0 h1, fwIndex_eq _ _ k hnf h0 h1]
    by_cases hk : 0 ≤ k
    · simp only [if_pos hk]
      have c1 : ¬ (-(P.grid_dims_ 0 / 2) ≤ k - (0 + P.fine_dims_ 0) ∧
          k - (0 + P.fine_dims_ 0) < 0) := by omega
      have c2 : 0 ≤ k - 0 ∧ k - 0 < (P.grid_dims_ 0 - 1) / 2 + 1 := by omega
      rw [if_neg c1, if_pos c2, abs_of_nonneg hk, sub_zero, zero_add]
    · simp only [if_neg hk]
      have c1 : -(P.grid_dims_ 0 / 2) ≤ P.fine_dims_ 0 + k - (0 + P.fine_dims_ 0) ∧
          P.fine_dims_ 0 + k - (0 + P.fine_dims_ 0) < 0 := by omega
      have e : P.fine_dims_ 0 + k - (0 + P.fine_dims_ 0) = k := by ring
      rw [if_pos c1, abs_of_neg (by omega), e, zero_add]
  · intro i h0 h1
    rw [deconvolve_1d_interp P hdir hms]
    have c1 : ¬ (-(P.grid_dims_ 0 / 2) ≤ i - (0 + P.fine_dims_ 0) ∧
        i - (0 + P.fine_dims_ 0) < 0) := by omega
    have c2 : ¬ (0 ≤ i - 0 ∧ i - 0 < (P.grid_dims_ 0 - 1) / 2 + 1) := by omega
    have c3 : (P.grid_dims_ 0 - 1) / 2 + 1 ≤ i - 0 ∧
        i - 0 < P.fine_dims_ 0 + -(P.grid_dims_ 0 / 2) := by omega
    simp only [if_neg c1, if_neg c2, if_pos c3]
  · intro i h0 h1
    by_cases ha : i ≤ (P.grid_dims_ 0 - 1) / 2
    · exact Or.inl ⟨i, by omega, ha, emod_of_range i _ h0 h1⟩
    · by_cases hb : i < P.fine_dims_ 0 - P.grid_dims_ 0 / 2
      · exact Or.inr ⟨by omega, hb⟩
      · refine Or.inl ⟨i - P.fine_dims_ 0, by omega, by omega, ?_⟩
        rw [emod_of_neg_range _ _ (by omega) (by omega)]; ring
  · intro fw2 i h0 h1
    rw [deconvolve_1d_interp P hdir hms, deconvolve_1d_interp P hdir hms]
    by_cases c1 : -(P.grid_dims_ 0 / 2) ≤ i - (0 + P.fine_dims_ 0) ∧
        i - (0 + P.fine_dims_ 0) < 0
    · simp only [if_pos c1]
    · by_cases c2 : 0 ≤ i - 0 ∧ i - 0 < (P.grid_dims_ 0 - 1) / 2 + 1
      · simp only [if_neg c1, if_pos c2]
      · have c3 : (P.grid_dims_ 0 - 1) / 2 + 1 ≤ i - 0 ∧
            i - 0 < P.fine_dims_ 0 + -(P.grid_dims_ 0 / 2) := by omega
        simp only [if_neg c1, if_neg c2, if_pos c3]
  · rw [deconvolve_1d_interp P hdir hms]

theorem deconvolve_1d_forward_modes_witness :
    (∀ k, -((planFourModes ModeOrder.FFT SpreadDirection.SPREAD).grid_dims_ 0 / 2) ≤ k →
        k ≤ ((planFourModes ModeOrder.FFT SpreadDirection.SPREAD).grid_dims_ 0 - 1) / 2 →
      (deconvolve_1d (planFourModes ModeOrder.FFT SpreadDirection.SPREAD)
          sampleArray sampleArray 0 0 1).1
        (modePos (planFourModes ModeOrder.FFT SpreadDirection.SPREAD).mode_order
          ((planFourModes ModeOrder.FFT SpreadDirection.SPREAD).grid_dims_ 0) k) =
        deconvVal 1
          (sampleArray (k % (planFourModes ModeOrder.FFT SpreadDirection.SPREAD).fine_dims_ 0))
          ((planFourModes ModeOrder.FFT SpreadDirection.SPREAD).fseries_data_ 0 |k|)) ∧
    (∀ i, 0 ≤ i → i < (planFourModes ModeOrder.FFT SpreadDirection.SPREAD).grid_dims_ 0 →
      ∃! k, -((planFourModes ModeOrder.FFT SpreadDirection.SPREAD).grid_dims_ 0 / 2) ≤ k ∧
        k ≤ ((planFourModes ModeOrder.FFT SpreadDirection.SPREAD).grid_dims_ 0 - 1) / 2 ∧
        modePos (planFourModes ModeOrder.FFT SpreadDirection.SPREAD).mode_order
          ((planFourModes ModeOrder.FFT SpreadDirection.SPREAD).grid_dims_ 0) k = i) ∧
    (∀ i, i < 0 ∨ (planFourModes ModeOrder.FFT SpreadDirection.SPREAD).grid_dims_ 0 ≤ i →
      (deconvolve_1d (planFourModes ModeOrder.FFT SpreadDirection.SPREAD)
          sampleArray sampleArray 0 0 1).1 i = sampleArray i) ∧
    (deconvolve_1d (planFourModes ModeOrder.FFT SpreadDirection.SPREAD)
        sampleArray sampleArray 0 0 1).2 = sampleArray :=
  deconvolve_1d_forward_modes (planFourModes ModeOrder.FFT SpreadDirection.SPREAD) rfl
    (by decide) (by decide) sampleArray sampleArray 1

/-- C6: backward (INTERP) `deconvolve_1d` on a plan with `0 ≤ ms ≤ nf` overwrites
all of `fw[0..nf)`: index `k mod nf` receives `prefactor * fk[pos(k)] / fseries[|k|]`
for every used mode `k`, every index strictly between `floor((ms-1)/2)` and
`nf - floor(ms/2)` receives exactly `0`, these two cases exhaust `[0, nf)`, and the
result on `[0, nf)` is the same whatever `fw` held before. -/
theorem deconvolve_1d_backward_overwrites (P : Plan)
    (hdir : P.spread_direction = SpreadDirection.INTERP)
    (hms : 0 ≤ P.grid_dims_ 0) (hnf : P.grid_dims_ 0 ≤ P.fine_dims_ 0)
    (fk fw : ℤ → DType) (prefactor : ℚ) :
    (∀ k, -(P.grid_dims_ 0 / 2) ≤ k → k ≤ (P.grid_dims_ 0 - 1) / 2 →
      (deconvolve_1d P fk fw 0 0 prefactor).2 (k % P.fine_dims_ 0) =
        deconvVal prefactor (fk (modePos P.mode_order (P.grid_dims_ 0) k))
          (P.fseries_data_ 0 |k|)) ∧
    (∀ i, (P.grid_dims_ 0 - 1) / 2 < i → i < P.fine_dims_ 0 - P.grid_dims_ 0 / 2 →
      (deconvolve_1d P fk fw 0 0 prefactor).2 i = DType.zero) ∧
    (∀ i, 0 ≤ i → i < P.fine_dims_ 0 →
      (∃ k, -(P.grid_dims_ 0 / 2) ≤ k ∧ k ≤ (P.grid_dims_ 0 - 1) / 2 ∧ k % P.fine_dims_ 0 = i) ∨
      ((P.grid_dims_ 0 - 1) / 2 < i ∧ i < P.fine_dims_ 0 - P.grid_dims_ 0 / 2)) ∧
    (∀ fw2 i, 0 ≤ i → i < P.fine_dims_ 0 →
      (deconvolve_1d P fk fw 0 0 prefactor).2 i = (deconvolve_1d P fk fw2 0 0 prefactor).2 i) ∧
    (deconvolve_1d P fk fw 0 0 prefactor).1 = fk :=
  deconvolve_1d_interp_modes P hdir hms hnf fk fw prefactor

theorem deconvolve_1d_backward_overwrites_witness :
    (∀ k, -((planFourModes ModeOrder.CMCL SpreadDirection.INTERP).grid_dims_ 0 / 2) ≤ k →
        k ≤ ((planFourModes ModeOrder.CMCL SpreadDirection.INTERP).grid_dims_ 0 - 1) / 2 →
      (deconvolve_1d (planFourModes ModeOrder.CMCL SpreadDirection.INTERP)
          sampleArray sampleArray 0 0 1).2
        (k % (planFourModes ModeOrder.CMCL SpreadDirection.INTERP).fine_dims_ 0) =
        deconvVal 1
          (sampleArray (modePos (planFourModes ModeOrder.CMCL SpreadDirection.INTERP).mode_order
            ((planFourModes ModeOrder.CMCL SpreadDirection.INTERP).grid_dims_ 0) k))
          ((planFourModes ModeOrder.CMCL SpreadDirection.INTERP).fseries_data_ 0 |k|)) ∧
    (∀ i, ((planFourModes ModeOrder.CMCL SpreadDirection.INTERP).grid_dims_ 0 - 1) / 2 < i →
        i < (planFourModes ModeOrder.CMCL SpreadDirection.INTERP).fine_dims_ 0 -
          (planFourModes ModeOrder.CMCL SpreadDirection.INTERP).grid_dims_ 0 / 2 →
      (deconvolve_1d (planFourModes ModeOrder.CMCL SpreadDirection.INTERP)
          sampleArray sampleArray 0 0 1).2 i = DType.zero) ∧
    (∀ i, 0 ≤ i → i < (planFourModes ModeOrder.CMCL SpreadDirection.INTERP).fine_dims_ 0 →
      (∃ k, -((planFourModes ModeOrder.CMCL SpreadDirection.INTERP).grid_dims_ 0 / 2) ≤ k ∧
        k ≤ ((planFourModes ModeOrder.CMCL SpreadDirection.INTERP).grid_dims_ 0 - 1) / 2 ∧
        k % (planFourModes ModeOrder.CMCL SpreadDirection.INTERP).fine_dims_ 0 = i) ∨
      (((planFourModes ModeOrder.CMCL SpreadDirection.INTERP).grid_dims_ 0 - 1) / 2 < i ∧
        i < (planFourModes ModeOrder.CMCL SpreadDirection.INTERP).fine_dims_ 0 -
          (planFourModes ModeOrder.CMCL SpreadDirection.INTERP).grid_dims_ 0 / 2)) ∧
    (∀ fw2 i, 0 ≤ i → i < (planFourModes ModeOrder.CMCL SpreadDirection.INTERP).fine_dims_ 0 →
      (deconvolve_1d (planFourModes ModeOrder.CMCL SpreadDirection.INTERP)
          sampleArray sampleArray 0 0 1).2 i =
      (deconvolve_1d (planFourModes ModeOrder.CMCL SpreadDirection.INTERP)
          sampleArray fw2 0 0 1).2 i) ∧
    (deconvolve_1d (planFourModes ModeOrder.CMCL SpreadDirection.INTERP)
        sampleArray sampleArray 0 0 1).1 = sampleArray :=
  deconvolve_1d_backward_overwrites (planFourModes ModeOrder.CMCL SpreadDirection.INTERP) rfl
    (by decide) (by decide) sampleArray sampleArray 1

/-- The forward result at position `i`, in terms of the mode stored there. -/
theorem deconvolve_1d_spread_at (P : Plan)
    (hdir : P.spread_direction = SpreadDirection.SPREAD)
    (hms : 0 ≤ P.grid_dims_ 0) (hnf : P.grid_dims_ 0 ≤ P.fine_dims_ 0)
    (fk fw : ℤ → DType) (prefactor : ℚ) (i : ℤ) (h0 : 0 ≤ i) (h1 : i < P.grid_dims_ 0) :
    (deconvolve_1d P fk fw 0 0 prefactor).1 i =
      deconvVal prefactor (fw (modeAt P.mode_order (P.grid_dims_ 0) i % P.fine_dims_ 0))
        (P.fseries_data_ 0 |modeAt P.mode_order (P.grid_dims_ 0) i|) := by
  obtain ⟨a, b, c⟩ := modePos_modeAt P.mode_order (P.grid_dims_ 0) i h0 h1
  have := (deconvolve_1d_spread_modes P hdir hms hnf fk fw prefactor).1 _ a b
  rw [c] at this
  exact this

/-- C7: for the same `fw`, coefficients and prefactor, the forward `deconvolve_1d`
output in CMCL order is the FFT-order output re-indexed:
`fk_cmcl[i] = fk_fft[(i - floor(ms/2)) mod ms]` for every `i` in `[0, ms)`. -/
theorem deconvolve_1d_cmcl_reindexes_fft (P : Plan)
    (hdir : P.spread_direction = SpreadDirection.SPREAD)
    (fk fw : ℤ → DType) (prefactor : ℚ) (i : ℤ) (h0 : 0 ≤ i) (h1 : i < P.grid_dims_ 0) :
    (deconvolve_1d { P with mode_order := ModeOrder.CMCL } fk fw 0 0 prefactor).1 i =
      (deconvolve_1d { P with mode_order := ModeOrder.FFT } fk fw 0 0 prefactor).1
        ((i - P.grid_dims_ 0 / 2) % P.grid_dims_ 0) := by
  have hms : 0 ≤ P.grid_dims_ 0 := by omega
  rw [deconvolve_1d_spread { P with mode_order := ModeOrder.CMCL } hdir hms,
    deconvolve_1d_spread { P with mode_order := ModeOrder.FFT } hdir hms]
  simp only [negBase, posBase]
  by_cases hneg : i - P.grid_dims_ 0 / 2 < 0
  · rw [emod_of_neg_range _ _ (by omega) hneg]
    have c1 : -(P.grid_dims_ 0 / 2) ≤ i - (0 + P.grid_dims_ 0 / 2) ∧
        i - (0 + P.grid_dims_ 0 / 2) < 0 := by omega
    have c2 : -(P.grid_dims_ 0 / 2) ≤
        i - P.grid_dims_ 0 / 2 + P.grid_dims_ 0 - (0 + P.grid_dims_ 0) ∧
        i - P.grid_dims_ 0 / 2 + P.grid_dims_ 0 - (0 + P.grid_dims_ 0) < 0 := by omega
    rw [if_pos c1, if_pos c2]
    have e : i - P.grid_dims_ 0 / 2 + P.grid_dims_ 0 - (0 + P.grid_dims_ 0) =
        i - (0 + P.grid_dims_ 0 / 2) := by ring
    rw [e]
  · rw [emod_of_range _ _ (by omega) (by omega)]
    have c1 : ¬ (-(P.grid_dims_ 0 / 2) ≤ i - (0 + P.grid_dims_ 0 / 2) ∧
        i - (0 + P.grid_dims_ 0 / 2) < 0) := by omega
    have c2 : ¬ (-(P.grid_dims_ 0 / 2) ≤ i - P.grid_dims_ 0 / 2 - (0 + P.grid_dims_ 0) ∧
        i - P.grid_dims_ 0 / 2 - (0 + P.grid_dims_ 0) < 0) := by omega
    have c3 : 0 ≤ i - (0 + P.grid_dims_ 0 / 2) ∧
        i - (0 + P.grid_dims_ 0 / 2) < (P.grid_dims_ 0 - 1) / 2 + 1 := by omega
    have c4 : 0 ≤ i - P.grid_dims_ 0 / 2 - (0 + 0) ∧
        i - P.grid_dims_ 0 / 2 - (0 + 0) < (P.grid_dims_ 0 - 1) / 2 + 1 := by omega
    rw [if_neg c1, if_neg c2, if_pos c3, if_pos c4]
    have e : i - P.grid_dims_ 0 / 2 - (0 + 0) = i - (0 + P.grid_dims_ 0 / 2) := by ring
    rw [e]

theorem deconvolve_1d_cmcl_reindexes_fft_witness :
    (planFourModes ModeOrder.FFT SpreadDirection.SPREAD).spread_direction =
      SpreadDirection.SPREAD ∧
    (deconvolve_1d { planFourModes ModeOrder.FFT SpreadDirection.SPREAD with
        mode_order := ModeOrder.CMCL } sampleArray sampleArray 0 0 1).1 1 =
      (deconvolve_1d { planFourModes ModeOrder.FFT SpreadDirection.SPREAD with
        mode_order := ModeOrder.FFT } sampleArray sampleArray 0 0 1).1
        ((1 - (planFourModes ModeOrder.FFT SpreadDirection.SPREAD).grid_dims_ 0 / 2) %
          (planFourModes ModeOrder.FFT SpreadDirection.SPREAD).grid_dims_ 0) :=
  ⟨rfl, deconvolve_1d_cmcl_reindexes_fft (planFourModes ModeOrder.FFT SpreadDirection.SPREAD)
    rfl sampleArray sampleArray 1 1 (by decide) (by decide)⟩

/-- C3, as stated, fails: on a one-mode plan with `nf = 2 ≥ ms = 1`, coefficient `2`
and unit prefactors, backward then forward `deconvolve_1d` returns `fk[0] / 4`
instead of the original `fk[0] = (0, 1)`. -/
theorem deconvolve_1d_roundtrip_not_identity :
    (planOneMode SpreadDirection.SPREAD).grid_dims_ 0 ≤
      (planOneMode SpreadDirection.SPREAD).fine_dims_ 0 ∧
    (∀ k, (planOneMode SpreadDirection.SPREAD).fseries_data_ 0 k ≠ 0) ∧
    (deconvolve_1d (planOneMode SpreadDirection.SPREAD) sampleArray
      (deconvolve_1d (planOneMode SpreadDirection.INTERP) sampleArray sampleArray 0 0 1).2
      0 0 1).1 0 = ⟨0, 1 / 4⟩ ∧
    (deconvolve_1d (planOneMode SpreadDirection.SPREAD) sampleArray
      (deconvolve_1d (planOneMode SpreadDirection.INTERP) sampleArray sampleArray 0 0 1).2
      0 0 1).1 0 ≠ sampleArray 0 := by
  have hv : (deconvolve_1d (planOneMode SpreadDirection.SPREAD) sampleArray
      (deconvolve_1d (planOneMode SpreadDirection.INTERP) sampleArray sampleArray 0 0 1).2
      0 0 1).1 0 = ⟨0, 1 / 4⟩ := by
    rw [deconvolve_1d_spread (planOneMode SpreadDirection.SPREAD) rfl (by decide),
      deconvolve_1d_interp (planOneMode SpreadDirection.INTERP) rfl (by decide)]
    simp [planOneMode, negBase, posBase, deconvVal, DType.scale, DType.divReal, sampleArray]
    norm_num
  refine ⟨by decide, ?_, hv, ?_⟩
  · intro k; simp [planOneMode]
  · rw [hv]; simp [sampleArray]

/-- C3 (amended): on a plan with `0 ≤ ms ≤ nf`, backward `deconvolve_1d` with
prefactor `pb` followed by forward `deconvolve_1d` with prefactor `pf` returns at
every position `i` of `[0, ms)` the value `pf * (pb * fk[i] / c) / c`, where `c` is
the Fourier-series coefficient of the mode stored at `i`; the original `fk[i]` is
recovered when `c ≠ 0` and `c * c = pb * pf`. -/
theorem deconvolve_1d_roundtrip_scaled (P : Plan)
    (hms : 0 ≤ P.grid_dims_ 0) (hnf : P.grid_dims_ 0 ≤ P.fine_dims_ 0)
    (fk fw out : ℤ → DType) (pb pf : ℚ) (i : ℤ) (h0 : 0 ≤ i) (h1 : i < P.grid_dims_ 0) :
    (deconvolve_1d { P with spread_direction := SpreadDirection.SPREAD } out
      (deconvolve_1d { P with spread_direction := SpreadDirection.INTERP } fk fw 0 0 pb).2
      0 0 pf).1 i =
      deconvVal pf
        (deconvVal pb (fk i) (P.fseries_data_ 0 |modeAt P.mode_order (P.grid_dims_ 0) i|))
        (P.fseries_data_ 0 |modeAt P.mode_order (P.grid_dims_ 0) i|) ∧
    (P.fseries_data_ 0 |modeAt P.mode_order (P.grid_dims_ 0) i| ≠ 0 →
      P.fseries_data_ 0 |modeAt P.mode_order (P.grid_dims_ 0) i| *
        P.fseries_data_ 0 |modeAt P.mode_order (P.grid_dims_ 0) i| = pb * pf →
      (deconvolve_1d { P with spread_direction := SpreadDirection.SPREAD } out
        (deconvolve_1d { P with spread_direction := SpreadDirection.INTERP } fk fw 0 0 pb).2
        0 0 pf).1 i = fk i) := by
  obtain ⟨a, b, c⟩ := modePos_modeAt P.mode_order (P.grid_dims_ 0) i h0 h1
  have hf := deconvolve_1d_spread_at { P with spread_direction := SpreadDirection.SPREAD }
    rfl hms hnf out
    (deconvolve_1d { P with spread_direction := SpreadDirection.INTERP } fk fw 0 0 pb).2
    pf i h0 h1
  have hb := (deconvolve_1d_interp_modes { P with spread_direction := SpreadDirection.INTERP }
    rfl hms hnf fk fw pb).1 _ a b
  simp only at hf hb
  rw [c] at hb
  rw [hb] at hf
  refine ⟨hf, ?_⟩
  intro hc hcc
  rw [hf]
  ext
  · simp only [deconvVal, DType.scale, DType.divReal]
    field_simp
    rw [hcc]; ring
  · simp only [deconvVal, DType.scale, DType.divReal]
    field_simp
    rw [hcc]; ring

theorem deconvolve_1d_roundtrip_scaled_witness :
    (planFourModes ModeOrder.CMCL SpreadDirection.SPREAD).grid_dims_ 0 ≤
      (planFourModes ModeOrder.CMCL SpreadDirection.SPREAD).fine_dims_ 0 ∧
    ((deconvolve_1d { planFourModes ModeOrder.CMCL SpreadDirection.SPREAD with
        spread_direction := SpreadDirection.SPREAD } sampleArray
      (deconvolve_1d { planFourModes ModeOrder.CMCL SpreadDirection.SPREAD with
        spread_direction := SpreadDirection.INTERP } sampleArray sampleArray 0 0 1).2
      0 0 4).1 3 =
      deconvVal 4
        (deconvVal 1 (sampleArray 3)
          ((planFourModes ModeOrder.CMCL SpreadDirection.SPREAD).fseries_data_ 0
            |modeAt (planFourModes ModeOrder.CMCL SpreadDirection.SPREAD).mode_order
              ((planFourModes ModeOrder.CMCL SpreadDirection.SPREAD).grid_dims_ 0) 3|))
        ((planFourModes ModeOrder.CMCL SpreadDirection.SPREAD).fseries_data_ 0
          |modeAt (planFourModes ModeOrder.CMCL SpreadDirection.SPREAD).mode_order
            ((planFourModes ModeOrder.CMCL SpreadDirection.SPREAD).grid_dims_ 0) 3|) ∧
    ((planFourModes ModeOrder.CMCL SpreadDirection.SPREAD).fseries_data_ 0
        |modeAt (planFourModes ModeOrder.CMCL SpreadDirection.SPREAD).mode_order
          ((planFourModes ModeOrder.CMCL SpreadDirection.SPREAD).grid_dims_ 0) 3| ≠ 0 →
      (planFourModes ModeOrder.CMCL SpreadDirection.SPREAD).fseries_data_ 0
        |modeAt (planFourModes ModeOrder.CMCL SpreadDirection.SPREAD).mode_order
          ((planFourModes ModeOrder.CMCL SpreadDirection.SPREAD).grid_dims_ 0) 3| *
      (planFourModes ModeOrder.CMCL SpreadDirection.SPREAD).fseries_data_ 0
        |modeAt (planFourModes ModeOrder.CMCL SpreadDirection.SPREAD).mode_order
          ((planFourModes ModeOrder.CMCL SpreadDirection.SPREAD).grid_dims_ 0) 3| = 1 * 4 →
      (deconvolve_1d { planFourModes ModeOrder.CMCL SpreadDirection.SPREAD with
          spread_direction := SpreadDirection.SPREAD } sampleArray
        (deconvolve_1d { planFourModes ModeOrder.CMCL SpreadDirection.SPREAD with
          spread_direction := SpreadDirection.INTERP } sampleArray sampleArray 0 0 1).2
        0 0 4).1 3 = sampleArray 3)) :=
  ⟨by decide, deconvolve_1d_roundtrip_scaled (planFourModes ModeOrder.CMCL SpreadDirection.SPREAD)
    (by decide) (by decide) sampleArray sampleArray sampleArray 1 4 3 (by decide) (by decide)⟩

/-- A loop whose iteration `k` rewrites, through a counter `pp` advanced by `w`,
the block `[c + pp, c + pp + w)` of the first array and nothing else: afterwards
every block holds what its iteration stored, and everything outside the blocks is
untouched. -/
theorem forRange_blocks {α ι : Type} (lo hi : ℤ) (hle : lo ≤ hi) (w c pp0 : ℤ) (hw : 0 ≤ w)
    (op : ℤ → ℤ → (ℤ → α) × (ℤ → α) → (ℤ → α) × (ℤ → α))
    (J : ι → Prop) (pos : ι → ℤ) (val : ℤ → ι → (ℤ → α) → α)
    (hpos : ∀ x, J x → 0 ≤ pos x ∧ pos x < w)
    (hop : ∀ k pp (s : (ℤ → α) × (ℤ → α)), lo ≤ k → k < hi →
      (∀ x, J x → (op k pp s).1 (c + pp + pos x) = val k x s.2) ∧
      (∀ i, i < c + pp ∨ c + pp + w ≤ i → (op k pp s).1 i = s.1 i) ∧
      (op k pp s).2 = s.2)
    (s : (ℤ → α) × (ℤ → α)) :
    (∀ k x, lo ≤ k → k < hi → J x →
      (forRange lo hi (fun k (st : ((ℤ → α) × (ℤ → α)) × ℤ) => (op k st.2 st.1, st.2 + w))
        (s, pp0)).1.1 (c + pp0 + w * (k - lo) + pos x) = val k x s.2) ∧
    (∀ i, i < c + pp0 ∨ c + pp0 + w * (hi - lo) ≤ i →
      (forRange lo hi (fun k (st : ((ℤ → α) × (ℤ → α)) × ℤ) => (op k st.2 st.1, st.2 + w))
        (s, pp0)).1.1 i = s.1 i) ∧
    (forRange lo hi (fun k (st : ((ℤ → α) × (ℤ → α)) × ℤ) => (op k st.2 st.1, st.2 + w))
      (s, pp0)).1.2 = s.2 := by
  have key := forRange_induct
    (fun K (st : ((ℤ → α) × (ℤ → α)) × ℤ) =>
      st.2 = pp0 + w * (K - lo) ∧
      (∀ k x, lo ≤ k → k < K → J x →
        st.1.1 (c + pp0 + w * (k - lo) + pos x) = val k x s.2) ∧
      (∀ i, i < c + pp0 ∨ c + pp0 + w * (K - lo) ≤ i → st.1.1 i = s.1 i) ∧ st.1.2 = s.2)
    lo hi (fun k (st : ((ℤ → α) × (ℤ → α)) × ℤ) => (op k st.2 st.1, st.2 + w)) (s, pp0) hle
    ?_ ?_
  · exact key.2
  · refine ⟨by simp, ?_, fun i _ => rfl, rfl⟩
    intro k x h0 h1; omega
  · rintro K st hK0 hK1 ⟨ihP, ihA, ihB, ihC⟩
    obtain ⟨oA, oB, oC⟩ := hop K st.2 st.1 hK0 hK1
    have hKw : 0 ≤ w * (K - lo) := mul_nonneg hw (by omega)
    beta_reduce
    refine ⟨by rw [ihP]; ring, ?_, ?_, ?_⟩
    · intro k x h0 h1 hx
      by_cases hk : k = K
      · subst hk
        rw [← ihC, ← oA x hx]
        show (op k st.2 st.1).1 _ = _
        rw [ihP]; ring_nf
      · have hp := hpos x hx
        have hlt : w * (k - lo) + w ≤ w * (K - lo) := by
          have : w * (k - lo) + w = w * (k - lo + 1) := by ring
          rw [this]
          exact mul_le_mul_of_nonneg_left (by omega) hw
        show (op K st.2 st.1).1 _ = _
        rw [oB _ (Or.inl (by rw [ihP]; omega))]
        exact ihA k x h0 (by omega) hx
    · intro i hi
      have e : w * (K + 1 - lo) = w * (K - lo) + w := by ring
      rw [e] at hi
      show (op K st.2 st.1).1 _ = _
      rw [oB i (by rw [ihP]; omega)]
      exact ihB i (by omega)
    · show (op K st.2 st.1).2 = _
      rw [oC]; exact ihC

/-- Forward (SPREAD) `deconvolve_1d` at arbitrary base offsets, mode by mode. -/
theorem deconvolve_1d_spread_off (P : Plan)
    (hdir : P.spread_direction = SpreadDirection.SPREAD)
    (hms : 0 ≤ P.grid_dims_ 0) (hnf : P.grid_dims_ 0 ≤ P.fine_dims_ 0)
    (fk fw : ℤ → DType) (fkOff fwOff : ℤ) (prefactor : ℚ) :
    (∀ k, (-(P.grid_dims_ 0 / 2) ≤ k ∧ k ≤ (P.grid_dims_ 0 - 1) / 2) →
      (deconvolve_1d P fk fw fkOff fwOff prefactor).1
        (fkOff + modePos P.mode_order (P.grid_dims_ 0) k) =
        deconvVal prefactor (fw (fwOff + k % P.fine_dims_ 0)) (P.fseries_data_ 0 |k|)) ∧
    (∀ i, i < fkOff ∨ fkOff + P.grid_dims_ 0 ≤ i →
      (deconvolve_1d P fk fw fkOff fwOff prefactor).1 i = fk i) ∧
    (deconvolve_1d P fk fw fkOff fwOff prefactor).2 = fw := by
  rw [deconvolve_1d_spread P hdir hms]
  refine ⟨?_, ?_, rfl⟩
  · rintro k ⟨h0, h1⟩
    rw [modePos_eq _ _ k h0 h1, fwIndex_eq _ _ k hnf h0 h1]
    by_cases hk : 0 ≤ k
    · simp only [if_pos hk]
      have c1 : ¬ (-(P.grid_dims_ 0 / 2) ≤
          fkOff + (posBase P.mode_order (P.grid_dims_ 0) + k) -
            (fkOff + negBase P.mode_order (P.grid_dims_ 0)) ∧
          fkOff + (posBase P.mode_order (P.grid_dims_ 0) + k) -
            (fkOff + negBase P.mode_order (P.grid_dims_ 0)) < 0) := by
        cases P.mode_order <;> simp only [posBase, negBase] <;> omega
      have c2 : 0 ≤ fkOff + (posBase P.mode_order (P.grid_dims_ 0) + k) -
            (fkOff + posBase P.mode_order (P.grid_dims_ 0)) ∧
          fkOff + (posBase P.mode_order (P.grid_dims_ 0) + k) -
            (fkOff + posBase P.mode_order (P.grid_dims_ 0)) < (P.grid_dims_ 0 - 1) / 2 + 1 := by
        omega
      rw [if_neg c1, if_pos c2, abs_of_nonneg hk]
      have e : fkOff + (posBase P.mode_order (P.grid_dims_ 0) + k) -
          (fkOff + posBase P.mode_order (P.grid_dims_ 0)) = k := by ring
      rw [e]
    · simp only [if_neg hk]
      have c1 : -(P.grid_dims_ 0 / 2) ≤
          fkOff + (negBase P.mode_order (P.grid_dims_ 0) + k) -
            (fkOff + negBase P.mode_order (P.grid_dims_ 0)) ∧
          fkOff + (negBase P.mode_order (P.grid_dims_ 0) + k) -
            (fkOff + negBase P.mode_order (P.grid_dims_ 0)) < 0 := by
        omega
      rw [if_pos c1, abs_of_neg (by omega)]
      have e : fkOff + (negBase P.mode_order (P.grid_dims_ 0) + k) -
          (fkOff + negBase P.mode_order (P.grid_dims_ 0)) = k := by ring
      rw [e]
  · intro i hi
    have c1 : ¬ (-(P.grid_dims_ 0 / 2) ≤ i - (fkOff + negBase P.mode_order (P.grid_dims_ 0)) ∧
        i - (fkOff + negBase P.mode_order (P.grid_dims_ 0)) < 0) := by
      cases P.mode_order <;> simp only [posBase, negBase] <;> omega
    have c2 : ¬ (0 ≤ i - (fkOff + posBase P.mode_order (P.grid_dims_ 0)) ∧
        i - (fkOff + posBase P.mode_order (P.grid_dims_ 0)) < (P.grid_dims_ 0 - 1) / 2 + 1) := by
      cases P.mode_order <;> simp only [posBase, negBase] <;> omega
    simp only [if_neg c1, if_neg c2]

/-- The loop pair of the deconvolver: blocks of the non-negative modes
`0, ..., floor((m-1)/2)` starting at counter `pp0`, then blocks of the negative modes
`-floor(m/2), ..., -1` starting at counter `pn0`.  Afterwards the block of mode `k`
sits at block position `modePos order m k`. -/
theorem forRange_two_chunks {α ι : Type} (order : ModeOrder) (m w c pp0 pn0 : ℤ)
    (hm : 0 ≤ m) (hw : 0 ≤ w)
    (hpp : pp0 = w * posBase order m) (hpn : pn0 = w * (negBase order m - m / 2))
    (opP opN : ℤ → ℤ → (ℤ → α) × (ℤ → α) → (ℤ → α) × (ℤ → α))
    (J : ι → Prop) (pos : ι → ℤ) (valP valN : ℤ → ι → (ℤ → α) → α)
    (hpos : ∀ x, J x → 0 ≤ pos x ∧ pos x < w)
    (hopP : ∀ k pp (s : (ℤ → α) × (ℤ → α)), 0 ≤ k → k < (m - 1) / 2 + 1 →
      (∀ x, J x → (opP k pp s).1 (c + pp + pos x) = valP k x s.2) ∧
      (∀ i, i < c + pp ∨ c + pp + w ≤ i → (opP k pp s).1 i = s.1 i) ∧
      (opP k pp s).2 = s.2)
    (hopN : ∀ k pp (s : (ℤ → α) × (ℤ → α)), -(m / 2) ≤ k → k < 0 →
      (∀ x, J x → (opN k pp s).1 (c + pp + pos x) = valN k x s.2) ∧
      (∀ i, i < c + pp ∨ c + pp + w ≤ i → (opN k pp s).1 i = s.1 i) ∧
      (opN k pp s).2 = s.2)
    (s : (ℤ → α) × (ℤ → α)) :
    (∀ k x, -(m / 2) ≤ k → k ≤ (m - 1) / 2 → J x →
      (forRange (-(m / 2)) 0
        (fun k (st : ((ℤ → α) × (ℤ → α)) × ℤ) => (opN k st.2 st.1, st.2 + w))
        ((forRange 0 ((m - 1) / 2 + 1)
          (fun k (st : ((ℤ → α) × (ℤ → α)) × ℤ) => (opP k st.2 st.1, st.2 + w))
          (s, pp0)).1, pn0)).1.1 (c + w * modePos order m k + pos x) =
        if 0 ≤ k then valP k x s.2 else valN k x s.2) ∧
    (∀ i, i < c ∨ c + w * m ≤ i →
      (forRange (-(m / 2)) 0
        (fun k (st : ((ℤ → α) × (ℤ → α)) × ℤ) => (opN k st.2 st.1, st.2 + w))
        ((forRange 0 ((m - 1) / 2 + 1)
          (fun k (st : ((ℤ → α) × (ℤ → α)) × ℤ) => (opP k st.2 st.1, st.2 + w))
          (s, pp0)).1, pn0)).1.1 i = s.1 i) ∧
    (forRange (-(m / 2)) 0
        (fun k (st : ((ℤ → α) × (ℤ → α)) × ℤ) => (opN k st.2 st.1, st.2 + w))
        ((forRange 0 ((m - 1) / 2 + 1)
          (fun k (st : ((ℤ → α) × (ℤ → α)) × ℤ) => (opP k st.2 st.1, st.2 + w))
          (s, pp0)).1, pn0)).1.2 = s.2 := by
  obtain ⟨pA, pB, pC⟩ := forRange_blocks 0 ((m - 1) / 2 + 1) (by omega) w c pp0 hw opP J pos
    valP hpos hopP s
  obtain ⟨nA, nB, nC⟩ := forRange_blocks (-(m / 2)) 0 (by omega) w c pn0 hw opN J pos
    valN hpos hopN
    (forRange 0 ((m - 1) / 2 + 1)
      (fun k (st : ((ℤ → α) × (ℤ → α)) × ℤ) => (opP k st.2 st.1, st.2 + w)) (s, pp0)).1
  -- block positions of the two chunks
  have hb1 : 0 ≤ posBase order m ∧ posBase order m + ((m - 1) / 2 + 1) ≤ m := by
    cases order <;> simp only [posBase] <;> omega
  have hb2 : 0 ≤ negBase order m - m / 2 ∧ negBase order m ≤ m := by
    cases order <;> simp only [negBase] <;> omega
  have hb3 : negBase order m ≤ posBase order m ∨
      posBase order m + ((m - 1) / 2 + 1) ≤ negBase order m - m / 2 := by
    cases order <;> simp only [posBase, negBase] <;> omega
  refine ⟨?_, ?_, ?_⟩
  · intro k x h0 h1 hx
    have hp := hpos x hx
    rw [modePos_eq order m k h0 h1]
    by_cases hk : 0 ≤ k
    · rw [if_pos hk, if_pos hk]
      have e : c + w * (posBase order m + k) + pos x = c + pp0 + w * (k - 0) + pos x := by
        rw [hpp]; ring
      -- the negative chunk does not touch this block
      have hout : c + w * (posBase order m + k) + pos x < c + pn0 ∨
          c + pn0 + w * (0 - -(m / 2)) ≤ c + w * (posBase order m + k) + pos x := by
        rw [hpn]
        rcases hb3 with h | h
        · right
          have h' : w * (negBase order m) ≤ w * (posBase order m + k) :=
            mul_le_mul_of_nonneg_left (by omega) hw
          have e2 : w * (negBase order m - m / 2) + w * (0 - -(m / 2)) = w * negBase order m := by
            ring
          omega
        · left
          have h' : w * (posBase order m + k) + w ≤ w * (negBase order m - m / 2) := by
            have : w * (posBase order m + k) + w = w * (posBase order m + k + 1) := by ring
            rw [this]
            exact mul_le_mul_of_nonneg_left (by omega) hw
          omega
      rw [nB _ hout, e]
      exact pA k x hk (by omega) hx
    · rw [if_neg hk, if_neg hk]
      have e : c + w * (negBase order m + k) + pos x =
          c + pn0 + w * (k - -(m / 2)) + pos x := by
        rw [hpn]; ring
      rw [e, nA k x h0 (by omega) hx, pC]
  · intro i hi
    have h1 : w * posBase order m + w * ((m - 1) / 2 + 1 - 0) ≤ w * m := by
      have : w * posBase order m + w * ((m - 1) / 2 + 1 - 0) =
          w * (posBase order m + ((m - 1) / 2 + 1)) := by ring
      rw [this]
      exact mul_le_mul_of_nonneg_left hb1.2 hw
    have h2 : w * (negBase order m - m / 2) + w * (0 - -(m / 2)) ≤ w * m := by
      have : w * (negBase order m - m / 2) + w * (0 - -(m / 2)) = w * negBase order m := by ring
      rw [this]
      exact mul_le_mul_of_nonneg_left hb2.2 hw
    have h3 : 0 ≤ w * posBase order m := mul_nonneg hw hb1.1
    have h4 : 0 ≤ w * (negBase order m - m / 2) := mul_nonneg hw hb2.1
    rw [nB i (by rw [hpn]; omega), pB i (by rw [hpp]; omega)]
  · rw [nC, pC]

/-- The two row loops of forward `deconvolve_2d`, from any start counters that
place the non-negative and the negative chunk as the mode order prescribes. -/
theorem deconvolve_2d_loops (P : Plan)
    (hdir : P.spread_direction = SpreadDirection.SPREAD)
    (hms : 0 ≤ P.grid_dims_ 0) (hnf1 : P.grid_dims_ 0 ≤ P.fine_dims_ 0)
    (hmt : 0 ≤ P.grid_dims_ 1) (hnf2 : P.grid_dims_ 1 ≤ P.fine_dims_ 1)
    (s : (ℤ → DType) × (ℤ → DType)) (fkOff fwOff : ℤ) (prefactor : ℚ) (pp0 pn0 : ℤ)
    (hpp : pp0 = P.grid_dims_ 0 * posBase P.mode_order (P.grid_dims_ 1))
    (hpn : pn0 = P.grid_dims_ 0 * (negBase P.mode_order (P.grid_dims_ 1) - P.grid_dims_ 1 / 2)) :
    (∀ k : ℤ × ℤ,
      ((-(P.grid_dims_ 0 / 2) ≤ k.1 ∧ k.1 ≤ (P.grid_dims_ 0 - 1) / 2) ∧
        (-(P.grid_dims_ 1 / 2) ≤ k.2 ∧ k.2 ≤ (P.grid_dims_ 1 - 1) / 2)) →
      (forRange (-(P.grid_dims_ 1 / 2)) 0
        (fun k2 (st : ((ℤ → DType) × (ℤ → DType)) × ℤ) =>
          (deconvolve_1d P st.1.1 st.1.2 (fkOff + st.2)
            (fwOff + P.fine_dims_ 0 * (P.fine_dims_ 1 + k2))
            (prefactor / P.fseries_data_ 1 (-k2)), st.2 + P.grid_dims_ 0))
        ((forRange 0 ((P.grid_dims_ 1 - 1) / 2 + 1)
          (fun k2 (st : ((ℤ → DType) × (ℤ → DType)) × ℤ) =>
            (deconvolve_1d P st.1.1 st.1.2 (fkOff + st.2) (fwOff + P.fine_dims_ 0 * k2)
              (prefactor / P.fseries_data_ 1 k2), st.2 + P.grid_dims_ 0))
          (s, pp0)).1, pn0)).1.1
        (fkOff + (modePos P.mode_order (P.grid_dims_ 0) k.1 +
          P.grid_dims_ 0 * modePos P.mode_order (P.grid_dims_ 1) k.2)) =
        deconvVal (prefactor / P.fseries_data_ 1 |k.2|)
          (s.2 (fwOff + (k.1 % P.fine_dims_ 0 + P.fine_dims_ 0 * (k.2 % P.fine_dims_ 1))))
          (P.fseries_data_ 0 |k.1|)) ∧
    (∀ i, i < fkOff ∨ fkOff + P.grid_dims_ 0 * P.grid_dims_ 1 ≤ i →
      (forRange (-(P.grid_dims_ 1 / 2)) 0
        (fun k2 (st : ((ℤ → DType) × (ℤ → DType)) × ℤ) =>
          (deconvolve_1d P st.1.1 st.1.2 (fkOff + st.2)
            (fwOff + P.fine_dims_ 0 * (P.fine_dims_ 1 + k2))
            (prefactor / P.fseries_data_ 1 (-k2)), st.2 + P.grid_dims_ 0))
        ((forRange 0 ((P.grid_dims_ 1 - 1) / 2 + 1)
          (fun k2 (st : ((ℤ → DType) × (ℤ → DType)) × ℤ) =>
            (deconvolve_1d P st.1.1 st.1.2 (fkOff + st.2) (fwOff + P.fine_dims_ 0 * k2)
              (prefactor / P.fseries_data_ 1 k2), st.2 + P.grid_dims_ 0))
          (s, pp0)).1, pn0)).1.1 i = s.1 i) ∧
    (forRange (-(P.grid_dims_ 1 / 2)) 0
        (fun k2 (st : ((ℤ → DType) × (ℤ → DType)) × ℤ) =>
          (deconvolve_1d P st.1.1 st.1.2 (fkOff + st.2)
            (fwOff + P.fine_dims_ 0 * (P.fine_dims_ 1 + k2))
            (prefactor / P.fseries_data_ 1 (-k2)), st.2 + P.grid_dims_ 0))
        ((forRange 0 ((P.grid_dims_ 1 - 1) / 2 + 1)
          (fun k2 (st : ((ℤ → DType) × (ℤ → DType)) × ℤ) =>
            (deconvolve_1d P st.1.1 st.1.2 (fkOff + st.2) (fwOff + P.fine_dims_ 0 * k2)
              (prefactor / P.fseries_data_ 1 k2), st.2 + P.grid_dims_ 0))
          (s, pp0)).1, pn0)).1.2 = s.2 := by
  obtain ⟨tA, tB, tC⟩ := forRange_two_chunks P.mode_order (P.grid_dims_ 1) (P.grid_dims_ 0)
    fkOff pp0 pn0 hmt hms hpp hpn
    (fun k2 pp (st : (ℤ → DType) × (ℤ → DType)) =>
      deconvolve_1d P st.1 st.2 (fkOff + pp) (fwOff + P.fine_dims_ 0 * k2)
        (prefactor / P.fseries_data_ 1 k2))
    (fun k2 pp (st : (ℤ → DType) × (ℤ → DType)) =>
      deconvolve_1d P st.1 st.2 (fkOff + pp) (fwOff + P.fine_dims_ 0 * (P.fine_dims_ 1 + k2))
        (prefactor / P.fseries_data_ 1 (-k2)))
    (fun k1 : ℤ => -(P.grid_dims_ 0 / 2) ≤ k1 ∧ k1 ≤ (P.grid_dims_ 0 - 1) / 2)
    (modePos P.mode_order (P.grid_dims_ 0))
    (fun k2 k1 fw => deconvVal (prefactor / P.fseries_data_ 1 k2)
      (fw (fwOff + P.fine_dims_ 0 * k2 + k1 % P.fine_dims_ 0)) (P.fseries_data_ 0 |k1|))
    (fun k2 k1 fw => deconvVal (prefactor / P.fseries_data_ 1 (-k2))
      (fw (fwOff + P.fine_dims_ 0 * (P.fine_dims_ 1 + k2) + k1 % P.fine_dims_ 0))
      (P.fseries_data_ 0 |k1|))
    (fun k1 hk => modePos_range _ _ k1 hk.1 hk.2)
    (fun k2 pp s _ _ => deconvolve_1d_spread_off P hdir hms hnf1 s.1 s.2 _ _ _)
    (fun k2 pp s _ _ => deconvolve_1d_spread_off P hdir hms hnf1 s.1 s.2 _ _ _) s
  refine ⟨?_, tB, tC⟩
  rintro ⟨k1, k2⟩ ⟨hk1, hk2⟩
  have e : fkOff + (modePos P.mode_order (P.grid_dims_ 0) k1 +
      P.grid_dims_ 0 * modePos P.mode_order (P.grid_dims_ 1) k2) =
      fkOff + P.grid_dims_ 0 * modePos P.mode_order (P.grid_dims_ 1) k2 +
        modePos P.mode_order (P.grid_dims_ 0) k1 := by ring
  simp only
  rw [e, tA k2 k1 hk2.1 hk2.2 hk1, fwIndex_eq _ _ k2 hnf2 hk2.1 hk2.2]
  by_cases h : 0 ≤ k2
  · have e2 : fwOff + P.fine_dims_ 0 * k2 + k1 % P.fine_dims_ 0 =
        fwOff + (k1 % P.fine_dims_ 0 + P.fine_dims_ 0 * k2) := by ring
    rw [if_pos h, if_pos h, abs_of_nonneg h, e2]
  · have e2 : fwOff + P.fine_dims_ 0 * (P.fine_dims_ 1 + k2) + k1 % P.fine_dims_ 0 =
        fwOff + (k1 % P.fine_dims_ 0 + P.fine_dims_ 0 * (P.fine_dims_ 1 + k2)) := by ring
    rw [if_neg h, if_neg h, abs_of_neg (show k2 < 0 by omega), e2]

/-- Forward (SPREAD) `deconvolve_2d` at arbitrary base offsets, mode pair by mode
pair. -/
theorem deconvolve_2d_spread_off (P : Plan)
    (hdir : P.spread_direction = SpreadDirection.SPREAD)
    (hms : 0 ≤ P.grid_dims_ 0) (hnf1 : P.grid_dims_ 0 ≤ P.fine_dims_ 0)
    (hmt : 0 ≤ P.grid_dims_ 1) (hnf2 : P.grid_dims_ 1 ≤ P.fine_dims_ 1)
    (fk fw : ℤ → DType) (fkOff fwOff : ℤ) (prefactor : ℚ) :
    (∀ k : ℤ × ℤ,
      ((-(P.grid_dims_ 0 / 2) ≤ k.1 ∧ k.1 ≤ (P.grid_dims_ 0 - 1) / 2) ∧
        (-(P.grid_dims_ 1 / 2) ≤ k.2 ∧ k.2 ≤ (P.grid_dims_ 1 - 1) / 2)) →
      (deconvolve_2d P fk fw fkOff fwOff prefactor).1
        (fkOff + (modePos P.mode_order (P.grid_dims_ 0) k.1 +
          P.grid_dims_ 0 * modePos P.mode_order (P.grid_dims_ 1) k.2)) =
        deconvVal (prefactor / P.fseries_data_ 1 |k.2|)
          (fw (fwOff + (k.1 % P.fine_dims_ 0 + P.fine_dims_ 0 * (k.2 % P.fine_dims_ 1))))
          (P.fseries_data_ 0 |k.1|)) ∧
    (∀ i, i < fkOff ∨ fkOff + P.grid_dims_ 0 * P.grid_dims_ 1 ≤ i →
      (deconvolve_2d P fk fw fkOff fwOff prefactor).1 i = fk i) ∧
    (deconvolve_2d P fk fw fkOff fwOff prefactor).2 = fw := by
  have hk1 : (0 : ℤ) ≤ (P.grid_dims_ 1 - 1) / 2 + 1 := by omega
  have hk2 : -(P.grid_dims_ 1 / 2) ≤ (0 : ℤ) := by omega
  have hne : ¬ (SpreadDirection.SPREAD = SpreadDirection.INTERP) := by decide
  simp only [deconvolve_2d, hdir, if_neg hne, cdiv_neg_two _ hmt, kmax_eq _ hmt]
  cases hmo : P.mode_order
  · simp only []
    have := deconvolve_2d_loops P hdir hms hnf1 hmt hnf2 (fk, fw) fkOff fwOff prefactor 0
      (((P.grid_dims_ 1 - 1) / 2 + 1) * P.grid_dims_ 0)
      (by rw [hmo]; simp [posBase])
      (by rw [hmo]; simp only [negBase]
          have : P.grid_dims_ 1 - P.grid_dims_ 1 / 2 = (P.grid_dims_ 1 - 1) / 2 + 1 := by omega
          rw [this]; ring)
    rw [hmo] at this
    exact this
  · simp only []
    have := deconvolve_2d_loops P hdir hms hnf1 hmt hnf2 (fk, fw) fkOff fwOff prefactor
      (- -(P.grid_dims_ 1 / 2) * P.grid_dims_ 0) 0
      (by rw [hmo]; simp only [posBase]; ring)
      (by rw [hmo]; simp [negBase])
    rw [hmo] at this
    exact this

/-- The position of a mode pair inside a 2-D block lies in the block. -/
theorem modePos2_range (order : ModeOrder) (ms mt k1 k2 : ℤ)
    (h1 : -(ms / 2) ≤ k1 ∧ k1 ≤ (ms - 1) / 2) (h2 : -(mt / 2) ≤ k2 ∧ k2 ≤ (mt - 1) / 2) :
    0 ≤ modePos order ms k1 + ms * modePos order mt k2 ∧
      modePos order ms k1 + ms * modePos order mt k2 < ms * mt := by
  obtain ⟨a0, a1⟩ := modePos_range order ms k1 h1.1 h1.2
  obtain ⟨b0, b1⟩ := modePos_range order mt k2 h2.1 h2.2
  have hms : 0 ≤ ms := by omega
  have h3 : 0 ≤ ms * modePos order mt k2 := mul_nonneg hms b0
  have h4 : ms * (modePos order mt k2 + 1) ≤ ms * mt :=
    mul_le_mul_of_nonneg_left (by omega) hms
  have h5 : ms * (modePos order mt k2 + 1) = ms * modePos order mt k2 + ms := by ring
  constructor <;> omega

/-- The two slab loops of forward `deconvolve_3d`, from any start counters that
place the non-negative and the negative chunk as the mode order prescribes. -/
theorem deconvolve_3d_loops (P : Plan)
    (hdir : P.spread_direction = SpreadDirection.SPREAD)
    (hms : 0 ≤ P.grid_dims_ 0) (hnf1 : P.grid_dims_ 0 ≤ P.fine_dims_ 0)
    (hmt : 0 ≤ P.grid_dims_ 1) (hnf2 : P.grid_dims_ 1 ≤ P.fine_dims_ 1)
    (hmu : 0 ≤ P.grid_dims_ 2) (hnf3 : P.grid_dims_ 2 ≤ P.fine_dims_ 2)
    (s : (ℤ → DType) × (ℤ → DType)) (fkOff fwOff : ℤ) (prefactor : ℚ) (pp0 pn0 : ℤ)
    (hpp : pp0 = P.grid_dims_ 0 * P.grid_dims_ 1 * posBase P.mode_order (P.grid_dims_ 2))
    (hpn : pn0 = P.grid_dims_ 0 * P.grid_dims_ 1 *
      (negBase P.mode_order (P.grid_dims_ 2) - P.grid_dims_ 2 / 2)) :
    (∀ k : ℤ × ℤ × ℤ,
      ((-(P.grid_dims_ 0 / 2) ≤ k.1 ∧ k.1 ≤ (P.grid_dims_ 0 - 1) / 2) ∧
        (-(P.grid_dims_ 1 / 2) ≤ k.2.1 ∧ k.2.1 ≤ (P.grid_dims_ 1 - 1) / 2) ∧
        (-(P.grid_dims_ 2 / 2) ≤ k.2.2 ∧ k.2.2 ≤ (P.grid_dims_ 2 - 1) / 2)) →
      (forRange (-(P.grid_dims_ 2 / 2)) 0
        (fun k3 (st : ((ℤ → DType) × (ℤ → DType)) × ℤ) =>
          (deconvolve_2d P st.1.1 st.1.2 (fkOff + st.2)
            (fwOff + P.fine_dims_ 0 * P.fine_dims_ 1 * (P.fine_dims_ 2 + k3))
            (prefactor / P.fseries_data_ 2 (-k3)), st.2 + P.grid_dims_ 0 * P.grid_dims_ 1))
        ((forRange 0 ((P.grid_dims_ 2 - 1) / 2 + 1)
          (fun k3 (st : ((ℤ → DType) × (ℤ → DType)) × ℤ) =>
            (deconvolve_2d P st.1.1 st.1.2 (fkOff + st.2)
              (fwOff + P.fine_dims_ 0 * P.fine_dims_ 1 * k3)
              (prefactor / P.fseries_data_ 2 k3), st.2 + P.grid_dims_ 0 * P.grid_dims_ 1))
          (s, pp0)).1, pn0)).1.1
        (fkOff + (modePos P.mode_order (P.grid_dims_ 0) k.1 + P.grid_dims_ 0 *
          (modePos P.mode_order (P.grid_dims_ 1) k.2.1 +
            P.grid_dims_ 1 * modePos P.mode_order (P.grid_dims_ 2) k.2.2))) =
        deconvVal (prefactor / P.fseries_data_ 2 |k.2.2| / P.fseries_data_ 1 |k.2.1|)
          (s.2 (fwOff + (k.1 % P.fine_dims_ 0 + P.fine_dims_ 0 *
            (k.2.1 % P.fine_dims_ 1 + P.fine_dims_ 1 * (k.2.2 % P.fine_dims_ 2)))))
          (P.fseries_data_ 0 |k.1|)) ∧
    (∀ i, i < fkOff ∨ fkOff + P.grid_dims_ 0 * P.grid_dims_ 1 * P.grid_dims_ 2 ≤ i →
      (forRange (-(P.grid_dims_ 2 / 2)) 0
        (fun k3 (st : ((ℤ → DType) × (ℤ → DType)) × ℤ) =>
          (deconvolve_2d P st.1.1 st.1.2 (fkOff + st.2)
            (fwOff + P.fine_dims_ 0 * P.fine_dims_ 1 * (P.fine_dims_ 2 + k3))
            (prefactor / P.fseries_data_ 2 (-k3)), st.2 + P.grid_dims_ 0 * P.grid_dims_ 1))
        ((forRange 0 ((P.grid_dims_ 2 - 1) / 2 + 1)
          (fun k3 (st : ((ℤ → DType) × (ℤ → DType)) × ℤ) =>
            (deconvolve_2d P st.1.1 st.1.2 (fkOff + st.2)
              (fwOff + P.fine_dims_ 0 * P.fine_dims_ 1 * k3)
              (prefactor / P.fseries_data_ 2 k3), st.2 + P.grid_dims_ 0 * P.grid_dims_ 1))
          (s, pp0)).1, pn0)).1.1 i = s.1 i) ∧
    (forRange (-(P.grid_dims_ 2 / 2)) 0
        (fun k3 (st : ((ℤ → DType) × (ℤ → DType)) × ℤ) =>
          (deconvolve_2d P st.1.1 st.1.2 (fkOff + st.2)
            (fwOff + P.fine_dims_ 0 * P.fine_dims_ 1 * (P.fine_dims_ 2 + k3))
            (prefactor / P.fseries_data_ 2 (-k3)), st.2 + P.grid_dims_ 0 * P.grid_dims_ 1))
        ((forRange 0 ((P.grid_dims_ 2 - 1) / 2 + 1)
          (fun k3 (st : ((ℤ → DType) × (ℤ → DType)) × ℤ) =>
            (deconvolve_2d P st.1.1 st.1.2 (fkOff + st.2)
              (fwOff + P.fine_dims_ 0 * P.fine_dims_ 1 * k3)
              (prefactor / P.fseries_data_ 2 k3), st.2 + P.grid_dims_ 0 * P.grid_dims_ 1))
          (s, pp0)).1, pn0)).1.2 = s.2 := by
  obtain ⟨tA, tB, tC⟩ := forRange_two_chunks P.mode_order (P.grid_dims_ 2)
    (P.grid_dims_ 0 * P.grid_dims_ 1) fkOff pp0 pn0 hmu (mul_nonneg hms hmt) hpp hpn
    (fun k3 pp (st : (ℤ → DType) × (ℤ → DType)) =>
      deconvolve_2d P st.1 st.2 (fkOff + pp) (fwOff + P.fine_dims_ 0 * P.fine_dims_ 1 * k3)
        (prefactor / P.fseries_data_ 2 k3))
    (fun k3 pp (st : (ℤ → DType) × (ℤ → DType)) =>
      deconvolve_2d P st.1 st.2 (fkOff + pp)
        (fwOff + P.fine_dims_ 0 * P.fine_dims_ 1 * (P.fine_dims_ 2 + k3))
        (prefactor / P.fseries_data_ 2 (-k3)))
    (fun k : ℤ × ℤ => (-(P.grid_dims_ 0 / 2) ≤ k.1 ∧ k.1 ≤ (P.grid_dims_ 0 - 1) / 2) ∧
      (-(P.grid_dims_ 1 / 2) ≤ k.2 ∧ k.2 ≤ (P.grid_dims_ 1 - 1) / 2))
    (fun k : ℤ × ℤ => modePos P.mode_order (P.grid_dims_ 0) k.1 +
      P.grid_dims_ 0 * modePos P.mode_order (P.grid_dims_ 1) k.2)
    (fun k3 k fw => deconvVal (prefactor / P.fseries_data_ 2 k3 / P.fseries_data_ 1 |k.2|)
      (fw (fwOff + P.fine_dims_ 0 * P.fine_dims_ 1 * k3 +
        (k.1 % P.fine_dims_ 0 + P.fine_dims_ 0 * (k.2 % P.fine_dims_ 1))))
      (P.fseries_data_ 0 |k.1|))
    (fun k3 k fw => deconvVal (prefactor / P.fseries_data_ 2 (-k3) / P.fseries_data_ 1 |k.2|)
      (fw (fwOff + P.fine_dims_ 0 * P.fine_dims_ 1 * (P.fine_dims_ 2 + k3) +
        (k.1 % P.fine_dims_ 0 + P.fine_dims_ 0 * (k.2 % P.fine_dims_ 1))))
      (P.fseries_data_ 0 |k.1|))
    (fun k hk => modePos2_range _ _ _ k.1 k.2 hk.1 hk.2)
    (fun k3 pp s _ _ => deconvolve_2d_spread_off P hdir hms hnf1 hmt hnf2 s.1 s.2 _ _ _)
    (fun k3 pp s _ _ => deconvolve_2d_spread_off P hdir hms hnf1 hmt hnf2 s.1 s.2 _ _ _) s
  refine ⟨?_, tB, tC⟩
  rintro ⟨k1, k2, k3⟩ ⟨hk1, hk2, hk3⟩
  have e : fkOff + (modePos P.mode_order (P.grid_dims_ 0) k1 + P.grid_dims_ 0 *
      (modePos P.mode_order (P.grid_dims_ 1) k2 +
        P.grid_dims_ 1 * modePos P.mode_order (P.grid_dims_ 2) k3)) =
      fkOff + P.grid_dims_ 0 * P.grid_dims_ 1 * modePos P.mode_order (P.grid_dims_ 2) k3 +
        (modePos P.mode_order (P.grid_dims_ 0) k1 +
          P.grid_dims_ 0 * modePos P.mode_order (P.grid_dims_ 1) k2) := by ring
  simp only
  rw [e, tA k3 (k1, k2) hk3.1 hk3.2 ⟨hk1, hk2⟩, fwIndex_eq _ _ k3 hnf3 hk3.1 hk3.2]
  by_cases h : 0 ≤ k3
  · have e2 : fwOff + P.fine_dims_ 0 * P.fine_dims_ 1 * k3 +
        (k1 % P.fine_dims_ 0 + P.fine_dims_ 0 * (k2 % P.fine_dims_ 1)) =
        fwOff + (k1 % P.fine_dims_ 0 + P.fine_dims_ 0 *
          (k2 % P.fine_dims_ 1 + P.fine_dims_ 1 * k3)) := by ring
    rw [if_pos h, if_pos h, abs_of_nonneg h, e2]
  · have e2 : fwOff + P.fine_dims_ 0 * P.fine_dims_ 1 * (P.fine_dims_ 2 + k3) +
        (k1 % P.fine_dims_ 0 + P.fine_dims_ 0 * (k2 % P.fine_dims_ 1)) =
        fwOff + (k1 % P.fine_dims_ 0 + P.fine_dims_ 0 *
          (k2 % P.fine_dims_ 1 + P.fine_dims_ 1 * (P.fine_dims_ 2 + k3))) := by ring
    rw [if_neg h, if_neg h, abs_of_neg (show k3 < 0 by omega), e2]

/-- Forward (SPREAD) `deconvolve_3d` at arbitrary base offsets, mode triple by mode
triple. -/
theorem deconvolve_3d_spread_off (P : Plan)
    (hdir : P.spread_direction = SpreadDirection.SPREAD)
    (hms : 0 ≤ P.grid_dims_ 0) (hnf1 : P.grid_dims_ 0 ≤ P.fine_dims_ 0)
    (hmt : 0 ≤ P.grid_dims_ 1) (hnf2 : P.grid_dims_ 1 ≤ P.fine_dims_ 1)
    (hmu : 0 ≤ P.grid_dims_ 2) (hnf3 : P.grid_dims_ 2 ≤ P.fine_dims_ 2)
    (fk fw : ℤ → DType) (fkOff fwOff : ℤ) (prefactor : ℚ) :
    (∀ k : ℤ × ℤ × ℤ,
      ((-(P.grid_dims_ 0 / 2) ≤ k.1 ∧ k.1 ≤ (P.grid_dims_ 0 - 1) / 2) ∧
        (-(P.grid_dims_ 1 / 2) ≤ k.2.1 ∧ k.2.1 ≤ (P.grid_dims_ 1 - 1) / 2) ∧
        (-(P.grid_dims_ 2 / 2) ≤ k.2.2 ∧ k.2.2 ≤ (P.grid_dims_ 2 - 1) / 2)) →
      (deconvolve_3d P fk fw fkOff fwOff prefactor).1
        (fkOff + (modePos P.mode_order (P.grid_dims_ 0) k.1 + P.grid_dims_ 0 *
          (modePos P.mode_order (P.grid_dims_ 1) k.2.1 +
            P.grid_dims_ 1 * modePos P.mode_order (P.grid_dims_ 2) k.2.2))) =
        deconvVal (prefactor / P.fseries_data_ 2 |k.2.2| / P.fseries_data_ 1 |k.2.1|)
          (fw (fwOff + (k.1 % P.fine_dims_ 0 + P.fine_dims_ 0 *
            (k.2.1 % P.fine_dims_ 1 + P.fine_dims_ 1 * (k.2.2 % P.fine_dims_ 2)))))
          (P.fseries_data_ 0 |k.1|)) ∧
    (∀ i, i < fkOff ∨ fkOff + P.grid_dims_ 0 * P.grid_dims_ 1 * P.grid_dims_ 2 ≤ i →
      (deconvolve_3d P fk fw fkOff fwOff prefactor).1 i = fk i) ∧
    (deconvolve_3d P fk fw fkOff fwOff prefactor).2 = fw := by
  have hne : ¬ (SpreadDirection.SPREAD = SpreadDirection.INTERP) := by decide
  simp only [deconvolve_3d, hdir, if_neg hne, cdiv_neg_two _ hmu, kmax_eq _ hmu]
  cases hmo : P.mode_order
  · simp only []
    have := deconvolve_3d_loops P hdir hms hnf1 hmt hnf2 hmu hnf3 (fk, fw) fkOff fwOff
      prefactor 0 (((P.grid_dims_ 2 - 1) / 2 + 1) * P.grid_dims_ 0 * P.grid_dims_ 1)
      (by rw [hmo]; simp [posBase])
      (by rw [hmo]; simp only [negBase]
          have : P.grid_dims_ 2 - P.grid_dims_ 2 / 2 = (P.grid_dims_ 2 - 1) / 2 + 1 := by omega
          rw [this]; ring)
    rw [hmo] at this
    exact this
  · simp only []
    have := deconvolve_3d_loops P hdir hms hnf1 hmt hnf2 hmu hnf3 (fk, fw) fkOff fwOff
      prefactor (- -(P.grid_dims_ 2 / 2) * P.grid_dims_ 0 * P.grid_dims_ 1) 0
      (by rw [hmo]; simp only [posBase]; ring)
      (by rw [hmo]; simp [negBase])
    rw [hmo] at this
    exact this

/-- Dividing the prefactor by two coefficients and the value by a third is
dividing once by the product of the three. -/
theorem deconvVal_div_div (p a b c : ℚ) (z : DType) :
    deconvVal (p / c / b) z a = deconvVal p z (a * b * c) := by
  simp only [deconvVal, DType.scale, DType.divReal]
  have h : ∀ x : ℚ, p / c / b * x / a = p * x / (a * b * c) := by
    intro x
    rw [div_div, div_mul_eq_mul_div, div_div]
    congr 1
    ring
  rw [h, h]

/-- Uniqueness of the digits of a two-digit mixed-radix number. -/
theorem radix_unique (m a b a' b' : ℤ) (ha : 0 ≤ a ∧ a < m) (ha' : 0 ≤ a' ∧ a' < m)
    (h : a + m * b = a' + m * b') : a = a' ∧ b = b' := by
  have h1 : (a + m * b) % m = a := by
    rw [Int.add_mul_emod_self_left]; exact Int.emod_eq_of_lt ha.1 ha.2
  have h2 : (a' + m * b') % m = a' := by
    rw [Int.add_mul_emod_self_left]; exact Int.emod_eq_of_lt ha'.1 ha'.2
  have e : a = a' := by rw [← h1, ← h2, h]
  refine ⟨e, ?_⟩
  have hm : m ≠ 0 := by omega
  have : m * b = m * b' := by omega
  exact mul_left_cancel₀ hm this

/-- Every index of `[0, ms*mt*mu)` is the position of exactly one mode triple. -/
theorem modePos3_unique (order : ModeOrder) (ms mt mu i : ℤ) (h0 : 0 ≤ i)
    (h1 : i < ms * mt * mu) (hms : 0 ≤ ms) (hmt : 0 ≤ mt) :
    ∃! k : ℤ × ℤ × ℤ,
      ((-(ms / 2) ≤ k.1 ∧ k.1 ≤ (ms - 1) / 2) ∧
        (-(mt / 2) ≤ k.2.1 ∧ k.2.1 ≤ (mt - 1) / 2) ∧
        (-(mu / 2) ≤ k.2.2 ∧ k.2.2 ≤ (mu - 1) / 2)) ∧
      modePos order ms k.1 + ms * (modePos order mt k.2.1 + mt * modePos order mu k.2.2) = i := by
  have hms0 : ms ≠ 0 := by rintro rfl; simp at h1; omega
  have hmt0 : mt ≠ 0 := by rintro rfl; simp at h1; omega
  have hmsp : 0 < ms := by omega
  have hmtp : 0 < mt := by omega
  have ha : 0 ≤ i % ms ∧ i % ms < ms := ⟨Int.emod_nonneg _ hms0, Int.emod_lt_of_pos _ hmsp⟩
  have hq0 : 0 ≤ i / ms := Int.ediv_nonneg h0 hms
  have hq1 : i / ms < mt * mu := by
    apply Int.ediv_lt_of_lt_mul hmsp
    calc i < ms * mt * mu := h1
      _ = mt * mu * ms := by ring
  have hb : 0 ≤ i / ms % mt ∧ i / ms % mt < mt :=
    ⟨Int.emod_nonneg _ hmt0, Int.emod_lt_of_pos _ hmtp⟩
  have hc0 : 0 ≤ i / ms / mt := Int.ediv_nonneg hq0 hmt
  have hc1 : i / ms / mt < mu := by
    apply Int.ediv_lt_of_lt_mul hmtp
    calc i / ms < mt * mu := hq1
      _ = mu * mt := by ring
  have e1 : i % ms + ms * (i / ms) = i := Int.emod_add_ediv i ms
  have e2 : i / ms % mt + mt * (i / ms / mt) = i / ms := Int.emod_add_ediv (i / ms) mt
  obtain ⟨a1, a2, a3⟩ := modePos_modeAt order ms (i % ms) ha.1 ha.2
  obtain ⟨b1, b2, b3⟩ := modePos_modeAt order mt (i / ms % mt) hb.1 hb.2
  obtain ⟨c1, c2, c3⟩ := modePos_modeAt order mu (i / ms / mt) hc0 hc1
  refine ⟨(modeAt order ms (i % ms), modeAt order mt (i / ms % mt),
    modeAt order mu (i / ms / mt)), ⟨⟨⟨a1, a2⟩, ⟨b1, b2⟩, ⟨c1, c2⟩⟩, ?_⟩, ?_⟩
  · simp only [a3, b3, c3, e2, e1]
  · rintro ⟨k1, k2, k3⟩ ⟨⟨r1, r2, r3⟩, hk⟩
    simp only at r1 r2 r3 hk
    have p1 := modePos_range order ms k1 r1.1 r1.2
    have p2 := modePos_range order mt k2 r2.1 r2.2
    rw [← e1] at hk
    obtain ⟨u1, u2⟩ := radix_unique ms _ _ _ _ p1 ha hk
    rw [← e2] at u2
    obtain ⟨v1, v2⟩ := radix_unique mt _ _ _ _ p2 hb u2
    have w1 := modeAt_modePos order ms k1 r1.1 r1.2
    have w2 := modeAt_modePos order mt k2 r2.1 r2.2
    have w3 := modeAt_modePos order mu k3 r3.1 r3.2
    rw [u1] at w1
    rw [v1] at w2
    rw [v2] at w3
    rw [w1, w2, w3]

/-- C8: forward (SPREAD) `deconvolve_3d` on a plan with `0 ≤ m_a ≤ nf_a` on the three
axes stores, for every used mode triple `(k1, k2, k3)`, at
`pos1(k1) + ms*(pos2(k2) + mt*pos3(k3))` the value
`prefactor * fw[(k1 mod nf1) + nf1*((k2 mod nf2) + nf2*(k3 mod nf3))] /
(fseries0[|k1|] * fseries1[|k2|] * fseries2[|k3|])`; every index of
`[0, ms*mt*mu)` is the position of exactly one mode triple, and neither the rest
of `fk` nor `fw` is changed. -/
theorem deconvolve_3d_forward_modes (P : Plan)
    (hdir : P.spread_direction = SpreadDirection.SPREAD)
    (hms : 0 ≤ P.grid_dims_ 0) (hnf1 : P.grid_dims_ 0 ≤ P.fine_dims_ 0)
    (hmt : 0 ≤ P.grid_dims_ 1) (hnf2 : P.grid_dims_ 1 ≤ P.fine_dims_ 1)
    (hmu : 0 ≤ P.grid_dims_ 2) (hnf3 : P.grid_dims_ 2 ≤ P.fine_dims_ 2)
    (fk fw : ℤ → DType) (prefactor : ℚ) :
    (∀ k1 k2 k3 : ℤ,
      -(P.grid_dims_ 0 / 2) ≤ k1 → k1 ≤ (P.grid_dims_ 0 - 1) / 2 →
      -(P.grid_dims_ 1 / 2) ≤ k2 → k2 ≤ (P.grid_dims_ 1 - 1) / 2 →
      -(P.grid_dims_ 2 / 2) ≤ k3 → k3 ≤ (P.grid_dims_ 2 - 1) / 2 →
      (deconvolve_3d P fk fw 0 0 prefactor).1
        (modePos P.mode_order (P.grid_dims_ 0) k1 + P.grid_dims_ 0 *
          (modePos P.mode_order (P.grid_dims_ 1) k2 +
            P.grid_dims_ 1 * modePos P.mode_order (P.grid_dims_ 2) k3)) =
        deconvVal prefactor
          (fw (k1 % P.fine_dims_ 0 + P.fine_dims_ 0 *
            (k2 % P.fine_dims_ 1 + P.fine_dims_ 1 * (k3 % P.fine_dims_ 2))))
          (P.fseries_data_ 0 |k1| * P.fseries_data_ 1 |k2| * P.fseries_data_ 2 |k3|)) ∧
    (∀ i, 0 ≤ i → i < P.grid_dims_ 0 * P.grid_dims_ 1 * P.grid_dims_ 2 →
      ∃! k : ℤ × ℤ × ℤ,
        ((-(P.grid_dims_ 0 / 2) ≤ k.1 ∧ k.1 ≤ (P.grid_dims_ 0 - 1) / 2) ∧
          (-(P.grid_dims_ 1 / 2) ≤ k.2.1 ∧ k.2.1 ≤ (P.grid_dims_ 1 - 1) / 2) ∧
          (-(P.grid_dims_ 2 / 2) ≤ k.2.2 ∧ k.2.2 ≤ (P.grid_dims_ 2 - 1) / 2)) ∧
        modePos P.mode_order (P.grid_dims_ 0) k.1 + P.grid_dims_ 0 *
          (modePos P.mode_order (P.grid_dims_ 1) k.2.1 +
            P.grid_dims_ 1 * modePos P.mode_order (P.grid_dims_ 2) k.2.2) = i) ∧
    (∀ i, i < 0 ∨ P.grid_dims_ 0 * P.grid_dims_ 1 * P.grid_dims_ 2 ≤ i →
      (deconvolve_3d P fk fw 0 0 prefactor).1 i = fk i) ∧
    (deconvolve_3d P fk fw 0 0 prefactor).2 = fw := by
  obtain ⟨tA, tB, tC⟩ := deconvolve_3d_spread_off P hdir hms hnf1 hmt hnf2 hmu hnf3 fk fw 0 0
    prefactor
  refine ⟨?_, ?_, ?_, tC⟩
  · intro k1 k2 k3 a1 a2 b1 b2 c1 c2
    have := tA (k1, k2, k3) ⟨⟨a1, a2⟩, ⟨b1, b2⟩, ⟨c1, c2⟩⟩
    simp only [zero_add] at this
    rw [this, deconvVal_div_div]
  · intro i h0 h1
    exact modePos3_unique P.mode_order _ _ _ i h0 h1 hms hmt
  · intro i hi
    exact tB i (by simpa using hi)

theorem deconvolve_3d_forward_modes_witness :
    (∀ k1 k2 k3 : ℤ,
      -(planCubeFwd.grid_dims_ 0 / 2) ≤ k1 → k1 ≤ (planCubeFwd.grid_dims_ 0 - 1) / 2 →
      -(planCubeFwd.grid_dims_ 1 / 2) ≤ k2 → k2 ≤ (planCubeFwd.grid_dims_ 1 - 1) / 2 →
      -(planCubeFwd.grid_dims_ 2 / 2) ≤ k3 → k3 ≤ (planCubeFwd.grid_dims_ 2 - 1) / 2 →
      (deconvolve_3d planCubeFwd sampleArray sampleArray 0 0 1).1
        (modePos planCubeFwd.mode_order (planCubeFwd.grid_dims_ 0) k1 + planCubeFwd.grid_dims_ 0 *
          (modePos planCubeFwd.mode_order (planCubeFwd.grid_dims_ 1) k2 +
            planCubeFwd.grid_dims_ 1 * modePos planCubeFwd.mode_order (planCubeFwd.grid_dims_ 2) k3)) =
        deconvVal 1
          (sampleArray (k1 % planCubeFwd.fine_dims_ 0 + planCubeFwd.fine_dims_ 0 *
            (k2 % planCubeFwd.fine_dims_ 1 + planCubeFwd.fine_dims_ 1 * (k3 % planCubeFwd.fine_dims_ 2))))
          (planCubeFwd.fseries_data_ 0 |k1| * planCubeFwd.fseries_data_ 1 |k2| * planCubeFwd.fseries_data_ 2 |k3|)) ∧
    (∀ i, 0 ≤ i → i < planCubeFwd.grid_dims_ 0 * planCubeFwd.grid_dims_ 1 * planCubeFwd.grid_dims_ 2 →
      ∃! k : ℤ × ℤ × ℤ,
        ((-(planCubeFwd.grid_dims_ 0 / 2) ≤ k.1 ∧ k.1 ≤ (planCubeFwd.grid_dims_ 0 - 1) / 2) ∧
          (-(planCubeFwd.grid_dims_ 1 / 2) ≤ k.2.1 ∧ k.2.1 ≤ (planCubeFwd.grid_dims_ 1 - 1) / 2) ∧
          (-(planCubeFwd.grid_dims_ 2 / 2) ≤ k.2.2 ∧ k.2.2 ≤ (planCubeFwd.grid_dims_ 2 - 1) / 2)) ∧
        modePos planCubeFwd.mode_order (planCubeFwd.grid_dims_ 0) k.1 + planCubeFwd.grid_dims_ 0 *
          (modePos planCubeFwd.mode_order (planCubeFwd.grid_dims_ 1) k.2.1 +
            planCubeFwd.grid_dims_ 1 * modePos planCubeFwd.mode_order (planCubeFwd.grid_dims_ 2) k.2.2) = i) ∧
    (∀ i, i < 0 ∨ planCubeFwd.grid_dims_ 0 * planCubeFwd.grid_dims_ 1 * planCubeFwd.grid_dims_ 2 ≤ i →
      (deconvolve_3d planCubeFwd sampleArray sampleArray 0 0 1).1 i = sampleArray i) ∧
    (deconvolve_3d planCubeFwd sampleArray sampleArray 0 0 1).2 = sampleArray :=
  deconvolve_3d_forward_modes planCubeFwd rfl (by decide) (by decide) (by decide) (by decide)
    (by decide) (by decide) sampleArray sampleArray 1

theorem forRange_congr {σ : Type} (lo hi : ℤ) (f g : ℤ → σ → σ) (s : σ)
    (h : ∀ k st, lo ≤ k → k < hi → f k st = g k st) :
    forRange lo hi f s = forRange lo hi g s := by
  by_cases hle : lo ≤ hi
  · refine forRange_induct (fun K st => st = forRange lo K g s) lo hi f s hle ?_ ?_
    · beta_reduce
      rw [forRange_empty _ _ _ _ (le_refl _)]
    · intro k st h0 h1 ih
      beta_reduce
      rw [forRange_succ _ _ _ _ h0, ih, h k _ h0 h1]
  · rw [forRange_empty _ _ _ _ (by omega), forRange_empty _ _ _ _ (by omega)]

theorem forRange_split {σ : Type} (lo mid hi : ℤ) (f : ℤ → σ → σ) (s : σ)
    (h0 : lo ≤ mid) (h1 : mid ≤ hi) :
    forRange lo hi f s = forRange mid hi f (forRange lo mid f s) := by
  refine forRange_induct (fun K st => forRange lo K f s = st) mid hi f _ h1 rfl ?_
  intro k st hk0 hk1 ih
  beta_reduce
  rw [forRange_succ _ _ _ _ (by omega), ih]

theorem sumRange_succ (n : ℤ) (hn : 0 ≤ n) (f : ℤ → ℚ) :
    sumRange (n + 1) f = sumRange n f + f n := by
  unfold sumRange
  have : (n + 1).toNat = n.toNat + 1 := by omega
  rw [this, Finset.sum_range_succ, Int.toNat_of_nonneg hn]

theorem sumRange_zero (f : ℤ → ℚ) : sumRange 0 f = 0 := by
  simp [sumRange]

/-- An accumulation loop over `[0, n)` on a pair computes the two sums. -/
theorem forRange_sum_pair (n : ℤ) (hn : 0 ≤ n) (f g : ℤ → ℚ) (a : ℚ × ℚ) :
    forRange 0 n (fun k (o : ℚ × ℚ) => (o.1 + f k, o.2 + g k)) a =
      (a.1 + sumRange n f, a.2 + sumRange n g) := by
  refine forRange_induct
    (fun K (st : ℚ × ℚ) => st = (a.1 + sumRange K f, a.2 + sumRange K g)) 0 n _ a hn ?_ ?_
  · simp [sumRange_zero]
  · intro k st h0 h1 ih
    beta_reduce
    rw [ih, sumRange_succ k h0, sumRange_succ k h0]
    simp only [Prod.mk.injEq]
    constructor <;> ring

theorem wrapOnce_eq (x N : ℤ) (hN : 1 ≤ N) (h0 : -N ≤ x) (h1 : x ≤ N) :
    wrapOnce x N = x % N := by
  unfold wrapOnce
  by_cases hx : x < 0
  · rw [emod_of_neg_range x N h0 hx]
    simp only [hx, if_true]
    rw [if_neg (by omega)]
  · by_cases hx2 : x = N
    · subst hx2
      simp only [hx, if_false, ge_iff_le, le_refl, if_true, sub_self, Int.emod_self]
    · rw [emod_of_range x N (by omega) (by omega)]
      simp only [hx, if_false]
      rw [if_neg (by omega)]

/-- One step of a pointer-list coordinate: it stores `(i + d) mod N` and stays
within one period of the box. -/
theorem wrapOnce_step (x i d N : ℤ) (hN : 1 ≤ N) (h0 : -N ≤ x) (h1 : x ≤ N)
    (hx : x % N = (i + d) % N) :
    wrapOnce x N = (i + d) % N ∧ -N ≤ wrapOnce x N + 1 ∧ wrapOnce x N + 1 ≤ N ∧
      (wrapOnce x N + 1) % N = (i + (d + 1)) % N := by
  have e := wrapOnce_eq x N hN h0 h1
  have r0 : 0 ≤ x % N := Int.emod_nonneg _ (by omega)
  have r1 : x % N < N := Int.emod_lt_of_pos _ (by omega)
  refine ⟨by rw [e, hx], by rw [e]; omega, by rw [e]; omega, ?_⟩
  rw [e, hx, Int.emod_add_emod, add_assoc]

/-- The pointer lists of `interp_square` hold the wrapped coordinates. -/
theorem square_ptr_lists_eq (i1 i2 N1 N2 ns : ℤ) (hns : 0 ≤ ns) (hN1 : 1 ≤ N1) (hN2 : 1 ≤ N2)
    (h1 : -N1 ≤ i1 ∧ i1 < N1) (h2 : -N2 ≤ i2 ∧ i2 < N2) (d : ℤ) (hd0 : 0 ≤ d) (hd1 : d < ns) :
    (square_ptr_lists i1 i2 N1 N2 ns).1 d = (i1 + d) % N1 ∧
      (square_ptr_lists i1 i2 N1 N2 ns).2 d = (i2 + d) % N2 := by
  unfold square_ptr_lists
  have key := forRange_induct
    (fun K (st : (ℤ × ℤ) × ((ℤ → ℤ) × (ℤ → ℤ))) =>
      (-N1 ≤ st.1.1 ∧ st.1.1 ≤ N1 ∧ st.1.1 % N1 = (i1 + K) % N1) ∧
      (-N2 ≤ st.1.2 ∧ st.1.2 ≤ N2 ∧ st.1.2 % N2 = (i2 + K) % N2) ∧
      (∀ e, 0 ≤ e → e < K → st.2.1 e = (i1 + e) % N1 ∧ st.2.2 e = (i2 + e) % N2))
    0 ns
    (fun d (st : (ℤ × ℤ) × ((ℤ → ℤ) × (ℤ → ℤ))) =>
      ((wrapOnce st.1.1 N1 + 1, wrapOnce st.1.2 N2 + 1),
        (Function.update st.2.1 d (wrapOnce st.1.1 N1),
          Function.update st.2.2 d (wrapOnce st.1.2 N2))))
    ((i1, i2), ((fun _ => 0), (fun _ => 0))) hns ?_ ?_
  · exact key.2.2 d hd0 hd1
  · refine ⟨⟨h1.1, le_of_lt h1.2, by simp⟩, ⟨h2.1, le_of_lt h2.2, by simp⟩, ?_⟩
    intro e he0 he1; omega
  · rintro K st hK0 hK1 ⟨⟨a0, a1, a2⟩, ⟨b0, b1, b2⟩, ih⟩
    obtain ⟨x1, x2, x3, x4⟩ := wrapOnce_step st.1.1 i1 K N1 hN1 a0 a1 a2
    obtain ⟨y1, y2, y3, y4⟩ := wrapOnce_step st.1.2 i2 K N2 hN2 b0 b1 b2
    refine ⟨⟨x2, x3, x4⟩, ⟨y2, y3, y4⟩, ?_⟩
    intro e he0 he1
    by_cases he : e = K
    · subst he
      simp only [Function.update_same]
      exact ⟨x1, y1⟩
    · simp only [Function.update_noteq he]
      exact ih e he0 (by omega)

/-- The pointer lists of `interp_cube` hold the wrapped coordinates. -/
theorem cube_ptr_lists_eq (i1 i2 i3 N1 N2 N3 ns : ℤ) (hns : 0 ≤ ns)
    (hN1 : 1 ≤ N1) (hN2 : 1 ≤ N2) (hN3 : 1 ≤ N3)
    (h1 : -N1 ≤ i1 ∧ i1 < N1) (h2 : -N2 ≤ i2 ∧ i2 < N2) (h3 : -N3 ≤ i3 ∧ i3 < N3)
    (d : ℤ) (hd0 : 0 ≤ d) (hd1 : d < ns) :
    (cube_ptr_lists i1 i2 i3 N1 N2 N3 ns).1 d = (i1 + d) % N1 ∧
      (cube_ptr_lists i1 i2 i3 N1 N2 N3 ns).2.1 d = (i2 + d) % N2 ∧
      (cube_ptr_lists i1 i2 i3 N1 N2 N3 ns).2.2 d = (i3 + d) % N3 := by
  unfold cube_ptr_lists
  have key := forRange_induct
    (fun K (st : (ℤ × ℤ × ℤ) × ((ℤ → ℤ) × (ℤ → ℤ) × (ℤ → ℤ))) =>
      (-N1 ≤ st.1.1 ∧ st.1.1 ≤ N1 ∧ st.1.1 % N1 = (i1 + K) % N1) ∧
      (-N2 ≤ st.1.2.1 ∧ st.1.2.1 ≤ N2 ∧ st.1.2.1 % N2 = (i2 + K) % N2) ∧
      (-N3 ≤ st.1.2.2 ∧ st.1.2.2 ≤ N3 ∧ st.1.2.2 % N3 = (i3 + K) % N3) ∧
      (∀ e, 0 ≤ e → e < K → st.2.1 e = (i1 + e) % N1 ∧ st.2.2.1 e = (i2 + e) % N2 ∧
        st.2.2.2 e = (i3 + e) % N3))
    0 ns
    (fun d (st : (ℤ × ℤ × ℤ) × ((ℤ → ℤ) × (ℤ → ℤ) × (ℤ → ℤ))) =>
      ((wrapOnce st.1.1 N1 + 1, wrapOnce st.1.2.1 N2 + 1, wrapOnce st.1.2.2 N3 + 1),
        (Function.update st.2.1 d (wrapOnce st.1.1 N1),
          Function.update st.2.2.1 d (wrapOnce st.1.2.1 N2),
          Function.update st.2.2.2 d (wrapOnce st.1.2.2 N3))))
    ((i1, i2, i3), ((fun _ => 0), (fun _ => 0), (fun _ => 0))) hns ?_ ?_
  · exact key.2.2.2 d hd0 hd1
  · refine ⟨⟨h1.1, le_of_lt h1.2, by simp⟩, ⟨h2.1, le_of_lt h2.2, by simp⟩,
      ⟨h3.1, le_of_lt h3.2, by simp⟩, ?_⟩
    intro e he0 he1; omega
  · rintro K st hK0 hK1 ⟨⟨a0, a1, a2⟩, ⟨b0, b1, b2⟩, ⟨c0, c1, c2⟩, ih⟩
    obtain ⟨x1, x2, x3, x4⟩ := wrapOnce_step st.1.1 i1 K N1 hN1 a0 a1 a2
    obtain ⟨y1, y2, y3, y4⟩ := wrapOnce_step st.1.2.1 i2 K N2 hN2 b0 b1 b2
    obtain ⟨z1, z2, z3, z4⟩ := wrapOnce_step st.1.2.2 i3 K N3 hN3 c0 c1 c2
    refine ⟨⟨x2, x3, x4⟩, ⟨y2, y3, y4⟩, ⟨z2, z3, z4⟩, ?_⟩
    intro e he0 he1
    by_cases he : e = K
    · subst he
      simp only [Function.update_same]
      exact ⟨x1, y1, z1⟩
    · simp only [Function.update_noteq he]
      exact ih e he0 (by omega)

/-- An accumulation loop whose running index `j` is post-incremented. -/
theorem forRange_sum_pair_counter (lo hi : ℤ) (hle : lo ≤ hi) (f g : ℤ → ℤ → ℚ) (a : ℚ × ℚ)
    (base : ℤ) :
    forRange lo hi
      (fun dx (st : (ℚ × ℚ) × ℤ) =>
        ((st.1.1 + f st.2 dx, st.1.2 + g st.2 dx), st.2 + 1)) (a, base) =
    (forRange lo hi
      (fun dx (o : ℚ × ℚ) => (o.1 + f (base + (dx - lo)) dx, o.2 + g (base + (dx - lo)) dx)) a,
      base + (hi - lo)) := by
  have e := forRange_counter lo hi hle
    (fun dx pp (o : ℚ × ℚ) => (o.1 + f pp dx, o.2 + g pp dx)) a base 1
  beta_reduce at e
  rw [e]
  simp only [one_mul]

theorem sumRange_congr (n : ℤ) (f g : ℤ → ℚ) (h : ∀ d, 0 ≤ d → d < n → f d = g d) :
    sumRange n f = sumRange n g := by
  unfold sumRange
  apply Finset.sum_congr rfl
  intro d hd
  have := Finset.mem_range.mp hd
  exact h d (by omega) (by omega)

/-- A double accumulation loop computes the two double sums. -/
theorem forRange_sum_pair2 (n : ℤ) (hn : 0 ≤ n) (f g : ℤ → ℤ → ℚ) :
    forRange 0 n
      (fun dy (out : ℚ × ℚ) =>
        forRange 0 n (fun dx (o : ℚ × ℚ) => (o.1 + f dy dx, o.2 + g dy dx)) out) (0, 0) =
    (sumRange n (fun dy => sumRange n (f dy)), sumRange n (fun dy => sumRange n (g dy))) := by
  have e : (fun dy (out : ℚ × ℚ) =>
        forRange 0 n (fun dx (o : ℚ × ℚ) => (o.1 + f dy dx, o.2 + g dy dx)) out) =
      (fun dy (out : ℚ × ℚ) => (out.1 + sumRange n (f dy), out.2 + sumRange n (g dy))) := by
    funext dy out
    exact forRange_sum_pair n hn (f dy) (g dy) out
  rw [e, forRange_sum_pair n hn]
  simp

/-- A triple accumulation loop computes the two triple sums. -/
theorem forRange_sum_pair3 (n : ℤ) (hn : 0 ≤ n) (f g : ℤ → ℤ → ℤ → ℚ) :
    forRange 0 n
      (fun dz (out : ℚ × ℚ) =>
        forRange 0 n
          (fun dy (out : ℚ × ℚ) =>
            forRange 0 n (fun dx (o : ℚ × ℚ) => (o.1 + f dz dy dx, o.2 + g dz dy dx)) out)
          out) (0, 0) =
    (sumRange n (fun dz => sumRange n (fun dy => sumRange n (f dz dy))),
      sumRange n (fun dz => sumRange n (fun dy => sumRange n (g dz dy)))) := by
  have e : (fun dz (out : ℚ × ℚ) =>
        forRange 0 n
          (fun dy (out : ℚ × ℚ) =>
            forRange 0 n (fun dx (o : ℚ × ℚ) => (o.1 + f dz dy dx, o.2 + g dz dy dx)) out)
          out) =
      (fun dz (out : ℚ × ℚ) =>
        (out.1 + sumRange n (fun dy => sumRange n (f dz dy)),
          out.2 + sumRange n (fun dy => sumRange n (g dz dy)))) := by
    funext dz out
    have e2 : (fun dy (out : ℚ × ℚ) =>
            forRange 0 n (fun dx (o : ℚ × ℚ) => (o.1 + f dz dy dx, o.2 + g dz dy dx)) out) =
        (fun dy (out : ℚ × ℚ) =>
          (out.1 + sumRange n (f dz dy), out.2 + sumRange n (g dz dy))) := by
      funext dy out
      exact forRange_sum_pair n hn (f dz dy) (g dz dy) out
    rw [e2, forRange_sum_pair n hn]
  rw [e, forRange_sum_pair n hn]
  simp

/-- The pointer-list branch of `interp_square` is the periodic tensor-product
sum. -/
theorem interp_square_wrap_eq (du ker1 ker2 : ℤ → ℚ) (i1 i2 N1 N2 ns : ℤ) (hns : 0 ≤ ns)
    (hN1 : 1 ≤ N1) (hN2 : 1 ≤ N2) (h1 : -N1 ≤ i1 ∧ i1 < N1) (h2 : -N2 ≤ i2 ∧ i2 < N2) :
    interp_square_wrap du ker1 ker2 i1 i2 N1 N2 ns =
      (periodicSum2 du ker1 ker2 i1 i2 N1 N2 ns 0, periodicSum2 du ker1 ker2 i1 i2 N1 N2 ns 1) := by
  unfold interp_square_wrap periodicSum2
  simp only [add_zero]
  rw [← forRange_sum_pair2 ns hns]
  apply forRange_congr
  intro dy out hy0 hy1
  apply forRange_congr
  intro dx o hx0 hx1
  obtain ⟨a, _⟩ := square_ptr_lists_eq i1 i2 N1 N2 ns hns hN1 hN2 h1 h2 dx hx0 hx1
  obtain ⟨_, b⟩ := square_ptr_lists_eq i1 i2 N1 N2 ns hns hN1 hN2 h1 h2 dy hy0 hy1
  rw [a, b]

/-- The non-wrapping branch of `interp_square` is the periodic tensor-product sum
when the footprint lies inside the grid. -/
theorem interp_square_nowrap_eq (du ker1 ker2 : ℤ → ℚ) (i1 i2 N1 N2 ns : ℤ) (hns : 0 ≤ ns)
    (h1 : 0 ≤ i1 ∧ i1 + ns ≤ N1) (h2 : 0 ≤ i2 ∧ i2 + ns ≤ N2) :
    interp_square_nowrap du ker1 ker2 i1 i2 N1 ns =
      (periodicSum2 du ker1 ker2 i1 i2 N1 N2 ns 0, periodicSum2 du ker1 ker2 i1 i2 N1 N2 ns 1) := by
  unfold interp_square_nowrap periodicSum2
  simp only [add_zero]
  rw [← forRange_sum_pair2 ns hns]
  apply forRange_congr
  intro dy out hy0 hy1
  have e := forRange_sum_pair_counter 0 ns hns
    (fun j dx => du (2 * j) * (ker1 dx * ker2 dy))
    (fun j dx => du (2 * j + 1) * (ker1 dx * ker2 dy)) out (N1 * (i2 + dy) + i1)
  beta_reduce at e
  rw [e]
  dsimp only
  apply forRange_congr
  intro dx o hx0 hx1
  have ex : (i1 + dx) % N1 = i1 + dx := emod_of_range _ _ (by omega) (by omega)
  have ey : (i2 + dy) % N2 = i2 + dy := emod_of_range _ _ (by omega) (by omega)
  have ei : N1 * (i2 + dy) + i1 + (dx - 0) = N1 * (i2 + dy) + (i1 + dx) := by ring
  rw [ex, ey, ei]

/-- The pointer-list branch of `interp_cube` is the periodic tensor-product sum. -/
theorem interp_cube_wrap_eq (du ker1 ker2 ker3 : ℤ → ℚ) (i1 i2 i3 N1 N2 N3 ns : ℤ)
    (hns : 0 ≤ ns) (hN1 : 1 ≤ N1) (hN2 : 1 ≤ N2) (hN3 : 1 ≤ N3)
    (h1 : -N1 ≤ i1 ∧ i1 < N1) (h2 : -N2 ≤ i2 ∧ i2 < N2) (h3 : -N3 ≤ i3 ∧ i3 < N3) :
    interp_cube_wrap du ker1 ker2 ker3 i1 i2 i3 N1 N2 N3 ns =
      (periodicSum3 du ker1 ker2 ker3 i1 i2 i3 N1 N2 N3 ns 0,
        periodicSum3 du ker1 ker2 ker3 i1 i2 i3 N1 N2 N3 ns 1) := by
  unfold interp_cube_wrap periodicSum3
  simp only [add_zero]
  rw [← forRange_sum_pair3 ns hns]
  apply forRange_congr
  intro dz out hz0 hz1
  apply forRange_congr
  intro dy out hy0 hy1
  apply forRange_congr
  intro dx o hx0 hx1
  obtain ⟨a, _, _⟩ := cube_ptr_lists_eq i1 i2 i3 N1 N2 N3 ns hns hN1 hN2 hN3 h1 h2 h3 dx hx0 hx1
  obtain ⟨_, b, _⟩ := cube_ptr_lists_eq i1 i2 i3 N1 N2 N3 ns hns hN1 hN2 hN3 h1 h2 h3 dy hy0 hy1
  obtain ⟨_, _, c⟩ := cube_ptr_lists_eq i1 i2 i3 N1 N2 N3 ns hns hN1 hN2 hN3 h1 h2 h3 dz hz0 hz1
  rw [a, b, c]

/-- The non-wrapping branch of `interp_cube` is the periodic tensor-product sum
when the footprint lies inside the grid. -/
theorem interp_cube_nowrap_eq (du ker1 ker2 ker3 : ℤ → ℚ) (i1 i2 i3 N1 N2 N3 ns : ℤ)
    (hns : 0 ≤ ns) (h1 : 0 ≤ i1 ∧ i1 + ns ≤ N1) (h2 : 0 ≤ i2 ∧ i2 + ns ≤ N2)
    (h3 : 0 ≤ i3 ∧ i3 + ns ≤ N3) :
    interp_cube_nowrap du ker1 ker2 ker3 i1 i2 i3 N1 N2 ns =
      (periodicSum3 du ker1 ker2 ker3 i1 i2 i3 N1 N2 N3 ns 0,
        periodicSum3 du ker1 ker2 ker3 i1 i2 i3 N1 N2 N3 ns 1) := by
  unfold interp_cube_nowrap periodicSum3
  simp only [add_zero]
  rw [← forRange_sum_pair3 ns hns]
  apply forRange_congr
  intro dz out hz0 hz1
  apply forRange_congr
  intro dy out hy0 hy1
  have e := forRange_sum_pair_counter 0 ns hns
    (fun j dx => du (2 * j) * (ker1 dx * (ker2 dy * ker3 dz)))
    (fun j dx => du (2 * j + 1) * (ker1 dx * (ker2 dy * ker3 dz))) out
    (N1 * N2 * (i3 + dz) + N1 * (i2 + dy) + i1)
  beta_reduce at e
  rw [e]
  dsimp only
  apply forRange_congr
  intro dx o hx0 hx1
  have ex : (i1 + dx) % N1 = i1 + dx := emod_of_range _ _ (by omega) (by omega)
  have ey : (i2 + dy) % N2 = i2 + dy := emod_of_range _ _ (by omega) (by omega)
  have ez : (i3 + dz) % N3 = i3 + dz := emod_of_range _ _ (by omega) (by omega)
  have ei : N1 * N2 * (i3 + dz) + N1 * (i2 + dy) + i1 + (dx - 0) =
      N1 * N2 * (i3 + dz) + N1 * (i2 + dy) + (i1 + dx) := by ring
  rw [ex, ey, ez, ei]

/-- The function `interp_square` is the periodic tensor-product sum. -/
theorem interp_square_eq (du ker1 ker2 : ℤ → ℚ) (i1 i2 N1 N2 ns : ℤ) (hns : 0 ≤ ns)
    (hN1 : 1 ≤ N1) (hN2 : 1 ≤ N2) (h1 : -N1 ≤ i1 ∧ i1 < N1) (h2 : -N2 ≤ i2 ∧ i2 < N2) :
    interp_square du ker1 ker2 i1 i2 N1 N2 ns =
      (periodicSum2 du ker1 ker2 i1 i2 N1 N2 ns 0, periodicSum2 du ker1 ker2 i1 i2 N1 N2 ns 1) := by
  unfold interp_square
  split
  · rename_i h
    exact interp_square_nowrap_eq du ker1 ker2 i1 i2 N1 N2 ns hns ⟨h.1, h.2.1⟩ ⟨h.2.2.1, h.2.2.2⟩
  · exact interp_square_wrap_eq du ker1 ker2 i1 i2 N1 N2 ns hns hN1 hN2 h1 h2

/-- The function `interp_cube` is the periodic tensor-product sum. -/
theorem interp_cube_eq (du ker1 ker2 ker3 : ℤ → ℚ) (i1 i2 i3 N1 N2 N3 ns : ℤ)
    (hns : 0 ≤ ns) (hN1 : 1 ≤ N1) (hN2 : 1 ≤ N2) (hN3 : 1 ≤ N3)
    (h1 : -N1 ≤ i1 ∧ i1 < N1) (h2 : -N2 ≤ i2 ∧ i2 < N2) (h3 : -N3 ≤ i3 ∧ i3 < N3) :
    interp_cube du ker1 ker2 ker3 i1 i2 i3 N1 N2 N3 ns =
      (periodicSum3 du ker1 ker2 ker3 i1 i2 i3 N1 N2 N3 ns 0,
        periodicSum3 du ker1 ker2 ker3 i1 i2 i3 N1 N2 N3 ns 1) := by
  unfold interp_cube
  split
  · rename_i h
    exact interp_cube_nowrap_eq du ker1 ker2 ker3 i1 i2 i3 N1 N2 N3 ns hns ⟨h.1, h.2.1⟩
      ⟨h.2.2.1, h.2.2.2.1⟩ ⟨h.2.2.2.2.1, h.2.2.2.2.2⟩
  · exact interp_cube_wrap_eq du ker1 ker2 ker3 i1 i2 i3 N1 N2 N3 ns hns hN1 hN2 hN3 h1 h2 h3

/-- C10: for every corner with `-N_a ≤ i_a < N_a` on each axis and every kernel
width `0 ≤ ns ≤ MAX_KERNEL_WIDTH`, `interp_square` and `interp_cube` return the
periodic tensor-product sum over the footprint, and whenever the footprint lies
inside the grid the non-wrapping branch and the pointer-list branch return the same
value. -/
theorem interp_square_cube_periodic (du ker1 ker2 ker3 : ℤ → ℚ) (i1 i2 i3 N1 N2 N3 ns : ℤ)
    (hns : 0 ≤ ns) (hmax : ns ≤ MAX_KERNEL_WIDTH)
    (hN1 : 1 ≤ N1) (hN2 : 1 ≤ N2) (hN3 : 1 ≤ N3)
    (h1 : -N1 ≤ i1 ∧ i1 < N1) (h2 : -N2 ≤ i2 ∧ i2 < N2) (h3 : -N3 ≤ i3 ∧ i3 < N3) :
    interp_square du ker1 ker2 i1 i2 N1 N2 ns =
      (periodicSum2 du ker1 ker2 i1 i2 N1 N2 ns 0, periodicSum2 du ker1 ker2 i1 i2 N1 N2 ns 1) ∧
    interp_cube du ker1 ker2 ker3 i1 i2 i3 N1 N2 N3 ns =
      (periodicSum3 du ker1 ker2 ker3 i1 i2 i3 N1 N2 N3 ns 0,
        periodicSum3 du ker1 ker2 ker3 i1 i2 i3 N1 N2 N3 ns 1) ∧
    ((0 ≤ i1 ∧ i1 + ns ≤ N1) ∧ (0 ≤ i2 ∧ i2 + ns ≤ N2) →
      interp_square_nowrap du ker1 ker2 i1 i2 N1 ns =
        interp_square_wrap du ker1 ker2 i1 i2 N1 N2 ns) ∧
    ((0 ≤ i1 ∧ i1 + ns ≤ N1) ∧ (0 ≤ i2 ∧ i2 + ns ≤ N2) ∧ (0 ≤ i3 ∧ i3 + ns ≤ N3) →
      interp_cube_nowrap du ker1 ker2 ker3 i1 i2 i3 N1 N2 ns =
        interp_cube_wrap du ker1 ker2 ker3 i1 i2 i3 N1 N2 N3 ns) := by
  have _ := hmax
  refine ⟨interp_square_eq du ker1 ker2 i1 i2 N1 N2 ns hns hN1 hN2 h1 h2,
    interp_cube_eq du ker1 ker2 ker3 i1 i2 i3 N1 N2 N3 ns hns hN1 hN2 hN3 h1 h2 h3, ?_, ?_⟩
  · rintro ⟨a, b⟩
    rw [interp_square_nowrap_eq du ker1 ker2 i1 i2 N1 N2 ns hns a b,
      interp_square_wrap_eq du ker1 ker2 i1 i2 N1 N2 ns hns hN1 hN2 h1 h2]
  · rintro ⟨a, b, c⟩
    rw [interp_cube_nowrap_eq du ker1 ker2 ker3 i1 i2 i3 N1 N2 N3 ns hns a b c,
      interp_cube_wrap_eq du ker1 ker2 ker3 i1 i2 i3 N1 N2 N3 ns hns hN1 hN2 hN3 h1 h2 h3]

theorem interp_square_cube_periodic_witness :
    ((2 : ℤ) ≤ MAX_KERNEL_WIDTH) ∧
    interp_square sampleGrid sampleKer sampleKer (-1 : ℤ) (2 : ℤ) (4 : ℤ) (4 : ℤ) (2 : ℤ) =
      (periodicSum2 sampleGrid sampleKer sampleKer (-1 : ℤ) (2 : ℤ) (4 : ℤ) (4 : ℤ) (2 : ℤ) 0, periodicSum2 sampleGrid sampleKer sampleKer (-1 : ℤ) (2 : ℤ) (4 : ℤ) (4 : ℤ) (2 : ℤ) 1) ∧
    interp_cube sampleGrid sampleKer sampleKer sampleKer (-1 : ℤ) (2 : ℤ) (0 : ℤ) (4 : ℤ) (4 : ℤ) (4 : ℤ) (2 : ℤ) =
      (periodicSum3 sampleGrid sampleKer sampleKer sampleKer (-1 : ℤ) (2 : ℤ) (0 : ℤ) (4 : ℤ) (4 : ℤ) (4 : ℤ) (2 : ℤ) 0,
        periodicSum3 sampleGrid sampleKer sampleKer sampleKer (-1 : ℤ) (2 : ℤ) (0 : ℤ) (4 : ℤ) (4 : ℤ) (4 : ℤ) (2 : ℤ) 1) ∧
    ((0 ≤ (-1 : ℤ) ∧ (-1 : ℤ) + (2 : ℤ) ≤ (4 : ℤ)) ∧ (0 ≤ (2 : ℤ) ∧ (2 : ℤ) + (2 : ℤ) ≤ (4 : ℤ)) →
      interp_square_nowrap sampleGrid sampleKer sampleKer (-1 : ℤ) (2 : ℤ) (4 : ℤ) (2 : ℤ) =
        interp_square_wrap sampleGrid sampleKer sampleKer (-1 : ℤ) (2 : ℤ) (4 : ℤ) (4 : ℤ) (2 : ℤ)) ∧
    ((0 ≤ (-1 : ℤ) ∧ (-1 : ℤ) + (2 : ℤ) ≤ (4 : ℤ)) ∧ (0 ≤ (2 : ℤ) ∧ (2 : ℤ) + (2 : ℤ) ≤ (4 : ℤ)) ∧ (0 ≤ (0 : ℤ) ∧ (0 : ℤ) + (2 : ℤ) ≤ (4 : ℤ)) →
      interp_cube_nowrap sampleGrid sampleKer sampleKer sampleKer (-1 : ℤ) (2 : ℤ) (0 : ℤ) (4 : ℤ) (4 : ℤ) (2 : ℤ) =
        interp_cube_wrap sampleGrid sampleKer sampleKer sampleKer (-1 : ℤ) (2 : ℤ) (0 : ℤ) (4 : ℤ) (4 : ℤ) (4 : ℤ) (2 : ℤ)) :=
  ⟨by decide, interp_square_cube_periodic sampleGrid sampleKer sampleKer sampleKer (-1) 2 0 4 4 4 2
    (by decide) (by decide) (by decide) (by decide) (by decide) (by decide) (by decide)
    (by decide)⟩

/-- An accumulation loop of `interp_line`, with its running index eliminated. -/
theorem lineStep_loop (du ker : ℤ → ℚ) (lo hi : ℤ) (hle : lo ≤ hi) (a : ℚ × ℚ) (base : ℤ) :
    forRange lo hi (lineStep du ker) (a, base) =
      (forRange lo hi
        (fun dx (o : ℚ × ℚ) =>
          (o.1 + du (2 * (base + (dx - lo))) * ker dx,
            o.2 + du (2 * (base + (dx - lo)) + 1) * ker dx)) a,
        base + (hi - lo)) :=
  forRange_sum_pair_counter lo hi hle (fun j dx => du (2 * j) * ker dx)
    (fun j dx => du (2 * j + 1) * ker dx) a base

/-- The function `interp_line` is the periodic sum over the footprint, for a
leftmost index within one period of the box and a footprint that wraps at most
once. -/
theorem interp_line_eq (du ker : ℤ → ℚ) (i1 N1 ns : ℤ) (hns : 0 ≤ ns)
    (hlo : -N1 ≤ i1) (hhi : i1 ≤ N1) (hneg : i1 < 0 → -i1 ≤ ns ∧ i1 + ns ≤ N1)
    (hpos : 0 ≤ i1 → i1 + ns ≤ 2 * N1) :
    interp_line du ker i1 N1 ns =
      (periodicSum1 du ker i1 N1 ns 0, periodicSum1 du ker i1 N1 ns 1) := by
  have ref := forRange_sum_pair ns hns
    (fun dx => du (2 * ((i1 + dx) % N1) + 0) * ker dx)
    (fun dx => du (2 * ((i1 + dx) % N1) + 1) * ker dx) (0, 0)
  simp only [zero_add] at ref
  unfold periodicSum1
  rw [← ref]
  unfold interp_line
  by_cases h1 : i1 < 0
  · obtain ⟨n1, n2⟩ := hneg h1
    rw [if_pos h1]
    simp only []
    rw [lineStep_loop du ker 0 (-i1) (by omega), lineStep_loop du ker (-i1) ns n1]
    dsimp only
    rw [forRange_split 0 (-i1) ns _ _ (by omega) n1]
    have a1 : forRange 0 (-i1)
        (fun dx (o : ℚ × ℚ) =>
          (o.1 + du (2 * (i1 + N1 + (dx - 0))) * ker dx,
            o.2 + du (2 * (i1 + N1 + (dx - 0)) + 1) * ker dx)) (0, 0) =
        forRange 0 (-i1)
          (fun k (o : ℚ × ℚ) =>
            (o.1 + du (2 * ((i1 + k) % N1) + 0) * ker k,
              o.2 + du (2 * ((i1 + k) % N1) + 1) * ker k)) (0, 0) := by
      apply forRange_congr
      intro dx o hx0 hx1
      rw [emod_of_neg_range (i1 + dx) N1 (by omega) (by omega)]
      have e : i1 + N1 + (dx - 0) = i1 + dx + N1 := by ring
      rw [e, add_zero]
    rw [a1]
    apply forRange_congr
    intro dx o hx0 hx1
    rw [emod_of_range (i1 + dx) N1 (by omega) (by omega)]
    have e : i1 + N1 + (-i1 - 0) - N1 + (dx - -i1) = i1 + dx := by ring
    rw [e, add_zero]
  · rw [if_neg h1]
    have p2 := hpos (by omega)
    by_cases h2 : i1 + ns ≥ N1
    · rw [if_pos h2]
      simp only []
      rw [lineStep_loop du ker 0 (N1 - i1) (by omega), lineStep_loop du ker (N1 - i1) ns (by omega)]
      dsimp only
      rw [forRange_split 0 (N1 - i1) ns _ _ (by omega) (by omega)]
      have a1 : forRange 0 (N1 - i1)
          (fun dx (o : ℚ × ℚ) =>
            (o.1 + du (2 * (i1 + (dx - 0))) * ker dx,
              o.2 + du (2 * (i1 + (dx - 0)) + 1) * ker dx)) (0, 0) =
          forRange 0 (N1 - i1)
            (fun k (o : ℚ × ℚ) =>
              (o.1 + du (2 * ((i1 + k) % N1) + 0) * ker k,
                o.2 + du (2 * ((i1 + k) % N1) + 1) * ker k)) (0, 0) := by
        apply forRange_congr
        intro dx o hx0 hx1
        rw [emod_of_range (i1 + dx) N1 (by omega) (by omega)]
        have e : i1 + (dx - 0) = i1 + dx := by ring
        rw [e, add_zero]
      rw [a1]
      apply forRange_congr
      intro dx o hx0 hx1
      rw [emod_of_high_range (i1 + dx) N1 (by omega) (by omega)]
      have e : i1 + (N1 - i1 - 0) - N1 + (dx - (N1 - i1)) = i1 + dx - N1 := by ring
      rw [e, add_zero]
    · rw [if_neg h2]
      rw [lineStep_loop du ker 0 ns hns]
      dsimp only
      apply forRange_congr
      intro dx o hx0 hx1
      rw [emod_of_range (i1 + dx) N1 (by omega) (by omega)]
      have e : i1 + (dx - 0) = i1 + dx := by ring
      rw [e, add_zero]

theorem forRangeStep_eq {σ : Type} (lo hi step : ℤ) (body : ℤ → σ → σ) (s : σ) :
    forRangeStep lo hi step body s =
      forRange 0 ((hi - lo + step - 1) / step) (fun c st => body (lo + step * c) st) s := by
  unfold forRangeStep forRange
  simp only [sub_zero, zero_add]

theorem forRange_shift {σ : Type} (lo hi : ℤ) (body : ℤ → σ → σ) (s : σ) :
    forRange lo hi body s = forRange 0 (hi - lo) (fun k st => body (lo + k) st) s := by
  unfold forRange
  simp only [sub_zero, zero_add]

/-- Loop tiling: running the chunks `[chunk*c, min (chunk*(c+1)) M)` one after the
other is running the flat loop over `[0, M)`. -/
theorem forRange_tiled {σ : Type} (M chunk : ℤ) (hM : 0 ≤ M) (hc : 1 ≤ chunk)
    (g : ℤ → σ → σ) (s : σ) :
    forRange 0 ((M - 0 + chunk - 1) / chunk)
      (fun c st => forRange 0 (if 0 + chunk * c + chunk > M then M - (0 + chunk * c) else chunk)
        (fun t st => g (0 + chunk * c + t) st) st) s =
    forRange 0 M g s := by
  have hn : 0 ≤ (M - 0 + chunk - 1) / chunk := Int.ediv_nonneg (by omega) (by omega)
  have key := forRange_induct
    (fun C (st : σ) => st = forRange 0 (min (chunk * C) M) g s)
    0 ((M - 0 + chunk - 1) / chunk)
    (fun c st => forRange 0 (if 0 + chunk * c + chunk > M then M - (0 + chunk * c) else chunk)
        (fun t st => g (0 + chunk * c + t) st) st) s hn ?_ ?_
  · rw [key]
    congr 1
    have h1 : chunk * ((M - 0 + chunk - 1) / chunk) ≤ M - 0 + chunk - 1 :=
      Int.mul_ediv_self_le (by omega)
    have h2 : M - 0 + chunk - 1 < chunk * ((M - 0 + chunk - 1) / chunk) + chunk :=
      Int.lt_mul_ediv_self_add (by omega)
    omega
  · beta_reduce
    simp only [mul_zero]
    rw [min_eq_left hM, forRange_empty _ _ _ _ (le_refl _)]
  · intro C st hC0 hC1 ih
    beta_reduce
    have h1 : chunk * ((M - 0 + chunk - 1) / chunk) ≤ M - 0 + chunk - 1 :=
      Int.mul_ediv_self_le (by omega)
    have h3 : chunk * (C + 1) ≤ chunk * ((M - 0 + chunk - 1) / chunk) :=
      mul_le_mul_of_nonneg_left (by omega) (by omega)
    have h4 : chunk * (C + 1) = chunk * C + chunk := by ring
    have h5 : 0 ≤ chunk * C := mul_nonneg (by omega) hC0
    have hCM : chunk * C < M := by omega
    rw [ih, min_eq_left (le_of_lt hCM)]
    rw [forRange_split 0 (chunk * C) (min (chunk * (C + 1)) M) g s h5
      (by rw [h4]; exact le_min (by omega) (le_of_lt hCM))]
    rw [forRange_shift (chunk * C) (min (chunk * (C + 1)) M)]
    have e1 : (if 0 + chunk * C + chunk > M then M - (0 + chunk * C) else chunk) =
        min (chunk * (C + 1)) M - chunk * C := by
      by_cases h : 0 + chunk * C + chunk > M
      · rw [if_pos h, min_eq_right (by omega)]; ring
      · rw [if_neg h, min_eq_left (by omega)]; ring
    rw [e1]
    apply forRange_congr
    intro t st' _ _
    rw [zero_add]

/-- A loop that stores a pair at `(2t, 2t+1)` for `t = 0, ..., n-1`. -/
theorem forRange_fill_pairs (n : ℤ) (hn : 0 ≤ n) (a b : ℤ → ℚ) (ob : ℤ → ℚ) (t : ℤ)
    (h0 : 0 ≤ t) (h1 : t < n) :
    forRange 0 n
      (fun t (ob : ℤ → ℚ) => Function.update (Function.update ob (2 * t) (a t)) (2 * t + 1) (b t))
      ob (2 * t) = a t ∧
    forRange 0 n
      (fun t (ob : ℤ → ℚ) => Function.update (Function.update ob (2 * t) (a t)) (2 * t + 1) (b t))
      ob (2 * t + 1) = b t := by
  have key := forRange_induct
    (fun T (st : ℤ → ℚ) => ∀ u, 0 ≤ u → u < T → st (2 * u) = a u ∧ st (2 * u + 1) = b u)
    0 n
    (fun t (ob : ℤ → ℚ) => Function.update (Function.update ob (2 * t) (a t)) (2 * t + 1) (b t))
    ob hn (by intro u h h'; omega) ?_
  · exact key t h0 h1
  · intro T st hT0 hT1 ih u hu0 hu1
    beta_reduce
    by_cases hu : u = T
    · subst hu
      rw [Function.update_noteq (by omega), Function.update_same, Function.update_same]
      exact ⟨rfl, rfl⟩
    · rw [Function.update_noteq (by omega), Function.update_noteq (by omega),
        Function.update_noteq (by omega), Function.update_noteq (by omega)]
      exact ih u hu0 (by omega)

/-- The buffers `jlist` and `xjlist` of a chunk. -/
theorem chunk_buffers (s : ℤ → ℤ) (kx ky kz : ℤ → ℚ) (i n nd : ℤ) (hn : 0 ≤ n) (t : ℤ)
    (h0 : 0 ≤ t) (h1 : t < n) :
    (interp_chunk_setup s kx ky kz nd i n).1 t = s (i + t) ∧
    (interp_chunk_setup s kx ky kz nd i n).2.1 t = kx (s (i + t)) := by
  unfold interp_chunk_setup
  have key := forRange_induct
    (fun T (st : (ℤ → ℤ) × (ℤ → ℚ) × (ℤ → ℚ) × (ℤ → ℚ)) =>
      ∀ u, 0 ≤ u → u < T → st.1 u = s (i + u) ∧ st.2.1 u = kx (s (i + u)))
    0 n
    (fun ibuf (st : (ℤ → ℤ) × (ℤ → ℚ) × (ℤ → ℚ) × (ℤ → ℚ)) =>
        (Function.update st.1 ibuf (s (i + ibuf)),
          Function.update st.2.1 ibuf (kx (s (i + ibuf))),
          (if nd ≥ 2 then Function.update st.2.2.1 ibuf (ky (s (i + ibuf))) else st.2.2.1),
          (if nd = 3 then Function.update st.2.2.2 ibuf (kz (s (i + ibuf))) else st.2.2.2)))
    ((fun _ => 0), (fun _ => 0), (fun _ => 0), (fun _ => 0)) hn
    (by intro u h h'; omega) ?_
  · exact key t h0 h1
  · intro T st hT0 hT1 ih u hu0 hu1
    beta_reduce
    by_cases hu : u = T
    · subst hu
      simp only [Function.update_same, and_self]
    · simp only [Function.update_noteq hu]
      exact ih u hu0 (by omega)

/-- In rank 1 the target of a point does not depend on `yj`, `zj` or the previous
content of `target`. -/
theorem interp_point_rank1 (K : ℚ → ℚ) (du : ℤ → ℚ) (N1 N2 N3 : ℤ) (opts : SpreadParameters)
    (x y z : ℚ) (old : ℚ × ℚ) :
    interp_point K du N1 N2 N3 opts 1 x y z old =
      interp_point K du N1 N2 N3 opts 1 x 0 0 (0, 0) := by
  simp [interp_point]

/-- The buffer `outbuf` of a rank-1 chunk. -/
theorem chunk_outbuf_rank1 (K : ℚ → ℚ) (du : ℤ → ℚ) (N1 N2 N3 : ℤ) (opts : SpreadParameters)
    (n : ℤ) (hn : 0 ≤ n) (xl yl zl : ℤ → ℚ) (t : ℤ) (h0 : 0 ≤ t) (h1 : t < n) :
    interp_chunk_outbuf K du N1 N2 N3 opts 1 n xl yl zl (2 * t) =
      (interp_point K du N1 N2 N3 opts 1 (xl t) 0 0 (0, 0)).1 ∧
    interp_chunk_outbuf K du N1 N2 N3 opts 1 n xl yl zl (2 * t + 1) =
      (interp_point K du N1 N2 N3 opts 1 (xl t) 0 0 (0, 0)).2 := by
  unfold interp_chunk_outbuf
  have e : (fun ibuf (outbuf : ℤ → ℚ) =>
      let xj := xl ibuf
      let yj : ℚ := if (1 : ℤ) > 1 then yl ibuf else 0
      let zj : ℚ := if (1 : ℤ) > 2 then zl ibuf else 0
      let target := interp_point K du N1 N2 N3 opts 1 xj yj zj
        (outbuf (2 * ibuf), outbuf (2 * ibuf + 1))
      Function.update (Function.update outbuf (2 * ibuf) target.1) (2 * ibuf + 1) target.2) =
      (fun t (ob : ℤ → ℚ) =>
        Function.update (Function.update ob (2 * t)
          ((fun t => (interp_point K du N1 N2 N3 opts 1 (xl t) 0 0 (0, 0)).1) t)) (2 * t + 1)
          ((fun t => (interp_point K du N1 N2 N3 opts 1 (xl t) 0 0 (0, 0)).2) t)) := by
    funext ibuf outbuf
    simp only []
    rw [interp_point_rank1]
  rw [e]
  exact forRange_fill_pairs n hn _ _ _ t h0 h1

/-- A rank-1 chunk of `interpSorted` scatters the targets of its points. -/
theorem interp_chunk_rank1 (K : ℚ → ℚ) (chunk : ℤ) (s : ℤ → ℤ) (N1 N2 N3 : ℤ)
    (du : ℤ → ℚ) (M : ℤ) (kx ky kz : ℤ → ℚ) (opts : SpreadParameters) (i : ℤ) (dn : ℤ → ℚ)
    (hrank : get_transform_rank N1 N2 N3 = 1) (hc : 1 ≤ chunk) (hi : i < M) :
    interp_chunk K chunk s N1 N2 N3 du M kx ky kz opts i dn =
      forRange 0 (if i + chunk > M then M - i else chunk)
        (fun t (dn : ℤ → ℚ) =>
          Function.update
            (Function.update dn (2 * s (i + t)) (interp_point K du N1 N2 N3 opts 1 (kx (s (i + t))) 0 0 (0, 0)).1)
            (2 * s (i + t) + 1) (interp_point K du N1 N2 N3 opts 1 (kx (s (i + t))) 0 0 (0, 0)).2)
        dn := by
  have hb : 0 ≤ (if i + chunk > M then M - i else chunk) := by
    split <;> omega
  unfold interp_chunk
  simp only [hrank]
  apply forRange_congr
  intro t dn' ht0 ht1
  obtain ⟨bj, bx⟩ := chunk_buffers s kx ky kz i _ 1 hb t ht0 ht1
  obtain ⟨o1, o2⟩ := chunk_outbuf_rank1 K du N1 N2 N3 opts _ hb
    (interp_chunk_setup s kx ky kz 1 i (if i + chunk > M then M - i else chunk)).2.1
    (interp_chunk_setup s kx ky kz 1 i (if i + chunk > M then M - i else chunk)).2.2.1
    (interp_chunk_setup s kx ky kz 1 i (if i + chunk > M then M - i else chunk)).2.2.2
    t ht0 ht1
  rw [bj, o1, o2, bx]

/-- A flat scatter loop through an index array: every complex entry `s p` holds
the value of its point, and entries that are no `s p` are untouched. -/
theorem forRange_scatter (M : ℤ) (hM : 0 ≤ M) (s : ℤ → ℤ) (a b : ℤ → ℚ) (dn : ℤ → ℚ) :
    (∀ p, 0 ≤ p → p < M →
      forRange 0 M
        (fun p (d : ℤ → ℚ) =>
          Function.update (Function.update d (2 * s p) (a (s p))) (2 * s p + 1) (b (s p)))
        dn (2 * s p) = a (s p) ∧
      forRange 0 M
        (fun p (d : ℤ → ℚ) =>
          Function.update (Function.update d (2 * s p) (a (s p))) (2 * s p + 1) (b (s p)))
        dn (2 * s p + 1) = b (s p)) ∧
    (∀ q, (∀ p, 0 ≤ p → p < M → q ≠ 2 * s p ∧ q ≠ 2 * s p + 1) →
      forRange 0 M
        (fun p (d : ℤ → ℚ) =>
          Function.update (Function.update d (2 * s p) (a (s p))) (2 * s p + 1) (b (s p)))
        dn q = dn q) := by
  refine forRange_induct
    (fun P (st : ℤ → ℚ) =>
      (∀ p, 0 ≤ p → p < P → st (2 * s p) = a (s p) ∧ st (2 * s p + 1) = b (s p)) ∧
      (∀ q, (∀ p, 0 ≤ p → p < P → q ≠ 2 * s p ∧ q ≠ 2 * s p + 1) → st q = dn q))
    0 M _ dn hM ⟨by intro p h h'; omega, fun q _ => rfl⟩ ?_
  rintro P st hP0 hP1 ⟨ihA, ihB⟩
  beta_reduce
  refine ⟨?_, ?_⟩
  · intro p hp0 hp1
    by_cases hsp : s p = s P
    · rw [hsp, Function.update_noteq (by omega), Function.update_same, Function.update_same]
      exact ⟨rfl, rfl⟩
    · rw [Function.update_noteq (by omega), Function.update_noteq (by omega),
        Function.update_noteq (by omega), Function.update_noteq (by omega)]
      have hpP : p ≠ P := by rintro rfl; exact hsp rfl
      exact ihA p hp0 (by omega)
  · intro q hq
    obtain ⟨q1, q2⟩ := hq P hP0 (by omega)
    rw [Function.update_noteq q2, Function.update_noteq q1]
    exact ihB q (fun p h0 h1 => hq p h0 (by omega))

/-- The leftmost cell of a point of `[0, N1]` for a kernel of width `ns ≤ N1`
satisfies the conditions under which `interp_line` wraps at most once. -/
theorem leftmost_cell_bounds (x : ℚ) (N1 ns : ℤ) (hx0 : 0 ≤ x) (hx1 : x ≤ (N1 : ℚ))
    (hns0 : 0 ≤ ns) (hns : ns ≤ N1) :
    -N1 ≤ ⌈x - (ns : ℚ) / 2⌉ ∧ ⌈x - (ns : ℚ) / 2⌉ ≤ N1 ∧
    (⌈x - (ns : ℚ) / 2⌉ < 0 → -⌈x - (ns : ℚ) / 2⌉ ≤ ns ∧ ⌈x - (ns : ℚ) / 2⌉ + ns ≤ N1) ∧
    (0 ≤ ⌈x - (ns : ℚ) / 2⌉ → ⌈x - (ns : ℚ) / 2⌉ + ns ≤ 2 * N1) := by
  have q0 : (0 : ℚ) ≤ (ns : ℚ) := by exact_mod_cast hns0
  have q1 : (ns : ℚ) ≤ (N1 : ℚ) := by exact_mod_cast hns
  have hlow : -ns ≤ ⌈x - (ns : ℚ) / 2⌉ := by
    have : ((-ns : ℤ) : ℚ) ≤ x - (ns : ℚ) / 2 := by push_cast; linarith
    exact Int.le_ceil_iff.mpr (by push_cast at this ⊢; linarith)
  have hup : ⌈x - (ns : ℚ) / 2⌉ ≤ N1 := Int.ceil_le.mpr (by linarith)
  have hup2 : ⌈x - (ns : ℚ) / 2⌉ ≤ 2 * N1 - ns := Int.ceil_le.mpr (by push_cast; linarith)
  refine ⟨by omega, hup, fun h => ⟨by omega, by omega⟩, fun _ => by omega⟩

/-- The target of a rank-1 point inside the box is the reference value. -/
theorem interp_point_eq_ref (K : ℚ → ℚ) (du : ℤ → ℚ) (N1 N2 N3 : ℤ) (opts : SpreadParameters)
    (x : ℚ) (hx0 : 0 ≤ x) (hx1 : x ≤ (N1 : ℚ)) (hns0 : 0 ≤ opts.kernel_width)
    (hns : opts.kernel_width ≤ N1) :
    interp_point K du N1 N2 N3 opts 1 x 0 0 (0, 0) =
      (interpRef K du N1 opts.kernel_width (scaleOf opts) x 0,
        interpRef K du N1 opts.kernel_width (scaleOf opts) x 1) := by
  obtain ⟨b0, b1, b2, b3⟩ := leftmost_cell_bounds x N1 opts.kernel_width hx0 hx1 hns0 hns
  have hl := interp_line_eq du
    (kernel_values K ((⌈x - (opts.kernel_width : ℚ) / 2⌉ : ℤ) - x))
    ⌈x - (opts.kernel_width : ℚ) / 2⌉ N1 opts.kernel_width hns0 b0 b1 b2 b3
  simp only [interp_point, if_true, hl, interpRef, scaleOf, periodicSum1, kernel_values]
  by_cases hs : opts.spread_only = true
  · simp only [hs, if_true]
    rw [mul_comm, mul_comm (sumRange _ _)]
  · simp only [hs, if_false, one_mul]
    simp

/-- Rank-1 `interpSorted`, for any chunk size, meets `InterpSpec`. -/
theorem interpSortedChunked_spec (K : ℚ → ℚ) (chunk : ℤ) (s : ℤ → ℤ) (N1 N2 N3 : ℤ)
    (du : ℤ → ℚ) (M : ℤ) (kx ky kz : ℤ → ℚ) (dn : ℤ → ℚ) (opts : SpreadParameters)
    (hrank : get_transform_rank N1 N2 N3 = 1) (hc : 1 ≤ chunk) (hM : 0 ≤ M)
    (hperm : IsPermutation s M)
    (hx : ∀ j, 0 ≤ j → j < M → 0 ≤ kx j ∧ kx j ≤ (N1 : ℚ))
    (hns0 : 0 ≤ opts.kernel_width) (hns : opts.kernel_width ≤ N1) :
    InterpSpec K du N1 M kx opts dn
      (interpSortedChunked K chunk s N1 N2 N3 du M kx ky kz dn opts).2 := by
  unfold interpSortedChunked
  dsimp only
  rw [forRangeStep_eq]
  -- every chunk is a scatter loop
  have hn : 0 ≤ (M - 0 + chunk - 1) / chunk := Int.ediv_nonneg (by omega) (by omega)
  have e1 : forRange 0 ((M - 0 + chunk - 1) / chunk)
      (fun c st => interp_chunk K chunk s N1 N2 N3 du M kx ky kz opts (0 + chunk * c) st) dn =
      forRange 0 ((M - 0 + chunk - 1) / chunk)
        (fun c st =>
          forRange 0 (if 0 + chunk * c + chunk > M then M - (0 + chunk * c) else chunk)
            (fun t st =>
              (fun p (d : ℤ → ℚ) =>
                Function.update
                  (Function.update d (2 * s p)
                    ((fun j => (interp_point K du N1 N2 N3 opts 1 (kx j) 0 0 (0, 0)).1) (s p)))
                  (2 * s p + 1)
                  ((fun j => (interp_point K du N1 N2 N3 opts 1 (kx j) 0 0 (0, 0)).2) (s p)))
              (0 + chunk * c + t) st) st) dn := by
    apply forRange_congr
    intro c st hc0 hc1
    have h1 : chunk * ((M - 0 + chunk - 1) / chunk) ≤ M - 0 + chunk - 1 :=
      Int.mul_ediv_self_le (by omega)
    have h3 : chunk * (c + 1) ≤ chunk * ((M - 0 + chunk - 1) / chunk) :=
      mul_le_mul_of_nonneg_left (by omega) (by omega)
    have h4 : chunk * (c + 1) = chunk * c + chunk := by ring
    rw [interp_chunk_rank1 K chunk s N1 N2 N3 du M kx ky kz opts _ st hrank hc (by omega)]
  rw [e1, forRange_tiled M chunk hM hc
    (fun p (d : ℤ → ℚ) =>
      Function.update
        (Function.update d (2 * s p)
          ((fun j => (interp_point K du N1 N2 N3 opts 1 (kx j) 0 0 (0, 0)).1) (s p)))
        (2 * s p + 1)
        ((fun j => (interp_point K du N1 N2 N3 opts 1 (kx j) 0 0 (0, 0)).2) (s p))) dn]
  obtain ⟨sA, sB⟩ := forRange_scatter M hM s
    (fun j => (interp_point K du N1 N2 N3 opts 1 (kx j) 0 0 (0, 0)).1)
    (fun j => (interp_point K du N1 N2 N3 opts 1 (kx j) 0 0 (0, 0)).2) dn
  constructor
  · intro j hj0 hj1
    obtain ⟨p, ⟨⟨hp0, hp1⟩, hp⟩, _⟩ := hperm.2 j hj0 hj1
    have := sA p hp0 hp1
    rw [hp] at this
    obtain ⟨xa, xb⟩ := hx j hj0 hj1
    rw [this.1, this.2]
    rw [interp_point_eq_ref K du N1 N2 N3 opts (kx j) xa xb hns0 hns]
    exact ⟨rfl, rfl⟩
  · intro q hq
    apply sB
    intro p hp0 hp1
    have := hperm.1 p hp0 hp1
    omega

/-- C9: in rank 1, for a permutation `sort_indices` of `0..M-1`, points in
`[0, N1]` and kernel width `0 ≤ ns ≤ N1`, `interpSorted` returns 0 and leaves in
every complex entry `j` of `[0, M)` the value
`scale * sum over dx of grid[(ceil(x_j - ns/2) + dx) mod N1] * K(ceil(x_j - ns/2) - x_j + dx)`
for the coordinate `x_j` of point `j` in the caller's order, changing nothing else;
the same holds for every chunk size `≥ 1`, so the output depends neither on the
permutation nor on the chunk size. -/
theorem interpSorted_rank1 (K : ℚ → ℚ) (chunk : ℤ) (s : ℤ → ℤ) (N1 N2 N3 : ℤ)
    (du : ℤ → ℚ) (M : ℤ) (kx ky kz : ℤ → ℚ) (dn : ℤ → ℚ) (opts : SpreadParameters)
    (did_sort : Bool)
    (hrank : get_transform_rank N1 N2 N3 = 1) (hc : 1 ≤ chunk) (hM : 0 ≤ M)
    (hperm : IsPermutation s M)
    (hx : ∀ j, 0 ≤ j → j < M → 0 ≤ kx j ∧ kx j ≤ (N1 : ℚ))
    (hns0 : 0 ≤ opts.kernel_width) (hns : opts.kernel_width ≤ N1) :
    (interpSorted K s N1 N2 N3 du M kx ky kz dn opts did_sort).1 = 0 ∧
    InterpSpec K du N1 M kx opts dn
      (interpSorted K s N1 N2 N3 du M kx ky kz dn opts did_sort).2 ∧
    InterpSpec K du N1 M kx opts dn
      (interpSortedChunked K chunk s N1 N2 N3 du M kx ky kz dn opts).2 :=
  ⟨rfl,
    interpSortedChunked_spec K CHUNK_SIZE s N1 N2 N3 du M kx ky kz dn opts hrank (by decide) hM
      hperm hx hns0 hns,
    interpSortedChunked_spec K chunk s N1 N2 N3 du M kx ky kz dn opts hrank hc hM hperm hx
      hns0 hns⟩

theorem swapTwo_isPermutation : IsPermutation swapTwo 2 := by
  constructor
  · intro p h0 h1
    simp only [swapTwo]; omega
  · intro j h0 h1
    refine ⟨1 - j, ⟨⟨by omega, by omega⟩, by simp only [swapTwo]; omega⟩, ?_⟩
    rintro q ⟨_, hq⟩
    simp only [swapTwo] at hq; omega

theorem sampleCoords_range : ∀ j : ℤ, 0 ≤ j → j < 2 →
    0 ≤ sampleCoords j ∧ sampleCoords j ≤ ((4 : ℤ) : ℚ) := by
  intro j _ _
  unfold sampleCoords
  split <;> norm_num

theorem interpSorted_rank1_witness :
    get_transform_rank 4 1 1 = 1 ∧ IsPermutation swapTwo 2 ∧
    (interpSorted id swapTwo 4 1 1 sampleGrid 2 sampleCoords sampleCoords sampleCoords
      sampleGrid sampleOpts true).1 = 0 ∧
    InterpSpec id sampleGrid 4 2 sampleCoords sampleOpts sampleGrid
      (interpSorted id swapTwo 4 1 1 sampleGrid 2 sampleCoords sampleCoords sampleCoords
        sampleGrid sampleOpts true).2 ∧
    InterpSpec id sampleGrid 4 2 sampleCoords sampleOpts sampleGrid
      (interpSortedChunked id 1 swapTwo 4 1 1 sampleGrid 2 sampleCoords sampleCoords
        sampleCoords sampleGrid sampleOpts).2 :=
  ⟨by decide, swapTwo_isPermutation,
    interpSorted_rank1 id 1 swapTwo 4 1 1 sampleGrid 2 sampleCoords sampleCoords sampleCoords
      sampleGrid sampleOpts true (by decide) (by decide) (by decide) swapTwo_isPermutation
      sampleCoords_range (by decide) (by decide)⟩

theorem countBelow_zero (bin : ℤ → ℤ) (b : ℤ) : countBelow bin b 0 = 0 := by
  simp [countBelow]

theorem countBelow_succ (bin : ℤ → ℤ) (b i : ℤ) (hi : 0 ≤ i) :
    countBelow bin b (i + 1) = countBelow bin b i + if bin i = b then 1 else 0 := by
  unfold countBelow
  have : (i + 1).toNat = i.toNat + 1 := by omega
  rw [this, Finset.sum_range_succ, Int.toNat_of_nonneg hi]

theorem countBelow_nonneg (bin : ℤ → ℤ) (b i : ℤ) : 0 ≤ countBelow bin b i := by
  unfold countBelow
  apply Finset.sum_nonneg
  intro j _
  split <;> norm_num

theorem countBelow_mono (bin : ℤ → ℤ) (b : ℤ) :
    ∀ i k, 0 ≤ i → i ≤ k → countBelow bin b i ≤ countBelow bin b k := by
  intro i k hi hik
  apply mono_of_step (fun i => countBelow bin b i) 0 k _ i k hi hik (le_refl _)
  intro p hp0 _
  beta_reduce
  rw [countBelow_succ bin b p hp0]
  split <;> omega

theorem binStart_zero (bin : ℤ → ℤ) (M : ℤ) : binStart bin M 0 = 0 := by
  simp [binStart]

theorem binStart_succ (bin : ℤ → ℤ) (M b : ℤ) (hb : 0 ≤ b) :
    binStart bin M (b + 1) = binStart bin M b + countBelow bin b M := by
  unfold binStart
  have : (b + 1).toNat = b.toNat + 1 := by omega
  rw [this, Finset.sum_range_succ, Int.toNat_of_nonneg hb]

theorem binStart_mono (bin : ℤ → ℤ) (M : ℤ) :
    ∀ a b, 0 ≤ a → a ≤ b → binStart bin M a ≤ binStart bin M b := by
  intro a b ha hab
  apply mono_of_step (fun b => binStart bin M b) 0 b _ a b ha hab (le_refl _)
  intro p hp0 _
  beta_reduce
  rw [binStart_succ bin M p hp0]
  have := countBelow_nonneg bin p M
  omega

/-- All `i` points with bins in `[0, B)` are counted in the first `B` bins. -/
theorem binStart_total (bin : ℤ → ℤ) (B : ℤ) (hB : 0 ≤ B) :
    ∀ i : ℤ, 0 ≤ i → (∀ j, 0 ≤ j → j < i → 0 ≤ bin j ∧ bin j < B) → binStart bin i B = i := by
  intro i hi
  have key : ∀ n : ℕ, (∀ j : ℤ, 0 ≤ j → j < (n : ℤ) → 0 ≤ bin j ∧ bin j < B) →
      binStart bin (n : ℤ) B = (n : ℤ) := by
    intro n
    induction n with
    | zero =>
      intro _
      unfold binStart
      simp [countBelow_zero]
    | succ n ih =>
      intro h
      have ih' := ih (fun j h0 h1 => h j h0 (by push_cast; omega))
      have hb := h n (by omega) (by push_cast; omega)
      unfold binStart at ih' ⊢
      push_cast
      have e : ∀ c : ℕ, countBelow bin (c : ℤ) ((n : ℤ) + 1) =
          countBelow bin (c : ℤ) (n : ℤ) + if bin (n : ℤ) = (c : ℤ) then 1 else 0 :=
        fun c => countBelow_succ bin c n (by omega)
      simp only [e, Finset.sum_add_distrib, ih']
      congr 1
      rw [Finset.sum_eq_single_of_mem (bin (n : ℤ)).toNat]
      · simp [Int.toNat_of_nonneg hb.1]
      · simp; omega
      · intro c _ hc
        have : bin (n : ℤ) ≠ (c : ℤ) := by
          intro h'
          apply hc
          omega
        simp [this]
  intro hbin
  have := key i.toNat (fun j h0 h1 => hbin j h0 (by omega))
  rwa [Int.toNat_of_nonneg hi] at this

/-- A point is counted strictly after its own index. -/
theorem countBelow_lt (bin : ℤ → ℤ) (M i : ℤ) (h0 : 0 ≤ i) (h1 : i < M) :
    countBelow bin (bin i) i < countBelow bin (bin i) M := by
  have a := countBelow_succ bin (bin i) i h0
  rw [if_pos rfl] at a
  have b := countBelow_mono bin (bin i) (i + 1) M (by omega) (by omega)
  omega

theorem sortSlot_range (bin : ℤ → ℤ) (B M i : ℤ) (hB : 0 ≤ B) (hM : 0 ≤ M)
    (hbin : ∀ j, 0 ≤ j → j < M → 0 ≤ bin j ∧ bin j < B) (h0 : 0 ≤ i) (h1 : i < M) :
    0 ≤ sortSlot bin M i ∧ sortSlot bin M i < binStart bin M (bin i + 1) ∧
      sortSlot bin M i < M := by
  obtain ⟨b0, b1⟩ := hbin i h0 h1
  have c0 := countBelow_nonneg bin (bin i) i
  have c1 := countBelow_lt bin M i h0 h1
  have s0 := binStart_mono bin M 0 (bin i) (le_refl _) b0
  rw [binStart_zero] at s0
  have s1 := binStart_succ bin M (bin i) b0
  have s2 := binStart_mono bin M (bin i + 1) B (by omega) (by omega)
  have s3 := binStart_total bin B hB M hM hbin
  unfold sortSlot
  refine ⟨by omega, by omega, by omega⟩

/-- The slots of a stable bin sort are pairwise distinct. -/
theorem sortSlot_inj (bin : ℤ → ℤ) (B M : ℤ) (hB : 0 ≤ B) (hM : 0 ≤ M)
    (hbin : ∀ j, 0 ≤ j → j < M → 0 ≤ bin j ∧ bin j < B) :
    ∀ i k, 0 ≤ i → i < M → 0 ≤ k → k < M → sortSlot bin M i = sortSlot bin M k → i = k := by
  have lt_of : ∀ i k, 0 ≤ i → i < k → k < M → sortSlot bin M i ≠ sortSlot bin M k := by
    intro i k hi hik hk
    obtain ⟨bi0, _⟩ := hbin i hi (by omega)
    obtain ⟨bk0, _⟩ := hbin k (by omega) hk
    obtain ⟨_, ui, _⟩ := sortSlot_range bin B M i hB hM hbin hi (by omega)
    obtain ⟨_, uk, _⟩ := sortSlot_range bin B M k hB hM hbin (by omega) hk
    have ci := countBelow_nonneg bin (bin i) i
    have ck := countBelow_nonneg bin (bin k) k
    rcases lt_trichotomy (bin i) (bin k) with h | h | h
    · have := binStart_mono bin M (bin i + 1) (bin k) (by omega) (by omega)
      unfold sortSlot at ui ⊢
      omega
    · have a := countBelow_succ bin (bin i) i hi
      rw [if_pos rfl] at a
      have b := countBelow_mono bin (bin i) (i + 1) k (by omega) (by omega)
      unfold sortSlot
      rw [← h]
      omega
    · have := binStart_mono bin M (bin k + 1) (bin i) (by omega) (by omega)
      unfold sortSlot at uk ⊢
      omega
  intro i k hi0 hi1 hk0 hk1 h
  rcases lt_trichotomy i k with c | c | c
  · exact absurd h (lt_of i k hi0 c hk1)
  · exact c
  · exact absurd h.symm (lt_of k i hk0 c hi1)

/-- Pigeonhole: an injective map of `[0, M)` into itself is onto. -/
theorem range_surj_of_inj (f : ℤ → ℤ) (M : ℤ)
    (hmap : ∀ i, 0 ≤ i → i < M → 0 ≤ f i ∧ f i < M)
    (hinj : ∀ i k, 0 ≤ i → i < M → 0 ≤ k → k < M → f i = f k → i = k) :
    ∀ v, 0 ≤ v → v < M → ∃ i, (0 ≤ i ∧ i < M) ∧ f i = v := by
  intro v hv0 hv1
  have h := Finset.surj_on_of_inj_on_of_card_le (s := Finset.Ico (0 : ℤ) M)
    (t := Finset.Ico (0 : ℤ) M) (fun a _ => f a)
    (by
      intro a ha
      rw [Finset.mem_Ico] at ha ⊢
      exact hmap a ha.1 ha.2)
    (by
      intro a b ha hb hab
      rw [Finset.mem_Ico] at ha hb
      exact hinj a b ha.1 ha.2 hb.1 hb.2 hab)
    (le_refl _) v (by rw [Finset.mem_Ico]; exact ⟨hv0, hv1⟩)
  obtain ⟨a, ha, hav⟩ := h
  rw [Finset.mem_Ico] at ha
  exact ⟨a, ha, hav.symm⟩

/-- The inversion loop `ret[inv[i]] = i` of an injective map. -/
theorem invert_map_apply (inv : ℤ → ℤ) (M : ℤ) (hM : 0 ≤ M) (ret : ℤ → ℤ)
    (hinj : ∀ i k, 0 ≤ i → i < M → 0 ≤ k → k < M → inv i = inv k → i = k) :
    ∀ i, 0 ≤ i → i < M → invert_map inv M ret (inv i) = i := by
  unfold invert_map
  refine forRange_induct
    (fun K (r : ℤ → ℤ) => ∀ i, 0 ≤ i → i < K → r (inv i) = i) 0 M _ ret hM
    (by intro i h h'; omega) ?_
  intro K r hK0 hK1 ih i hi0 hi1
  beta_reduce
  by_cases h : i = K
  · subst h; rw [Function.update_same]
  · have : inv i ≠ inv K := fun e => h (hinj i K hi0 (by omega) hK0 hK1 e)
    rw [Function.update_noteq this]
    exact ih i hi0 (by omega)

/-- Inverting a bijection of `[0, M)` gives a permutation of `0, ..., M-1`. -/
theorem isPermutation_invert (inv : ℤ → ℤ) (M : ℤ) (hM : 0 ≤ M) (ret : ℤ → ℤ)
    (hmap : ∀ i, 0 ≤ i → i < M → 0 ≤ inv i ∧ inv i < M)
    (hinj : ∀ i k, 0 ≤ i → i < M → 0 ≤ k → k < M → inv i = inv k → i = k) :
    IsPermutation (invert_map inv M ret) M := by
  have hap := invert_map_apply inv M hM ret hinj
  have hsur := range_surj_of_inj inv M hmap hinj
  constructor
  · intro p hp0 hp1
    obtain ⟨i, ⟨hi0, hi1⟩, hi⟩ := hsur p hp0 hp1
    rw [← hi, hap i hi0 hi1]
    exact ⟨hi0, hi1⟩
  · intro j hj0 hj1
    refine ⟨inv j, ⟨hmap j hj0 hj1, hap j hj0 hj1⟩, ?_⟩
    rintro p ⟨⟨hp0, hp1⟩, hp⟩
    obtain ⟨i, ⟨hi0, hi1⟩, hi⟩ := hsur p hp0 hp1
    rw [← hi, hap i hi0 hi1] at hp
    rw [← hi, hp]

/-- The inversion loop only reads `inv` on `[0, M)`. -/
theorem invert_map_congr (inv inv' : ℤ → ℤ) (M : ℤ) (ret : ℤ → ℤ)
    (h : ∀ i, 0 ≤ i → i < M → inv i = inv' i) :
    invert_map inv M ret = invert_map inv' M ret := by
  unfold invert_map
  apply forRange_congr
  intro k st h0 h1
  rw [h k h0 h1]

/-- Inverting the slots of a stable bin sort gives a permutation. -/
theorem isPermutation_of_sortSlot (bin : ℤ → ℤ) (B M : ℤ) (hB : 0 ≤ B) (hM : 0 ≤ M)
    (hbin : ∀ j, 0 ≤ j → j < M → 0 ≤ bin j ∧ bin j < B) (inv ret : ℤ → ℤ)
    (hinv : ∀ i, 0 ≤ i → i < M → inv i = sortSlot bin M i) :
    IsPermutation (invert_map inv M ret) M := by
  rw [invert_map_congr inv (sortSlot bin M) M ret hinv]
  apply isPermutation_invert _ M hM ret
  · intro i h0 h1
    obtain ⟨a, _, c⟩ := sortSlot_range bin B M i hB hM hbin h0 h1
    exact ⟨a, c⟩
  · exact sortSlot_inj bin B M hB hM hbin

/-- Pass 1 of the single-thread bin sort counts the points of every bin. -/
theorem count_loop (bin : ℤ → ℤ) (M : ℤ) (hM : 0 ≤ M) :
    forRange 0 M (fun i (c : ℤ → ℤ) => Function.update c (bin i) (c (bin i) + 1)) (fun _ => 0) =
      fun b => countBelow bin b M := by
  refine forRange_induct
    (fun K (c : ℤ → ℤ) => c = fun b => countBelow bin b K) 0 M _ _ hM ?_ ?_
  · funext b; rw [countBelow_zero]
  · intro K c hK0 hK1 ih
    beta_reduce
    funext b
    rw [ih, countBelow_succ bin b K hK0]
    by_cases h : bin K = b
    · subst h; rw [Function.update_same, if_pos rfl]
    · rw [Function.update_noteq (Ne.symm h), if_neg h, add_zero]

/-- The cumulative sum of the bin counts gives the first slot of every bin. -/
theorem bin_offsets_eq (bin : ℤ → ℤ) (M B : ℤ) (hB : 1 ≤ B) (counts : ℤ → ℤ)
    (hc : ∀ b, 0 ≤ b → b < B → counts b = countBelow bin b M) :
    ∀ b, 0 ≤ b → b < B → bin_offsets counts B b = binStart bin M b := by
  unfold bin_offsets
  refine forRange_induct
    (fun K (o : ℤ → ℤ) => ∀ b, 0 ≤ b → b < K → o b = binStart bin M b) 1 B _ _ hB ?_ ?_
  · intro b h0 h1
    have : b = 0 := by omega
    subst this
    rw [Function.update_same, binStart_zero]
  · intro K o hK0 hK1 ih b hb0 hb1
    beta_reduce
    by_cases h : b = K
    · subst h
      rw [Function.update_same, ih (b - 1) (by omega) (by omega), hc (b - 1) (by omega) (by omega)]
      have := binStart_succ bin M (b - 1) (by omega)
      rw [sub_add_cancel] at this
      rw [this]
    · rw [Function.update_noteq h]
      exact ih b hb0 (by omega)

/-- Pass 2 of the single-thread bin sort: from offsets that hold the first slot of
every bin, point `j` gets the slot `sortSlot j`. -/
theorem fill_inverse_loop (bin : ℤ → ℤ) (B M : ℤ) (hM : 0 ≤ M)
    (hbin : ∀ j, 0 ≤ j → j < M → 0 ≤ bin j ∧ bin j < B) (offsets inv0 : ℤ → ℤ)
    (ho : ∀ b, 0 ≤ b → b < B → offsets b = binStart bin M b) :
    ∀ j, 0 ≤ j → j < M →
      (forRange 0 M
        (fun i (st : (ℤ → ℤ) × (ℤ → ℤ)) =>
          (Function.update st.1 (bin i) (st.1 (bin i) + 1),
            Function.update st.2 i (st.1 (bin i))))
        (offsets, inv0)).2 j = sortSlot bin M j := by
  have key := forRange_induct
    (fun K (st : (ℤ → ℤ) × (ℤ → ℤ)) =>
      (∀ b, 0 ≤ b → b < B → st.1 b = binStart bin M b + countBelow bin b K) ∧
      (∀ j, 0 ≤ j → j < K → st.2 j = sortSlot bin M j))
    0 M
    (fun i (st : (ℤ → ℤ) × (ℤ → ℤ)) =>
      (Function.update st.1 (bin i) (st.1 (bin i) + 1),
        Function.update st.2 i (st.1 (bin i))))
    (offsets, inv0) hM ?_ ?_
  · exact key.2
  · refine ⟨?_, by intro j h h'; omega⟩
    intro b h0 h1
    rw [countBelow_zero, add_zero]
    exact ho b h0 h1
  · rintro K st hK0 hK1 ⟨ihA, ihB⟩
    obtain ⟨bk0, bk1⟩ := hbin K hK0 hK1
    refine ⟨?_, ?_⟩
    · intro b h0 h1
      dsimp only
      rw [countBelow_succ bin b K hK0]
      by_cases h : bin K = b
      · subst h
        rw [Function.update_same, if_pos rfl, ihA _ h0 h1]
        ring
      · rw [Function.update_noteq (Ne.symm h), if_neg h, add_zero]
        exact ihA b h0 h1
    · intro j h0 h1
      dsimp only
      by_cases h : j = K
      · subst h
        rw [Function.update_same, ihA _ bk0 bk1]
        rfl
      · rw [Function.update_noteq h]
        exact ihB j h0 (by omega)

/-- The single-thread bin sort writes a permutation. -/
theorem bin_sort_single_core_perm (bin : ℤ → ℤ) (B M : ℤ) (hB : 1 ≤ B) (hM : 0 ≤ M)
    (hbin : ∀ j, 0 ≤ j → j < M → 0 ≤ bin j ∧ bin j < B) (ret : ℤ → ℤ) :
    IsPermutation (bin_sort_single_core bin B M ret) M := by
  unfold bin_sort_single_core
  apply isPermutation_of_sortSlot bin B M (by omega) hM hbin
  apply fill_inverse_loop bin B M hM hbin
  apply bin_offsets_eq bin M B hB
  intro b _ _
  rw [count_loop bin M hM]

theorem update2_apply (a : ℤ → ℤ → ℤ) (t b v t' b' : ℤ) :
    update2 a t b v t' b' = if t' = t ∧ b' = b then v else a t' b' := by
  unfold update2
  by_cases ht : t' = t
  · subst ht
    rw [Function.update_same]
    by_cases hb : b' = b
    · subst hb; simp
    · rw [Function.update_noteq hb]; simp [hb]
  · rw [Function.update_noteq ht]; simp [ht]

/-- The breakpoints start at `0`, end at `M` and do not decrease. -/
theorem fill_brk_props (M nb : ℤ) (hM : 0 ≤ M) (hnb : 1 ≤ nb) :
    fill_brk M nb 0 = 0 ∧ fill_brk M nb nb = M ∧
    (∀ p, 0 ≤ p → p < nb → fill_brk M nb p ≤ fill_brk M nb (p + 1)) := by
  have e := fun p h0 h1 => fill_brk_eq M nb p (by omega) h0 h1
  refine ⟨?_, ?_, ?_⟩
  · rw [e 0 (by omega) (by omega), brkValue_zero]
  · rw [e nb (by omega) (by omega), brkValue_last M nb hM hnb]
  · intro p h0 h1
    rw [e p h0 (by omega), e (p + 1) (by omega) (by omega)]
    exact brkValue_mono M nb p hM hnb h0

/-- Breakpoints from `0` to `M` stay inside `[0, M]` and are non-decreasing. -/
theorem brk_bounds (brk : ℤ → ℤ) (nt M : ℤ) (h0 : brk 0 = 0) (hl : brk nt = M)
    (hs : ∀ p, 0 ≤ p → p < nt → brk p ≤ brk (p + 1)) :
    ∀ t, 0 ≤ t → t ≤ nt → 0 ≤ brk t ∧ brk t ≤ M := by
  intro t ht0 ht1
  have m := mono_of_step brk 0 nt hs
  have a := m 0 t (le_refl _) ht0 ht1
  have b := m t nt ht0 ht1 (le_refl _)
  omega

/-- One thread's counting loop adds to its row of `ct` the points of its slice. -/
theorem thread_count_loop (bin : ℤ → ℤ) (t lo hi : ℤ) (hlo : 0 ≤ lo) (hle : lo ≤ hi)
    (ct0 : ℤ → ℤ → ℤ) :
    ∀ t' b, forRange lo hi
      (fun i (ct : ℤ → ℤ → ℤ) => update2 ct t (bin i) (ct t (bin i) + 1)) ct0 t' b =
      if t' = t then ct0 t b + (countBelow bin b hi - countBelow bin b lo) else ct0 t' b := by
  refine forRange_induct
    (fun K (ct : ℤ → ℤ → ℤ) => ∀ t' b, ct t' b =
      if t' = t then ct0 t b + (countBelow bin b K - countBelow bin b lo) else ct0 t' b)
    lo hi _ ct0 hle ?_ ?_
  · intro t' b
    by_cases h : t' = t
    · subst h; simp
    · simp [h]
  · intro K ct hK0 hK1 ih t' b
    beta_reduce
    rw [update2_apply, countBelow_succ bin b K (by omega)]
    by_cases h : t' = t
    · subst h
      rw [if_pos rfl, ih t' (bin K), if_pos rfl]
      by_cases hb : b = bin K
      · subst hb
        simp only [true_and, if_true]
        ring
      · have hb' : bin K ≠ b := Ne.symm hb
        simp only [hb, and_false, if_false, hb', add_zero]
        rw [ih t' b, if_pos rfl]
    · simp only [h, false_and, if_false]
      rw [ih t' b, if_neg h]

/-- The per-thread counts `ct[t][b]` of `bin_sort_multithread`. -/
theorem ct_loop (bin : ℤ → ℤ) (brk : ℤ → ℤ) (nt M : ℤ) (hnt : 0 ≤ nt) (h0 : brk 0 = 0)
    (hl : brk nt = M) (hs : ∀ p, 0 ≤ p → p < nt → brk p ≤ brk (p + 1)) :
    ∀ t b, 0 ≤ t → t < nt →
      forRange 0 nt
        (fun t (ct : ℤ → ℤ → ℤ) =>
          forRange (brk t) (brk (t + 1))
            (fun i (ct : ℤ → ℤ → ℤ) => update2 ct t (bin i) (ct t (bin i) + 1)) ct)
        (fun _ _ => 0) t b =
      countBelow bin b (brk (t + 1)) - countBelow bin b (brk t) := by
  have hb := brk_bounds brk nt M h0 hl hs
  have key := forRange_induct
    (fun T (ct : ℤ → ℤ → ℤ) => ∀ t b,
      ct t b = if 0 ≤ t ∧ t < T then
        countBelow bin b (brk (t + 1)) - countBelow bin b (brk t) else 0)
    0 nt
    (fun t (ct : ℤ → ℤ → ℤ) =>
      forRange (brk t) (brk (t + 1))
        (fun i (ct : ℤ → ℤ → ℤ) => update2 ct t (bin i) (ct t (bin i) + 1)) ct)
    (fun _ _ => 0) hnt ?_ ?_
  · intro t b ht0 ht1
    rw [key t b, if_pos ⟨ht0, ht1⟩]
  · intro t b
    have : ¬ (0 ≤ t ∧ t < 0) := by omega
    rw [if_neg this]
  · intro T ct hT0 hT1 ih t b
    beta_reduce
    rw [thread_count_loop bin T (brk T) (brk (T + 1)) (hb T hT0 (by omega)).1 (hs T hT0 hT1) ct]
    by_cases h : t = T
    · subst h
      have c1 : ¬ (0 ≤ t ∧ t < t) := by omega
      have c2 : 0 ≤ t ∧ t < t + 1 := by omega
      rw [if_pos rfl, ih t b, if_neg c1, if_pos c2, zero_add]
    · rw [if_neg h, ih t b]
      by_cases c : 0 ≤ t ∧ t < T
      · rw [if_pos c, if_pos (by omega)]
      · rw [if_neg c, if_neg (by omega)]

/-- Summing one bin over the threads telescopes to the global count. -/
theorem thread_sum_loop (bin : ℤ → ℤ) (brk : ℤ → ℤ) (nt : ℤ) (hnt : 0 ≤ nt) (ct : ℤ → ℤ → ℤ)
    (b : ℤ)
    (hct : ∀ t, 0 ≤ t → t < nt →
      ct t b = countBelow bin b (brk (t + 1)) - countBelow bin b (brk t))
    (c0 : ℤ → ℤ) :
    forRange 0 nt (fun t (counts : ℤ → ℤ) => Function.update counts b (counts b + ct t b)) c0 =
      Function.update c0 b (c0 b + (countBelow bin b (brk nt) - countBelow bin b (brk 0))) := by
  refine forRange_induct
    (fun T (c : ℤ → ℤ) =>
      c = Function.update c0 b (c0 b + (countBelow bin b (brk T) - countBelow bin b (brk 0))))
    0 nt _ c0 hnt ?_ ?_
  · funext x
    by_cases h : x = b
    · subst h; simp
    · simp [h]
  · intro T c hT0 hT1 ih
    beta_reduce
    rw [ih, Function.update_same, Function.update_idem, hct T hT0 hT1]
    ring_nf

/-- The global counts of `bin_sort_multithread`. -/
theorem counts_loop (bin : ℤ → ℤ) (brk : ℤ → ℤ) (nt M B : ℤ) (hnt : 0 ≤ nt) (hB : 0 ≤ B)
    (h0 : brk 0 = 0) (hl : brk nt = M) (ct : ℤ → ℤ → ℤ)
    (hct : ∀ t b, 0 ≤ t → t < nt →
      ct t b = countBelow bin b (brk (t + 1)) - countBelow bin b (brk t)) :
    ∀ b, 0 ≤ b → b < B →
      forRange 0 B
        (fun b (counts : ℤ → ℤ) =>
          forRange 0 nt
            (fun t (counts : ℤ → ℤ) => Function.update counts b (counts b + ct t b)) counts)
        (fun _ => 0) b = countBelow bin b M := by
  have key := forRange_induct
    (fun K (c : ℤ → ℤ) => ∀ b, c b = if 0 ≤ b ∧ b < K then countBelow bin b M else 0)
    0 B
    (fun b (counts : ℤ → ℤ) =>
      forRange 0 nt
        (fun t (counts : ℤ → ℤ) => Function.update counts b (counts b + ct t b)) counts)
    (fun _ => 0) hB ?_ ?_
  · intro b hb0 hb1
    rw [key b, if_pos ⟨hb0, hb1⟩]
  · intro b
    have : ¬ (0 ≤ b ∧ b < 0) := by omega
    rw [if_neg this]
  · intro K c hK0 hK1 ih b
    beta_reduce
    rw [thread_sum_loop bin brk nt hnt ct K (fun t h0 h1 => hct t K h0 h1) c, h0, hl,
      countBelow_zero]
    by_cases h : b = K
    · subst h
      have c1 : ¬ (0 ≤ b ∧ b < b) := by omega
      have c2 : 0 ≤ b ∧ b < b + 1 := by omega
      rw [Function.update_same, ih b, if_neg c1, if_pos c2]
      ring
    · rw [Function.update_noteq h, ih b]
      by_cases c : 0 ≤ b ∧ b < K
      · rw [if_pos c, if_pos (by omega)]
      · rw [if_neg c, if_neg (by omega)]

/-- Row 0 of the per-thread offsets `ot` of `bin_sort_multithread`. -/
theorem ot0_loop (offsets : ℤ → ℤ) (B : ℤ) (hB : 0 ≤ B) :
    ∀ b, 0 ≤ b → b < B →
      forRange 0 B (fun b (ot : ℤ → ℤ → ℤ) => update2 ot 0 b (offsets b)) (fun _ _ => 0) 0 b =
        offsets b := by
  refine forRange_induct
    (fun K (ot : ℤ → ℤ → ℤ) => ∀ b, 0 ≤ b → b < K → ot 0 b = offsets b)
    0 B _ _ hB (by intro b h h'; omega) ?_
  intro K ot hK0 hK1 ih b hb0 hb1
  beta_reduce
  rw [update2_apply]
  by_cases h : b = K
  · subst h; simp
  · simp only [h, and_false, if_false]
    exact ih b hb0 (by omega)

/-- One row of the per-thread offsets: the row above plus that thread's counts. -/
theorem ot_row_loop (ct : ℤ → ℤ → ℤ) (t B : ℤ) (hB : 0 ≤ B) (ot0 : ℤ → ℤ → ℤ) (ht : t - 1 ≠ t) :
    ∀ t' b, forRange 0 B
      (fun b (ot : ℤ → ℤ → ℤ) => update2 ot t b (ot (t - 1) b + ct (t - 1) b)) ot0 t' b =
      if t' = t ∧ 0 ≤ b ∧ b < B then ot0 (t - 1) b + ct (t - 1) b else ot0 t' b := by
  refine forRange_induct
    (fun K (ot : ℤ → ℤ → ℤ) => ∀ t' b, ot t' b =
      if t' = t ∧ 0 ≤ b ∧ b < K then ot0 (t - 1) b + ct (t - 1) b else ot0 t' b)
    0 B _ ot0 hB ?_ ?_
  · intro t' b
    have : ¬ (t' = t ∧ 0 ≤ b ∧ b < 0) := by omega
    rw [if_neg this]
  · intro K ot hK0 hK1 ih t' b
    beta_reduce
    rw [update2_apply]
    by_cases h : t' = t ∧ b = K
    · obtain ⟨h1, h2⟩ := h
      subst h1 h2
      have c1 : ¬ (t' - 1 = t' ∧ 0 ≤ b ∧ b < b) := by omega
      have c2 : t' = t' ∧ 0 ≤ b ∧ b < b + 1 := by omega
      rw [if_pos ⟨rfl, rfl⟩, ih (t' - 1) b, if_neg c1, if_pos c2]
    · rw [if_neg h, ih t' b]
      by_cases c : t' = t ∧ 0 ≤ b ∧ b < K
      · rw [if_pos c, if_pos (by omega)]
      · rw [if_neg c, if_neg (by omega)]

/-- The per-thread offsets `ot[t][b]` of `bin_sort_multithread`: the first slot of
the bin plus the points of the bin owned by earlier threads. -/
theorem ot_loop (bin : ℤ → ℤ) (brk : ℤ → ℤ) (nt M B : ℤ) (hnt : 1 ≤ nt) (hB : 0 ≤ B)
    (h0 : brk 0 = 0) (ct ot0 : ℤ → ℤ → ℤ)
    (hct : ∀ t b, 0 ≤ t → t < nt →
      ct t b = countBelow bin b (brk (t + 1)) - countBelow bin b (brk t))
    (hot : ∀ b, 0 ≤ b → b < B → ot0 0 b = binStart bin M b) :
    ∀ t b, 0 ≤ t → t < nt → 0 ≤ b → b < B →
      forRange 1 nt
        (fun t (ot : ℤ → ℤ → ℤ) =>
          forRange 0 B
            (fun b (ot : ℤ → ℤ → ℤ) => update2 ot t b (ot (t - 1) b + ct (t - 1) b)) ot)
        ot0 t b = binStart bin M b + countBelow bin b (brk t) := by
  refine forRange_induct
    (fun T (ot : ℤ → ℤ → ℤ) => ∀ t b, 0 ≤ t → t < T → 0 ≤ b → b < B →
      ot t b = binStart bin M b + countBelow bin b (brk t))
    1 nt _ ot0 hnt ?_ ?_
  · intro t b ht0 ht1 hb0 hb1
    have : t = 0 := by omega
    subst this
    rw [hot b hb0 hb1, h0, countBelow_zero, add_zero]
  · intro T ot hT0 hT1 ih t b ht0 ht1 hb0 hb1
    beta_reduce
    rw [ot_row_loop ct T B hB ot (by omega)]
    by_cases h : t = T
    · subst h
      rw [if_pos ⟨rfl, hb0, hb1⟩, ih (t - 1) b (by omega) (by omega) hb0 hb1,
        hct (t - 1) b (by omega) (by omega), sub_add_cancel]
      ring
    · have c : ¬ (t = T ∧ 0 ≤ b ∧ b < B) := by omega
      rw [if_neg c]
      exact ih t b ht0 (by omega) hb0 hb1

/-- One thread's pass 2: its points get their slots, its row of `ot` advances. -/
theorem thread_fill_loop (bin : ℤ → ℤ) (B M t lo hi : ℤ) (hlo : 0 ≤ lo) (hle : lo ≤ hi)
    (hhi : hi ≤ M) (hbin : ∀ j, 0 ≤ j → j < M → 0 ≤ bin j ∧ bin j < B)
    (st0 : (ℤ → ℤ → ℤ) × (ℤ → ℤ))
    (hrow : ∀ b, 0 ≤ b → b < B → st0.1 t b = binStart bin M b + countBelow bin b lo)
    (hinv : ∀ j, 0 ≤ j → j < lo → st0.2 j = sortSlot bin M j) :
    (∀ t' b, t' ≠ t →
      (forRange lo hi
        (fun i (st : (ℤ → ℤ → ℤ) × (ℤ → ℤ)) =>
          (update2 st.1 t (bin i) (st.1 t (bin i) + 1),
            Function.update st.2 i (st.1 t (bin i))))
        st0).1 t' b = st0.1 t' b) ∧
    (∀ j, 0 ≤ j → j < hi →
      (forRange lo hi
        (fun i (st : (ℤ → ℤ → ℤ) × (ℤ → ℤ)) =>
          (update2 st.1 t (bin i) (st.1 t (bin i) + 1),
            Function.update st.2 i (st.1 t (bin i))))
        st0).2 j = sortSlot bin M j) := by
  have key := forRange_induct
    (fun K (st : (ℤ → ℤ → ℤ) × (ℤ → ℤ)) =>
      (∀ b, 0 ≤ b → b < B → st.1 t b = binStart bin M b + countBelow bin b K) ∧
      (∀ t' b, t' ≠ t → st.1 t' b = st0.1 t' b) ∧
      (∀ j, 0 ≤ j → j < K → st.2 j = sortSlot bin M j))
    lo hi
    (fun i (st : (ℤ → ℤ → ℤ) × (ℤ → ℤ)) =>
      (update2 st.1 t (bin i) (st.1 t (bin i) + 1),
        Function.update st.2 i (st.1 t (bin i))))
    st0 hle ⟨hrow, fun _ _ _ => rfl, hinv⟩ ?_
  · exact ⟨key.2.1, key.2.2⟩
  · rintro K st hK0 hK1 ⟨ihA, ihB, ihC⟩
    obtain ⟨bk0, bk1⟩ := hbin K (by omega) (by omega)
    refine ⟨?_, ?_, ?_⟩
    · intro b hb0 hb1
      dsimp only
      rw [update2_apply, countBelow_succ bin b K (by omega)]
      by_cases h : b = bin K
      · subst h
        rw [if_pos ⟨rfl, rfl⟩, if_pos rfl, ihA _ hb0 hb1]
        ring
      · have h' : bin K ≠ b := Ne.symm h
        simp only [h, and_false, if_false, h', add_zero]
        exact ihA b hb0 hb1
    · intro t' b ht
      dsimp only
      rw [update2_apply]
      simp only [ht, false_and, if_false]
      exact ihB t' b ht
    · intro j hj0 hj1
      dsimp only
      by_cases h : j = K
      · subst h
        rw [Function.update_same, ihA _ bk0 bk1]
        rfl
      · rw [Function.update_noteq h]
        exact ihC j hj0 (by omega)

/-- Pass 2 of `bin_sort_multithread`: every point gets the slot of the stable bin
sort. -/
theorem multi_fill_loop (bin : ℤ → ℤ) (brk : ℤ → ℤ) (nt M B : ℤ) (hnt : 0 ≤ nt)
    (h0 : brk 0 = 0) (hl : brk nt = M) (hs : ∀ p, 0 ≤ p → p < nt → brk p ≤ brk (p + 1))
    (hbin : ∀ j, 0 ≤ j → j < M → 0 ≤ bin j ∧ bin j < B) (ot : ℤ → ℤ → ℤ) (inv0 : ℤ → ℤ)
    (hot : ∀ t b, 0 ≤ t → t < nt → 0 ≤ b → b < B →
      ot t b = binStart bin M b + countBelow bin b (brk t)) :
    ∀ j, 0 ≤ j → j < M →
      (forRange 0 nt
        (fun t (st : (ℤ → ℤ → ℤ) × (ℤ → ℤ)) =>
          forRange (brk t) (brk (t + 1))
            (fun i (st : (ℤ → ℤ → ℤ) × (ℤ → ℤ)) =>
              (update2 st.1 t (bin i) (st.1 t (bin i) + 1),
                Function.update st.2 i (st.1 t (bin i))))
            st)
        (ot, inv0)).2 j = sortSlot bin M j := by
  have hb := brk_bounds brk nt M h0 hl hs
  have key := forRange_induct
    (fun T (st : (ℤ → ℤ → ℤ) × (ℤ → ℤ)) =>
      (∀ t b, T ≤ t → t < nt → 0 ≤ b → b < B →
        st.1 t b = binStart bin M b + countBelow bin b (brk t)) ∧
      (∀ j, 0 ≤ j → j < brk T → st.2 j = sortSlot bin M j))
    0 nt
    (fun t (st : (ℤ → ℤ → ℤ) × (ℤ → ℤ)) =>
      forRange (brk t) (brk (t + 1))
        (fun i (st : (ℤ → ℤ → ℤ) × (ℤ → ℤ)) =>
          (update2 st.1 t (bin i) (st.1 t (bin i) + 1),
            Function.update st.2 i (st.1 t (bin i))))
        st)
    (ot, inv0) hnt ?_ ?_
  · intro j hj0 hj1
    exact key.2 j hj0 (by rw [hl]; exact hj1)
  · refine ⟨fun t b h1 h2 h3 h4 => hot t b h1 h2 h3 h4, ?_⟩
    intro j hj0 hj1
    rw [h0] at hj1
    omega
  · rintro T st hT0 hT1 ⟨ihA, ihB⟩
    obtain ⟨fA, fB⟩ := thread_fill_loop bin B M T (brk T) (brk (T + 1))
      (hb T hT0 (by omega)).1 (hs T hT0 hT1) (hb (T + 1) (by omega) (by omega)).2 hbin st
      (fun b hb0 hb1 => ihA T b (le_refl _) hT1 hb0 hb1) ihB
    refine ⟨?_, fB⟩
    intro t b ht0 ht1 hb0 hb1
    beta_reduce
    rw [fA t b (by omega)]
    exact ihA t b (by omega) ht1 hb0 hb1

/-- The multi-thread bin sort fills the same inverse map as the single-thread one,
hence writes a permutation. -/
theorem bin_sort_multi_core_perm (bin : ℤ → ℤ) (B M nt0 : ℤ) (hB : 1 ≤ B) (hM : 1 ≤ M)
    (hnt : 1 ≤ nt0) (hbin : ∀ j, 0 ≤ j → j < M → 0 ≤ bin j ∧ bin j < B) (ret : ℤ → ℤ) :
    IsPermutation (bin_sort_multi_core bin B M nt0 ret) M := by
  have hmin : 1 ≤ min M nt0 := le_min hM hnt
  obtain ⟨b0, bl, bs⟩ := fill_brk_props M (min M nt0) (by omega) hmin
  unfold bin_sort_multi_core
  apply isPermutation_of_sortSlot bin B M (by omega) (by omega) hbin
  have hct := ct_loop bin (fill_brk M (min M nt0)) (min M nt0) M (by omega) b0 bl bs
  apply multi_fill_loop bin (fill_brk M (min M nt0)) (min M nt0) M B (by omega) b0 bl bs hbin
  apply ot_loop bin (fill_brk M (min M nt0)) (min M nt0) M B hmin (by omega) b0 _ _
    (fun t b h0 h1 => hct t b h0 h1)
  intro b hb0 hb1
  rw [ot0_loop _ B (by omega) b hb0 hb1]
  apply bin_offsets_eq bin M B hB _ _ b hb0 hb1
  exact counts_loop bin (fill_brk M (min M nt0)) (min M nt0) M B (by omega) (by omega) b0 bl _
    (fun t b h0 h1 => hct t b h0 h1)

/-- A coordinate of `[0, n]` falls in one of the `trunc(n / bin_size + 1)` bins. -/
theorem bin_coord_range (x : ℚ) (n : ℤ) (bs : ℚ) (hbs : 0 < bs) (h0 : 0 ≤ x)
    (h1 : x ≤ (n : ℚ)) :
    0 ≤ truncToInt (x / bs) ∧ truncToInt (x / bs) < truncToInt ((n : ℚ) / bs + 1) := by
  have hn : (0 : ℚ) ≤ (n : ℚ) := le_trans h0 h1
  have a : 0 ≤ x / bs := div_nonneg h0 (le_of_lt hbs)
  have b : 0 ≤ (n : ℚ) / bs + 1 := by
    have := div_nonneg hn (le_of_lt hbs)
    linarith
  rw [truncToInt_of_nonneg _ a, truncToInt_of_nonneg _ b]
  refine ⟨Int.floor_nonneg.mpr a, ?_⟩
  have c : x / bs ≤ (n : ℚ) / bs := div_le_div_of_nonneg_right h1 (le_of_lt hbs)
  have d : ⌊x / bs⌋ ≤ ⌊(n : ℚ) / bs⌋ := Int.floor_mono c
  have e : ⌊(n : ℚ) / bs + 1⌋ = ⌊(n : ℚ) / bs⌋ + 1 := Int.floor_add_one _
  omega

theorem nbins_pos (n : ℤ) (bs : ℚ) (hbs : 0 < bs) (hn : 0 ≤ n) :
    1 ≤ truncToInt ((n : ℚ) / bs + 1) := by
  have := bin_coord_range 0 n bs hbs (le_refl _) (by exact_mod_cast hn)
  omega

/-- Three digits in range give a mixed-radix number in range. -/
theorem radix3_range (a b c A B C : ℤ) (ha : 0 ≤ a ∧ a < A) (hb : 0 ≤ b ∧ b < B)
    (hc : 0 ≤ c ∧ c < C) : 0 ≤ a + A * (b + B * c) ∧ a + A * (b + B * c) < A * B * C := by
  have h1 : 0 ≤ B * c := mul_nonneg (by omega) hc.1
  have h2 : B * (c + 1) ≤ B * C := mul_le_mul_of_nonneg_left (by omega) (by omega)
  have h3 : B * (c + 1) = B * c + B := by ring
  have h4 : 0 ≤ b + B * c ∧ b + B * c + 1 ≤ B * C := by omega
  have h5 : 0 ≤ A * (b + B * c) := mul_nonneg (by omega) h4.1
  have h6 : A * (b + B * c + 1) ≤ A * (B * C) := mul_le_mul_of_nonneg_left h4.2 (by omega)
  have h7 : A * (b + B * c + 1) = A * (b + B * c) + A := by ring
  have h8 : A * (B * C) = A * B * C := by ring
  constructor <;> omega

/-- For points inside the box every bin index is a valid bin. -/
theorem bin_index_range (kx ky kz : ℤ → ℚ) (n1 n2 n3 : ℤ) (bsx bsy bsz : ℚ) (M : ℤ)
    (hbx : 0 < bsx) (hby : 0 < bsy) (hbz : 0 < bsz)
    (hn1 : 1 ≤ n1)
    (hx : ∀ i, 0 ≤ i → i < M → 0 ≤ kx i ∧ kx i ≤ (n1 : ℚ))
    (hy : n2 > 1 → ∀ i, 0 ≤ i → i < M → 0 ≤ ky i ∧ ky i ≤ (n2 : ℚ))
    (hz : n3 > 1 → ∀ i, 0 ≤ i → i < M → 0 ≤ kz i ∧ kz i ≤ (n3 : ℚ)) :
    1 ≤ truncToInt ((n1 : ℚ) / bsx + 1) *
        (if n2 > 1 then truncToInt ((n2 : ℚ) / bsy + 1) else 1) *
        (if n3 > 1 then truncToInt ((n3 : ℚ) / bsz + 1) else 1) ∧
    ∀ j, 0 ≤ j → j < M →
      0 ≤ bin_index kx ky kz n2 n3 bsx bsy bsz (truncToInt ((n1 : ℚ) / bsx + 1))
        (if n2 > 1 then truncToInt ((n2 : ℚ) / bsy + 1) else 1) j ∧
      bin_index kx ky kz n2 n3 bsx bsy bsz (truncToInt ((n1 : ℚ) / bsx + 1))
        (if n2 > 1 then truncToInt ((n2 : ℚ) / bsy + 1) else 1) j <
      truncToInt ((n1 : ℚ) / bsx + 1) *
        (if n2 > 1 then truncToInt ((n2 : ℚ) / bsy + 1) else 1) *
        (if n3 > 1 then truncToInt ((n3 : ℚ) / bsz + 1) else 1) := by
  have p1 := nbins_pos n1 bsx hbx (by omega)
  have p2 : 1 ≤ (if n2 > 1 then truncToInt ((n2 : ℚ) / bsy + 1) else 1) := by
    split
    · exact nbins_pos n2 bsy hby (by omega)
    · exact le_refl _
  have p3 : 1 ≤ (if n3 > 1 then truncToInt ((n3 : ℚ) / bsz + 1) else 1) := by
    split
    · exact nbins_pos n3 bsz hbz (by omega)
    · exact le_refl _
  constructor
  · have := mul_le_mul p1 p2 (by omega) (by omega)
    have := mul_le_mul this p3 (by omega) (by positivity)
    simpa using this
  · intro j hj0 hj1
    unfold bin_index
    apply radix3_range
    · exact bin_coord_range _ n1 bsx hbx (hx j hj0 hj1).1 (hx j hj0 hj1).2
    · by_cases h : n2 > 1
      · simp only [h, if_true]
        exact bin_coord_range _ n2 bsy hby (hy h j hj0 hj1).1 (hy h j hj0 hj1).2
      · simp only [h, if_false]
        omega
    · by_cases h : n3 > 1
      · simp only [h, if_true]
        exact bin_coord_range _ n3 bsz hbz (hz h j hj0 hj1).1 (hz h j hj0 hj1).2
      · simp only [h, if_false]
        omega

/-- The identity branch of `bin_sort_points` writes the identity permutation. -/
theorem identity_loop (M : ℤ) (hM : 0 ≤ M) (s : ℤ → ℤ) :
    ∀ i, 0 ≤ i → i < M →
      forRange 0 M (fun i (s : ℤ → ℤ) => Function.update s i i) s i = i := by
  refine forRange_induct (fun K (s : ℤ → ℤ) => ∀ i, 0 ≤ i → i < K → s i = i) 0 M _ s hM
    (by intro i h h'; omega) ?_
  intro K st hK0 hK1 ih i hi0 hi1
  beta_reduce
  by_cases h : i = K
  · subst h; rw [Function.update_same]
  · rw [Function.update_noteq h]; exact ih i hi0 (by omega)

theorem isPermutation_of_identity (s : ℤ → ℤ) (M : ℤ) (h : ∀ i, 0 ≤ i → i < M → s i = i) :
    IsPermutation s M := by
  constructor
  · intro p h0 h1; rw [h p h0 h1]; exact ⟨h0, h1⟩
  · intro j h0 h1
    refine ⟨j, ⟨⟨h0, h1⟩, h j h0 h1⟩, ?_⟩
    rintro p ⟨⟨p0, p1⟩, hp⟩
    rw [h p p0 p1] at hp
    exact hp

/-- The three branches of `bin_sort_points`. -/
theorem perm_of_branches (c1 c2 : Prop) [Decidable c1] [Decidable c2] (a b c : ℤ → ℤ) (M : ℤ)
    (ha : c1 → c2 → IsPermutation a M) (hb : c1 → ¬ c2 → IsPermutation b M)
    (hc : ¬ c1 → IsPermutation c M) :
    IsPermutation (if c1 then (if c2 then (true, a) else (true, b)) else (false, c)).2 M := by
  by_cases h1 : c1
  · by_cases h2 : c2
    · rw [if_pos h1, if_pos h2]; exact ha h1 h2
    · rw [if_pos h1, if_neg h2]; exact hb h1 h2
  · rw [if_neg h1]; exact hc h1

/-- C1: for every `num_points ≥ 0` and every point set whose coordinates lie in
`[0, n_i]` on each active axis, the array written by `bin_sort_points` is a
permutation of `0, ..., num_points-1`, whichever branch runs (identity,
single-thread bin sort, multi-thread bin sort). -/
theorem bin_sort_points_permutation (omp_max_threads : ℤ) (sort_indices : ℤ → ℤ)
    (n1 n2 n3 num_points : ℤ) (kx ky kz : ℤ → ℚ) (opts : SpreadParameters)
    (homp : 1 ≤ omp_max_threads) (hst : 0 ≤ opts.sort_threads)
    (hst0 : num_points = 0 → opts.sort_threads ≤ 1)
    (hn1 : 1 ≤ n1) (hn2 : 1 ≤ n2) (hn3 : 1 ≤ n3) (hM : 0 ≤ num_points)
    (hx : ∀ i, 0 ≤ i → i < num_points → 0 ≤ kx i ∧ kx i ≤ (n1 : ℚ))
    (hy : n2 > 1 → ∀ i, 0 ≤ i → i < num_points → 0 ≤ ky i ∧ ky i ≤ (n2 : ℚ))
    (hz : n3 > 1 → ∀ i, 0 ≤ i → i < num_points → 0 ≤ kz i ∧ kz i ≤ (n3 : ℚ)) :
    IsPermutation
      (bin_sort_points omp_max_threads sort_indices n1 n2 n3 num_points kx ky kz opts).2
      num_points := by
  obtain ⟨hB, hbin⟩ := bin_index_range kx ky kz n1 n2 n3 16 4 4 num_points (by norm_num)
    (by norm_num) (by norm_num) hn1 hx hy hz
  unfold bin_sort_points
  dsimp only
  refine perm_of_branches _ _ _ _ _ _ ?_ ?_ ?_
  · intro _ _
    exact bin_sort_single_core_perm _ _ num_points hB hM hbin sort_indices
  · intro _ hthr
    have hgrid : 0 ≤ n1 * n2 * n3 := by positivity
    have hmax : 1 ≤ (if opts.num_threads > 0 then min omp_max_threads opts.num_threads
        else omp_max_threads) := by
      split
      · exact le_min homp (by omega)
      · exact homp
    have hthr2 : 2 ≤ (if opts.sort_threads = 0 then
        (if 10 * num_points > n1 * n2 * n3 then
          (if opts.num_threads > 0 then min omp_max_threads opts.num_threads
            else omp_max_threads) else 1)
        else opts.sort_threads) ∧ 1 ≤ num_points := by
      by_cases h0 : opts.sort_threads = 0
      · rw [if_pos h0] at hthr ⊢
        by_cases h1 : 10 * num_points > n1 * n2 * n3
        · rw [if_pos h1] at hthr ⊢
          omega
        · rw [if_neg h1] at hthr
          exact absurd rfl hthr
      · rw [if_neg h0] at hthr ⊢
        have : num_points ≠ 0 := fun h => by have := hst0 h; omega
        omega
    exact bin_sort_multi_core_perm _ _ num_points _ hB hthr2.2 (by omega) hbin sort_indices
  · intro _
    exact isPermutation_of_identity _ _ (identity_loop num_points hM sort_indices)

theorem sortCoords_range : ∀ i : ℤ, 0 ≤ i → i < 3 →
    0 ≤ sortCoords i ∧ sortCoords i ≤ ((40 : ℤ) : ℚ) := by
  intro i _ _
  unfold sortCoords
  split
  · norm_num
  · split <;> norm_num

theorem bin_sort_points_permutation_witness :
    (∀ i : ℤ, 0 ≤ i → i < 3 → 0 ≤ sortCoords i ∧ sortCoords i ≤ ((40 : ℤ) : ℚ)) ∧
    IsPermutation
      (bin_sort_points 4 (fun _ => 0) 40 1 1 3 sortCoords sortCoords sortCoords sortOpts).2 3 :=
  ⟨sortCoords_range,
    bin_sort_points_permutation 4 (fun _ => 0) 40 1 1 3 sortCoords sortCoords sortCoords
      sortOpts (by decide) (by decide) (by decide) (by decide) (by decide) (by decide)
      (by decide) sortCoords_range (fun h => absurd h (by decide))
      (fun h => absurd h (by decide))⟩

/-! ## Sums and additive loops -/

theorem sumRange_add (n : ℤ) (f g : ℤ → ℚ) :
    sumRange n (fun d => f d + g d) = sumRange n f + sumRange n g := by
  unfold sumRange
  exact Finset.sum_add_distrib

theorem sumRange_const_zero (n : ℤ) : sumRange n (fun _ => 0) = 0 := by
  unfold sumRange
  simp

theorem sumRange_append (a m : ℤ) (ha : 0 ≤ a) (hm : 0 ≤ m) (f : ℤ → ℚ) :
    sumRange (a + m) f = sumRange a f + sumRange m (fun i => f (a + i)) := by
  unfold sumRange
  have e : (a + m).toNat = a.toNat + m.toNat := by omega
  rw [e, Finset.sum_range_add]
  congr 1
  apply Finset.sum_congr rfl
  intro x _
  have e2 : ((a.toNat + x : ℕ) : ℤ) = a + (x : ℤ) := by
    push_cast
    omega
  rw [e2]

/-- A sum over `[0, M)` is invariant under a permutation of `[0, M)`. -/
theorem sumRange_perm (s : ℤ → ℤ) (M : ℤ) (hs : IsPermutation s M) (f : ℤ → ℚ) :
    sumRange M (fun p => f (s p)) = sumRange M f := by
  unfold sumRange
  refine Finset.sum_bij (fun p _ => (s (p : ℤ)).toNat) ?_ ?_ ?_ ?_
  · intro p hp
    have h := Finset.mem_range.mp hp
    have r := hs.1 (p : ℤ) (by omega) (by omega)
    beta_reduce
    exact Finset.mem_range.mpr (by omega)
  · intro p hp p' hp' h
    beta_reduce at h
    have h1 := Finset.mem_range.mp hp
    have h2 := Finset.mem_range.mp hp'
    have r1 := hs.1 (p : ℤ) (by omega) (by omega)
    have r2 := hs.1 (p' : ℤ) (by omega) (by omega)
    have e : s (p : ℤ) = s (p' : ℤ) := by
      have := congrArg (fun n : ℕ => (n : ℤ)) h
      simp only at this
      omega
    obtain ⟨q, _, hq⟩ := hs.2 (s (p : ℤ)) r1.1 r1.2
    have a1 := hq (p : ℤ) ⟨⟨by omega, by omega⟩, rfl⟩
    have a2 := hq (p' : ℤ) ⟨⟨by omega, by omega⟩, e.symm⟩
    omega
  · intro j hj
    have h := Finset.mem_range.mp hj
    obtain ⟨q, ⟨⟨hq0, hq1⟩, hq⟩, _⟩ := hs.2 (j : ℤ) (by omega) (by omega)
    refine ⟨q.toNat, Finset.mem_range.mpr (by omega), ?_⟩
    have e : ((q.toNat : ℕ) : ℤ) = q := by omega
    beta_reduce
    rw [e, hq]
    omega
  · intro p hp
    have h := Finset.mem_range.mp hp
    have r := hs.1 (p : ℤ) (by omega) (by omega)
    have e : (((s (p : ℤ)).toNat : ℕ) : ℤ) = s (p : ℤ) := by omega
    beta_reduce
    rw [e]

/-- A loop whose body adds to every cell an amount that does not depend on the
array adds the sum of these amounts. -/
theorem forRange_additive (lo hi : ℤ) (hle : lo ≤ hi) (body : ℤ → (ℤ → ℚ) → (ℤ → ℚ))
    (P : ℤ → ℤ → ℚ) (hb : ∀ k a, lo ≤ k → k < hi → body k a = fun q => a q + P k q)
    (a : ℤ → ℚ) (q : ℤ) :
    forRange lo hi body a q = a q + sumRange (hi - lo) (fun d => P (lo + d) q) := by
  have key := forRange_induct
    (fun k (st : ℤ → ℚ) => ∀ q, st q = a q + sumRange (k - lo) (fun d => P (lo + d) q))
    lo hi body a hle
    (by
      intro q
      simp [sumRange_zero])
    (by
      intro k st h0 h1 ih q
      rw [hb k st h0 h1]
      beta_reduce
      have e : k + 1 - lo = (k - lo) + 1 := by ring
      rw [e, sumRange_succ _ (by omega), ih q]
      have e2 : lo + (k - lo) = k := by ring
      rw [e2]
      ring)
  exact key q

/-- The loop `out[j+o] += in[j]` over `[lo, hi)`, cell by cell. -/
theorem addRun_eq (lo hi o outOff inOff : ℤ) (du0 out : ℤ → ℚ) (q : ℤ) :
    addRun lo hi o outOff inOff du0 out q =
      out q + (if lo ≤ q - outOff - o ∧ q - outOff - o < hi then
        du0 (inOff + (q - outOff - o)) else 0) := by
  unfold addRun
  by_cases hle : lo ≤ hi
  · have key := forRange_induct
      (fun k (st : ℤ → ℚ) => ∀ q, st q =
        out q + (if lo ≤ q - outOff - o ∧ q - outOff - o < k then
          du0 (inOff + (q - outOff - o)) else 0))
      lo hi
      (fun j (out : ℤ → ℚ) =>
        Function.update out (outOff + (j + o)) (out (outOff + (j + o)) + du0 (inOff + j)))
      out hle
      (by
        intro q
        have : ¬ (lo ≤ q - outOff - o ∧ q - outOff - o < lo) := by omega
        simp [this])
      (by
        intro k st h0 h1 ih q
        beta_reduce
        rw [Function.update_apply]
        by_cases hq : q = outOff + (k + o)
        · have e : q - outOff - o = k := by omega
          have c1 : lo ≤ k ∧ k < k + 1 := by omega
          have c2 : ¬ (lo ≤ k ∧ k < k) := by omega
          rw [if_pos hq, ih (outOff + (k + o))]
          have e' : outOff + (k + o) - outOff - o = k := by omega
          rw [e', e, if_pos c1, if_neg c2, hq]
          ring
        · rw [if_neg hq, ih q]
          have c : (lo ≤ q - outOff - o ∧ q - outOff - o < k + 1) ↔
              (lo ≤ q - outOff - o ∧ q - outOff - o < k) := by omega
          simp only [c])
    exact key q
  · rw [forRange_empty _ _ _ _ (by omega)]
    have : ¬ (lo ≤ q - outOff - o ∧ q - outOff - o < hi) := by omega
    simp [this]

/-- The inner loop of `spread_subproblem_1d` adds to cell `m` of the subgrid the
weighted kernel values of the offsets `dx` that land on it. -/
theorem spreadStep_loop (re0 im0 : ℚ) (ker : ℤ → ℚ) (ns : ℤ) (hns : 0 ≤ ns) (du : ℤ → ℚ)
    (j0 m c : ℤ) (hc0 : 0 ≤ c) (hc1 : c ≤ 1) :
    (forRange 0 ns (spreadStep re0 im0 ker) (du, j0)).1 (2 * m + c) =
      du (2 * m + c) +
        sumRange ns (fun dx =>
          if j0 + dx = m then (if c = 0 then re0 else im0) * ker dx else 0) := by
  have key := forRange_induct
    (fun k (st : (ℤ → ℚ) × ℤ) => st.2 = j0 + k ∧
      ∀ m c : ℤ, 0 ≤ c → c ≤ 1 → st.1 (2 * m + c) = du (2 * m + c) +
        sumRange k (fun dx =>
          if j0 + dx = m then (if c = 0 then re0 else im0) * ker dx else 0))
    0 ns (spreadStep re0 im0 ker) (du, j0) hns
    (by
      refine ⟨by simp, ?_⟩
      intro m c _ _
      simp [sumRange_zero])
    (by
      intro k st h0 h1 ih
      obtain ⟨ihj, ihv⟩ := ih
      refine ⟨?_, ?_⟩
      · unfold spreadStep
        dsimp only
        rw [ihj]
        ring
      · intro m c hc0 hc1
        unfold spreadStep
        dsimp only
        rw [sumRange_succ k h0, ihj]
        have hc : c = 0 ∨ c = 1 := by omega
        rcases hc with hc | hc
        · subst hc
          rw [Function.update_apply, if_neg (by omega), Function.update_apply]
          by_cases hm : j0 + k = m
          · have e : 2 * m + 0 = 2 * (j0 + k) := by omega
            rw [if_pos e, if_pos hm, ← e, ihv m 0 (by omega) (by omega)]
            simp only [if_true]
            ring
          · rw [if_neg (by omega), if_neg hm, ihv m 0 (by omega) (by omega)]
            ring
        · subst hc
          rw [Function.update_apply]
          by_cases hm : j0 + k = m
          · have e : 2 * m + 1 = 2 * (j0 + k) + 1 := by omega
            rw [if_pos e, if_pos hm, Function.update_apply, if_neg (by omega), ← e,
              ihv m 1 (by omega) (by omega)]
            simp only [one_ne_zero, if_false]
            ring
          · rw [if_neg (by omega), Function.update_apply, if_neg (by omega), if_neg hm,
              ihv m 1 (by omega) (by omega)]
            ring)
  exact key.2 m c hc0 hc1

/-! ## The subproblem spreader and the wrapped addition, rank 1 -/

theorem forRange_fixed {σ : Type} (lo hi : ℤ) (body : ℤ → σ → σ) (s : σ)
    (h : ∀ k, lo ≤ k → k < hi → body k s = s) : forRange lo hi body s = s := by
  by_cases hle : lo ≤ hi
  · refine forRange_induct (fun _ st => st = s) lo hi body s hle rfl ?_
    intro k st h0 h1 ih
    beta_reduce
    rw [ih]
    exact h k h0 h1
  · exact forRange_empty _ _ _ _ (by omega)

theorem forRange_one {σ : Type} (body : ℤ → σ → σ) (s : σ) :
    forRange 0 1 body s = body 0 s := by
  have := forRange_succ 0 0 body s (le_refl _)
  rw [forRange_empty _ _ _ _ (le_refl _)] at this
  exact this

/-- The bounds returned by `array_range` enclose every entry and lie within any
interval that holds all entries. -/
theorem array_range_bounds (n : ℤ) (hn : 1 ≤ n) (a : ℤ → ℚ) (L H : ℚ)
    (hb : ∀ i, 0 ≤ i → i < n → L ≤ a i ∧ a i ≤ H) :
    (L ≤ (array_range n a).1 ∧ (array_range n a).2 ≤ H) ∧
    ∀ i, 0 ≤ i → i < n → (array_range n a).1 ≤ a i ∧ a i ≤ (array_range n a).2 := by
  unfold array_range
  have key := forRange_induct
    (fun k (st : ℚ × ℚ) => (L ≤ st.1 ∧ st.2 ≤ H) ∧
      ∀ i, 0 ≤ i → i < k → st.1 ≤ a i ∧ a i ≤ st.2)
    0 n
    (fun m (st : ℚ × ℚ) =>
      (if a m < st.1 then a m else st.1, if a m > st.2 then a m else st.2))
    (a 0, a 0) (by omega)
    (by
      refine ⟨hb 0 (le_refl _) (by omega), ?_⟩
      intro i h0 h1
      omega)
    (by
      intro k st h0 h1 ih
      obtain ⟨⟨ihL, ihH⟩, ihv⟩ := ih
      have hk := hb k h0 h1
      refine ⟨⟨?_, ?_⟩, ?_⟩
      · dsimp only
        split_ifs <;> linarith
      · dsimp only
        split_ifs <;> linarith
      · intro i hi0 hi1
        dsimp only
        by_cases e : i = k
        · subst e
          constructor
          · split_ifs <;> linarith
          · split_ifs <;> linarith
        · have := ihv i hi0 (by omega)
          constructor
          · split_ifs <;> linarith
          · split_ifs <;> linarith)
  exact key

/-- In exact arithmetic the clipping of `x1` in `spread_subproblem_1d` never
changes it. -/
theorem clip_noop (x ns2 : ℚ) :
    (if (if ((⌈x - ns2⌉ : ℤ) : ℚ) - x < -ns2 then -ns2 else ((⌈x - ns2⌉ : ℤ) : ℚ) - x) >
        -ns2 + 1 then -ns2 + 1
      else (if ((⌈x - ns2⌉ : ℤ) : ℚ) - x < -ns2 then -ns2 else ((⌈x - ns2⌉ : ℤ) : ℚ) - x)) =
      ((⌈x - ns2⌉ : ℤ) : ℚ) - x := by
  have h1 := Int.le_ceil (x - ns2)
  have h2 := Int.ceil_lt_add_one (x - ns2)
  have c1 : ¬ (((⌈x - ns2⌉ : ℤ) : ℚ) - x < -ns2) := by
    intro h
    linarith
  rw [if_neg c1]
  have c2 : ¬ (((⌈x - ns2⌉ : ℤ) : ℚ) - x > -ns2 + 1) := by
    intro h
    linarith
  rw [if_neg c2]

/-- The subgrid written by `spread_subproblem_1d` on a zero buffer: cell `m` holds
the sum over the points `i` and offsets `dx` that land on it. -/
theorem spread_subproblem_1d_eq (K : ℚ → ℚ) (off1 size1 M : ℤ) (hM : 0 ≤ M) (kx dd : ℤ → ℚ)
    (opts : SpreadParameters) (hns : 0 ≤ opts.kernel_width) (m c : ℤ) (hc0 : 0 ≤ c)
    (hc1 : c ≤ 1) :
    spread_subproblem_1d K off1 size1 (fun _ => 0) M kx dd opts (2 * m + c) =
      sumRange M (fun i => sumRange opts.kernel_width (fun dx =>
        if ⌈kx i - (opts.kernel_width : ℚ) / 2⌉ - off1 + dx = m then
          dd (2 * i + c) *
            K (((⌈kx i - (opts.kernel_width : ℚ) / 2⌉ : ℤ) : ℚ) - kx i + (dx : ℚ))
        else 0)) := by
  unfold spread_subproblem_1d
  dsimp only
  have hz : forRange 0 (2 * size1) (fun i (a : ℤ → ℚ) => Function.update a i 0)
      (fun _ => (0 : ℚ)) = fun _ => 0 := by
    apply forRange_fixed
    intro k _ _
    funext i
    rw [Function.update_apply]
    split_ifs <;> rfl
  rw [hz]
  clear hz
  revert m c
  refine forRange_induct
    (fun k (st : ℤ → ℚ) => ∀ m c : ℤ, 0 ≤ c → c ≤ 1 → st (2 * m + c) =
      sumRange k (fun i => sumRange opts.kernel_width (fun dx =>
        if ⌈kx i - (opts.kernel_width : ℚ) / 2⌉ - off1 + dx = m then
          dd (2 * i + c) *
            K (((⌈kx i - (opts.kernel_width : ℚ) / 2⌉ : ℤ) : ℚ) - kx i + (dx : ℚ))
        else 0)))
    0 M _ (fun _ => (0 : ℚ)) hM ?_ ?_
  · intro m c _ _
    simp [sumRange_zero]
  · intro k st h0 h1 ih m c hc0 hc1
    beta_reduce
    rw [spreadStep_loop _ _ _ _ hns _ _ m c hc0 hc1, ih m c hc0 hc1, sumRange_succ k h0,
      clip_noop]
    congr 1
    apply sumRange_congr
    intro dx _ _
    have hw : (if c = 0 then dd (2 * k) else dd (2 * k + 1)) = dd (2 * k + c) := by
      have hc : c = 0 ∨ c = 1 := by omega
      rcases hc with hc | hc
      · subst hc
        simp
      · subst hc
        simp
    rw [hw]
    rfl

/-- The three runs of `add_wrapped_subgrid` pick, for a cell of the subgrid that
lies in `[-N1, 2*N1)`, exactly the grid cell congruent to it modulo `N1`. -/
theorem wrap_cases (off size N1 nlo nhi t g c : ℤ) (v : ℚ)
    (hnlo : nlo = if off < 0 then -off else 0)
    (hnhi : nhi = if off + size > N1 then off + size - N1 else 0)
    (ht0 : off ≤ t) (ht1 : t < off + size) (h0 : -N1 ≤ t) (h1 : t < 2 * N1)
    (hg0 : 0 ≤ g) (hg1 : g < N1) (hc0 : 0 ≤ c) (hc1 : c ≤ 1) :
    (if (0 ≤ 2 * g + c - 2 * (off + N1) ∧ 2 * g + c - 2 * (off + N1) < 2 * nlo) ∧
        t - off = g - off - N1 then v else 0) +
      (if (2 * nlo ≤ 2 * g + c - 2 * off ∧ 2 * g + c - 2 * off < 2 * (size - nhi)) ∧
        t - off = g - off then v else 0) +
      (if (2 * (size - nhi) ≤ 2 * g + c - 2 * (off - N1) ∧
          2 * g + c - 2 * (off - N1) < 2 * size) ∧
        t - off = g - off + N1 then v else 0) =
      if t % N1 = g then v else 0 := by
  have hl1 : off < 0 → nlo = -off := by
    intro h
    rw [hnlo, if_pos h]
  have hl2 : 0 ≤ off → nlo = 0 := by
    intro h
    rw [hnlo, if_neg (by omega)]
  have hh1 : off + size > N1 → nhi = off + size - N1 := by
    intro h
    rw [hnhi, if_pos h]
  have hh2 : off + size ≤ N1 → nhi = 0 := by
    intro h
    rw [hnhi, if_neg (by omega)]
  clear hnlo hnhi
  rcases lt_trichotomy t 0 with hneg | hzero | hpos
  · rw [emod_of_neg_range t N1 h0 hneg]
    have a : ((0 ≤ 2 * g + c - 2 * (off + N1) ∧ 2 * g + c - 2 * (off + N1) < 2 * nlo) ∧
        t - off = g - off - N1) ↔ t + N1 = g := by omega
    have b : ¬ ((2 * nlo ≤ 2 * g + c - 2 * off ∧ 2 * g + c - 2 * off < 2 * (size - nhi)) ∧
        t - off = g - off) := by omega
    have d : ¬ ((2 * (size - nhi) ≤ 2 * g + c - 2 * (off - N1) ∧
          2 * g + c - 2 * (off - N1) < 2 * size) ∧ t - off = g - off + N1) := by omega
    simp only [a, b, d, if_false, add_zero]
  · by_cases hN : t < N1
    · rw [emod_of_range t N1 (by omega) hN]
      have a : ¬ ((0 ≤ 2 * g + c - 2 * (off + N1) ∧ 2 * g + c - 2 * (off + N1) < 2 * nlo) ∧
          t - off = g - off - N1) := by omega
      have b : ((2 * nlo ≤ 2 * g + c - 2 * off ∧ 2 * g + c - 2 * off < 2 * (size - nhi)) ∧
          t - off = g - off) ↔ t = g := by omega
      have d : ¬ ((2 * (size - nhi) ≤ 2 * g + c - 2 * (off - N1) ∧
            2 * g + c - 2 * (off - N1) < 2 * size) ∧ t - off = g - off + N1) := by omega
      simp only [a, b, d, if_false, add_zero, zero_add]
    · omega
  · by_cases hN : t < N1
    · rw [emod_of_range t N1 (by omega) hN]
      have a : ¬ ((0 ≤ 2 * g + c - 2 * (off + N1) ∧ 2 * g + c - 2 * (off + N1) < 2 * nlo) ∧
          t - off = g - off - N1) := by omega
      have b : ((2 * nlo ≤ 2 * g + c - 2 * off ∧ 2 * g + c - 2 * off < 2 * (size - nhi)) ∧
          t - off = g - off) ↔ t = g := by omega
      have d : ¬ ((2 * (size - nhi) ≤ 2 * g + c - 2 * (off - N1) ∧
            2 * g + c - 2 * (off - N1) < 2 * size) ∧ t - off = g - off + N1) := by omega
      simp only [a, b, d, if_false, add_zero, zero_add]
    · rw [emod_of_high_range t N1 (by omega) h1]
      have a : ¬ ((0 ≤ 2 * g + c - 2 * (off + N1) ∧ 2 * g + c - 2 * (off + N1) < 2 * nlo) ∧
          t - off = g - off - N1) := by omega
      have b : ¬ ((2 * nlo ≤ 2 * g + c - 2 * off ∧ 2 * g + c - 2 * off < 2 * (size - nhi)) ∧
          t - off = g - off) := by omega
      have d : ((2 * (size - nhi) ≤ 2 * g + c - 2 * (off - N1) ∧
            2 * g + c - 2 * (off - N1) < 2 * size) ∧ t - off = g - off + N1) ↔
          t - N1 = g := by omega
      simp only [a, b, d, if_false, add_zero, zero_add]

/-- In rank 1 `add_wrapped_subgrid` adds to every float of the grid the floats of
the subgrid that its three runs send there. -/
theorem add_wrapped_subgrid_rank1 (offset1 size1 N1 nlo nhi : ℤ)
    (hnlo : nlo = if offset1 < 0 then -offset1 else 0)
    (hnhi : nhi = if offset1 + size1 > N1 then offset1 + size1 - N1 else 0)
    (out du0 : ℤ → ℚ) (q : ℤ) :
    add_wrapped_subgrid offset1 0 0 size1 1 1 N1 1 1 out du0 q =
      out q +
        (if 0 ≤ q - 2 * (offset1 + N1) ∧ q - 2 * (offset1 + N1) < 2 * nlo then
          du0 (q - 2 * (offset1 + N1)) else 0) +
        (if 2 * nlo ≤ q - 2 * offset1 ∧ q - 2 * offset1 < 2 * (size1 - nhi) then
          du0 (q - 2 * offset1) else 0) +
        (if 2 * (size1 - nhi) ≤ q - 2 * (offset1 - N1) ∧ q - 2 * (offset1 - N1) < 2 * size1 then
          du0 (q - 2 * (offset1 - N1)) else 0) := by
  have hw : wrap_list 0 1 1 0 = 0 := by
    unfold wrap_list
    rw [forRange_one]
    simp [wrapOnce]
  unfold add_wrapped_subgrid
  dsimp only
  rw [forRange_one, forRange_one, ← hnlo, ← hnhi, hw, addRun_eq, addRun_eq, addRun_eq]
  simp only [mul_zero, add_zero, zero_add, sub_zero]

/-! ## One subproblem of `spreadSorted`, rank 1 -/

theorem wrap_cases_at (off size N1 nlo nhi i1 dx g c : ℤ) (v : ℚ)
    (hnlo : nlo = if off < 0 then -off else 0)
    (hnhi : nhi = if off + size > N1 then off + size - N1 else 0)
    (ht0 : off ≤ i1 + dx) (ht1 : i1 + dx < off + size) (h0 : -N1 ≤ i1 + dx)
    (h1 : i1 + dx < 2 * N1)
    (hg0 : 0 ≤ g) (hg1 : g < N1) (hc0 : 0 ≤ c) (hc1 : c ≤ 1) :
    (if (0 ≤ 2 * g + c - 2 * (off + N1) ∧ 2 * g + c - 2 * (off + N1) < 2 * nlo) ∧
        i1 - off + dx = g - off - N1 then v else 0) +
      (if (2 * nlo ≤ 2 * g + c - 2 * off ∧ 2 * g + c - 2 * off < 2 * (size - nhi)) ∧
        i1 - off + dx = g - off then v else 0) +
      (if (2 * (size - nhi) ≤ 2 * g + c - 2 * (off - N1) ∧
          2 * g + c - 2 * (off - N1) < 2 * size) ∧
        i1 - off + dx = g - off + N1 then v else 0) =
      if (i1 + dx) % N1 = g then v else 0 := by
  have := wrap_cases off size N1 nlo nhi (i1 + dx) g c v hnlo hnhi ht0 ht1 h0 h1 hg0 hg1
    hc0 hc1
  have e : i1 + dx - off = i1 - off + dx := by ring
  rw [e] at this
  exact this

/-- Three guarded double sums add up to one double sum when their terms do. -/
theorem three_sums (M ns : ℤ) (CL CM CH : Prop) [Decidable CL] [Decidable CM] [Decidable CH]
    (EL EM EH D : ℤ → ℤ → Prop) [∀ i dx, Decidable (EL i dx)] [∀ i dx, Decidable (EM i dx)]
    [∀ i dx, Decidable (EH i dx)] [∀ i dx, Decidable (D i dx)] (v : ℤ → ℤ → ℚ)
    (h : ∀ i dx, 0 ≤ i → i < M → 0 ≤ dx → dx < ns →
      (if CL ∧ EL i dx then v i dx else 0) + (if CM ∧ EM i dx then v i dx else 0) +
        (if CH ∧ EH i dx then v i dx else 0) = if D i dx then v i dx else 0) :
    (if CL then sumRange M (fun i => sumRange ns (fun dx => if EL i dx then v i dx else 0))
      else 0) +
    (if CM then sumRange M (fun i => sumRange ns (fun dx => if EM i dx then v i dx else 0))
      else 0) +
    (if CH then sumRange M (fun i => sumRange ns (fun dx => if EH i dx then v i dx else 0))
      else 0) =
    sumRange M (fun i => sumRange ns (fun dx => if D i dx then v i dx else 0)) := by
  have push : ∀ (C : Prop) [Decidable C] (E : ℤ → ℤ → Prop) [∀ i dx, Decidable (E i dx)],
      (if C then sumRange M (fun i => sumRange ns (fun dx => if E i dx then v i dx else 0))
        else 0) =
      sumRange M (fun i => sumRange ns (fun dx => if C ∧ E i dx then v i dx else 0)) := by
    intro C _ E _
    by_cases hC : C
    · simp only [hC, if_true, true_and]
    · simp only [hC, if_false, false_and, sumRange_const_zero]
  rw [push CL EL, push CM EM, push CH EH, ← sumRange_add, ← sumRange_add]
  apply sumRange_congr
  intro i hi0 hi1
  beta_reduce
  rw [← sumRange_add, ← sumRange_add]
  apply sumRange_congr
  intro dx hd0 hd1
  exact h i dx hi0 hi1 hd0 hd1

/-- Spreading a set of points into a subgrid that holds all their footprints and
adding the subgrid to the periodic grid adds every point's periodic
contribution to every grid cell. -/
theorem subgrid_add_rank1 (K : ℚ → ℚ) (N1 M0 : ℤ) (hM0 : 0 ≤ M0) (kx0 dd0 : ℤ → ℚ)
    (opts : SpreadParameters) (hns0 : 0 ≤ opts.kernel_width) (hns1 : opts.kernel_width ≤ N1)
    (hx : ∀ i, 0 ≤ i → i < M0 → 0 ≤ kx0 i ∧ kx0 i ≤ (N1 : ℚ)) (off size : ℤ)
    (hoff : ∀ i, 0 ≤ i → i < M0 → off ≤ ⌈kx0 i - (opts.kernel_width : ℚ) / 2⌉ ∧
      ⌈kx0 i - (opts.kernel_width : ℚ) / 2⌉ + opts.kernel_width ≤ off + size)
    (out : ℤ → ℚ) (g c : ℤ) (hg0 : 0 ≤ g) (hg1 : g < N1) (hc0 : 0 ≤ c) (hc1 : c ≤ 1) :
    add_wrapped_subgrid off 0 0 size 1 1 N1 1 1 out
        (spread_subproblem_1d K off size (fun _ => 0) M0 kx0 dd0 opts) (2 * g + c) =
      out (2 * g + c) +
        sumRange M0 (fun i => pointTerm K N1 opts.kernel_width (kx0 i) (dd0 (2 * i + c)) g) := by
  rw [add_wrapped_subgrid_rank1 off size N1 _ _ rfl rfl]
  have eL : 2 * g + c - 2 * (off + N1) = 2 * (g - off - N1) + c := by ring
  have eM : 2 * g + c - 2 * off = 2 * (g - off) + c := by ring
  have eH : 2 * g + c - 2 * (off - N1) = 2 * (g - off + N1) + c := by ring
  have kL := spread_subproblem_1d_eq K off size M0 hM0 kx0 dd0 opts hns0 (g - off - N1) c
    hc0 hc1
  have kM := spread_subproblem_1d_eq K off size M0 hM0 kx0 dd0 opts hns0 (g - off) c hc0 hc1
  have kH := spread_subproblem_1d_eq K off size M0 hM0 kx0 dd0 opts hns0 (g - off + N1) c
    hc0 hc1
  rw [← eL] at kL
  rw [← eM] at kM
  rw [← eH] at kH
  rw [kL, kM, kH, add_assoc, add_assoc]
  congr 1
  rw [← add_assoc]
  unfold pointTerm
  exact three_sums M0 opts.kernel_width _ _ _
    (fun i dx => ⌈kx0 i - (opts.kernel_width : ℚ) / 2⌉ - off + dx = g - off - N1)
    (fun i dx => ⌈kx0 i - (opts.kernel_width : ℚ) / 2⌉ - off + dx = g - off)
    (fun i dx => ⌈kx0 i - (opts.kernel_width : ℚ) / 2⌉ - off + dx = g - off + N1)
    (fun i dx => (⌈kx0 i - (opts.kernel_width : ℚ) / 2⌉ + dx) % N1 = g)
    (fun i dx => dd0 (2 * i + c) *
      K (((⌈kx0 i - (opts.kernel_width : ℚ) / 2⌉ : ℤ) : ℚ) - kx0 i + (dx : ℚ)))
    (by
      intro i dx hi0 hi1 hd0 hd1
      have hb := leftmost_cell_bounds (kx0 i) N1 opts.kernel_width (hx i hi0 hi1).1
        (hx i hi0 hi1).2 hns0 hns1
      have ho := hoff i hi0 hi1
      exact wrap_cases_at off size N1 _ _ _ dx g c _ rfl rfl (by omega) (by omega)
        (by omega) (by omega) hg0 hg1 hc0 hc1)

/-- The copies made for a subproblem hold the coordinates and weights of the
points `sort_indices[lo + j]`. -/
theorem subproblem_copy_eq (s : ℤ → ℤ) (N2 N3 : ℤ) (kx ky kz dd : ℤ → ℚ) (lo M0 : ℤ)
    (hM0 : 0 ≤ M0) (j : ℤ) (hj0 : 0 ≤ j) (hj1 : j < M0) :
    (subproblem_copy s N2 N3 kx ky kz dd lo M0).1 j = kx (s (j + lo)) ∧
    ∀ c, 0 ≤ c → c ≤ 1 →
      (subproblem_copy s N2 N3 kx ky kz dd lo M0).2.2.2 (2 * j + c) = dd (2 * s (j + lo) + c) := by
  unfold subproblem_copy
  revert j
  refine forRange_induct
    (fun k (st : (ℤ → ℚ) × (ℤ → ℚ) × (ℤ → ℚ) × (ℤ → ℚ)) =>
      ∀ j, 0 ≤ j → j < k → st.1 j = kx (s (j + lo)) ∧
        ∀ c, 0 ≤ c → c ≤ 1 → st.2.2.2 (2 * j + c) = dd (2 * s (j + lo) + c))
    0 M0 _ _ hM0 ?_ ?_
  · intro j h0 h1
    omega
  · intro k st h0 h1 ih j hj0 hj1
    dsimp only
    by_cases e : j = k
    · subst e
      refine ⟨by simp, ?_⟩
      intro c hc0 hc1
      have hc : c = 0 ∨ c = 1 := by omega
      rcases hc with hc | hc
      · subst hc
        rw [Function.update_apply, if_neg (by omega), Function.update_apply,
          if_pos (by omega)]
        ring_nf
      · subst hc
        rw [Function.update_apply, if_pos (by omega)]
        ring_nf
    · have := ih j hj0 (by omega)
      refine ⟨?_, ?_⟩
      · rw [Function.update_apply, if_neg e]
        exact this.1
      · intro c hc0 hc1
        rw [Function.update_apply, if_neg (by omega), Function.update_apply,
          if_neg (by omega)]
        exact this.2 c hc0 hc1

/-- In rank 1 `get_subgrid` returns the padded range of the first coordinate and
a single cell on the other two axes. -/
theorem get_subgrid_rank1 (M : ℤ) (kx ky kz : ℤ → ℚ) (ns : ℤ) :
    get_subgrid M kx ky kz ns 1 =
      ((⌈(array_range M kx).1 - (ns : ℚ) / 2⌉, 0, 0),
        (⌈(array_range M kx).2 - (ns : ℚ) / 2⌉ - ⌈(array_range M kx).1 - (ns : ℚ) / 2⌉ + ns,
          1, 1)) := by
  unfold get_subgrid
  simp

/-- The bounds returned by `array_range` enclose every entry. -/
theorem array_range_encloses (n : ℤ) (hn : 0 ≤ n) (a : ℤ → ℚ) (i : ℤ) (hi0 : 0 ≤ i)
    (hi1 : i < n) : (array_range n a).1 ≤ a i ∧ a i ≤ (array_range n a).2 := by
  unfold array_range
  revert i
  refine forRange_induct
    (fun k (st : ℚ × ℚ) => ∀ i, 0 ≤ i → i < k → st.1 ≤ a i ∧ a i ≤ st.2)
    0 n _ _ hn ?_ ?_
  · intro i h0 h1
    omega
  · intro k st h0 h1 ih i hi0 hi1
    dsimp only
    by_cases e : i = k
    · subst e
      constructor
      · split_ifs <;> linarith
      · split_ifs <;> linarith
    · have := ih i hi0 (by omega)
      constructor
      · split_ifs <;> linarith
      · split_ifs <;> linarith

/-- Every footprint of a point set lies inside the subgrid returned by
`get_subgrid`. -/
theorem subgrid_holds_footprints (M : ℤ) (hM : 0 ≤ M) (kx : ℤ → ℚ) (ns : ℤ) (i : ℤ)
    (hi0 : 0 ≤ i) (hi1 : i < M) :
    ⌈(array_range M kx).1 - (ns : ℚ) / 2⌉ ≤ ⌈kx i - (ns : ℚ) / 2⌉ ∧
    ⌈kx i - (ns : ℚ) / 2⌉ + ns ≤
      ⌈(array_range M kx).1 - (ns : ℚ) / 2⌉ +
        (⌈(array_range M kx).2 - (ns : ℚ) / 2⌉ - ⌈(array_range M kx).1 - (ns : ℚ) / 2⌉ + ns) := by
  have hb := array_range_encloses M hM kx i hi0 hi1
  have a : ⌈(array_range M kx).1 - (ns : ℚ) / 2⌉ ≤ ⌈kx i - (ns : ℚ) / 2⌉ :=
    Int.ceil_mono (by linarith [hb.1])
  have b : ⌈kx i - (ns : ℚ) / 2⌉ ≤ ⌈(array_range M kx).2 - (ns : ℚ) / 2⌉ :=
    Int.ceil_mono (by linarith [hb.2])
  constructor
  · exact a
  · omega

/-- One subproblem of `spreadSorted` in rank 1 adds to every grid cell the
periodic contributions of the points of its slice. -/
theorem spread_one_subproblem_rank1 (K : ℚ → ℚ) (nthr : ℤ) (s : ℤ → ℤ) (N1 : ℤ)
    (kx ky kz dd : ℤ → ℚ) (opts : SpreadParameters) (brk : ℤ → ℤ) (isub : ℤ)
    (grid : ℤ → ℚ) (hM0 : 0 ≤ brk (isub + 1) - brk isub)
    (hns0 : 0 ≤ opts.kernel_width) (hns1 : opts.kernel_width ≤ N1)
    (hx : ∀ i, 0 ≤ i → i < brk (isub + 1) - brk isub →
      0 ≤ kx (s (i + brk isub)) ∧ kx (s (i + brk isub)) ≤ (N1 : ℚ))
    (g c : ℤ) (hg0 : 0 ≤ g) (hg1 : g < N1) (hc0 : 0 ≤ c) (hc1 : c ≤ 1) :
    spread_one_subproblem K nthr s N1 1 1 kx ky kz dd opts brk isub grid (2 * g + c) =
      grid (2 * g + c) +
        sumRange (brk (isub + 1) - brk isub) (fun i =>
          pointTerm K N1 opts.kernel_width (kx (s (brk isub + i)))
            (dd (2 * s (brk isub + i) + c)) g) := by
  have hr : get_transform_rank N1 1 1 = 1 := by
    simp [get_transform_rank]
  unfold spread_one_subproblem add_wrapped_subgrid_thread_safe
  rw [hr, get_subgrid_rank1]
  dsimp only
  rw [if_pos rfl, ite_self]
  have hcp := subproblem_copy_eq s 1 1 kx ky kz dd (brk isub) (brk (isub + 1) - brk isub) hM0
  rw [subgrid_add_rank1 K N1 _ hM0 _ _ opts hns0 hns1
    (by
      intro i hi0 hi1
      rw [(hcp i hi0 hi1).1]
      exact hx i hi0 hi1)
    _ _
    (by
      intro i hi0 hi1
      exact subgrid_holds_footprints _ hM0 _ _ i hi0 hi1)
    grid g c hg0 hg1 hc0 hc1]
  congr 1
  apply sumRange_congr
  intro i hi0 hi1
  rw [(hcp i hi0 hi1).1, (hcp i hi0 hi1).2 c hc0 hc1]
  have e : i + brk isub = brk isub + i := by ring
  rw [e]

/-! ## `spreadSorted`, rank 1 -/

/-- A loop that rewrites cell `i` from its own old value, cell by cell. -/
theorem forRange_map (lo hi : ℤ) (F : ℤ → ℚ → ℚ) (a : ℤ → ℚ) :
    forRange lo hi (fun i (a : ℤ → ℚ) => Function.update a i (F i (a i))) a =
      fun i => if lo ≤ i ∧ i < hi then F i (a i) else a i := by
  by_cases hle : lo ≤ hi
  · refine forRange_induct
      (fun k (st : ℤ → ℚ) => st = fun i => if lo ≤ i ∧ i < k then F i (a i) else a i)
      lo hi _ a hle ?_ ?_
    · funext i
      have : ¬ (lo ≤ i ∧ i < lo) := by omega
      simp [this]
    · intro k st h0 h1 ih
      beta_reduce
      rw [ih]
      funext i
      rw [Function.update_apply]
      by_cases e : i = k
      · subst e
        have c1 : lo ≤ i ∧ i < i + 1 := by omega
        have c2 : ¬ (lo ≤ i ∧ i < i) := by omega
        rw [if_pos rfl, if_pos c1]
        beta_reduce
        rw [if_neg c2]
      · have c : (lo ≤ i ∧ i < k + 1) ↔ (lo ≤ i ∧ i < k) := by omega
        simp only [e, if_false, c]
  · rw [forRange_empty _ _ _ _ (by omega)]
    funext i
    have : ¬ (lo ≤ i ∧ i < hi) := by omega
    simp [this]

/-- With at most as many subproblems as points, consecutive breakpoints differ:
no subproblem is empty. -/
theorem fill_brk_strict (M nb : ℤ) (hnb : 1 ≤ nb) (hM : nb ≤ M) (p : ℤ) (hp0 : 0 ≤ p)
    (hp1 : p < nb) : fill_brk M nb p + 1 ≤ fill_brk M nb (p + 1) := by
  rw [fill_brk_eq M nb p (by omega) hp0 (by omega),
    fill_brk_eq M nb (p + 1) (by omega) (by omega) (by omega),
    brkValue_eq_floor M nb p (by omega) hnb hp0,
    brkValue_eq_floor M nb (p + 1) (by omega) hnb (by omega)]
  rw [← Int.floor_add_one]
  apply Int.floor_mono
  have h2 : (0 : ℚ) < (nb : ℚ) := by exact_mod_cast (by omega : (0 : ℤ) < nb)
  have h3 : (nb : ℚ) ≤ (M : ℚ) := by exact_mod_cast hM
  have e : ((M * (p + 1) : ℤ) : ℚ) / (nb : ℚ) =
      ((M * p : ℤ) : ℚ) / (nb : ℚ) + (M : ℚ) / (nb : ℚ) := by
    push_cast
    field_simp
    ring
  have h4 : (1 : ℚ) ≤ (M : ℚ) / (nb : ℚ) := by
    rw [le_div_iff₀ h2]
    linarith
  rw [e]
  linarith

/-- The number of subproblems chosen by `spreadSorted` lies in `[1, M]`. -/
theorem spread_num_subproblems_range (nthr N M : ℤ) (opts : SpreadParameters)
    (did_sort : Bool) (hthr : 1 ≤ nthr) (hM : 1 ≤ M) (hmax : 1 ≤ opts.max_subproblem_size) :
    1 ≤ spread_num_subproblems nthr N M opts did_sort ∧
      spread_num_subproblems nthr N M opts did_sort ≤ M := by
  unfold spread_num_subproblems cdiv
  dsimp only
  rw [Int.tdiv_eq_ediv (by omega) (by omega)]
  have d0 : 0 ≤ (M - 1) / opts.max_subproblem_size :=
    Int.ediv_nonneg (by omega) (by omega)
  have d1 : (M - 1) / opts.max_subproblem_size ≤ M - 1 :=
    Int.ediv_le_self _ (by omega)
  have m0 : 1 ≤ min nthr M := le_min hthr hM
  have m1 : min nthr M ≤ M := min_le_right _ _
  split_ifs <;> omega

/-- The subproblem loop of `spreadSorted` in rank 1 adds to every grid cell the
periodic contributions of all points, whatever the number of subproblems and
the permutation. -/
theorem spread_subproblems_rank1 (K : ℚ → ℚ) (nthr nb : ℤ) (s : ℤ → ℤ) (N1 : ℤ)
    (grid0 : ℤ → ℚ) (M : ℤ) (kx ky kz dd : ℤ → ℚ) (opts : SpreadParameters)
    (hM : 0 ≤ M) (hnb : 1 ≤ nb) (hs : IsPermutation s M)
    (hns0 : 0 ≤ opts.kernel_width) (hns1 : opts.kernel_width ≤ N1)
    (hx : ∀ j, 0 ≤ j → j < M → 0 ≤ kx j ∧ kx j ≤ (N1 : ℚ))
    (g c : ℤ) (hg0 : 0 ≤ g) (hg1 : g < N1) (hc0 : 0 ≤ c) (hc1 : c ≤ 1) :
    spread_subproblems K nthr nb s N1 1 1 grid0 M kx ky kz dd opts (2 * g + c) =
      grid0 (2 * g + c) + spreadRef K N1 opts.kernel_width M kx dd g c := by
  obtain ⟨b0, bl, bstep⟩ := fill_brk_props M nb hM hnb
  have bb := brk_bounds (fill_brk M nb) nb M b0 bl bstep
  unfold spread_subproblems
  have key := forRange_induct
    (fun k (st : ℤ → ℚ) => ∀ g c : ℤ, 0 ≤ g → g < N1 → 0 ≤ c → c ≤ 1 →
      st (2 * g + c) = grid0 (2 * g + c) +
        sumRange (fill_brk M nb k) (fun p =>
          pointTerm K N1 opts.kernel_width (kx (s p)) (dd (2 * s p + c)) g))
    0 nb
    (spread_one_subproblem K nthr s N1 1 1 kx ky kz dd opts (fill_brk M nb))
    grid0 (by omega)
    (by
      intro g c _ _ _ _
      rw [b0, sumRange_zero, add_zero])
    (by
      intro k st h0 h1 ih g c hg0 hg1 hc0 hc1
      have hk := bstep k h0 h1
      have hk0 := bb k h0 (by omega)
      have hk1 := bb (k + 1) (by omega) (by omega)
      rw [spread_one_subproblem_rank1 K nthr s N1 kx ky kz dd opts (fill_brk M nb) k st
        (by omega) hns0 hns1
        (by
          intro i hi0 hi1
          have r := hs.1 (i + fill_brk M nb k) (by omega) (by omega)
          exact hx _ r.1 r.2)
        g c hg0 hg1 hc0 hc1, ih g c hg0 hg1 hc0 hc1]
      have e : fill_brk M nb k + (fill_brk M nb (k + 1) - fill_brk M nb k) =
          fill_brk M nb (k + 1) := by ring
      have ap := sumRange_append (fill_brk M nb k)
        (fill_brk M nb (k + 1) - fill_brk M nb k) hk0.1 (by omega)
        (fun p => pointTerm K N1 opts.kernel_width (kx (s p)) (dd (2 * s p + c)) g)
      rw [e] at ap
      rw [add_assoc, ap])
  rw [key g c hg0 hg1 hc0 hc1, bl]
  congr 1
  exact sumRange_perm s M hs
    (fun j => pointTerm K N1 opts.kernel_width (kx j) (dd (2 * j + c)) g)

/-- In rank 1 `spreadSorted` returns 0 and leaves in every grid cell the kernel
scale times the periodic spreading sum. -/
theorem spreadSorted_rank1_scaled (K : ℚ → ℚ) (omp_max_threads : ℤ) (s : ℤ → ℤ) (N1 : ℤ)
    (data_uniform : ℤ → ℚ) (M : ℤ) (kx ky kz dd : ℤ → ℚ) (opts : SpreadParameters)
    (did_sort : Bool) (hM : 1 ≤ M) (homp : 1 ≤ omp_max_threads)
    (hmax : 1 ≤ opts.max_subproblem_size) (hs : IsPermutation s M)
    (hns0 : 0 ≤ opts.kernel_width) (hns1 : opts.kernel_width ≤ N1)
    (hx : ∀ j, 0 ≤ j → j < M → 0 ≤ kx j ∧ kx j ≤ (N1 : ℚ))
    (g c : ℤ) (hg0 : 0 ≤ g) (hg1 : g < N1) (hc0 : 0 ≤ c) (hc1 : c ≤ 1) :
    (spreadSorted K omp_max_threads s N1 1 1 data_uniform M kx ky kz dd opts did_sort).1 = 0 ∧
    (spreadSorted K omp_max_threads s N1 1 1 data_uniform M kx ky kz dd opts did_sort).2
        (2 * g + c) =
      scaleOf opts * spreadRef K N1 opts.kernel_width M kx dd g c := by
  have hthr : 1 ≤ (if opts.num_threads > 0 then min omp_max_threads opts.num_threads
      else omp_max_threads) := by
    split_ifs with h
    · exact le_min homp (by omega)
    · exact homp
  have hnb := spread_num_subproblems_range _ (N1 * 1 * 1) M opts did_sort hthr hM hmax
  have hz := forRange_map 0 (2 * (N1 * 1 * 1)) (fun _ _ => 0) data_uniform
  beta_reduce at hz
  have hin : 0 ≤ 2 * g + c ∧ 2 * g + c < 2 * (N1 * 1 * 1) := by omega
  unfold spreadSorted
  dsimp only
  rw [if_neg (by omega)]
  have hsp := fun grid0 => spread_subproblems_rank1 K
    (if opts.num_threads > 0 then min omp_max_threads opts.num_threads else omp_max_threads)
    (spread_num_subproblems
      (if opts.num_threads > 0 then min omp_max_threads opts.num_threads
        else omp_max_threads) (N1 * 1 * 1) M opts did_sort)
    s N1 grid0 M kx ky kz dd opts (by omega) hnb.1 hs hns0 hns1 hx g c hg0 hg1 hc0 hc1
  unfold scaleOf
  cases hso : opts.spread_only
  · simp only [Bool.false_eq_true, if_false, one_mul, true_and]
    rw [hsp, hz]
    simp only [hin, and_self, if_true, zero_add]
  · simp only [if_true, true_and]
    have hm := forRange_map 0 (2 * (N1 * 1 * 1)) (fun _ v => v * opts.kernel_scale)
      (spread_subproblems K
        (if opts.num_threads > 0 then min omp_max_threads opts.num_threads
          else omp_max_threads)
        (spread_num_subproblems
          (if opts.num_threads > 0 then min omp_max_threads opts.num_threads
            else omp_max_threads) (N1 * 1 * 1) M opts did_sort)
        s N1 1 1
        (forRange 0 (2 * (N1 * 1 * 1)) (fun i (a : ℤ → ℚ) => Function.update a i 0)
          data_uniform)
        M kx ky kz dd opts)
    beta_reduce at hm
    rw [hm]
    beta_reduce
    rw [if_pos hin, hsp, hz]
    simp only [hin, and_self, if_true, zero_add]
    ring

/-! ## `spreadSorted` against the periodic spreading sum -/

/-- C2: in rank 1 and exact arithmetic, for `M ≥ 1` points with coordinates in
`[0, N1]`, kernel width `0 ≤ ns ≤ N1`, any kernel function `K` and any
permutation `sort_indices` of `0..M-1`, `spreadSorted` without spread-only
scaling returns 0 and leaves in every grid cell `g` the sum over the points `j`
and the offsets `dx` of `[0, ns)` with `(ceil(x_j - ns/2) + dx) mod N1 = g` of
`c_j * K(ceil(x_j - ns/2) - x_j + dx)`, whatever the grid held before; and the
subproblem loop run on a zeroed grid with any number `nb` of subproblems,
`1 ≤ nb ≤ M`, leaves the same values.  The right-hand side mentions neither
`nb` nor `sort_indices`. -/
theorem spreadSorted_rank1 (K : ℚ → ℚ) (omp_max_threads : ℤ) (sort_indices : ℤ → ℤ) (N1 : ℤ)
    (data_uniform : ℤ → ℚ) (M : ℤ) (kx ky kz data_nonuniform : ℤ → ℚ)
    (opts : SpreadParameters) (did_sort : Bool)
    (hM : 1 ≤ M) (homp : 1 ≤ omp_max_threads) (hmax : 1 ≤ opts.max_subproblem_size)
    (hso : opts.spread_only = false) (hs : IsPermutation sort_indices M)
    (hns0 : 0 ≤ opts.kernel_width) (hns1 : opts.kernel_width ≤ N1)
    (hx : ∀ j, 0 ≤ j → j < M → 0 ≤ kx j ∧ kx j ≤ (N1 : ℚ)) :
    (spreadSorted K omp_max_threads sort_indices N1 1 1 data_uniform M kx ky kz
      data_nonuniform opts did_sort).1 = 0 ∧
    SpreadSpec K N1 opts.kernel_width M kx data_nonuniform
      (spreadSorted K omp_max_threads sort_indices N1 1 1 data_uniform M kx ky kz
        data_nonuniform opts did_sort).2 ∧
    ∀ (nthr nb : ℤ) (grid0 : ℤ → ℚ), 1 ≤ nb → nb ≤ M →
      (∀ q, 0 ≤ q → q < 2 * N1 → grid0 q = 0) →
      SpreadSpec K N1 opts.kernel_width M kx data_nonuniform
        (spread_subproblems K nthr nb sort_indices N1 1 1 grid0 M kx ky kz data_nonuniform
          opts) := by
  have hsc : scaleOf opts = 1 := by
    unfold scaleOf
    rw [hso]
    rfl
  refine ⟨?_, ?_, ?_⟩
  · unfold spreadSorted
    dsimp only
    rw [if_neg (show ¬ M = 0 by omega), hso]
    rfl
  · intro g hg0 hg1 c hc0 hc1
    have h := (spreadSorted_rank1_scaled K omp_max_threads sort_indices N1 data_uniform M kx
      ky kz data_nonuniform opts did_sort hM homp hmax hs hns0 hns1 hx g c hg0 hg1 hc0 hc1).2
    rw [hsc, one_mul] at h
    exact h
  · intro nthr nb grid0 hnb0 _ hz g hg0 hg1 c hc0 hc1
    rw [spread_subproblems_rank1 K nthr nb sort_indices N1 grid0 M kx ky kz data_nonuniform
      opts (by omega) hnb0 hs hns0 hns1 hx g c hg0 hg1 hc0 hc1,
      hz (2 * g + c) (by omega) (by omega), zero_add]

theorem spreadSorted_rank1_witness :
    IsPermutation swapTwo 2 ∧
    (∀ j : ℤ, 0 ≤ j → j < 2 → 0 ≤ sampleCoords j ∧ sampleCoords j ≤ ((4 : ℤ) : ℚ)) ∧
    (spreadSorted id 2 swapTwo 4 1 1 sampleGrid 2 sampleCoords sampleCoords sampleCoords
      sampleGrid sortOpts true).1 = 0 ∧
    SpreadSpec id 4 sortOpts.kernel_width 2 sampleCoords sampleGrid
      (spreadSorted id 2 swapTwo 4 1 1 sampleGrid 2 sampleCoords sampleCoords sampleCoords
        sampleGrid sortOpts true).2 ∧
    SpreadSpec id 4 sortOpts.kernel_width 2 sampleCoords sampleGrid
      (spread_subproblems id 3 2 swapTwo 4 1 1 (fun _ => 0) 2 sampleCoords sampleCoords
        sampleCoords sampleGrid sortOpts) :=
  have h := spreadSorted_rank1 id 2 swapTwo 4 sampleGrid 2 sampleCoords sampleCoords
    sampleCoords sampleGrid sortOpts true (by decide) (by decide) (by decide) rfl
    swapTwo_isPermutation (by decide) (by decide) sampleCoords_range
  ⟨swapTwo_isPermutation, sampleCoords_range, h.1, h.2.1,
    h.2.2 3 2 (fun _ => 0) (by decide) (by decide) (fun _ _ _ => rfl)⟩

/-! ## Batch selection and the batch loops -/

theorem cdiv_of_nonneg (a b : ℤ) (ha : 0 ≤ a) (hb : 0 ≤ b) : cdiv a b = a / b := by
  unfold cdiv
  exact Int.tdiv_eq_ediv ha hb

/-- The quotient `q = (n - 1) / d` of a positive `n` by a positive `d` satisfies
`q * d < n ≤ (q + 1) * d`. -/
theorem pred_div_bounds (n d : ℤ) (hn : 1 ≤ n) (hd : 1 ≤ d) :
    0 ≤ (n - 1) / d ∧ (n - 1) / d * d < n ∧ n ≤ ((n - 1) / d + 1) * d := by
  have h0 : 0 ≤ (n - 1) / d := Int.ediv_nonneg (by omega) (by omega)
  have h1 : (n - 1) / d * d ≤ n - 1 := Int.ediv_mul_le _ (by omega)
  have h2 : n - 1 < ((n - 1) / d + 1) * d := Int.lt_ediv_add_one_mul_self _ (by omega)
  exact ⟨h0, by omega, by omega⟩

/-- The C++ idiom `1 + (n - 1) / d` is the ceiling of `n / d`. -/
theorem one_add_cdiv_eq_ceil (n d : ℤ) (hn : 1 ≤ n) (hd : 1 ≤ d) :
    1 + cdiv (n - 1) d = ⌈(n : ℚ) / (d : ℚ)⌉ := by
  rw [cdiv_of_nonneg _ _ (by omega) (by omega)]
  obtain ⟨h0, h1, h2⟩ := pred_div_bounds n d hn hd
  have hd' : (0 : ℚ) < (d : ℚ) := by exact_mod_cast (by omega : (0 : ℤ) < d)
  symm
  rw [Int.ceil_eq_iff]
  constructor
  · rw [lt_div_iff₀ hd']
    have : (((n - 1) / d * d : ℤ) : ℚ) < ((n : ℤ) : ℚ) := by exact_mod_cast h1
    push_cast at this ⊢
    linarith
  · rw [div_le_iff₀ hd']
    have : ((n : ℤ) : ℚ) ≤ ((((n - 1) / d + 1) * d : ℤ) : ℚ) := by exact_mod_cast h2
    push_cast at this ⊢
    linarith

/-- The pair chosen by "Select batch size": both entries are positive and
`num_batches` is the least number of batches of `batch_size` transforms that
hold all transforms. -/
theorem select_batch_size_props (mbs nt T : ℤ) (hnt : 1 ≤ nt) (hT : 1 ≤ T) (hmbs : 0 ≤ mbs) :
    1 ≤ (select_batch_size mbs nt T).2 ∧ 1 ≤ (select_batch_size mbs nt T).1 ∧
    nt ≤ (select_batch_size mbs nt T).2 * (select_batch_size mbs nt T).1 ∧
    ((select_batch_size mbs nt T).1 - 1) * (select_batch_size mbs nt T).2 < nt := by
  unfold select_batch_size
  by_cases h : mbs = 0
  · rw [if_pos h]
    dsimp only
    rw [cdiv_of_nonneg _ T (by omega) (by omega)]
    obtain ⟨q0, q1, q2⟩ := pred_div_bounds nt T hnt hT
    have hnb : 1 ≤ 1 + (nt - 1) / T := by omega
    rw [cdiv_of_nonneg _ _ (by omega) (by omega)]
    obtain ⟨r0, r1, r2⟩ := pred_div_bounds nt (1 + (nt - 1) / T) hnt hnb
    generalize (nt - 1) / (1 + (nt - 1) / T) = r at r0 r1 r2 ⊢
    generalize (nt - 1) / T = q at q0 q1 q2 hnb r1 r2 ⊢
    have hrT : r + 1 ≤ T := by
      by_contra hc
      have : T ≤ r := by omega
      have : (1 + q) * T ≤ (1 + q) * r := by
        apply mul_le_mul_of_nonneg_left this (by omega)
      nlinarith
    refine ⟨by omega, by omega, ?_, ?_⟩
    · nlinarith
    · have : q * (r + 1) ≤ q * T := mul_le_mul_of_nonneg_left hrT q0
      have e : (1 + q - 1) * (1 + r) = q * (r + 1) := by ring
      rw [e]
      nlinarith
  · rw [if_neg h]
    dsimp only
    have hb : 1 ≤ min mbs nt := le_min (by omega) hnt
    rw [cdiv_of_nonneg _ _ (by omega) (by omega)]
    obtain ⟨q0, q1, q2⟩ := pred_div_bounds nt (min mbs nt) hnt hb
    generalize (nt - 1) / (min mbs nt) = q at q0 q1 q2 ⊢
    refine ⟨hb, by omega, ?_, ?_⟩
    · nlinarith
    · have e : (1 + q - 1) * min mbs nt = q * min mbs nt := by ring
      rw [e]
      exact q1

/-- The batch loop condition `b * batch_size < num_transforms` holds exactly for
the batches below `nb`, when `(nb - 1) * batch_size < num_transforms ≤ nb *
batch_size`. -/
theorem batch_cond_iff (bs nt nb b : ℤ) (hbs : 1 ≤ bs) (h1 : (nb - 1) * bs < nt)
    (h2 : nt ≤ bs * nb) : b * bs < nt ↔ b < nb := by
  constructor
  · intro h
    by_contra hc
    have : nb ≤ b := by omega
    have : nb * bs ≤ b * bs := mul_le_mul_of_nonneg_right this (by omega)
    nlinarith
  · intro h
    have : b ≤ nb - 1 := by omega
    have : b * bs ≤ (nb - 1) * bs := mul_le_mul_of_nonneg_right this (by omega)
    omega

/-- A `forWhile` loop whose condition holds exactly below `n` and whose body
never fails runs the body for `b, ..., n - 1` and returns `OK`, given enough
fuel. -/
theorem forWhile_run {σ : Type} (cond : ℤ → Bool) (body : ℤ → σ → Status × σ) (n : ℤ)
    (hcond : ∀ b, 0 ≤ b → (cond b = true ↔ b < n))
    (hok : ∀ b s, 0 ≤ b → b < n → (body b s).1 = Status.OK) :
    ∀ (fuel : ℕ) (b : ℤ) (s : σ), 0 ≤ b → b ≤ n → n - b < (fuel : ℤ) →
      forWhile cond body fuel b s =
        some (Status.OK, forRange b n (fun b s => (body b s).2) s) := by
  intro fuel
  induction fuel with
  | zero =>
    intro b s h0 h1 h2
    simp at h2
    omega
  | succ fuel ih =>
    intro b s h0 h1 h2
    unfold forWhile
    by_cases hb : b < n
    · rw [if_pos ((hcond b h0).2 hb), if_pos (hok b s h0 hb),
        ih (b + 1) (body b s).2 (by omega) (by omega) (by push_cast at h2; omega)]
      rw [forRange_split b (b + 1) n _ s (by omega) (by omega),
        forRange_succ b b _ s (le_refl _), forRange_empty _ _ _ _ (le_refl _)]
    · have hc : ¬ (cond b = true) := fun h => hb ((hcond b h0).1 h)
      rw [if_neg hc]
      have e : b = n := by omega
      rw [e, forRange_empty _ _ _ _ (le_refl _)]

/-- The sizes of the first `k` batches add up to `min (k * batch_size)
num_transforms`. -/
theorem batch_sizes_partial_sum (P : PlanState) (hbs : 1 ≤ P.batch_size_)
    (hnt : 0 ≤ P.num_transforms_) :
    ∀ k : ℕ, (k : ℤ) * P.batch_size_ < P.num_transforms_ + P.batch_size_ →
      ∑ b in Finset.range k, current_batch_size P (b : ℤ) =
        min ((k : ℤ) * P.batch_size_) P.num_transforms_ := by
  intro k
  induction k with
  | zero =>
    intro _
    simp
    omega
  | succ k ih =>
    intro hk
    have e : ((k + 1 : ℕ) : ℤ) * P.batch_size_ = (k : ℤ) * P.batch_size_ + P.batch_size_ := by
      push_cast
      ring
    rw [e] at hk ⊢
    rw [Finset.sum_range_succ, ih (by omega)]
    unfold current_batch_size
    generalize (k : ℤ) * P.batch_size_ = x at hk ⊢
    omega

/-! ## The claims on `initialize`, `execute` and `spread_or_interp` -/

/-- The recording operations never fail. -/
theorem recordOps_ok (P : PlanState) (b : ℤ) (s : List (ℤ × ℤ)) :
    (execute_batch recordOps P b s).1 = Status.OK := by
  unfold execute_batch recordOps
  dsimp only
  by_cases h : P.type_ = TransformType.TYPE_1
  · simp [h]
  · simp [h]

/-- C13: for `num_transforms ≥ 1` and at least one thread (and a valid type and
rank, so that the checks pass), `initialize` stores
`num_batches = ceil(num_transforms / threads)` and
`batch_size = ceil(num_transforms / num_batches)` when `max_batch_size` is 0, and
otherwise (`max_batch_size > 0`) `batch_size = min(max_batch_size,
num_transforms)` and `num_batches = ceil(num_transforms / batch_size)`; the
thread count is the stored `options_.num_threads`. -/
theorem initialize_batch_selection (omp_max_threads : ℤ) (kEpsilon : ℚ)
    (rest : PlanState → Status × PlanState) (plan : PlanState) (type : TransformType)
    (rank : ℤ) (grid_dims : ℤ → ℤ) (fft_direction num_transforms : ℤ) (tol : ℚ)
    (options : InternalOptions)
    (htype : type ≠ TransformType.TYPE_3) (hr0 : 1 ≤ rank) (hr1 : rank ≤ 3)
    (hnt : 1 ≤ num_transforms) (homp : 1 ≤ omp_max_threads)
    (hmbs : 0 ≤ options.max_batch_size) :
    initialize_plan omp_max_threads kEpsilon rest plan type rank grid_dims fft_direction
        num_transforms tol options =
      rest (initialize_store omp_max_threads kEpsilon plan type rank grid_dims fft_direction
        num_transforms tol options) ∧
    (initialize_store omp_max_threads kEpsilon plan type rank grid_dims fft_direction
        num_transforms tol options).options_.num_threads =
      (if options.num_threads > 0 then options.num_threads else omp_max_threads) ∧
    1 ≤ (initialize_store omp_max_threads kEpsilon plan type rank grid_dims fft_direction
        num_transforms tol options).options_.num_threads ∧
    (options.max_batch_size = 0 →
      (initialize_store omp_max_threads kEpsilon plan type rank grid_dims fft_direction
          num_transforms tol options).num_batches_ =
        ⌈(num_transforms : ℚ) /
          (((initialize_store omp_max_threads kEpsilon plan type rank grid_dims fft_direction
            num_transforms tol options).options_.num_threads : ℤ) : ℚ)⌉ ∧
      (initialize_store omp_max_threads kEpsilon plan type rank grid_dims fft_direction
          num_transforms tol options).batch_size_ =
        ⌈(num_transforms : ℚ) /
          (((initialize_store omp_max_threads kEpsilon plan type rank grid_dims fft_direction
            num_transforms tol options).num_batches_ : ℤ) : ℚ)⌉) ∧
    (options.max_batch_size ≠ 0 →
      (initialize_store omp_max_threads kEpsilon plan type rank grid_dims fft_direction
          num_transforms tol options).batch_size_ = min options.max_batch_size num_transforms ∧
      (initialize_store omp_max_threads kEpsilon plan type rank grid_dims fft_direction
          num_transforms tol options).num_batches_ =
        ⌈(num_transforms : ℚ) /
          (((initialize_store omp_max_threads kEpsilon plan type rank grid_dims fft_direction
            num_transforms tol options).batch_size_ : ℤ) : ℚ)⌉) := by
  have hT : 1 ≤ (if options.num_threads > 0 then options.num_threads else omp_max_threads) := by
    split_ifs with h
    · omega
    · exact homp
  refine ⟨?_, rfl, hT, ?_, ?_⟩
  · unfold initialize_plan
    rw [if_neg htype, if_neg (by omega), if_neg (by omega)]
  · intro h0
    unfold initialize_store
    dsimp only
    unfold select_batch_size
    rw [if_pos h0]
    dsimp only
    have hnb : 1 ≤ 1 + cdiv (num_transforms - 1)
        (if options.num_threads > 0 then options.num_threads else omp_max_threads) := by
      rw [cdiv_of_nonneg _ _ (by omega) (by omega)]
      have := (pred_div_bounds num_transforms _ hnt hT).1
      omega
    exact ⟨one_add_cdiv_eq_ceil num_transforms _ hnt hT,
      one_add_cdiv_eq_ceil num_transforms _ hnt hnb⟩
  · intro h0
    unfold initialize_store
    dsimp only
    unfold select_batch_size
    rw [if_neg h0]
    dsimp only
    have hb : 1 ≤ min options.max_batch_size num_transforms := le_min (by omega) hnt
    exact ⟨rfl, one_add_cdiv_eq_ceil num_transforms _ hnt hb⟩

theorem initialize_batch_selection_witness :
    initialize_plan 4 0 (fun p => (Status.OK, p)) blankPlan TransformType.TYPE_1 1 (fun _ => 8)
        1 5 (1 / 1000) sampleInternalOptions = (Status.OK, samplePlan5) ∧
    samplePlan5.batch_size_ = min sampleInternalOptions.max_batch_size 5 ∧
    samplePlan5.num_batches_ =
      ⌈((5 : ℤ) : ℚ) / ((samplePlan5.batch_size_ : ℤ) : ℚ)⌉ :=
  have h := initialize_batch_selection 4 0 (fun p => (Status.OK, p)) blankPlan
    TransformType.TYPE_1 1 (fun _ => 8) 1 5 (1 / 1000) sampleInternalOptions (by decide)
    (by decide) (by decide) (by decide) (by decide) (by decide)
  ⟨h.1, (h.2.2.2.2 (by decide)).1, (h.2.2.2.2 (by decide)).2⟩

/-- C14: for `num_transforms ≥ 1`, at least one thread and `max_batch_size ≥ 0`,
the values stored by `initialize` satisfy `batch_size ≥ 1`, `num_batches ≥ 1`,
`batch_size * num_batches ≥ num_transforms` and
`(num_batches - 1) * batch_size < num_transforms`; hence the batch loop of
`execute`, on any plan with these values whose steps succeed, returns `OK` after
running its body for exactly the batches `0, ..., num_batches - 1`. -/
theorem initialize_batch_count (omp_max_threads : ℤ) (kEpsilon : ℚ)
    (rest : PlanState → Status × PlanState) (plan : PlanState)
    (type : TransformType) (rank : ℤ) (grid_dims : ℤ → ℤ) (fft_direction num_transforms : ℤ)
    (tol : ℚ) (options : InternalOptions)
    (htype : type ≠ TransformType.TYPE_3) (hr0 : 1 ≤ rank) (hr1 : rank ≤ 3)
    (hnt : 1 ≤ num_transforms) (homp : 1 ≤ omp_max_threads)
    (hmbs : 0 ≤ options.max_batch_size) :
    initialize_plan omp_max_threads kEpsilon rest plan type rank grid_dims fft_direction
        num_transforms tol options =
      rest (initialize_store omp_max_threads kEpsilon plan type rank grid_dims fft_direction
        num_transforms tol options) ∧
    1 ≤ (initialize_store omp_max_threads kEpsilon plan type rank grid_dims fft_direction
      num_transforms tol options).batch_size_ ∧
    1 ≤ (initialize_store omp_max_threads kEpsilon plan type rank grid_dims fft_direction
      num_transforms tol options).num_batches_ ∧
    num_transforms ≤
      (initialize_store omp_max_threads kEpsilon plan type rank grid_dims fft_direction
        num_transforms tol options).batch_size_ *
      (initialize_store omp_max_threads kEpsilon plan type rank grid_dims fft_direction
        num_transforms tol options).num_batches_ ∧
    ((initialize_store omp_max_threads kEpsilon plan type rank grid_dims fft_direction
        num_transforms tol options).num_batches_ - 1) *
      (initialize_store omp_max_threads kEpsilon plan type rank grid_dims fft_direction
        num_transforms tol options).batch_size_ < num_transforms ∧
    ∀ (σ : Type) (ops : BatchOps σ) (P : PlanState) (s : σ) (fuel : ℕ),
      P.type_ = type → P.num_transforms_ = num_transforms →
      P.batch_size_ = (initialize_store omp_max_threads kEpsilon plan type rank grid_dims
        fft_direction num_transforms tol options).batch_size_ →
      (∀ b s, (execute_batch ops P b s).1 = Status.OK) →
      (initialize_store omp_max_threads kEpsilon plan type rank grid_dims fft_direction
        num_transforms tol options).num_batches_ < (fuel : ℤ) →
      execute ops P fuel s =
        some (Status.OK,
          forRange 0
            (initialize_store omp_max_threads kEpsilon plan type rank grid_dims fft_direction
              num_transforms tol options).num_batches_
            (fun b s => (execute_batch ops P b s).2) s) := by
  have hT : 1 ≤ (if options.num_threads > 0 then options.num_threads else omp_max_threads) := by
    split_ifs with h
    · omega
    · exact homp
  have hp := select_batch_size_props options.max_batch_size num_transforms _ hnt hT hmbs
  have e1 : (initialize_store omp_max_threads kEpsilon plan type rank grid_dims fft_direction
      num_transforms tol options).batch_size_ =
      (select_batch_size options.max_batch_size num_transforms
        (if options.num_threads > 0 then options.num_threads else omp_max_threads)).2 := rfl
  have e2 : (initialize_store omp_max_threads kEpsilon plan type rank grid_dims fft_direction
      num_transforms tol options).num_batches_ =
      (select_batch_size options.max_batch_size num_transforms
        (if options.num_threads > 0 then options.num_threads else omp_max_threads)).1 := rfl
  have hinit : initialize_plan omp_max_threads kEpsilon rest plan type rank grid_dims
      fft_direction num_transforms tol options =
      rest (initialize_store omp_max_threads kEpsilon plan type rank grid_dims fft_direction
        num_transforms tol options) := by
    unfold initialize_plan
    rw [if_neg htype, if_neg (by omega), if_neg (by omega)]
  refine ⟨hinit, ?_⟩
  rw [e1, e2]
  refine ⟨hp.1, hp.2.1, hp.2.2.1, hp.2.2.2, ?_⟩
  intro σ ops P s fuel hty hn hb hok hfuel
  unfold execute
  rw [if_pos (by rw [hty]; exact htype)]
  apply forWhile_run
  · intro b _
    rw [decide_eq_true_iff, hb, hn]
    exact batch_cond_iff _ _ _ b hp.1 hp.2.2.2 hp.2.2.1
  · intro b s _ _
    exact hok b s
  · exact le_refl _
  · omega
  · omega

theorem initialize_batch_count_witness :
    initialize_plan 4 0 (fun p => (Status.OK, p)) blankPlan TransformType.TYPE_1 1 (fun _ => 8)
        1 5 (1 / 1000) sampleInternalOptions = (Status.OK, samplePlan5) ∧
    1 ≤ samplePlan5.batch_size_ ∧ 1 ≤ samplePlan5.num_batches_ ∧
    (5 : ℤ) ≤ samplePlan5.batch_size_ * samplePlan5.num_batches_ ∧
    (samplePlan5.num_batches_ - 1) * samplePlan5.batch_size_ < 5 ∧
    execute recordOps samplePlan5 4 [] =
      some (Status.OK,
        forRange 0 samplePlan5.num_batches_
          (fun b s => (execute_batch recordOps samplePlan5 b s).2) []) :=
  have h := initialize_batch_count 4 0 (fun p => (Status.OK, p)) blankPlan TransformType.TYPE_1
    1 (fun _ => 8) 1 5 (1 / 1000) sampleInternalOptions (by decide) (by decide) (by decide)
    (by decide) (by decide) (by decide)
  ⟨h.1, h.2.1, h.2.2.1, h.2.2.2.1, h.2.2.2.2.1,
    h.2.2.2.2.2 (List (ℤ × ℤ)) recordOps samplePlan5 [] 4 rfl rfl rfl
      (recordOps_ok samplePlan5) (by decide)⟩

/-- C19: `initialize` returns the Unimplemented error of the type check when the
type is TYPE_3; otherwise the Unimplemented error of the rank check when
`rank < 1` or `rank > 3`; otherwise the InvalidArgument error when
`num_transforms < 1`; for every other input it passes the three checks, and its
result is that of the remaining set-up steps run on the stored plan (in
particular `OK` when they succeed). -/
theorem initialize_checks (omp_max_threads : ℤ) (kEpsilon : ℚ)
    (rest : PlanState → Status × PlanState) (plan : PlanState) (type : TransformType)
    (rank : ℤ) (grid_dims : ℤ → ℤ) (fft_direction num_transforms : ℤ) (tol : ℚ)
    (options : InternalOptions) :
    (type = TransformType.TYPE_3 →
      initialize_plan omp_max_threads kEpsilon rest plan type rank grid_dims fft_direction
          num_transforms tol options =
        (Status.Unimplemented "type-3 transforms are not implemented", plan)) ∧
    (type ≠ TransformType.TYPE_3 → (rank < 1 ∨ rank > 3) →
      initialize_plan omp_max_threads kEpsilon rest plan type rank grid_dims fft_direction
          num_transforms tol options =
        (Status.Unimplemented ("rank " ++ toString rank ++ " is not implemented"), plan)) ∧
    (type ≠ TransformType.TYPE_3 → 1 ≤ rank → rank ≤ 3 → num_transforms < 1 →
      initialize_plan omp_max_threads kEpsilon rest plan type rank grid_dims fft_direction
          num_transforms tol options =
        (Status.InvalidArgument "num_transforms must be >= 1", plan)) ∧
    (type ≠ TransformType.TYPE_3 → 1 ≤ rank → rank ≤ 3 → 1 ≤ num_transforms →
      initialize_plan omp_max_threads kEpsilon rest plan type rank grid_dims fft_direction
          num_transforms tol options =
        rest (initialize_store omp_max_threads kEpsilon plan type rank grid_dims fft_direction
          num_transforms tol options) ∧
      ((rest (initialize_store omp_max_threads kEpsilon plan type rank grid_dims
          fft_direction num_transforms tol options)).1 = Status.OK →
        (initialize_plan omp_max_threads kEpsilon rest plan type rank grid_dims
          fft_direction num_transforms tol options).1 = Status.OK)) := by
  refine ⟨?_, ?_, ?_, ?_⟩
  · intro h
    unfold initialize_plan
    rw [if_pos h]
  · intro h1 h2
    unfold initialize_plan
    rw [if_neg h1, if_pos h2]
  · intro h1 h2 h3 h4
    unfold initialize_plan
    rw [if_neg h1, if_neg (by omega), if_pos h4]
  · intro h1 h2 h3 h4
    have e : initialize_plan omp_max_threads kEpsilon rest plan type rank grid_dims
        fft_direction num_transforms tol options =
        rest (initialize_store omp_max_threads kEpsilon plan type rank grid_dims fft_direction
          num_transforms tol options) := by
      unfold initialize_plan
      rw [if_neg h1, if_neg (by omega), if_neg (by omega)]
    refine ⟨e, ?_⟩
    intro h
    rw [e]
    exact h

theorem initialize_checks_witness :
    initialize_plan 4 0 (fun p => (Status.OK, p)) blankPlan TransformType.TYPE_3 1 (fun _ => 8)
        1 5 (1 / 1000) sampleInternalOptions =
      (Status.Unimplemented "type-3 transforms are not implemented", blankPlan) ∧
    initialize_plan 4 0 (fun p => (Status.OK, p)) blankPlan TransformType.TYPE_2 4 (fun _ => 8)
        1 5 (1 / 1000) sampleInternalOptions =
      (Status.Unimplemented ("rank " ++ toString (4 : ℤ) ++ " is not implemented"),
        blankPlan) ∧
    initialize_plan 4 0 (fun p => (Status.OK, p)) blankPlan TransformType.TYPE_2 3 (fun _ => 8)
        1 0 (1 / 1000) sampleInternalOptions =
      (Status.InvalidArgument "num_transforms must be >= 1", blankPlan) ∧
    (initialize_plan 4 0 (fun p => (Status.OK, p)) blankPlan TransformType.TYPE_1 1
        (fun _ => 8) 1 5 (1 / 1000) sampleInternalOptions).1 = Status.OK :=
  ⟨(initialize_checks 4 0 (fun p => (Status.OK, p)) blankPlan TransformType.TYPE_3 1
      (fun _ => 8) 1 5 (1 / 1000) sampleInternalOptions).1 rfl,
    (initialize_checks 4 0 (fun p => (Status.OK, p)) blankPlan TransformType.TYPE_2 4
      (fun _ => 8) 1 5 (1 / 1000) sampleInternalOptions).2.1 (by decide) (by decide),
    (initialize_checks 4 0 (fun p => (Status.OK, p)) blankPlan TransformType.TYPE_2 3
      (fun _ => 8) 1 0 (1 / 1000) sampleInternalOptions).2.2.1 (by decide) (by decide)
      (by decide) (by decide),
    ((initialize_checks 4 0 (fun p => (Status.OK, p)) blankPlan TransformType.TYPE_1 1
      (fun _ => 8) 1 5 (1 / 1000) sampleInternalOptions).2.2.2 (by decide) (by decide)
      (by decide) (by decide)).2 rfl⟩

/-- C20: `check_kernel_eval_algo` returns an error exactly when the algorithm is
HORNER and the upsampling factor is neither 2.0 nor 1.25, and that error is
Unimplemented; it returns `OK` for DIRECT with any upsampling factor, and for
the algorithm chosen by `default_kernel_eval_algo`. -/
theorem check_kernel_eval_algo_spec (options_ : InternalOptions)
    (kernel_eval_algo : KernelEvalAlgo) :
    (check_kernel_eval_algo options_ kernel_eval_algo ≠ Status.OK ↔
      (kernel_eval_algo = KernelEvalAlgo.HORNER ∧ options_.upsampling_factor ≠ 2 ∧
        options_.upsampling_factor ≠ 5 / 4)) ∧
    ((∃ msg, check_kernel_eval_algo options_ kernel_eval_algo = Status.Unimplemented msg) ↔
      (kernel_eval_algo = KernelEvalAlgo.HORNER ∧ options_.upsampling_factor ≠ 2 ∧
        options_.upsampling_factor ≠ 5 / 4)) ∧
    check_kernel_eval_algo options_ KernelEvalAlgo.DIRECT = Status.OK ∧
    check_kernel_eval_algo options_ (default_kernel_eval_algo options_) = Status.OK := by
  refine ⟨?_, ?_, ?_, ?_⟩
  · unfold check_kernel_eval_algo
    by_cases h : kernel_eval_algo = KernelEvalAlgo.HORNER ∧ options_.upsampling_factor ≠ 2 ∧
        options_.upsampling_factor ≠ 5 / 4
    · rw [if_pos h]
      simp only [h, ne_eq, not_false_eq_true, and_self, iff_true]
      intro hc
      cases hc
    · rw [if_neg h]
      simp only [ne_eq, not_true_eq_false, false_iff]
      exact h
  · unfold check_kernel_eval_algo
    by_cases h : kernel_eval_algo = KernelEvalAlgo.HORNER ∧ options_.upsampling_factor ≠ 2 ∧
        options_.upsampling_factor ≠ 5 / 4
    · rw [if_pos h]
      constructor
      · intro _
        exact h
      · intro _
        exact ⟨_, rfl⟩
    · rw [if_neg h]
      constructor
      · rintro ⟨msg, hm⟩
        cases hm
      · intro hc
        exact absurd hc h
  · unfold check_kernel_eval_algo
    rw [if_neg]
    rintro ⟨h, _⟩
    cases h
  · unfold check_kernel_eval_algo default_kernel_eval_algo
    by_cases h : options_.upsampling_factor = 2 ∨ options_.upsampling_factor = 5 / 4
    · rw [if_pos h, if_neg]
      rintro ⟨_, h2, h3⟩
      rcases h with h | h
      · exact h2 h
      · exact h3 h
    · rw [if_neg h, if_neg]
      rintro ⟨hc, _⟩
      cases hc

theorem check_kernel_eval_algo_spec_witness :
    check_kernel_eval_algo oddFactorOptions KernelEvalAlgo.HORNER ≠ Status.OK ∧
    check_kernel_eval_algo oddFactorOptions KernelEvalAlgo.DIRECT = Status.OK ∧
    check_kernel_eval_algo sampleInternalOptions
      (default_kernel_eval_algo sampleInternalOptions) = Status.OK :=
  ⟨(check_kernel_eval_algo_spec oddFactorOptions KernelEvalAlgo.HORNER).1.2
      ⟨rfl, by simp only [oddFactorOptions]; norm_num,
        by simp only [oddFactorOptions]; norm_num⟩,
    (check_kernel_eval_algo_spec oddFactorOptions KernelEvalAlgo.DIRECT).2.2.1,
    (check_kernel_eval_algo_spec sampleInternalOptions KernelEvalAlgo.HORNER).2.2.2⟩

/-! ## Subproblem sizes, the empty input and a single point -/

/-- When `nb * c` covers `M`, consecutive breakpoints are at most `c` apart. -/
theorem brkValue_step_le (M nb c p : ℤ) (hM : 0 ≤ M) (hnb : 1 ≤ nb) (hc : M ≤ nb * c)
    (hp : 0 ≤ p) : brkValue M nb (p + 1) ≤ brkValue M nb p + c := by
  rw [brkValue_eq_floor M nb p hM hnb hp, brkValue_eq_floor M nb (p + 1) hM hnb (by omega),
    ← Int.floor_add_int]
  apply Int.floor_mono
  have h2 : (0 : ℚ) < (nb : ℚ) := by exact_mod_cast (by omega : (0 : ℤ) < nb)
  have h3 : (M : ℚ) ≤ (nb : ℚ) * (c : ℚ) := by exact_mod_cast hc
  have e : ((M * (p + 1) : ℤ) : ℚ) / (nb : ℚ) =
      ((M * p : ℤ) : ℚ) / (nb : ℚ) + (M : ℚ) / (nb : ℚ) := by
    push_cast
    field_simp
    ring
  have h4 : (M : ℚ) / (nb : ℚ) ≤ (c : ℚ) := by
    rw [div_le_iff₀ h2]
    linarith
  rw [e]
  linarith

/-- Unless a single subproblem is forced, the subproblems chosen by
`spreadSorted` can hold all points within the size cap. -/
theorem spread_num_subproblems_covers (nthr N M : ℤ) (opts : SpreadParameters)
    (did_sort : Bool) (hM : 1 ≤ M) (hmax : 1 ≤ opts.max_subproblem_size)
    (hforce : ¬ (did_sort = false ∧ nthr = 1)) :
    M ≤ spread_num_subproblems nthr N M opts did_sort * opts.max_subproblem_size := by
  unfold spread_num_subproblems
  dsimp only
  rw [if_neg hforce, cdiv_of_nonneg _ _ (by omega) (by omega)]
  obtain ⟨q0, q1, q2⟩ := pred_div_bounds M opts.max_subproblem_size hM hmax
  by_cases h1 : M * 1000 < N
  · rw [if_pos h1]
    nlinarith
  · rw [if_neg h1]
    by_cases h2 : min nthr M * opts.max_subproblem_size < M
    · rw [if_pos h2]
      have e : (1 + (M - 1) / opts.max_subproblem_size) * opts.max_subproblem_size =
          ((M - 1) / opts.max_subproblem_size + 1) * opts.max_subproblem_size := by ring
      rw [e]
      exact q2
    · rw [if_neg h2]
      omega

/-- C16: for `M ≥ 1` points, thread count `≥ 1` and `max_subproblem_size ≥ 1`,
unless the points are unsorted and exactly one thread is available, every
subproblem chosen by `spreadSorted` has at most `max_subproblem_size` points:
`brk[p+1] - brk[p] ≤ max_subproblem_size` for every `p` of `[0, nb)`; in the
excepted case `nb` is forced to 1. -/
theorem subproblem_size_capped (nthr N M : ℤ) (opts : SpreadParameters) (did_sort : Bool)
    (hthr : 1 ≤ nthr) (hM : 1 ≤ M) (hmax : 1 ≤ opts.max_subproblem_size) :
    (¬ (did_sort = false ∧ nthr = 1) →
      ∀ p, 0 ≤ p → p < spread_num_subproblems nthr N M opts did_sort →
        fill_brk M (spread_num_subproblems nthr N M opts did_sort) (p + 1) -
          fill_brk M (spread_num_subproblems nthr N M opts did_sort) p ≤
        opts.max_subproblem_size) ∧
    ((did_sort = false ∧ nthr = 1) → spread_num_subproblems nthr N M opts did_sort = 1) := by
  constructor
  · intro hforce p hp0 hp1
    have hnb := spread_num_subproblems_range nthr N M opts did_sort hthr hM hmax
    have hc := spread_num_subproblems_covers nthr N M opts did_sort hM hmax hforce
    rw [fill_brk_eq M _ p (by omega) hp0 (by omega),
      fill_brk_eq M _ (p + 1) (by omega) (by omega) (by omega)]
    have := brkValue_step_le M _ opts.max_subproblem_size p (by omega) hnb.1 hc hp0
    omega
  · intro hforce
    unfold spread_num_subproblems
    dsimp only
    rw [if_pos hforce]

theorem subproblem_size_capped_witness :
    spread_num_subproblems 2 4 5 cappedOpts true = 3 ∧
    fill_brk 5 (spread_num_subproblems 2 4 5 cappedOpts true) (0 + 1) -
        fill_brk 5 (spread_num_subproblems 2 4 5 cappedOpts true) 0 ≤
      cappedOpts.max_subproblem_size ∧
    spread_num_subproblems 1 4 5 cappedOpts false = 1 :=
  ⟨by decide,
    (subproblem_size_capped 2 4 5 cappedOpts true (by decide) (by decide) (by decide)).1
      (by decide) 0 (by decide) (by decide),
    (subproblem_size_capped 1 4 5 cappedOpts false (by decide) (by decide) (by decide)).2
      (by decide)⟩

/-- C17: for every grid size and every option setting, `spreadSorted` called with
`M = 0` points returns 0 and leaves all `2*N` entries of the grid equal to 0,
whatever the grid held before (and touches nothing outside them). -/
theorem spreadSorted_no_points (K : ℚ → ℚ) (omp_max_threads : ℤ) (sort_indices : ℤ → ℤ)
    (N1 N2 N3 : ℤ) (data_uniform kx ky kz data_nonuniform : ℤ → ℚ) (opts : SpreadParameters)
    (did_sort : Bool) :
    (spreadSorted K omp_max_threads sort_indices N1 N2 N3 data_uniform 0 kx ky kz
      data_nonuniform opts did_sort).1 = 0 ∧
    (∀ q, 0 ≤ q → q < 2 * (N1 * N2 * N3) →
      (spreadSorted K omp_max_threads sort_indices N1 N2 N3 data_uniform 0 kx ky kz
        data_nonuniform opts did_sort).2 q = 0) ∧
    (∀ q, q < 0 ∨ 2 * (N1 * N2 * N3) ≤ q →
      (spreadSorted K omp_max_threads sort_indices N1 N2 N3 data_uniform 0 kx ky kz
        data_nonuniform opts did_sort).2 q = data_uniform q) := by
  have hz := forRange_map 0 (2 * (N1 * N2 * N3)) (fun _ _ => 0) data_uniform
  beta_reduce at hz
  unfold spreadSorted
  dsimp only
  rw [if_pos rfl, hz]
  refine ⟨rfl, ?_, ?_⟩
  · intro q h0 h1
    dsimp only
    rw [if_pos ⟨h0, h1⟩]
  · intro q h
    dsimp only
    rw [if_neg (by omega)]

theorem spreadSorted_no_points_witness :
    (spreadSorted id 2 swapTwo 4 2 1 sampleGrid 0 sampleCoords sampleCoords sampleCoords
      sampleGrid sampleOpts true).1 = 0 ∧
    (spreadSorted id 2 swapTwo 4 2 1 sampleGrid 0 sampleCoords sampleCoords sampleCoords
      sampleGrid sampleOpts true).2 5 = 0 :=
  ⟨(spreadSorted_no_points id 2 swapTwo 4 2 1 sampleGrid sampleCoords sampleCoords
      sampleCoords sampleGrid sampleOpts true).1,
    (spreadSorted_no_points id 2 swapTwo 4 2 1 sampleGrid sampleCoords sampleCoords
      sampleCoords sampleGrid sampleOpts true).2.1 5 (by decide) (by decide)⟩

/-- A sum with a single non-zero term. -/
theorem sumRange_single (n : ℤ) (f : ℤ → ℚ) (d : ℤ) (hd0 : 0 ≤ d) (hd1 : d < n)
    (h : ∀ k, 0 ≤ k → k < n → k ≠ d → f k = 0) : sumRange n f = f d := by
  unfold sumRange
  rw [Finset.sum_eq_single d.toNat]
  · have e : ((d.toNat : ℕ) : ℤ) = d := by omega
    rw [e]
  · intro k hk hne
    have := Finset.mem_range.mp hk
    exact h (k : ℤ) (by omega) (by omega) (by omega)
  · intro hn
    exfalso
    apply hn
    exact Finset.mem_range.mpr (by omega)

/-- A sum of zero terms. -/
theorem sumRange_all_zero (n : ℤ) (f : ℤ → ℚ) (h : ∀ k, 0 ≤ k → k < n → f k = 0) :
    sumRange n f = 0 := by
  rw [sumRange_congr n f (fun _ => 0) h, sumRange_const_zero]

/-- Two integers less than `N` apart with the same residue modulo `N` are equal. -/
theorem eq_of_emod_eq (a b N : ℤ) (h : a % N = b % N) (h1 : a - b < N) (h2 : b - a < N) :
    a = b := by
  have hd : N ∣ a - b := Int.ModEq.dvd (show b ≡ a [ZMOD N] from h.symm)
  obtain ⟨c, hc⟩ := hd
  have hc0 : c = 0 := by
    by_contra hne
    rcases lt_or_gt_of_ne hne with hlt | hgt
    · have : c ≤ -1 := by omega
      have hN : 0 < N := by omega
      nlinarith
    · have : 1 ≤ c := by omega
      have hN : 0 < N := by omega
      nlinarith
  rw [hc0, mul_zero] at hc
  omega

/-- The leftmost cell of a point on grid node `p` is `p - floor(ns / 2)`. -/
theorem ceil_node (p ns : ℤ) : ⌈(p : ℚ) - (ns : ℚ) / 2⌉ = p - ns / 2 := by
  rw [Int.ceil_eq_iff]
  have h1 : ns = 2 * (ns / 2) + ns % 2 := (Int.ediv_add_emod ns 2).symm
  have h2 : 0 ≤ ns % 2 := Int.emod_nonneg _ (by norm_num)
  have h3 : ns % 2 < 2 := Int.emod_lt_of_pos _ (by norm_num)
  have q1 : (ns : ℚ) = 2 * ((ns / 2 : ℤ) : ℚ) + ((ns % 2 : ℤ) : ℚ) := by exact_mod_cast h1
  have q2 : (0 : ℚ) ≤ ((ns % 2 : ℤ) : ℚ) := by exact_mod_cast h2
  have q3 : ((ns % 2 : ℤ) : ℚ) < 2 := by exact_mod_cast h3
  push_cast
  constructor <;> linarith

/-- The contribution of a point on node `p` to grid cell `g`: the kernel value of
the one footprint offset that lands on `g`, or zero. -/
theorem pointTerm_node (K : ℚ → ℚ) (N1 ns p : ℤ) (w : ℚ) (hns : ns ≤ N1) :
    (∀ d, -(ns / 2) ≤ d → d < ns - ns / 2 →
      pointTerm K N1 ns (p : ℚ) w ((p + d) % N1) = w * K (d : ℚ)) ∧
    (∀ g, (∀ d, -(ns / 2) ≤ d → d < ns - ns / 2 → (p + d) % N1 ≠ g) →
      pointTerm K N1 ns (p : ℚ) w g = 0) := by
  constructor
  · intro d hd0 hd1
    unfold pointTerm
    rw [ceil_node]
    rw [sumRange_single ns _ (d + ns / 2) (by omega) (by omega)]
    · have e : p - ns / 2 + (d + ns / 2) = p + d := by ring
      rw [e, if_pos rfl]
      congr 2
      push_cast
      ring
    · intro k hk0 hk1 hne
      rw [if_neg]
      intro hc
      have := eq_of_emod_eq (p - ns / 2 + k) (p + d) N1 hc (by omega) (by omega)
      omega
  · intro g hg
    unfold pointTerm
    rw [ceil_node]
    apply sumRange_all_zero
    intro k hk0 hk1
    rw [if_neg]
    intro hc
    have e : p - ns / 2 + k = p + (k - ns / 2) := by ring
    rw [e] at hc
    exact hg (k - ns / 2) (by omega) (by omega) hc

/-- The index array of a single point. -/
theorem isPermutation_one (s : ℤ → ℤ) (h : s 0 = 0) : IsPermutation s 1 := by
  constructor
  · intro p h0 h1
    have : p = 0 := by omega
    rw [this, h]
    omega
  · intro j h0 h1
    have hj : j = 0 := by omega
    refine ⟨0, ⟨⟨le_refl _, by omega⟩, by rw [h, hj]⟩, ?_⟩
    rintro q ⟨⟨hq0, hq1⟩, _⟩
    omega

/-- C18: in rank 1 spread-only mode, with a single point of weight `c` (real and
imaginary parts `dd[0]`, `dd[1]`) exactly on grid node `p`, `0 ≤ p < N1`, and
kernel width `1 ≤ ns ≤ N1`, `spreadSorted` leaves `c * K(0) * kernel_scale` at
node `p`, `c * K(d) * kernel_scale` at each node `(p + d) mod N1` of the kernel
footprint `-floor(ns/2) ≤ d < ns - floor(ns/2)`, and exactly 0 at every node
outside the footprint. -/
theorem spreadSorted_single_point (K : ℚ → ℚ) (omp_max_threads : ℤ) (sort_indices : ℤ → ℤ)
    (N1 : ℤ) (data_uniform kx ky kz data_nonuniform : ℤ → ℚ) (opts : SpreadParameters)
    (did_sort : Bool) (p : ℤ)
    (hso : opts.spread_only = true) (homp : 1 ≤ omp_max_threads)
    (hmax : 1 ≤ opts.max_subproblem_size) (hs : sort_indices 0 = 0)
    (hns0 : 1 ≤ opts.kernel_width) (hns1 : opts.kernel_width ≤ N1)
    (hp0 : 0 ≤ p) (hp1 : p < N1) (hkx : kx 0 = (p : ℚ)) :
    (∀ c, 0 ≤ c → c ≤ 1 →
      (spreadSorted K omp_max_threads sort_indices N1 1 1 data_uniform 1 kx ky kz
        data_nonuniform opts did_sort).2 (2 * p + c) =
      data_nonuniform c * K 0 * opts.kernel_scale) ∧
    (∀ d, -(opts.kernel_width / 2) ≤ d → d < opts.kernel_width - opts.kernel_width / 2 →
      ∀ c, 0 ≤ c → c ≤ 1 →
        (spreadSorted K omp_max_threads sort_indices N1 1 1 data_uniform 1 kx ky kz
          data_nonuniform opts did_sort).2 (2 * ((p + d) % N1) + c) =
        data_nonuniform c * K (d : ℚ) * opts.kernel_scale) ∧
    (∀ g, 0 ≤ g → g < N1 →
      (∀ d, -(opts.kernel_width / 2) ≤ d → d < opts.kernel_width - opts.kernel_width / 2 →
        (p + d) % N1 ≠ g) →
      ∀ c, 0 ≤ c → c ≤ 1 →
        (spreadSorted K omp_max_threads sort_indices N1 1 1 data_uniform 1 kx ky kz
          data_nonuniform opts did_sort).2 (2 * g + c) = 0) := by
  have hsc : scaleOf opts = opts.kernel_scale := by
    unfold scaleOf
    rw [hso]
    rfl
  have hx : ∀ j : ℤ, 0 ≤ j → j < 1 → 0 ≤ kx j ∧ kx j ≤ (N1 : ℚ) := by
    intro j h0 h1
    have : j = 0 := by omega
    rw [this, hkx]
    exact ⟨by exact_mod_cast hp0, by exact_mod_cast (le_of_lt hp1)⟩
  have key : ∀ g c, 0 ≤ g → g < N1 → 0 ≤ c → c ≤ 1 →
      (spreadSorted K omp_max_threads sort_indices N1 1 1 data_uniform 1 kx ky kz
        data_nonuniform opts did_sort).2 (2 * g + c) =
      opts.kernel_scale * pointTerm K N1 opts.kernel_width (p : ℚ) (data_nonuniform c) g := by
    intro g c hg0 hg1 hc0 hc1
    rw [(spreadSorted_rank1_scaled K omp_max_threads sort_indices N1 data_uniform 1 kx ky kz
      data_nonuniform opts did_sort (le_refl _) homp hmax (isPermutation_one _ hs)
      (by omega) hns1 hx g c hg0 hg1 hc0 hc1).2, hsc]
    unfold spreadRef
    have e : (1 : ℤ) = 0 + 1 := by norm_num
    rw [e, sumRange_succ 0 (le_refl _), sumRange_zero, zero_add, hkx, mul_zero, zero_add]
  have hnode := pointTerm_node K N1 opts.kernel_width p
  have hfoot : ∀ d, -(opts.kernel_width / 2) ≤ d →
      d < opts.kernel_width - opts.kernel_width / 2 → ∀ c, 0 ≤ c → c ≤ 1 →
      (spreadSorted K omp_max_threads sort_indices N1 1 1 data_uniform 1 kx ky kz
        data_nonuniform opts did_sort).2 (2 * ((p + d) % N1) + c) =
      data_nonuniform c * K (d : ℚ) * opts.kernel_scale := by
    intro d hd0 hd1 c hc0 hc1
    rw [key _ c (Int.emod_nonneg _ (by omega)) (Int.emod_lt_of_pos _ (by omega)) hc0 hc1,
      (hnode (data_nonuniform c) hns1).1 d hd0 hd1]
    ring
  refine ⟨?_, hfoot, ?_⟩
  · intro c hc0 hc1
    have h := hfoot 0 (by omega) (by omega) c hc0 hc1
    rw [add_zero, Int.emod_eq_of_lt hp0 hp1] at h
    rw [h]
    norm_num
  · intro g hg0 hg1 hout c hc0 hc1
    rw [key g c hg0 hg1 hc0 hc1, (hnode (data_nonuniform c) hns1).2 g hout, mul_zero]

theorem spreadSorted_single_point_witness :
    (spreadSorted (fun x => x + 2) 2 (fun _ => 0) 4 1 1 sampleGrid 1
        (fun _ => ((1 : ℤ) : ℚ)) sampleCoords sampleCoords sampleKer sampleOpts true).2
        (2 * 1 + 0) =
      sampleKer 0 * (0 + 2) * sampleOpts.kernel_scale ∧
    (spreadSorted (fun x => x + 2) 2 (fun _ => 0) 4 1 1 sampleGrid 1
        (fun _ => ((1 : ℤ) : ℚ)) sampleCoords sampleCoords sampleKer sampleOpts true).2
        (2 * ((1 + (-1)) % 4) + 1) =
      sampleKer 1 * ((((-1 : ℤ)) : ℚ) + 2) * sampleOpts.kernel_scale :=
  have h := spreadSorted_single_point (fun x => x + 2) 2 (fun _ => 0) 4 sampleGrid
    (fun _ => ((1 : ℤ) : ℚ)) sampleCoords sampleCoords sampleKer sampleOpts true 1 rfl
    (by decide) (by decide) rfl (by decide) (by decide) (by decide) (by decide) rfl
  ⟨h.1 0 (by decide) (by decide), h.2.1 (-1) (by decide) (by decide) 1 (by decide) (by decide)⟩

/-! ## The bin sorts: owned output ranges and stability -/

/-- The multi-thread sort inverts the map `multithread_inv`. -/
theorem bin_sort_multi_core_eq (bin : ℤ → ℤ) (B M nt0 : ℤ) (ret : ℤ → ℤ) :
    bin_sort_multi_core bin B M nt0 ret = invert_map (multithread_inv bin B M nt0) M ret :=
  rfl

/-- The closed forms of `ct`, `ot` and `inv` in `bin_sort_multithread`. -/
theorem multithread_closed_forms (bin : ℤ → ℤ) (B M nt0 : ℤ) (hB : 1 ≤ B) (hM : 1 ≤ M)
    (hnt : 1 ≤ nt0) (hbin : ∀ j, 0 ≤ j → j < M → 0 ≤ bin j ∧ bin j < B) :
    (∀ t b, 0 ≤ t → t < min M nt0 →
      multithread_ct bin M nt0 t b =
        countBelow bin b (multithread_brk M nt0 (t + 1)) -
          countBelow bin b (multithread_brk M nt0 t)) ∧
    (∀ t b, 0 ≤ t → t < min M nt0 → 0 ≤ b → b < B →
      multithread_ot bin B M nt0 t b =
        binStart bin M b + countBelow bin b (multithread_brk M nt0 t)) ∧
    (∀ j, 0 ≤ j → j < M → multithread_inv bin B M nt0 j = sortSlot bin M j) := by
  have hmin : 1 ≤ min M nt0 := le_min hM hnt
  obtain ⟨b0, bl, bs⟩ := fill_brk_props M (min M nt0) (by omega) hmin
  have hct := ct_loop bin (fill_brk M (min M nt0)) (min M nt0) M (by omega) b0 bl bs
  have hot : ∀ t b, 0 ≤ t → t < min M nt0 → 0 ≤ b → b < B →
      multithread_ot bin B M nt0 t b =
        binStart bin M b + countBelow bin b (fill_brk M (min M nt0) t) := by
    unfold multithread_ot multithread_ct
    apply ot_loop bin (fill_brk M (min M nt0)) (min M nt0) M B hmin (by omega) b0 _ _
      (fun t b h0 h1 => hct t b h0 h1)
    intro b hb0 hb1
    rw [ot0_loop _ B (by omega) b hb0 hb1]
    apply bin_offsets_eq bin M B hB _ _ b hb0 hb1
    exact counts_loop bin (fill_brk M (min M nt0)) (min M nt0) M B (by omega) (by omega) b0 bl
      _ (fun t b h0 h1 => hct t b h0 h1)
  refine ⟨?_, ?_, ?_⟩
  · intro t b h0 h1
    exact hct t b h0 h1
  · exact hot
  · unfold multithread_inv
    exact multi_fill_loop bin (fill_brk M (min M nt0)) (min M nt0) M B (by omega) b0 bl bs
      hbin _ _ hot

/-- C11: in `bin_sort_multithread`, after the offsets are built and before pass
2, the output ranges `[ot[t][b], ot[t][b] + ct[t][b])` of the (thread, bin)
pairs are pairwise disjoint and their union is exactly `[0, num_points)`; and
the slot `inv[i]` written in pass 2 by thread `t` for a point `i` of its slice
lies in the range of the pair `(t, bin(i))`.  (`ret` is the inverse of this
`inv`.) -/
theorem multithread_ranges_partition (bin : ℤ → ℤ) (B M nt0 : ℤ) (hB : 1 ≤ B) (hM : 1 ≤ M)
    (hnt : 1 ≤ nt0) (hbin : ∀ j, 0 ≤ j → j < M → 0 ≤ bin j ∧ bin j < B) :
    (∀ ret, bin_sort_multi_core bin B M nt0 ret =
      invert_map (multithread_inv bin B M nt0) M ret) ∧
    (∀ t b t' b' x, 0 ≤ t → t < min M nt0 → 0 ≤ b → b < B →
      0 ≤ t' → t' < min M nt0 → 0 ≤ b' → b' < B →
      multithread_ot bin B M nt0 t b ≤ x →
      x < multithread_ot bin B M nt0 t b + multithread_ct bin M nt0 t b →
      multithread_ot bin B M nt0 t' b' ≤ x →
      x < multithread_ot bin B M nt0 t' b' + multithread_ct bin M nt0 t' b' →
      t = t' ∧ b = b') ∧
    (∀ x, (0 ≤ x ∧ x < M) ↔
      ∃ t b, (0 ≤ t ∧ t < min M nt0) ∧ (0 ≤ b ∧ b < B) ∧
        multithread_ot bin B M nt0 t b ≤ x ∧
        x < multithread_ot bin B M nt0 t b + multithread_ct bin M nt0 t b) ∧
    (∀ t i, 0 ≤ t → t < min M nt0 →
      multithread_brk M nt0 t ≤ i → i < multithread_brk M nt0 (t + 1) →
      multithread_ot bin B M nt0 t (bin i) ≤ multithread_inv bin B M nt0 i ∧
      multithread_inv bin B M nt0 i <
        multithread_ot bin B M nt0 t (bin i) + multithread_ct bin M nt0 t (bin i)) := by
  have hmin : 1 ≤ min M nt0 := le_min hM hnt
  obtain ⟨b0, bl, bs⟩ := fill_brk_props M (min M nt0) (by omega) hmin
  have bb := brk_bounds (fill_brk M (min M nt0)) (min M nt0) M b0 bl bs
  have bm := mono_of_step (fill_brk M (min M nt0)) 0 (min M nt0) bs
  obtain ⟨hct, hot, hinv⟩ := multithread_closed_forms bin B M nt0 hB hM hnt hbin
  unfold multithread_brk at hct hot ⊢
  have htot : binStart bin M B = M := binStart_total bin B (by omega) M (by omega) hbin
  -- every range lies in the block of its bin
  have hblock : ∀ t b x, 0 ≤ t → t < min M nt0 → 0 ≤ b → b < B →
      multithread_ot bin B M nt0 t b ≤ x →
      x < multithread_ot bin B M nt0 t b + multithread_ct bin M nt0 t b →
      binStart bin M b ≤ x ∧ x < binStart bin M (b + 1) := by
    intro t b x ht0 ht1 hb0 hb1 hx0 hx1
    rw [hot t b ht0 ht1 hb0 hb1] at hx0 hx1
    rw [hct t b ht0 ht1] at hx1
    have c0 := countBelow_nonneg bin b (fill_brk M (min M nt0) t)
    have c1 := countBelow_mono bin b (fill_brk M (min M nt0) (t + 1)) M
      (bb (t + 1) (by omega) (by omega)).1 (bb (t + 1) (by omega) (by omega)).2
    rw [binStart_succ bin M b hb0]
    omega
  refine ⟨fun _ => rfl, ?_, ?_, ?_⟩
  · intro t b t' b' x ht0 ht1 hb0 hb1 ht0' ht1' hb0' hb1' hx0 hx1 hx0' hx1'
    have k := hblock t b x ht0 ht1 hb0 hb1 hx0 hx1
    have k' := hblock t' b' x ht0' ht1' hb0' hb1' hx0' hx1'
    have hbeq : b = b' := by
      rcases lt_trichotomy b b' with h | h | h
      · have := binStart_mono bin M (b + 1) b' (by omega) (by omega)
        omega
      · exact h
      · have := binStart_mono bin M (b' + 1) b (by omega) (by omega)
        omega
    subst hbeq
    refine ⟨?_, rfl⟩
    rw [hot t b ht0 ht1 hb0 hb1] at hx0 hx1
    rw [hct t b ht0 ht1] at hx1
    rw [hot t' b ht0' ht1' hb0 hb1] at hx0' hx1'
    rw [hct t' b ht0' ht1'] at hx1'
    rcases lt_trichotomy t t' with h | h | h
    · have := countBelow_mono bin b (fill_brk M (min M nt0) (t + 1))
        (fill_brk M (min M nt0) t') (bb (t + 1) (by omega) (by omega)).1
        (bm (t + 1) t' (by omega) (by omega) (by omega))
      omega
    · exact h
    · have := countBelow_mono bin b (fill_brk M (min M nt0) (t' + 1))
        (fill_brk M (min M nt0) t) (bb (t' + 1) (by omega) (by omega)).1
        (bm (t' + 1) t (by omega) (by omega) (by omega))
      omega
  · intro x
    constructor
    · rintro ⟨hx0, hx1⟩
      obtain ⟨b, ⟨hb0, hb1, hbl, hbu⟩, _⟩ := slices_partition (fun b => binStart bin M b) B M
        (by omega) (binStart_zero bin M) htot
        (fun p hp0 _ => binStart_mono bin M p (p + 1) hp0 (by omega)) x hx0 hx1
      rw [binStart_succ bin M b hb0] at hbu
      obtain ⟨t, ⟨ht0, ht1, htl, htu⟩, _⟩ := slices_partition
        (fun t => countBelow bin b (fill_brk M (min M nt0) t)) (min M nt0)
        (countBelow bin b M) (by omega)
        (by beta_reduce; rw [b0, countBelow_zero])
        (by beta_reduce; rw [bl])
        (fun p hp0 hp1 => countBelow_mono bin b _ _ (bb p hp0 (by omega)).1 (bs p hp0 hp1))
        (x - binStart bin M b) (by omega) (by omega)
      refine ⟨t, b, ⟨ht0, ht1⟩, ⟨hb0, hb1⟩, ?_, ?_⟩
      · rw [hot t b ht0 ht1 hb0 hb1]
        omega
      · rw [hot t b ht0 ht1 hb0 hb1, hct t b ht0 ht1]
        omega
    · rintro ⟨t, b, ⟨ht0, ht1⟩, ⟨hb0, hb1⟩, hx0, hx1⟩
      have k := hblock t b x ht0 ht1 hb0 hb1 hx0 hx1
      have k0 := binStart_mono bin M 0 b (le_refl _) hb0
      have k1 := binStart_mono bin M (b + 1) B (by omega) (by omega)
      rw [binStart_zero] at k0
      omega
  · intro t i ht0 ht1 hi0 hi1
    have hl := bb t ht0 (by omega)
    have hu := bb (t + 1) (by omega) (by omega)
    have hb := hbin i (by omega) (by omega)
    rw [hinv i (by omega) (by omega), hot t (bin i) ht0 ht1 hb.1 hb.2, hct t (bin i) ht0 ht1]
    unfold sortSlot
    have c1 := countBelow_mono bin (bin i) (fill_brk M (min M nt0) t) i hl.1 hi0
    have c2 := countBelow_lt bin (fill_brk M (min M nt0) (t + 1)) i (by omega) hi1
    omega

theorem sampleBins_range : ∀ j : ℤ, 0 ≤ j → j < 5 → 0 ≤ sampleBins j ∧ sampleBins j < 2 := by
  intro j _ _
  unfold sampleBins
  split_ifs <;> omega

theorem multithread_ranges_partition_witness :
    (∀ j : ℤ, 0 ≤ j → j < 5 → 0 ≤ sampleBins j ∧ sampleBins j < 2) ∧
    (multithread_ot sampleBins 2 5 2 0 (sampleBins 0) ≤ multithread_inv sampleBins 2 5 2 0 ∧
      multithread_inv sampleBins 2 5 2 0 <
        multithread_ot sampleBins 2 5 2 0 (sampleBins 0) +
          multithread_ct sampleBins 5 2 0 (sampleBins 0)) ∧
    ((0 ≤ (3 : ℤ) ∧ (3 : ℤ) < 5) ↔
      ∃ t b, (0 ≤ t ∧ t < min 5 2) ∧ (0 ≤ b ∧ b < 2) ∧
        multithread_ot sampleBins 2 5 2 t b ≤ 3 ∧
        3 < multithread_ot sampleBins 2 5 2 t b + multithread_ct sampleBins 5 2 t b) :=
  have h := multithread_ranges_partition sampleBins 2 5 2 (by decide) (by decide) (by decide)
    sampleBins_range
  ⟨sampleBins_range,
    h.2.2.2 0 0 (le_refl _) (by decide)
      (le_of_eq (fill_brk_props 5 (min 5 2) (by decide) (by decide)).1)
      (by
        have a := (fill_brk_props 5 (min 5 2) (by decide) (by decide)).1
        have b := fill_brk_strict 5 (min 5 2) (by decide) (by decide) 0 (le_refl _) (by decide)
        unfold multithread_brk
        omega),
    h.2.2.1 3⟩

/-- The output of `ret[inv[i]] = i` is a right inverse of an injective map of
`[0, M)` into itself. -/
theorem invert_map_section (inv : ℤ → ℤ) (M : ℤ) (hM : 0 ≤ M) (ret : ℤ → ℤ)
    (hmap : ∀ i, 0 ≤ i → i < M → 0 ≤ inv i ∧ inv i < M)
    (hinj : ∀ i k, 0 ≤ i → i < M → 0 ≤ k → k < M → inv i = inv k → i = k) :
    ∀ j, 0 ≤ j → j < M →
      (0 ≤ invert_map inv M ret j ∧ invert_map inv M ret j < M) ∧
      inv (invert_map inv M ret j) = j := by
  intro j hj0 hj1
  obtain ⟨i, ⟨hi0, hi1⟩, hi⟩ := range_surj_of_inj inv M hmap hinj j hj0 hj1
  have h := invert_map_apply inv M hM ret hinj i hi0 hi1
  rw [hi] at h
  rw [h]
  exact ⟨⟨hi0, hi1⟩, hi⟩

/-- The slot of a stable bin sort grows with the pair (bin, index). -/
theorem sortSlot_lt (bin : ℤ → ℤ) (B M : ℤ) (hB : 0 ≤ B) (hM : 0 ≤ M)
    (hbin : ∀ j, 0 ≤ j → j < M → 0 ≤ bin j ∧ bin j < B) (i k : ℤ) (hi0 : 0 ≤ i)
    (hi1 : i < M)
    (h : bin i < bin k ∨ (bin i = bin k ∧ i < k)) : sortSlot bin M i < sortSlot bin M k := by
  rcases h with h | ⟨h1, h2⟩
  · have a := (sortSlot_range bin B M i hB hM hbin hi0 hi1).2.1
    have b := binStart_mono bin M (bin i + 1) (bin k) (by have := (hbin i hi0 hi1).1; omega)
      (by omega)
    have c := countBelow_nonneg bin (bin k) k
    unfold sortSlot at a ⊢
    omega
  · unfold sortSlot
    rw [← h1]
    have := countBelow_lt bin k i hi0 h2
    omega

/-- The permutation written by the single-thread bin sort lists the points by
increasing bin and, within a bin, by increasing index. -/
theorem bin_sort_single_core_stable (bin : ℤ → ℤ) (B M : ℤ) (hB : 1 ≤ B) (hM : 0 ≤ M)
    (hbin : ∀ j, 0 ≤ j → j < M → 0 ≤ bin j ∧ bin j < B) (ret : ℤ → ℤ) (j k : ℤ)
    (hj : 0 ≤ j) (hjk : j < k) (hk : k < M) :
    bin (bin_sort_single_core bin B M ret j) < bin (bin_sort_single_core bin B M ret k) ∨
    (bin (bin_sort_single_core bin B M ret j) = bin (bin_sort_single_core bin B M ret k) ∧
      bin_sort_single_core bin B M ret j < bin_sort_single_core bin B M ret k) := by
  have hinv : ∀ i, 0 ≤ i → i < M →
      (forRange 0 M
        (fun i (st : (ℤ → ℤ) × (ℤ → ℤ)) =>
          (Function.update st.1 (bin i) (st.1 (bin i) + 1),
            Function.update st.2 i (st.1 (bin i))))
        (bin_offsets (forRange 0 M
          (fun i (c : ℤ → ℤ) => Function.update c (bin i) (c (bin i) + 1)) (fun _ => 0)) B,
          (fun _ => 0))).2 i = sortSlot bin M i := by
    apply fill_inverse_loop bin B M hM hbin
    apply bin_offsets_eq bin M B hB
    intro b _ _
    rw [count_loop bin M hM]
  have e : bin_sort_single_core bin B M ret = invert_map (sortSlot bin M) M ret := by
    unfold bin_sort_single_core
    exact invert_map_congr _ _ M ret hinv
  rw [e]
  have hsec := invert_map_section (sortSlot bin M) M hM ret
    (fun i h0 h1 => ⟨(sortSlot_range bin B M i (by omega) hM hbin h0 h1).1,
      (sortSlot_range bin B M i (by omega) hM hbin h0 h1).2.2⟩)
    (sortSlot_inj bin B M (by omega) hM hbin)
  obtain ⟨⟨a0, a1⟩, a2⟩ := hsec j hj (by omega)
  obtain ⟨⟨c0, c1⟩, c2⟩ := hsec k (by omega) hk
  generalize invert_map (sortSlot bin M) M ret j = rj at a0 a1 a2 ⊢
  generalize invert_map (sortSlot bin M) M ret k = rk at c0 c1 c2 ⊢
  by_contra hcon
  have hrev : bin rk < bin rj ∨ (bin rk = bin rj ∧ rk < rj) ∨ rk = rj := by
    rcases lt_trichotomy (bin rj) (bin rk) with h | h | h
    · exact absurd (Or.inl h) hcon
    · rcases lt_trichotomy rj rk with h' | h' | h'
      · exact absurd (Or.inr ⟨h, h'⟩) hcon
      · exact Or.inr (Or.inr h'.symm)
      · exact Or.inr (Or.inl ⟨h.symm, h'⟩)
    · exact Or.inl h
  rcases hrev with h | h | h
  · have := sortSlot_lt bin B M (by omega) hM hbin rk rj c0 c1 (Or.inl h)
    omega
  · have := sortSlot_lt bin B M (by omega) hM hbin rk rj c0 c1 (Or.inr h)
    omega
  · rw [h] at c2
    omega

/-- The number of bins `trunc(n / bin_size + 1)` is `floor(n / bin_size) + 1`. -/
theorem nbins_eq_floor (n : ℤ) (bs : ℚ) (hbs : 0 < bs) (hn : 0 ≤ n) :
    truncToInt ((n : ℚ) / bs + 1) = ⌊(n : ℚ) / bs⌋ + 1 := by
  have h : (0 : ℚ) ≤ (n : ℚ) / bs := div_nonneg (by exact_mod_cast hn) (le_of_lt hbs)
  rw [truncToInt_of_nonneg _ (by linarith), Int.floor_add_one]

/-- C12: the permutation `ret` written by `bin_sort_singlethread`, with the bin
sizes 16, 4, 4 that `bin_sort_points` passes, is bin-major and stable: for every
`j < k`, `bin(ret[j]) < bin(ret[k])`, or the bins are equal and
`ret[j] < ret[k]`, where `bin(i) = i1 + nbins1*(i2 + nbins2*i3)`, `i_a` is the
coordinate of the point divided by the bin size and truncated (0 on an unused
axis), and `nbins_a = floor(n_a / bin_size_a) + 1`. -/
theorem bin_sort_singlethread_stable (omp_max_threads : ℤ) (ret : ℤ → ℤ)
    (n1 n2 n3 num_points : ℤ) (kx ky kz : ℤ → ℚ) (opts : SpreadParameters)
    (hn1 : 1 ≤ n1) (hn2 : 1 ≤ n2) (hM : 0 ≤ num_points)
    (hx : ∀ i, 0 ≤ i → i < num_points → 0 ≤ kx i ∧ kx i ≤ (n1 : ℚ))
    (hy : n2 > 1 → ∀ i, 0 ≤ i → i < num_points → 0 ≤ ky i ∧ ky i ≤ (n2 : ℚ))
    (hz : n3 > 1 → ∀ i, 0 ≤ i → i < num_points → 0 ≤ kz i ∧ kz i ≤ (n3 : ℚ)) :
    (opts.sort_points = SortPoints.YES → opts.sort_threads = 1 →
      (bin_sort_points omp_max_threads ret n1 n2 n3 num_points kx ky kz opts).2 =
        bin_sort_singlethread ret num_points kx ky kz n1 n2 n3 16 4 4) ∧
    (∀ j k, 0 ≤ j → j < k → k < num_points →
      bin_index kx ky kz n2 n3 16 4 4 (⌊(n1 : ℚ) / 16⌋ + 1) (⌊(n2 : ℚ) / 4⌋ + 1)
          (bin_sort_singlethread ret num_points kx ky kz n1 n2 n3 16 4 4 j) <
        bin_index kx ky kz n2 n3 16 4 4 (⌊(n1 : ℚ) / 16⌋ + 1) (⌊(n2 : ℚ) / 4⌋ + 1)
          (bin_sort_singlethread ret num_points kx ky kz n1 n2 n3 16 4 4 k) ∨
      (bin_index kx ky kz n2 n3 16 4 4 (⌊(n1 : ℚ) / 16⌋ + 1) (⌊(n2 : ℚ) / 4⌋ + 1)
          (bin_sort_singlethread ret num_points kx ky kz n1 n2 n3 16 4 4 j) =
        bin_index kx ky kz n2 n3 16 4 4 (⌊(n1 : ℚ) / 16⌋ + 1) (⌊(n2 : ℚ) / 4⌋ + 1)
          (bin_sort_singlethread ret num_points kx ky kz n1 n2 n3 16 4 4 k) ∧
        bin_sort_singlethread ret num_points kx ky kz n1 n2 n3 16 4 4 j <
          bin_sort_singlethread ret num_points kx ky kz n1 n2 n3 16 4 4 k)) := by
  obtain ⟨hB, hbin⟩ := bin_index_range kx ky kz n1 n2 n3 16 4 4 num_points (by norm_num)
    (by norm_num) (by norm_num) hn1 hx hy hz
  have e1 : truncToInt ((n1 : ℚ) / 16 + 1) = ⌊(n1 : ℚ) / 16⌋ + 1 :=
    nbins_eq_floor n1 16 (by norm_num) (by omega)
  have e2 : (if n2 > 1 then truncToInt ((n2 : ℚ) / 4 + 1) else 1) = ⌊(n2 : ℚ) / 4⌋ + 1 := by
    split_ifs with h
    · exact nbins_eq_floor n2 4 (by norm_num) (by omega)
    · have : n2 = 1 := by omega
      rw [this]
      norm_num
  constructor
  · intro hsp hst
    unfold bin_sort_points
    dsimp only
    have h0 : ¬ (opts.sort_threads = 0) := by omega
    rw [if_pos (Or.inl hsp), if_neg h0, if_pos hst]
  · intro j k hj hjk hk
    have h := bin_sort_single_core_stable _ _ num_points hB hM hbin ret j k hj hjk hk
    rw [e1, e2] at h
    unfold bin_sort_singlethread
    rw [e1, e2]
    exact h

theorem bin_sort_singlethread_stable_witness :
    (∀ i : ℤ, 0 ≤ i → i < 3 → 0 ≤ sortCoords i ∧ sortCoords i ≤ ((40 : ℤ) : ℚ)) ∧
    (bin_index sortCoords sortCoords sortCoords 1 1 16 4 4 (⌊((40 : ℤ) : ℚ) / 16⌋ + 1)
          (⌊((1 : ℤ) : ℚ) / 4⌋ + 1)
          (bin_sort_singlethread (fun _ => 0) 3 sortCoords sortCoords sortCoords 40 1 1
            16 4 4 0) <
        bin_index sortCoords sortCoords sortCoords 1 1 16 4 4 (⌊((40 : ℤ) : ℚ) / 16⌋ + 1)
          (⌊((1 : ℤ) : ℚ) / 4⌋ + 1)
          (bin_sort_singlethread (fun _ => 0) 3 sortCoords sortCoords sortCoords 40 1 1
            16 4 4 1) ∨
      (bin_index sortCoords sortCoords sortCoords 1 1 16 4 4 (⌊((40 : ℤ) : ℚ) / 16⌋ + 1)
          (⌊((1 : ℤ) : ℚ) / 4⌋ + 1)
          (bin_sort_singlethread (fun _ => 0) 3 sortCoords sortCoords sortCoords 40 1 1
            16 4 4 0) =
        bin_index sortCoords sortCoords sortCoords 1 1 16 4 4 (⌊((40 : ℤ) : ℚ) / 16⌋ + 1)
          (⌊((1 : ℤ) : ℚ) / 4⌋ + 1)
          (bin_sort_singlethread (fun _ => 0) 3 sortCoords sortCoords sortCoords 40 1 1
            16 4 4 1) ∧
        bin_sort_singlethread (fun _ => 0) 3 sortCoords sortCoords sortCoords 40 1 1
            16 4 4 0 <
          bin_sort_singlethread (fun _ => 0) 3 sortCoords sortCoords sortCoords 40 1 1
            16 4 4 1)) :=
  ⟨sortCoords_range,
    (bin_sort_singlethread_stable 4 (fun _ => 0) 40 1 1 3 sortCoords sortCoords sortCoords
      sortOpts (by decide) (by decide) (by decide) sortCoords_range
      (fun h => absurd h (by decide)) (fun h => absurd h (by decide))).2 0 1 (by decide)
      (by decide) (by decide)⟩

/-! ## Sorting decision, upsampling factor, step order, subgrid -/

/-- C22: `bin_sort_points` sorts and returns true if and only if `sort_points` is
YES, or it is AUTO and it is not the case that the rank is 1 and (the direction
is INTERP or `num_points > 1000 * n1`); when it sorts, the output is that of the
single-thread or of the multi-thread bin sort; in every other case it returns
false and writes the identity `sort_indices[i] = i` for all `i < num_points`. -/
theorem bin_sort_points_decision (omp_max_threads : ℤ) (sort_indices : ℤ → ℤ)
    (n1 n2 n3 num_points : ℤ) (kx ky kz : ℤ → ℚ) (opts : SpreadParameters) :
    ((bin_sort_points omp_max_threads sort_indices n1 n2 n3 num_points kx ky kz opts).1 = true ↔
      (opts.sort_points = SortPoints.YES ∨
        (opts.sort_points = SortPoints.AUTO ∧
          ¬ (get_transform_rank n1 n2 n3 = 1 ∧
            (opts.spread_direction = SpreadDirection.INTERP ∨ num_points > 1000 * n1))))) ∧
    ((bin_sort_points omp_max_threads sort_indices n1 n2 n3 num_points kx ky kz opts).1 = true →
      (bin_sort_points omp_max_threads sort_indices n1 n2 n3 num_points kx ky kz opts).2 =
          bin_sort_singlethread sort_indices num_points kx ky kz n1 n2 n3 16 4 4 ∨
        ∃ sort_threads,
          (bin_sort_points omp_max_threads sort_indices n1 n2 n3 num_points kx ky kz opts).2 =
            bin_sort_multithread sort_indices num_points kx ky kz n1 n2 n3 16 4 4
              sort_threads) ∧
    ((bin_sort_points omp_max_threads sort_indices n1 n2 n3 num_points kx ky kz opts).1 = false →
      ∀ i, 0 ≤ i → i < num_points →
        (bin_sort_points omp_max_threads sort_indices n1 n2 n3 num_points kx ky kz opts).2 i =
          i) := by
  have hcond : (opts.sort_points = SortPoints.YES ∨
      (opts.sort_points = SortPoints.AUTO ∧
        (!(decide (get_transform_rank n1 n2 n3 = 1) &&
          (decide (opts.spread_direction = SpreadDirection.INTERP) ||
            decide (num_points > 1000 * n1)))) = true)) ↔
      (opts.sort_points = SortPoints.YES ∨
        (opts.sort_points = SortPoints.AUTO ∧
          ¬ (get_transform_rank n1 n2 n3 = 1 ∧
            (opts.spread_direction = SpreadDirection.INTERP ∨ num_points > 1000 * n1)))) := by
    simp only [Bool.not_eq_true', Bool.and_eq_false_iff, Bool.or_eq_false_iff,
      decide_eq_false_iff_not, not_and_or, not_or]
  unfold bin_sort_points
  dsimp only
  rw [← hcond]
  by_cases h : opts.sort_points = SortPoints.YES ∨
      (opts.sort_points = SortPoints.AUTO ∧
        (!(decide (get_transform_rank n1 n2 n3 = 1) &&
          (decide (opts.spread_direction = SpreadDirection.INTERP) ||
            decide (num_points > 1000 * n1)))) = true)
  · rw [if_pos h]
    generalize (if opts.sort_threads = 0 then
        (if 10 * num_points > n1 * n2 * n3 then
          (if opts.num_threads > 0 then min omp_max_threads opts.num_threads
            else omp_max_threads) else 1)
        else opts.sort_threads) = T
    by_cases ht : T = 1
    · rw [if_pos ht]
      exact ⟨⟨fun _ => h, fun _ => rfl⟩, fun _ => Or.inl rfl,
        fun hf => by simp at hf⟩
    · rw [if_neg ht]
      exact ⟨⟨fun _ => h, fun _ => rfl⟩, fun _ => Or.inr ⟨T, rfl⟩,
        fun hf => by simp at hf⟩
  · rw [if_neg h]
    refine ⟨?_, ?_, ?_⟩
    · constructor
      · intro hc
        simp at hc
      · intro hc
        exact absurd hc h
    · intro hc
      simp at hc
    · intro _ i hi0 hi1
      exact identity_loop num_points (by omega) sort_indices i hi0 hi1

theorem bin_sort_points_decision_witness :
    (bin_sort_points 4 (fun _ => 0) 40 1 1 3 sortCoords sortCoords sortCoords sampleOpts).1 =
      false ∧
    (bin_sort_points 4 (fun _ => 0) 40 1 1 3 sortCoords sortCoords sortCoords sampleOpts).2 2 =
      2 ∧
    (bin_sort_points 4 (fun _ => 0) 40 1 1 3 sortCoords sortCoords sortCoords sortOpts).1 =
      true :=
  ⟨by decide,
    (bin_sort_points_decision 4 (fun _ => 0) 40 1 1 3 sortCoords sortCoords sortCoords
      sampleOpts).2.2 (by decide) 2 (by decide) (by decide),
    (bin_sort_points_decision 4 (fun _ => 0) 40 1 1 3 sortCoords sortCoords sortCoords
      sortOpts).1.2 (Or.inl rfl)⟩

/-- C23: `default_upsampling_factor` returns 1.25 exactly when `tol ≥ 1e-9` and
the mode-grid size is strictly greater than `10^7` for rank 1, `3*10^5` for rank
2 or `3*10^6` for rank 3, and returns 2.0 in every other case. -/
theorem default_upsampling_factor_spec (P : PlanState) :
    (default_upsampling_factor P = 5 / 4 ↔
      (P.tol_ ≥ 1 / 1000000000 ∧
        ((P.rank_ = 1 ∧ P.grid_size_ > 10000000) ∨ (P.rank_ = 2 ∧ P.grid_size_ > 300000) ∨
          (P.rank_ = 3 ∧ P.grid_size_ > 3000000)))) ∧
    (default_upsampling_factor P ≠ 5 / 4 → default_upsampling_factor P = 2) := by
  unfold default_upsampling_factor
  dsimp only
  by_cases h1 : P.tol_ ≥ 1 / 1000000000
  · by_cases h2 : (P.rank_ = 1 ∧ P.grid_size_ > 10000000) ∨
        (P.rank_ = 2 ∧ P.grid_size_ > 300000) ∨ (P.rank_ = 3 ∧ P.grid_size_ > 3000000)
    · rw [if_pos h1, if_pos h2]
      exact ⟨⟨fun _ => ⟨h1, h2⟩, fun _ => rfl⟩, fun h => absurd rfl h⟩
    · rw [if_pos h1, if_neg h2]
      exact ⟨⟨fun h => absurd h (by norm_num), fun h => absurd h.2 h2⟩, fun _ => rfl⟩
  · rw [if_neg h1]
    exact ⟨⟨fun h => absurd h (by norm_num), fun h => absurd h.1 h1⟩, fun _ => rfl⟩

theorem default_upsampling_factor_spec_witness :
    default_upsampling_factor largePlan = 5 / 4 ∧ default_upsampling_factor samplePlan5 = 2 :=
  ⟨(default_upsampling_factor_spec largePlan).1.2
      ⟨by simp only [largePlan]; norm_num, Or.inr (Or.inl ⟨rfl, by decide⟩)⟩,
    (default_upsampling_factor_spec samplePlan5).2
      (fun h => absurd ((default_upsampling_factor_spec samplePlan5).1.1 h).2 (by decide))⟩

/-- C24: for a plan of TYPE_1, every batch of `execute` runs
`spread_or_interp_sorted_batch`, then the FFT, then `deconvolve_batch`, in that
order, and `initialize` has set the direction SPREAD, under which
`spreadinterpSorted` spreads and the deconvolver writes the modes from the fine
grid (forward); for TYPE_2 every batch runs `deconvolve_batch`, then the FFT,
then `spread_or_interp_sorted_batch`, with the direction INTERP, under which
`spreadinterpSorted` interpolates and the deconvolver writes the fine grid from
the modes (backward); for TYPE_3 `execute` returns Unimplemented and leaves the
buffers as they are. -/
theorem execute_step_order (σ : Type) (ops : BatchOps σ) (P : PlanState) (b : ℤ) (s : σ) :
    (P.type_ = TransformType.TYPE_1 →
      (ops.spread_or_interp_sorted_batch (current_batch_size P b)
        (b * P.batch_size_ * P.num_points_) none s).1 = Status.OK →
      execute_batch ops P b s =
        ops.deconvolve_batch (current_batch_size P b) (b * P.batch_size_ * P.grid_size_)
          (ops.fftw_execute
            (ops.spread_or_interp_sorted_batch (current_batch_size P b)
              (b * P.batch_size_ * P.num_points_) none s).2)) ∧
    (P.type_ = TransformType.TYPE_2 →
      (ops.deconvolve_batch (current_batch_size P b) (b * P.batch_size_ * P.grid_size_) s).1 =
        Status.OK →
      execute_batch ops P b s =
        ops.spread_or_interp_sorted_batch (current_batch_size P b)
          (b * P.batch_size_ * P.num_points_) none
          (ops.fftw_execute
            (ops.deconvolve_batch (current_batch_size P b) (b * P.batch_size_ * P.grid_size_)
              s).2)) ∧
    (P.type_ = TransformType.TYPE_3 → ∀ fuel,
      execute ops P fuel s =
        some (Status.Unimplemented "Type-3 transforms not implemented yet.", s)) ∧
    (∀ t : List Step, P.type_ = TransformType.TYPE_1 →
      execute_batch traceOps P b t =
        (Status.OK, t ++ [Step.spread_or_interp, Step.fft, Step.deconvolve])) ∧
    (∀ t : List Step, P.type_ = TransformType.TYPE_2 →
      execute_batch traceOps P b t =
        (Status.OK, t ++ [Step.deconvolve, Step.fft, Step.spread_or_interp])) ∧
    (initial_spread_direction TransformType.TYPE_1 = SpreadDirection.SPREAD ∧
      initial_spread_direction TransformType.TYPE_2 = SpreadDirection.INTERP) ∧
    (∀ (K : ℚ → ℚ) (omp_max_threads : ℤ) (sort_indices : ℤ → ℤ) (N1 N2 N3 M : ℤ)
      (data_uniform kx ky kz data_nonuniform : ℤ → ℚ) (opts : SpreadParameters)
      (did_sort : Bool),
      (opts.spread_direction = SpreadDirection.SPREAD →
        spreadinterpSorted K omp_max_threads sort_indices N1 N2 N3 data_uniform M kx ky kz
            data_nonuniform opts did_sort =
          (0, (spreadSorted K omp_max_threads sort_indices N1 N2 N3 data_uniform M kx ky kz
            data_nonuniform opts did_sort).2, data_nonuniform)) ∧
      (opts.spread_direction = SpreadDirection.INTERP →
        spreadinterpSorted K omp_max_threads sort_indices N1 N2 N3 data_uniform M kx ky kz
            data_nonuniform opts did_sort =
          (0, data_uniform, (interpSorted K sort_indices N1 N2 N3 data_uniform M kx ky kz
            data_nonuniform opts did_sort).2))) ∧
    (∀ (Q : Plan) (fk fw : ℤ → DType) (fkOff fwOff : ℤ) (prefactor : ℚ),
      (Q.spread_direction = SpreadDirection.SPREAD →
        (deconvolve_1d Q fk fw fkOff fwOff prefactor).2 = fw) ∧
      (Q.spread_direction = SpreadDirection.INTERP →
        (deconvolve_1d Q fk fw fkOff fwOff prefactor).1 = fk)) := by
  refine ⟨?_, ?_, ?_, ?_, ?_, ⟨rfl, rfl⟩, ?_, ?_⟩
  · intro hty hok
    unfold execute_batch
    dsimp only
    rw [if_pos hty, if_neg (not_not.mpr hok), if_pos hty]
  · intro hty hok
    have hne : ¬ (P.type_ = TransformType.TYPE_1) := by
      rw [hty]
      decide
    unfold execute_batch
    dsimp only
    rw [if_neg hne, if_neg (not_not.mpr hok), if_neg hne]
  · intro hty fuel
    unfold execute
    rw [if_neg (not_not.mpr hty)]
  · intro t hty
    unfold execute_batch traceOps
    dsimp only
    simp [hty]
  · intro t hty
    unfold execute_batch traceOps
    dsimp only
    simp [hty]
  · intro K omp_max_threads sort_indices N1 N2 N3 M data_uniform kx ky kz data_nonuniform opts
      did_sort
    constructor
    · intro h
      unfold spreadinterpSorted
      rw [if_pos h]
    · intro h
      unfold spreadinterpSorted
      rw [if_neg (by rw [h]; decide)]
  · intro Q fk fw fkOff fwOff prefactor
    constructor
    · intro h
      unfold deconvolve_1d
      rw [h]
    · intro h
      unfold deconvolve_1d
      rw [h]

theorem execute_step_order_witness :
    execute_batch traceOps samplePlan5 0 [] =
      (Status.OK, [] ++ [Step.spread_or_interp, Step.fft, Step.deconvolve]) ∧
    execute traceOps type3Plan 4 [] =
      some (Status.Unimplemented "Type-3 transforms not implemented yet.", []) :=
  ⟨(execute_step_order (List Step) traceOps samplePlan5 0 []).2.2.2.1 [] rfl,
    (execute_step_order (List Step) traceOps type3Plan 0 []).2.2.1 rfl 4⟩

/-- The bounds returned by `array_range` on a non-empty array are entries of it. -/
theorem array_range_attained (n : ℤ) (hn : 1 ≤ n) (a : ℤ → ℚ) :
    (∃ i, 0 ≤ i ∧ i < n ∧ a i = (array_range n a).1) ∧
    (∃ i, 0 ≤ i ∧ i < n ∧ a i = (array_range n a).2) := by
  unfold array_range
  refine forRange_induct
    (fun _ (st : ℚ × ℚ) =>
      (∃ i, 0 ≤ i ∧ i < n ∧ a i = st.1) ∧ (∃ i, 0 ≤ i ∧ i < n ∧ a i = st.2))
    0 n _ _ (by omega) ?_ ?_
  · exact ⟨⟨0, le_refl _, by omega, rfl⟩, ⟨0, le_refl _, by omega, rfl⟩⟩
  · intro k st h0 h1 ih
    obtain ⟨⟨i, hi0, hi1, hi⟩, ⟨j, hj0, hj1, hj⟩⟩ := ih
    dsimp only
    constructor
    · split_ifs
      · exact ⟨k, h0, h1, rfl⟩
      · exact ⟨i, hi0, hi1, hi⟩
    · split_ifs
      · exact ⟨k, h0, h1, rfl⟩
      · exact ⟨j, hj0, hj1, hj⟩

/-- On a non-empty array `array_range` returns the least and the greatest entry. -/
theorem array_range_min_max (n : ℤ) (hn : 1 ≤ n) (a : ℤ → ℚ) :
    IsMinOf (array_range n a).1 a n ∧ IsMaxOf (array_range n a).2 a n := by
  have hat := array_range_attained n hn a
  have hen := array_range_encloses n (by omega) a
  exact ⟨⟨hat.1, fun i h0 h1 => (hen i h0 h1).1⟩, ⟨hat.2, fun i h0 h1 => (hen i h0 h1).2⟩⟩

/-- The least entry is unique. -/
theorem isMinOf_unique (m m' : ℚ) (a : ℤ → ℚ) (M : ℤ) (h : IsMinOf m a M)
    (h' : IsMinOf m' a M) : m = m' := by
  obtain ⟨⟨i, hi0, hi1, hi⟩, hm⟩ := h
  obtain ⟨⟨j, hj0, hj1, hj⟩, hm'⟩ := h'
  have a1 := hm j hj0 hj1
  have a2 := hm' i hi0 hi1
  rw [hj] at a1
  rw [hi] at a2
  exact le_antisymm a1 a2

/-- The greatest entry is unique. -/
theorem isMaxOf_unique (m m' : ℚ) (a : ℤ → ℚ) (M : ℤ) (h : IsMaxOf m a M)
    (h' : IsMaxOf m' a M) : m = m' := by
  obtain ⟨⟨i, hi0, hi1, hi⟩, hm⟩ := h
  obtain ⟨⟨j, hj0, hj1, hj⟩, hm'⟩ := h'
  have a1 := hm j hj0 hj1
  have a2 := hm' i hi0 hi1
  rw [hj] at a1
  rw [hi] at a2
  exact le_antisymm a2 a1

/-- C30: for a non-empty point list and kernel width `ns`, `get_subgrid` returns
on each active axis `offset = ceil(min coordinate - ns/2)` and
`size = ceil(max coordinate - ns/2) - offset + ns`, and offset 0 with size 1 on
each unused axis; for `ndims = 1`, `kx = [0.2, 4.9]`, `ns = 3` it returns
`offset1 = -1` and `size1 = 8`. -/
theorem get_subgrid_spec (M : ℤ) (kx ky kz : ℤ → ℚ) (ns ndims : ℤ) (hM : 1 ≤ M) :
    (∀ mn mx, IsMinOf mn kx M → IsMaxOf mx kx M →
      (get_subgrid M kx ky kz ns ndims).1.1 = ⌈mn - (ns : ℚ) / 2⌉ ∧
      (get_subgrid M kx ky kz ns ndims).2.1 =
        ⌈mx - (ns : ℚ) / 2⌉ - (get_subgrid M kx ky kz ns ndims).1.1 + ns) ∧
    (ndims > 1 → ∀ mn mx, IsMinOf mn ky M → IsMaxOf mx ky M →
      (get_subgrid M kx ky kz ns ndims).1.2.1 = ⌈mn - (ns : ℚ) / 2⌉ ∧
      (get_subgrid M kx ky kz ns ndims).2.2.1 =
        ⌈mx - (ns : ℚ) / 2⌉ - (get_subgrid M kx ky kz ns ndims).1.2.1 + ns) ∧
    (¬ ndims > 1 →
      (get_subgrid M kx ky kz ns ndims).1.2.1 = 0 ∧
      (get_subgrid M kx ky kz ns ndims).2.2.1 = 1) ∧
    (ndims > 2 → ∀ mn mx, IsMinOf mn kz M → IsMaxOf mx kz M →
      (get_subgrid M kx ky kz ns ndims).1.2.2 = ⌈mn - (ns : ℚ) / 2⌉ ∧
      (get_subgrid M kx ky kz ns ndims).2.2.2 =
        ⌈mx - (ns : ℚ) / 2⌉ - (get_subgrid M kx ky kz ns ndims).1.2.2 + ns) ∧
    (¬ ndims > 2 →
      (get_subgrid M kx ky kz ns ndims).1.2.2 = 0 ∧
      (get_subgrid M kx ky kz ns ndims).2.2.2 = 1) ∧
    (IsMinOf (array_range M kx).1 kx M ∧ IsMaxOf (array_range M kx).2 kx M) ∧
    get_subgrid 2 exampleCoords ky kz 3 1 = ((-1, 0, 0), (8, 1, 1)) := by
  have hx := array_range_min_max M hM kx
  have hy := array_range_min_max M hM ky
  have hz := array_range_min_max M hM kz
  refine ⟨?_, ?_, ?_, ?_, ?_, hx, ?_⟩
  · intro mn mx hmn hmx
    rw [isMinOf_unique _ _ _ _ hmn hx.1, isMaxOf_unique _ _ _ _ hmx hx.2]
    unfold get_subgrid
    exact ⟨rfl, rfl⟩
  · intro hnd mn mx hmn hmx
    rw [isMinOf_unique _ _ _ _ hmn hy.1, isMaxOf_unique _ _ _ _ hmx hy.2]
    unfold get_subgrid
    dsimp only
    rw [if_pos hnd, if_pos hnd]
    exact ⟨rfl, rfl⟩
  · intro hnd
    unfold get_subgrid
    dsimp only
    rw [if_neg hnd, if_neg hnd]
    exact ⟨rfl, rfl⟩
  · intro hnd mn mx hmn hmx
    rw [isMinOf_unique _ _ _ _ hmn hz.1, isMaxOf_unique _ _ _ _ hmx hz.2]
    unfold get_subgrid
    dsimp only
    rw [if_pos hnd, if_pos hnd]
    exact ⟨rfl, rfl⟩
  · intro hnd
    unfold get_subgrid
    dsimp only
    rw [if_neg hnd, if_neg hnd]
    exact ⟨rfl, rfl⟩
  · have hmin : IsMinOf (1 / 5) exampleCoords 2 := by
      refine ⟨⟨0, le_refl _, by norm_num, by simp [exampleCoords]⟩, ?_⟩
      intro i _ _
      unfold exampleCoords
      split_ifs <;> norm_num
    have hmax : IsMaxOf (49 / 10) exampleCoords 2 := by
      refine ⟨⟨1, by norm_num, by norm_num, by simp [exampleCoords]⟩, ?_⟩
      intro i _ _
      unfold exampleCoords
      split_ifs <;> norm_num
    have hr := array_range_min_max 2 (by norm_num) exampleCoords
    have e1 := isMinOf_unique _ _ _ _ hmin hr.1
    have e2 := isMaxOf_unique _ _ _ _ hmax hr.2
    unfold get_subgrid
    dsimp only
    rw [← e1, ← e2]
    have c1 : ⌈(1 / 5 : ℚ) - ((3 : ℤ) : ℚ) / 2⌉ = -1 := by
      rw [Int.ceil_eq_iff]
      norm_num
    have c2 : ⌈(49 / 10 : ℚ) - ((3 : ℤ) : ℚ) / 2⌉ = 4 := by
      rw [Int.ceil_eq_iff]
      norm_num
    rw [c1, c2]
    simp

theorem get_subgrid_spec_witness :
    get_subgrid 2 exampleCoords sampleCoords sampleCoords 3 1 = ((-1, 0, 0), (8, 1, 1)) ∧
    (get_subgrid 2 exampleCoords sampleCoords sampleCoords 3 1).1.2.1 = 0 ∧
    (get_subgrid 2 exampleCoords sampleCoords sampleCoords 3 1).2.2.1 = 1 :=
  ⟨(get_subgrid_spec 2 exampleCoords sampleCoords sampleCoords 3 1 (by decide)).2.2.2.2.2.2,
    ((get_subgrid_spec 2 exampleCoords sampleCoords sampleCoords 3 1 (by decide)).2.2.1
      (by decide)).1,
    ((get_subgrid_spec 2 exampleCoords sampleCoords sampleCoords 3 1 (by decide)).2.2.1
      (by decide)).2⟩

/-! ## The device spreader set-up -/

/-- The device `setup_spreader` returns `OK` exactly when its arguments pass the
checks, and then stores the chosen width and the constants derived from it. -/
theorem setup_spreader_gpu_accepted (env : FloatEnv) (kMaxKernelWidth : ℤ) (fmt : ℚ → String)
    (calculate_scale_factor : ℤ → GpuSpreadParameters → ℚ) (rank : ℤ) (eps : ℚ)
    (upsampling_factor : ℚ) (kernel_evaluation_method : KernelEvaluationMethod)
    (spread_params : GpuSpreadParameters)
    (h : setup_spreader_gpu_check fmt upsampling_factor kernel_evaluation_method = none) :
    (setup_spreader_gpu env kMaxKernelWidth fmt calculate_scale_factor rank eps
      upsampling_factor kernel_evaluation_method spread_params).1 = Status.OK ∧
    (setup_spreader_gpu env kMaxKernelWidth fmt calculate_scale_factor rank eps
      upsampling_factor kernel_evaluation_method spread_params).2.nspread =
      setup_spreader_gpu_width env kMaxKernelWidth eps upsampling_factor ∧
    (setup_spreader_gpu env kMaxKernelWidth fmt calculate_scale_factor rank eps
      upsampling_factor kernel_evaluation_method spread_params).2.ES_halfwidth =
      (setup_spreader_gpu_width env kMaxKernelWidth eps upsampling_factor : ℚ) / 2 ∧
    (setup_spreader_gpu env kMaxKernelWidth fmt calculate_scale_factor rank eps
      upsampling_factor kernel_evaluation_method spread_params).2.ES_c =
      4 / ((setup_spreader_gpu_width env kMaxKernelWidth eps upsampling_factor *
        setup_spreader_gpu_width env kMaxKernelWidth eps upsampling_factor : ℤ) : ℚ) := by
  unfold setup_spreader_gpu
  rw [h]
  dsimp only
  by_cases hs : spread_params.spread_only = true
  · rw [if_pos hs]
    exact ⟨rfl, rfl, rfl, rfl⟩
  · rw [if_neg hs]
    exact ⟨rfl, rfl, rfl, rfl⟩

/-- The checks of the device `setup_spreader` pass exactly for the factor 2.0, or
for a factor above 1.0 with a method other than HORNER. -/
theorem setup_spreader_gpu_check_none (fmt : ℚ → String) (upsampling_factor : ℚ)
    (kernel_evaluation_method : KernelEvaluationMethod) :
    setup_spreader_gpu_check fmt upsampling_factor kernel_evaluation_method = none ↔
      (upsampling_factor = 2 ∨
        (kernel_evaluation_method ≠ KernelEvaluationMethod.HORNER ∧ 1 < upsampling_factor)) := by
  unfold setup_spreader_gpu_check
  by_cases h2 : upsampling_factor = 2
  · rw [if_neg (not_not.mpr h2)]
    exact ⟨fun _ => Or.inl h2, fun _ => rfl⟩
  · rw [if_pos h2]
    by_cases hh : kernel_evaluation_method = KernelEvaluationMethod.HORNER
    · rw [if_pos hh]
      constructor
      · intro hc
        cases hc
      · rintro (h | ⟨h, _⟩)
        · exact absurd h h2
        · exact absurd hh h
    · rw [if_neg hh]
      by_cases h1 : upsampling_factor ≤ 1
      · rw [if_pos h1]
        constructor
        · intro hc
          cases hc
        · rintro (h | ⟨_, h⟩)
          · exact absurd h h2
          · exact absurd h1 (not_le.mpr h)
      · rw [if_neg h1]
        exact ⟨fun _ => Or.inr ⟨hh, not_le.mp h1⟩, fun _ => rfl⟩

/-- The device `setup_spreader` returns `OK` exactly when the argument checks pass. -/
theorem setup_spreader_gpu_ok_iff (env : FloatEnv) (kMaxKernelWidth : ℤ) (fmt : ℚ → String)
    (calculate_scale_factor : ℤ → GpuSpreadParameters → ℚ) (rank : ℤ) (eps : ℚ)
    (upsampling_factor : ℚ) (kernel_evaluation_method : KernelEvaluationMethod)
    (spread_params : GpuSpreadParameters) :
    (setup_spreader_gpu env kMaxKernelWidth fmt calculate_scale_factor rank eps
      upsampling_factor kernel_evaluation_method spread_params).1 = Status.OK ↔
    setup_spreader_gpu_check fmt upsampling_factor kernel_evaluation_method = none := by
  constructor
  · intro hok
    cases hc : setup_spreader_gpu_check fmt upsampling_factor kernel_evaluation_method with
    | none => rfl
    | some e =>
      exfalso
      unfold setup_spreader_gpu at hok
      rw [hc] at hok
      dsimp only at hok
      unfold setup_spreader_gpu_check at hc
      by_cases h2 : upsampling_factor ≠ 2
      · rw [if_pos h2] at hc
        by_cases hh : kernel_evaluation_method = KernelEvaluationMethod.HORNER
        · rw [if_pos hh] at hc
          rw [← Option.some.inj hc] at hok
          cases hok
        · rw [if_neg hh] at hc
          by_cases h1 : upsampling_factor ≤ 1
          · rw [if_pos h1] at hc
            rw [← Option.some.inj hc] at hok
            cases hok
          · rw [if_neg h1] at hc
            cases hc
      · rw [if_neg h2] at hc
        cases hc
  · intro h
    exact (setup_spreader_gpu_accepted env kMaxKernelWidth fmt calculate_scale_factor rank eps
      upsampling_factor kernel_evaluation_method spread_params h).1

/-- The width chosen by the device `setup_spreader` lies between 2 and
`kMaxKernelWidth`, when that constant is at least 2. -/
theorem setup_spreader_gpu_width_bounds (env : FloatEnv) (kMaxKernelWidth : ℤ)
    (eps upsampling_factor : ℚ) (hk : 2 ≤ kMaxKernelWidth) :
    2 ≤ setup_spreader_gpu_width env kMaxKernelWidth eps upsampling_factor ∧
      setup_spreader_gpu_width env kMaxKernelWidth eps upsampling_factor ≤ kMaxKernelWidth := by
  unfold setup_spreader_gpu_width
  dsimp only
  split_ifs with h1 h2 h3 h4 h5 h6
  all_goals first
    | exact ⟨hk, le_refl _⟩
    | exact ⟨le_max_left _ _, not_lt.mp (by assumption)⟩

/-- The width chosen by the device `setup_spreader`, as a minimum of maxima. -/
theorem setup_spreader_gpu_width_eq (env : FloatEnv) (kMaxKernelWidth : ℤ)
    (eps upsampling_factor : ℚ) :
    (upsampling_factor = 2 →
      setup_spreader_gpu_width env kMaxKernelWidth eps upsampling_factor =
        min kMaxKernelWidth (max 2 ⌈-(env.log10 (max eps env.kEpsilon / 10))⌉)) ∧
    (upsampling_factor ≠ 2 →
      setup_spreader_gpu_width env kMaxKernelWidth eps upsampling_factor =
        min kMaxKernelWidth (max 2 ⌈-(env.log (max eps env.kEpsilon)) /
          (env.kPi * env.sqrt (1 - 1 / upsampling_factor))⌉)) := by
  have he : (if eps < env.kEpsilon then env.kEpsilon else eps) = max eps env.kEpsilon := by
    by_cases h : eps < env.kEpsilon
    · rw [if_pos h, max_eq_right (le_of_lt h)]
    · rw [if_neg h, max_eq_left (not_lt.mp h)]
  have hclip : ∀ n : ℤ, (if n > kMaxKernelWidth then kMaxKernelWidth else n) =
      min kMaxKernelWidth n := by
    intro n
    by_cases h : n > kMaxKernelWidth
    · rw [if_pos h, min_eq_left (le_of_lt h)]
    · rw [if_neg h, min_eq_right (not_lt.mp h)]
  constructor
  · intro h2
    unfold setup_spreader_gpu_width
    dsimp only
    rw [he, hclip, if_neg (not_not.mpr h2)]
  · intro h2
    unfold setup_spreader_gpu_width
    dsimp only
    rw [he, hclip, if_pos h2]

/-- Claim C21, as the code has it: with the HORNER method the device
`setup_spreader` accepts the upsampling factor 2.0 only; for every other factor,
1.25 included, it returns the Internal error "Horner kernel evaluation only
supports the standard upsampling factor of 2.0, but got ..." and leaves the
parameters unchanged. -/
theorem setup_spreader_gpu_horner (env : FloatEnv) (kMaxKernelWidth : ℤ) (fmt : ℚ → String)
    (calculate_scale_factor : ℤ → GpuSpreadParameters → ℚ) (rank : ℤ) (eps : ℚ)
    (upsampling_factor : ℚ) (spread_params : GpuSpreadParameters) :
    ((setup_spreader_gpu env kMaxKernelWidth fmt calculate_scale_factor rank eps
        upsampling_factor KernelEvaluationMethod.HORNER spread_params).1 = Status.OK ↔
      upsampling_factor = 2) ∧
    (upsampling_factor ≠ 2 →
      setup_spreader_gpu env kMaxKernelWidth fmt calculate_scale_factor rank eps
        upsampling_factor KernelEvaluationMethod.HORNER spread_params =
        (Status.Internal
          ("Horner kernel evaluation only supports the standard " ++
            "upsampling factor of 2.0, but got " ++ fmt upsampling_factor), spread_params)) := by
  constructor
  · rw [setup_spreader_gpu_ok_iff, setup_spreader_gpu_check_none]
    constructor
    · rintro (h | ⟨h, _⟩)
      · exact h
      · exact absurd rfl h
    · intro h
      exact Or.inl h
  · intro h2
    unfold setup_spreader_gpu setup_spreader_gpu_check
    rw [if_pos h2, if_pos rfl]

/-- Claim C21, witness: the factors 2.0 (accepted) and 1.25 (refused) with the
sample environment. -/
theorem setup_spreader_gpu_horner_witness :
    (setup_spreader_gpu sampleEnv 16 (fun _ => "?") (fun _ _ => 1) 2 (1 / 1000000)
        2 KernelEvaluationMethod.HORNER sampleGpuParams).1 = Status.OK ∧
    setup_spreader_gpu sampleEnv 16 (fun _ => "?") (fun _ _ => 1) 2 (1 / 1000000)
        (5 / 4) KernelEvaluationMethod.HORNER sampleGpuParams =
      (Status.Internal
        ("Horner kernel evaluation only supports the standard " ++
          "upsampling factor of 2.0, but got " ++ (fun _ => "?") ((5 : ℚ) / 4)),
        sampleGpuParams) :=
  ⟨(setup_spreader_gpu_horner sampleEnv 16 (fun _ => "?") (fun _ _ => 1) 2 (1 / 1000000)
      2 sampleGpuParams).1.mpr rfl,
   (setup_spreader_gpu_horner sampleEnv 16 (fun _ => "?") (fun _ _ => 1) 2 (1 / 1000000)
      (5 / 4) sampleGpuParams).2 (by norm_num)⟩

/-- Claim C21, counterexample to the wording of the specification: with the HORNER
method and the upsampling factor 1.25 the device `setup_spreader` does not return
`OK`; it returns an Internal error. -/
theorem setup_spreader_gpu_horner_rejects_1_25 :
    (setup_spreader_gpu sampleEnv 16 (fun _ => "1.25") (fun _ _ => 1) 2 (1 / 1000000)
      (5 / 4) KernelEvaluationMethod.HORNER sampleGpuParams).1 =
      Status.Internal
        "Horner kernel evaluation only supports the standard upsampling factor of 2.0, but got 1.25" ∧
    (setup_spreader_gpu sampleEnv 16 (fun _ => "1.25") (fun _ _ => 1) 2 (1 / 1000000)
      (5 / 4) KernelEvaluationMethod.HORNER sampleGpuParams).1 ≠ Status.OK := by
  have h2 : ((5 : ℚ) / 4) ≠ 2 := by norm_num
  have e : setup_spreader_gpu sampleEnv 16 (fun _ => "1.25") (fun _ _ => 1) 2 (1 / 1000000)
      (5 / 4) KernelEvaluationMethod.HORNER sampleGpuParams =
      (Status.Internal
        "Horner kernel evaluation only supports the standard upsampling factor of 2.0, but got 1.25",
        sampleGpuParams) := by
    unfold setup_spreader_gpu setup_spreader_gpu_check
    rw [if_pos h2, if_pos rfl]
    rfl
  rw [e]
  refine ⟨rfl, ?_⟩
  intro h
  cases h

/-- Claim C25: when the device `setup_spreader` accepts its arguments, the stored
width is `min(kMaxKernelWidth, max(2, ceil(-log10(eps/10))))` for the upsampling
factor 2.0 and `min(kMaxKernelWidth, max(2, ceil(-ln(eps) / (pi * sqrt(1 - 1/sigma)))))`
for any other factor, where `eps` is the larger of the tolerance and the machine
epsilon; and `ES_c = 4/w^2`, `ES_halfwidth = w/2` for the stored width `w`. -/
theorem setup_spreader_gpu_width_spec (env : FloatEnv) (kMaxKernelWidth : ℤ) (fmt : ℚ → String)
    (calculate_scale_factor : ℤ → GpuSpreadParameters → ℚ) (rank : ℤ) (eps : ℚ)
    (upsampling_factor : ℚ) (kernel_evaluation_method : KernelEvaluationMethod)
    (spread_params : GpuSpreadParameters)
    (hok : (setup_spreader_gpu env kMaxKernelWidth fmt calculate_scale_factor rank eps
      upsampling_factor kernel_evaluation_method spread_params).1 = Status.OK) :
    (upsampling_factor = 2 →
      (setup_spreader_gpu env kMaxKernelWidth fmt calculate_scale_factor rank eps
        upsampling_factor kernel_evaluation_method spread_params).2.nspread =
        min kMaxKernelWidth (max 2 ⌈-(env.log10 (max eps env.kEpsilon / 10))⌉)) ∧
    (upsampling_factor ≠ 2 →
      (setup_spreader_gpu env kMaxKernelWidth fmt calculate_scale_factor rank eps
        upsampling_factor kernel_evaluation_method spread_params).2.nspread =
        min kMaxKernelWidth (max 2 ⌈-(env.log (max eps env.kEpsilon)) /
          (env.kPi * env.sqrt (1 - 1 / upsampling_factor))⌉)) ∧
    (setup_spreader_gpu env kMaxKernelWidth fmt calculate_scale_factor rank eps
        upsampling_factor kernel_evaluation_method spread_params).2.ES_c =
      4 / ((setup_spreader_gpu env kMaxKernelWidth fmt calculate_scale_factor rank eps
        upsampling_factor kernel_evaluation_method spread_params).2.nspread : ℚ) ^ 2 ∧
    (setup_spreader_gpu env kMaxKernelWidth fmt calculate_scale_factor rank eps
        upsampling_factor kernel_evaluation_method spread_params).2.ES_halfwidth =
      ((setup_spreader_gpu env kMaxKernelWidth fmt calculate_scale_factor rank eps
        upsampling_factor kernel_evaluation_method spread_params).2.nspread : ℚ) / 2 := by
  have hc := (setup_spreader_gpu_ok_iff env kMaxKernelWidth fmt calculate_scale_factor rank eps
    upsampling_factor kernel_evaluation_method spread_params).mp hok
  obtain ⟨-, hn, hh, hcc⟩ := setup_spreader_gpu_accepted env kMaxKernelWidth fmt
    calculate_scale_factor rank eps upsampling_factor kernel_evaluation_method spread_params hc
  have hw := setup_spreader_gpu_width_eq env kMaxKernelWidth eps upsampling_factor
  refine ⟨fun h => ?_, fun h => ?_, ?_, ?_⟩
  · rw [hn]
    exact hw.1 h
  · rw [hn]
    exact hw.2 h
  · rw [hcc, hn]
    push_cast
    rw [pow_two]
  · rw [hh, hn]

/-- Claim C25, witness: the sample environment with the factors 2.0 (width 8) and
1.25 with the DIRECT method. -/
theorem setup_spreader_gpu_width_spec_witness :
    (setup_spreader_gpu sampleEnv 16 (fun _ => "?") (fun _ _ => 1) 2 (1 / 1000000)
        2 KernelEvaluationMethod.DIRECT sampleGpuParams).1 = Status.OK ∧
    (setup_spreader_gpu sampleEnv 16 (fun _ => "?") (fun _ _ => 1) 2 (1 / 1000000)
        2 KernelEvaluationMethod.DIRECT sampleGpuParams).2.ES_halfwidth =
      ((setup_spreader_gpu sampleEnv 16 (fun _ => "?") (fun _ _ => 1) 2 (1 / 1000000)
        2 KernelEvaluationMethod.DIRECT sampleGpuParams).2.nspread : ℚ) / 2 :=
  have hok : (setup_spreader_gpu sampleEnv 16 (fun _ => "?") (fun _ _ => 1) 2 (1 / 1000000)
        2 KernelEvaluationMethod.DIRECT sampleGpuParams).1 = Status.OK :=
    (setup_spreader_gpu_ok_iff sampleEnv 16 (fun _ => "?") (fun _ _ => 1) 2 (1 / 1000000)
        2 KernelEvaluationMethod.DIRECT sampleGpuParams).mpr
      ((setup_spreader_gpu_check_none (fun _ => "?") 2 KernelEvaluationMethod.DIRECT).mpr
        (Or.inl rfl))
  ⟨hok, (setup_spreader_gpu_width_spec sampleEnv 16 (fun _ => "?") (fun _ _ => 1) 2
      (1 / 1000000) 2 KernelEvaluationMethod.DIRECT sampleGpuParams hok).2.2.2⟩

/-- Claim C26: for every tolerance and every accepted upsampling factor the kernel
width stored by the device `setup_spreader` satisfies
`2 ≤ nspread ≤ kMaxKernelWidth` (the constant `kMaxKernelWidth` being at least
2). -/
theorem setup_spreader_gpu_width_range (env : FloatEnv) (kMaxKernelWidth : ℤ)
    (fmt : ℚ → String) (calculate_scale_factor : ℤ → GpuSpreadParameters → ℚ) (rank : ℤ)
    (eps : ℚ) (upsampling_factor : ℚ) (kernel_evaluation_method : KernelEvaluationMethod)
    (spread_params : GpuSpreadParameters) (hk : 2 ≤ kMaxKernelWidth)
    (hok : (setup_spreader_gpu env kMaxKernelWidth fmt calculate_scale_factor rank eps
      upsampling_factor kernel_evaluation_method spread_params).1 = Status.OK) :
    2 ≤ (setup_spreader_gpu env kMaxKernelWidth fmt calculate_scale_factor rank eps
        upsampling_factor kernel_evaluation_method spread_params).2.nspread ∧
    (setup_spreader_gpu env kMaxKernelWidth fmt calculate_scale_factor rank eps
        upsampling_factor kernel_evaluation_method spread_params).2.nspread ≤
      kMaxKernelWidth := by
  have hc := (setup_spreader_gpu_ok_iff env kMaxKernelWidth fmt calculate_scale_factor rank eps
    upsampling_factor kernel_evaluation_method spread_params).mp hok
  obtain ⟨-, hn, -, -⟩ := setup_spreader_gpu_accepted env kMaxKernelWidth fmt
    calculate_scale_factor rank eps upsampling_factor kernel_evaluation_method spread_params hc
  rw [hn]
  exact setup_spreader_gpu_width_bounds env kMaxKernelWidth eps upsampling_factor hk

/-- Claim C26, witness: the factor 1.5 with the DIRECT method, a tolerance below
the machine epsilon, and `kMaxKernelWidth = 16`. -/
theorem setup_spreader_gpu_width_range_witness :
    (2 : ℤ) ≤ 16 ∧
    (setup_spreader_gpu sampleEnv 16 (fun _ => "?") (fun _ _ => 1) 3 0
        (3 / 2) KernelEvaluationMethod.DIRECT sampleGpuParams).1 = Status.OK ∧
    2 ≤ (setup_spreader_gpu sampleEnv 16 (fun _ => "?") (fun _ _ => 1) 3 0
        (3 / 2) KernelEvaluationMethod.DIRECT sampleGpuParams).2.nspread ∧
    (setup_spreader_gpu sampleEnv 16 (fun _ => "?") (fun _ _ => 1) 3 0
        (3 / 2) KernelEvaluationMethod.DIRECT sampleGpuParams).2.nspread ≤ 16 :=
  have hok : (setup_spreader_gpu sampleEnv 16 (fun _ => "?") (fun _ _ => 1) 3 0
        (3 / 2) KernelEvaluationMethod.DIRECT sampleGpuParams).1 = Status.OK :=
    (setup_spreader_gpu_ok_iff sampleEnv 16 (fun _ => "?") (fun _ _ => 1) 3 0
        (3 / 2) KernelEvaluationMethod.DIRECT sampleGpuParams).mpr
      ((setup_spreader_gpu_check_none (fun _ => "?") (3 / 2) KernelEvaluationMethod.DIRECT).mpr
        (Or.inr ⟨(fun h => by cases h), (by norm_num)⟩))
  ⟨by decide, hok, setup_spreader_gpu_width_range sampleEnv 16 (fun _ => "?") (fun _ _ => 1) 3 0
      (3 / 2) KernelEvaluationMethod.DIRECT sampleGpuParams (by decide) hok⟩

/-! ## The device binning -/

/-- A bin coordinate of the device kernels lies in `[0, nbin)` when the rescaled
coordinate lies in `[0, nf]` and `nbin = (nf + bin_size - 1) / bin_size`. -/
theorem binCoord_range (xr : ℚ) (bs nf : ℤ) (hbs : 1 ≤ bs) (hnf : 1 ≤ nf) (h0 : 0 ≤ xr)
    (h1 : xr ≤ (nf : ℚ)) :
    0 ≤ binCoord xr bs (cdiv (nf + bs - 1) bs) ∧
      binCoord xr bs (cdiv (nf + bs - 1) bs) < cdiv (nf + bs - 1) bs := by
  rw [cdiv_of_nonneg _ _ (by omega) (by omega)]
  have hq : nf + bs - 1 = (nf + bs) - 1 := by ring
  rw [hq]
  obtain ⟨a0, a1, a2⟩ := pred_div_bounds (nf + bs) bs (by omega) hbs
  have hbs' : (0 : ℚ) < (bs : ℚ) := by exact_mod_cast (by omega : (0 : ℤ) < bs)
  have f0 : 0 ≤ ⌊xr / (bs : ℚ)⌋ := Int.floor_nonneg.mpr (div_nonneg h0 (le_of_lt hbs'))
  have nb1 : 1 ≤ (nf + bs - 1) / bs := by
    have : (nf + bs - 1) / bs * bs + bs ≥ nf + bs := by
      have := a2
      rw [add_mul, one_mul] at this
      exact this
    have hpos : 0 < (nf + bs - 1) / bs * bs := by omega
    by_contra hc
    have : (nf + bs - 1) / bs ≤ 0 := by omega
    have := mul_nonpos_of_nonpos_of_nonneg this (by omega : (0 : ℤ) ≤ bs)
    omega
  have f1 : ⌊xr / (bs : ℚ)⌋ ≤ (nf + bs - 1) / bs := by
    have a1' : (nf + bs - 1) / bs * bs < nf + bs := a1
    have hx : xr / (bs : ℚ) < (((nf + bs - 1) / bs + 1 : ℤ) : ℚ) := by
      rw [div_lt_iff₀ hbs']
      have a2' : ((nf + bs : ℤ) : ℚ) ≤ ((((nf + bs - 1) / bs + 1) * bs : ℤ) : ℚ) := by
        exact_mod_cast a2
      have hb1 : (1 : ℚ) ≤ (bs : ℚ) := by exact_mod_cast hbs
      push_cast at a2' ⊢
      linarith
    have := Int.floor_lt.mpr hx
    omega
  unfold binCoord
  dsimp only
  split_ifs <;> omega

/-- The loop of `gpu_num_bins` in rank 2. -/
theorem gpu_num_bins_rank2 (g b : ℤ → ℤ) :
    (gpu_num_bins 2 g b).1 0 = cdiv (g 0 + b 0 - 1) (b 0) ∧
    (gpu_num_bins 2 g b).1 1 = cdiv (g 1 + b 1 - 1) (b 1) ∧
    (gpu_num_bins 2 g b).2 = cdiv (g 0 + b 0 - 1) (b 0) * cdiv (g 1 + b 1 - 1) (b 1) := by
  unfold gpu_num_bins
  have e2 : (2 : ℤ) = 0 + 1 + 1 := by norm_num
  rw [e2, forRange_succ _ _ _ _ (by norm_num), forRange_succ _ _ _ _ (by norm_num),
    forRange_empty _ _ _ _ (le_refl _)]
  simp [Function.update]

/-- The counting pass of a device binning kernel, with the atomic increments
serialised in the order `order`: the counter of bin `b` grows by the number of
points in that bin, and the slot of the `k`-th point to run is the number of
earlier points in its bin. -/
theorem atomic_count_loop (bin order : ℤ → ℤ) (M : ℤ) (hM : 0 ≤ M)
    (hinj : ∀ i k, 0 ≤ i → i < M → 0 ≤ k → k < M → order i = order k → i = k)
    (c0 s0 : ℤ → ℤ) :
    (∀ b, (forRange 0 M
        (fun k (st : (ℤ → ℤ) × (ℤ → ℤ)) =>
          (Function.update st.1 (bin (order k)) (st.1 (bin (order k)) + 1),
            Function.update st.2 (order k) (st.1 (bin (order k)))))
        (c0, s0)).1 b = c0 b + countBelow (fun k => bin (order k)) b M) ∧
    (∀ k, 0 ≤ k → k < M → (forRange 0 M
        (fun k (st : (ℤ → ℤ) × (ℤ → ℤ)) =>
          (Function.update st.1 (bin (order k)) (st.1 (bin (order k)) + 1),
            Function.update st.2 (order k) (st.1 (bin (order k)))))
        (c0, s0)).2 (order k) =
      c0 (bin (order k)) + countBelow (fun k => bin (order k)) (bin (order k)) k) := by
  have key := forRange_induct
    (fun K (st : (ℤ → ℤ) × (ℤ → ℤ)) =>
      (∀ b, st.1 b = c0 b + countBelow (fun k => bin (order k)) b K) ∧
      (∀ k, 0 ≤ k → k < K →
        st.2 (order k) =
          c0 (bin (order k)) + countBelow (fun k => bin (order k)) (bin (order k)) k) ∧ K ≤ M)
    0 M
    (fun k (st : (ℤ → ℤ) × (ℤ → ℤ)) =>
          (Function.update st.1 (bin (order k)) (st.1 (bin (order k)) + 1),
            Function.update st.2 (order k) (st.1 (bin (order k)))))
    (c0, s0) hM ?_ ?_
  · exact ⟨key.1, fun k h0 h1 => key.2.1 k h0 h1⟩
  · refine ⟨fun b => ?_, fun k h0 h1 => ?_, hM⟩
    · simp [countBelow]
    · omega
  · intro K st hK0 hK1 ih
    obtain ⟨ih1, ih2, _⟩ := ih
    refine ⟨fun b => ?_, fun k h0 h1 => ?_, by omega⟩
    · dsimp only
      rw [countBelow_succ _ _ _ hK0]
      by_cases hb : bin (order K) = b
      · rw [hb, Function.update_same, if_pos rfl, ih1 b]
        ring
      · rw [Function.update_noteq (Ne.symm hb), if_neg hb, ih1 b]
        ring
    · dsimp only
      by_cases hk : k = K
      · rw [hk, Function.update_same, ih1]
      · have hne : order k ≠ order K := fun h =>
          hk (hinj k K h0 (by omega) hK0 hK1 h)
        rw [Function.update_noteq hne]
        exact ih2 k h0 (by omega)

/-- The exclusive prefix sum, in closed form. -/
theorem exclusive_scan_eq (a : ℤ → ℤ) (n : ℤ) (hn : 0 ≤ n) (result : ℤ → ℤ) :
    ∀ i, 0 ≤ i → i < n → exclusive_scan a n result i = prefixSum a i := by
  unfold exclusive_scan
  have key := forRange_induct
    (fun K (st : (ℤ → ℤ) × ℤ) =>
      st.2 = prefixSum a K ∧ ∀ i, 0 ≤ i → i < K → st.1 i = prefixSum a i)
    0 n (fun i (st : (ℤ → ℤ) × ℤ) => (Function.update st.1 i st.2, st.2 + a i))
    (result, 0) hn ?_ ?_
  · exact key.2
  · refine ⟨?_, fun i h0 h1 => ?_⟩
    · simp [prefixSum]
    · omega
  · intro K st hK0 hK1 ih
    obtain ⟨ih1, ih2⟩ := ih
    refine ⟨?_, fun i h0 h1 => ?_⟩
    · dsimp only
      rw [ih1]
      unfold prefixSum
      have : (K + 1).toNat = K.toNat + 1 := by omega
      rw [this, Finset.sum_range_succ]
      have hK : ((K.toNat : ℕ) : ℤ) = K := by omega
      rw [hK]
    · dsimp only
      by_cases hi : i = K
      · rw [hi, Function.update_same, ih1]
      · rw [Function.update_noteq hi]
        exact ih2 i h0 (by omega)

/-- The scatter pass of a device binning kernel, run in the order `order`: when
the slots are distinct, entry `slot i` of the result is `i`. -/
theorem scatter_loop (slot order : ℤ → ℤ) (M : ℤ) (hM : 0 ≤ M)
    (hinj : ∀ i k, 0 ≤ i → i < M → 0 ≤ k → k < M →
      slot (order i) = slot (order k) → i = k)
    (index : ℤ → ℤ) :
    ∀ k, 0 ≤ k → k < M →
      forRange 0 M (fun k (index : ℤ → ℤ) => Function.update index (slot (order k)) (order k))
        index (slot (order k)) = order k := by
  have key := forRange_induct
    (fun K (st : ℤ → ℤ) => (∀ k, 0 ≤ k → k < K → st (slot (order k)) = order k) ∧ K ≤ M)
    0 M (fun k (index : ℤ → ℤ) => Function.update index (slot (order k)) (order k))
    index hM ?_ ?_
  · exact key.1
  · exact ⟨fun k h0 h1 => by omega, hM⟩
  · intro K st hK0 hK1 ih
    obtain ⟨ih1, _⟩ := ih
    refine ⟨fun k h0 h1 => ?_, by omega⟩
    beta_reduce
    by_cases hk : k = K
    · rw [hk, Function.update_same]
    · have hne : slot (order k) ≠ slot (order K) := fun h =>
        hk (hinj k K h0 (by omega) hK0 hK1 h)
      rw [Function.update_noteq hne]
      exact ih1 k h0 (by omega)

/-- An array `index` with `index[s k] = order k`, where `s` is a bijection of
`[0, M)` and `order` a permutation of it, is a permutation of `[0, M)`. -/
theorem isPermutation_of_section (index s order : ℤ → ℤ) (M : ℤ)
    (hmap : ∀ k, 0 ≤ k → k < M → 0 ≤ s k ∧ s k < M)
    (hinj : ∀ i k, 0 ≤ i → i < M → 0 ≤ k → k < M → s i = s k → i = k)
    (ho : IsPermutation order M)
    (hsec : ∀ k, 0 ≤ k → k < M → index (s k) = order k) :
    IsPermutation index M := by
  have hsurj := range_surj_of_inj s M hmap hinj
  constructor
  · intro p h0 h1
    obtain ⟨k, ⟨k0, k1⟩, hk⟩ := hsurj p h0 h1
    rw [← hk, hsec k k0 k1]
    exact ho.1 k k0 k1
  · intro j h0 h1
    obtain ⟨k, ⟨⟨k0, k1⟩, hk⟩, huniq⟩ := ho.2 j h0 h1
    refine ⟨s k, ⟨hmap k k0 k1, by rw [hsec k k0 k1, hk]⟩, ?_⟩
    rintro q ⟨⟨q0, q1⟩, hq⟩
    obtain ⟨l, ⟨l0, l1⟩, hl⟩ := hsurj q q0 q1
    rw [← hl, hsec l l0 l1] at hq
    have : l = k := huniq l ⟨⟨l0, l1⟩, hq⟩
    rw [← hl, this]

/-- A permutation of `[0, M)` is injective on `[0, M)`. -/
theorem isPermutation_inj (order : ℤ → ℤ) (M : ℤ) (ho : IsPermutation order M) :
    ∀ i k, 0 ≤ i → i < M → 0 ≤ k → k < M → order i = order k → i = k := by
  intro i k i0 i1 k0 k1 h
  obtain ⟨p, _, huniq⟩ := ho.2 (order k) (ho.1 k k0 k1).1 (ho.1 k k0 k1).2
  rw [huniq i ⟨⟨i0, i1⟩, h⟩, huniq k ⟨⟨k0, k1⟩, rfl⟩]

/-- The device bin sort, for any bin numbering: counting pass in the order
`order1`, exclusive prefix sum, scatter pass in the order `order2`.  The index
array is a permutation of `[0, M)` with the bin numbers ascending. -/
theorem gpu_bin_sort_core (bin order1 order2 : ℤ → ℤ) (B M : ℤ) (hB : 0 ≤ B) (hM : 0 ≤ M)
    (hbin : ∀ i, 0 ≤ i → i < M → 0 ≤ bin i ∧ bin i < B)
    (ho1 : IsPermutation order1 M) (ho2 : IsPermutation order2 M)
    (c0 s0 bst index0 : ℤ → ℤ) (hc0 : ∀ b, 0 ≤ b → b < B → c0 b = 0)
    (hbst : ∀ b, 0 ≤ b → b < B → bst b = prefixSum
      (forRange 0 M
        (fun k (st : (ℤ → ℤ) × (ℤ → ℤ)) =>
          (Function.update st.1 (bin (order1 k)) (st.1 (bin (order1 k)) + 1),
            Function.update st.2 (order1 k) (st.1 (bin (order1 k)))))
        (c0, s0)).1 b) :
    IsPermutation
      (forRange 0 M
        (fun k (index : ℤ → ℤ) =>
          Function.update index
            (bst (bin (order2 k)) + (forRange 0 M
              (fun k (st : (ℤ → ℤ) × (ℤ → ℤ)) =>
                (Function.update st.1 (bin (order1 k)) (st.1 (bin (order1 k)) + 1),
                  Function.update st.2 (order1 k) (st.1 (bin (order1 k)))))
              (c0, s0)).2 (order2 k)) (order2 k))
        index0) M ∧
    ∀ p q, 0 ≤ p → p ≤ q → q < M →
      bin (forRange 0 M
        (fun k (index : ℤ → ℤ) =>
          Function.update index
            (bst (bin (order2 k)) + (forRange 0 M
              (fun k (st : (ℤ → ℤ) × (ℤ → ℤ)) =>
                (Function.update st.1 (bin (order1 k)) (st.1 (bin (order1 k)) + 1),
                  Function.update st.2 (order1 k) (st.1 (bin (order1 k)))))
              (c0, s0)).2 (order2 k)) (order2 k))
        index0 p) ≤
      bin (forRange 0 M
        (fun k (index : ℤ → ℤ) =>
          Function.update index
            (bst (bin (order2 k)) + (forRange 0 M
              (fun k (st : (ℤ → ℤ) × (ℤ → ℤ)) =>
                (Function.update st.1 (bin (order1 k)) (st.1 (bin (order1 k)) + 1),
                  Function.update st.2 (order1 k) (st.1 (bin (order1 k)))))
              (c0, s0)).2 (order2 k)) (order2 k))
        index0 q) := by
  have inj1 := isPermutation_inj order1 M ho1
  have inj2 := isPermutation_inj order2 M ho2
  obtain ⟨hcnt, hslot⟩ := atomic_count_loop bin order1 M hM inj1 c0 s0
  generalize (forRange 0 M
        (fun k (st : (ℤ → ℤ) × (ℤ → ℤ)) =>
          (Function.update st.1 (bin (order1 k)) (st.1 (bin (order1 k)) + 1),
            Function.update st.2 (order1 k) (st.1 (bin (order1 k)))))
        (c0, s0)) = c at hcnt hslot hbst ⊢
  have hbin1 : ∀ k, 0 ≤ k → k < M →
      0 ≤ (fun k => bin (order1 k)) k ∧ (fun k => bin (order1 k)) k < B := by
    intro k k0 k1
    exact hbin (order1 k) (ho1.1 k k0 k1).1 (ho1.1 k k0 k1).2
  -- the start of every bin
  have hstart : ∀ b, 0 ≤ b → b < B → bst b = binStart (fun k => bin (order1 k)) M b := by
    intro b b0 b1
    rw [hbst b b0 b1]
    unfold prefixSum binStart
    refine Finset.sum_congr rfl ?_
    intro x hx
    have hx' := Finset.mem_range.mp hx
    rw [hcnt, hc0 _ (by omega) (by omega), zero_add]
  -- the slot of the k-th point of the counting pass
  have hs : ∀ k, 0 ≤ k → k < M →
      bst (bin (order1 k)) + c.2 (order1 k) = sortSlot (fun k => bin (order1 k)) M k := by
    intro k k0 k1
    have hb := hbin1 k k0 k1
    rw [hstart _ hb.1 hb.2, hslot k k0 k1, hc0 _ hb.1 hb.2, zero_add]
    rfl
  have sinj := sortSlot_inj (fun k => bin (order1 k)) B M hB hM hbin1
  -- slots of distinct points are distinct
  have slot_inj : ∀ i j, 0 ≤ i → i < M → 0 ≤ j → j < M →
      bst (bin i) + c.2 i = bst (bin j) + c.2 j → i = j := by
    intro i j i0 i1 j0 j1 h
    obtain ⟨k, ⟨⟨k0, k1⟩, hk⟩, _⟩ := ho1.2 i i0 i1
    obtain ⟨l, ⟨⟨l0, l1⟩, hl⟩, _⟩ := ho1.2 j j0 j1
    rw [← hk, ← hl, hs k k0 k1, hs l l0 l1] at h
    rw [← hk, ← hl, sinj k l k0 k1 l0 l1 h]
  have hsc := scatter_loop (fun i => bst (bin i) + c.2 i) order2 M hM
    (fun i k i0 i1 k0 k1 h =>
      inj2 i k i0 i1 k0 k1
        (slot_inj _ _ (ho2.1 i i0 i1).1 (ho2.1 i i0 i1).2 (ho2.1 k k0 k1).1 (ho2.1 k k0 k1).2 h))
    index0
  beta_reduce at hsc
  generalize (forRange 0 M
        (fun k (index : ℤ → ℤ) =>
          Function.update index (bst (bin (order2 k)) + c.2 (order2 k)) (order2 k))
        index0) = idx at hsc ⊢
  have hsec : ∀ k, 0 ≤ k → k < M → idx (sortSlot (fun k => bin (order1 k)) M k) = order1 k := by
    intro k k0 k1
    obtain ⟨l, ⟨⟨l0, l1⟩, hl⟩, _⟩ := ho2.2 (order1 k) (ho1.1 k k0 k1).1 (ho1.1 k k0 k1).2
    have := hsc l l0 l1
    rw [hl, hs k k0 k1] at this
    exact this
  have hrange : ∀ k, 0 ≤ k → k < M →
      0 ≤ sortSlot (fun k => bin (order1 k)) M k ∧ sortSlot (fun k => bin (order1 k)) M k < M := by
    intro k k0 k1
    have := sortSlot_range (fun k => bin (order1 k)) B M k hB hM hbin1 k0 k1
    exact ⟨this.1, this.2.2⟩
  refine ⟨isPermutation_of_section idx _ order1 M hrange sinj ho1 hsec, ?_⟩
  intro p q p0 hpq q1
  obtain ⟨k, ⟨k0, k1⟩, hk⟩ := range_surj_of_inj _ M hrange sinj p p0 (by omega)
  obtain ⟨l, ⟨l0, l1⟩, hl⟩ := range_surj_of_inj _ M hrange sinj q (by omega) q1
  rw [← hk, ← hl, hsec k k0 k1, hsec l l0 l1]
  by_contra hlt
  have hlt' : (fun k => bin (order1 k)) l < (fun k => bin (order1 k)) k := not_le.mp hlt
  have := sortSlot_lt (fun k => bin (order1 k)) B M hB hM hbin1 l k l0 l1 (Or.inl hlt')
  omega

/-- The rank-2 counting kernel is the counting pass of `atomic_count_loop` for the
bin numbers `binId2D`, when every bin coordinate is below its number of bins. -/
theorem CalcBinSizeNoGhost2DKernel_eq (env : FloatEnv) (order : ℤ → ℤ)
    (M nf1 nf2 bin_size_x bin_size_y nbinx nbiny : ℤ) (bin_size : ℤ → ℤ) (x y : ℤ → ℚ)
    (sortidx : ℤ → ℤ) (pirange : ℤ)
    (ho : ∀ k, 0 ≤ k → k < M → 0 ≤ order k ∧ order k < M)
    (hin : ∀ i, 0 ≤ i → i < M →
      binCoord (RESCALE env (x i) nf1 pirange) bin_size_x nbinx < nbinx ∧
      binCoord (RESCALE env (y i) nf2 pirange) bin_size_y nbiny < nbiny) :
    CalcBinSizeNoGhost2DKernel env order M nf1 nf2 bin_size_x bin_size_y nbinx nbiny bin_size
        x y sortidx pirange =
      forRange 0 M
        (fun k (st : (ℤ → ℤ) × (ℤ → ℤ)) =>
          (Function.update st.1
              ((fun i => binId2D env nf1 nf2 bin_size_x bin_size_y nbinx nbiny (x i) (y i)
                pirange) (order k))
              (st.1 ((fun i => binId2D env nf1 nf2 bin_size_x bin_size_y nbinx nbiny (x i) (y i)
                pirange) (order k)) + 1),
            Function.update st.2 (order k)
              (st.1 ((fun i => binId2D env nf1 nf2 bin_size_x bin_size_y nbinx nbiny (x i) (y i)
                pirange) (order k)))))
        (bin_size, sortidx) := by
  unfold CalcBinSizeNoGhost2DKernel
  apply forRange_congr
  intro k st k0 k1
  obtain ⟨h1, h2⟩ := hin (order k) (ho k k0 k1).1 (ho k k0 k1).2
  dsimp only
  rw [if_neg (by
    intro h
    rcases h with h | h
    · exact absurd h1 (not_lt.mpr h)
    · exact absurd h2 (not_lt.mpr h))]
  rfl

/-- The two kernels and the prefix sum of the rank-2 device bin sort: the index
array is a permutation of `[0, M)` with the bin numbers ascending. -/
theorem gpu_bin_sort_2d (env : FloatEnv) (order1 order2 : ℤ → ℤ)
    (M nf1 nf2 bin_size_x bin_size_y nbinx nbiny : ℤ) (binsize0 : ℤ → ℤ) (x y : ℤ → ℚ)
    (sortidx0 binstartpts0 index0 : ℤ → ℤ) (pirange : ℤ) (hM : 0 ≤ M)
    (hin : ∀ i, 0 ≤ i → i < M →
      (0 ≤ binCoord (RESCALE env (x i) nf1 pirange) bin_size_x nbinx ∧
        binCoord (RESCALE env (x i) nf1 pirange) bin_size_x nbinx < nbinx) ∧
      (0 ≤ binCoord (RESCALE env (y i) nf2 pirange) bin_size_y nbiny ∧
        binCoord (RESCALE env (y i) nf2 pirange) bin_size_y nbiny < nbiny))
    (hnx : 0 ≤ nbinx) (hny : 0 ≤ nbiny)
    (hz : ∀ b, 0 ≤ b → b < nbinx * nbiny → binsize0 b = 0)
    (ho1 : IsPermutation order1 M) (ho2 : IsPermutation order2 M) :
    IsPermutation
      (CalcInvertofGlobalSortIdx2DKernel env order2 M bin_size_x bin_size_y nbinx nbiny
        (exclusive_scan
          (CalcBinSizeNoGhost2DKernel env order1 M nf1 nf2 bin_size_x bin_size_y nbinx nbiny
            binsize0 x y sortidx0 pirange).1 (nbinx * nbiny) binstartpts0)
        (CalcBinSizeNoGhost2DKernel env order1 M nf1 nf2 bin_size_x bin_size_y nbinx nbiny
          binsize0 x y sortidx0 pirange).2 x y index0 pirange nf1 nf2) M ∧
    ∀ p q, 0 ≤ p → p ≤ q → q < M →
      (fun i => binId2D env nf1 nf2 bin_size_x bin_size_y nbinx nbiny (x i) (y i) pirange)
        (CalcInvertofGlobalSortIdx2DKernel env order2 M bin_size_x bin_size_y nbinx nbiny
          (exclusive_scan
            (CalcBinSizeNoGhost2DKernel env order1 M nf1 nf2 bin_size_x bin_size_y nbinx nbiny
              binsize0 x y sortidx0 pirange).1 (nbinx * nbiny) binstartpts0)
          (CalcBinSizeNoGhost2DKernel env order1 M nf1 nf2 bin_size_x bin_size_y nbinx nbiny
            binsize0 x y sortidx0 pirange).2 x y index0 pirange nf1 nf2 p) ≤
      (fun i => binId2D env nf1 nf2 bin_size_x bin_size_y nbinx nbiny (x i) (y i) pirange)
        (CalcInvertofGlobalSortIdx2DKernel env order2 M bin_size_x bin_size_y nbinx nbiny
          (exclusive_scan
            (CalcBinSizeNoGhost2DKernel env order1 M nf1 nf2 bin_size_x bin_size_y nbinx nbiny
              binsize0 x y sortidx0 pirange).1 (nbinx * nbiny) binstartpts0)
          (CalcBinSizeNoGhost2DKernel env order1 M nf1 nf2 bin_size_x bin_size_y nbinx nbiny
            binsize0 x y sortidx0 pirange).2 x y index0 pirange nf1 nf2 q) := by
  have hB : 0 ≤ nbinx * nbiny := mul_nonneg hnx hny
  have hbin : ∀ i, 0 ≤ i → i < M →
      0 ≤ (fun i => binId2D env nf1 nf2 bin_size_x bin_size_y nbinx nbiny (x i) (y i) pirange) i ∧
      (fun i => binId2D env nf1 nf2 bin_size_x bin_size_y nbinx nbiny (x i) (y i) pirange) i <
        nbinx * nbiny := by
    intro i i0 i1
    obtain ⟨⟨a0, a1⟩, ⟨b0, b1⟩⟩ := hin i i0 i1
    beta_reduce
    unfold binId2D
    have h1 : 0 ≤ binCoord (RESCALE env (y i) nf2 pirange) bin_size_y nbiny * nbinx :=
      mul_nonneg b0 hnx
    have h2 : (binCoord (RESCALE env (y i) nf2 pirange) bin_size_y nbiny + 1) * nbinx ≤
        nbiny * nbinx := mul_le_mul_of_nonneg_right (by omega) hnx
    rw [add_mul, one_mul] at h2
    rw [mul_comm nbinx nbiny]
    omega
  rw [CalcBinSizeNoGhost2DKernel_eq env order1 M nf1 nf2 bin_size_x bin_size_y nbinx nbiny
    binsize0 x y sortidx0 pirange ho1.1 (fun i i0 i1 => ⟨(hin i i0 i1).1.2, (hin i i0 i1).2.2⟩)]
  exact gpu_bin_sort_core
    (fun i => binId2D env nf1 nf2 bin_size_x bin_size_y nbinx nbiny (x i) (y i) pirange)
    order1 order2 (nbinx * nbiny) M hB hM hbin ho1 ho2 binsize0 sortidx0 _ index0 hz
    (fun b b0 b1 => exclusive_scan_eq _ _ hB _ b b0 b1)

/-- The device `init_spreader_nupts_driven` in rank 2 with sorting, when no bin
size is negative: the status and the index array. -/
theorem init_spreader_nupts_driven_rank2 (env : FloatEnv) (order1 order2 : ℤ → ℤ) (P : GpuPlan)
    (hrank : P.rank_ = 2) (hsort : P.spread_params_.sort_points = SortPoints.YES)
    (hbx : 0 ≤ P.options_.gpu_bin_size.x) (hby : 0 ≤ P.options_.gpu_bin_size.y)
    (hbz : 0 ≤ P.options_.gpu_bin_size.z) :
    (init_spreader_nupts_driven env order1 order2 P).1 = Status.OK ∧
    (init_spreader_nupts_driven env order1 order2 P).2.idxnupts =
      CalcInvertofGlobalSortIdx2DKernel env order2 P.num_points_ P.options_.gpu_bin_size.x
        P.options_.gpu_bin_size.y
        (cdiv (P.grid_dims_ 0 + P.options_.gpu_bin_size.x - 1) P.options_.gpu_bin_size.x)
        (cdiv (P.grid_dims_ 1 + P.options_.gpu_bin_size.y - 1) P.options_.gpu_bin_size.y)
        (exclusive_scan
          (CalcBinSizeNoGhost2DKernel env order1 P.num_points_ (P.grid_dims_ 0) (P.grid_dims_ 1)
            P.options_.gpu_bin_size.x P.options_.gpu_bin_size.y
            (cdiv (P.grid_dims_ 0 + P.options_.gpu_bin_size.x - 1) P.options_.gpu_bin_size.x)
            (cdiv (P.grid_dims_ 1 + P.options_.gpu_bin_size.y - 1) P.options_.gpu_bin_size.y)
            (memset_zero P.binsize
              (cdiv (P.grid_dims_ 0 + P.options_.gpu_bin_size.x - 1) P.options_.gpu_bin_size.x *
               cdiv (P.grid_dims_ 1 + P.options_.gpu_bin_size.y - 1) P.options_.gpu_bin_size.y))
            (P.points_ 0) (P.points_ 1) P.sortidx P.spread_params_.pirange).1
          (cdiv (P.grid_dims_ 0 + P.options_.gpu_bin_size.x - 1) P.options_.gpu_bin_size.x *
           cdiv (P.grid_dims_ 1 + P.options_.gpu_bin_size.y - 1) P.options_.gpu_bin_size.y)
          P.binstartpts)
        (CalcBinSizeNoGhost2DKernel env order1 P.num_points_ (P.grid_dims_ 0) (P.grid_dims_ 1)
          P.options_.gpu_bin_size.x P.options_.gpu_bin_size.y
          (cdiv (P.grid_dims_ 0 + P.options_.gpu_bin_size.x - 1) P.options_.gpu_bin_size.x)
          (cdiv (P.grid_dims_ 1 + P.options_.gpu_bin_size.y - 1) P.options_.gpu_bin_size.y)
          (memset_zero P.binsize
            (cdiv (P.grid_dims_ 0 + P.options_.gpu_bin_size.x - 1) P.options_.gpu_bin_size.x *
             cdiv (P.grid_dims_ 1 + P.options_.gpu_bin_size.y - 1) P.options_.gpu_bin_size.y))
          (P.points_ 0) (P.points_ 1) P.sortidx P.spread_params_.pirange).2
        (P.points_ 0) (P.points_ 1) P.idxnupts P.spread_params_.pirange (P.grid_dims_ 0)
        (P.grid_dims_ 1) := by
  have e0 : gpu_bin_size_array P.options_ 0 = P.options_.gpu_bin_size.x := rfl
  have e1 : gpu_bin_size_array P.options_ 1 = P.options_.gpu_bin_size.y := rfl
  have e2 : gpu_bin_size_array P.options_ 2 = P.options_.gpu_bin_size.z := rfl
  have hneg : ¬ (gpu_bin_size_array P.options_ 0 < 0 ∨ gpu_bin_size_array P.options_ 1 < 0 ∨
      gpu_bin_size_array P.options_ 2 < 0) := by
    rw [e0, e1, e2]
    omega
  obtain ⟨n0, n1, nc⟩ := gpu_num_bins_rank2 P.grid_dims_ (gpu_bin_size_array P.options_)
  rw [e0] at n0
  rw [e1] at n1
  rw [e0, e1] at nc
  unfold init_spreader_nupts_driven
  rw [if_pos hsort]
  dsimp only
  rw [if_neg hneg, if_pos hrank, hrank, n0, n1, nc, e0, e1]
  exact ⟨rfl, rfl⟩

/-- Without the `[-pi, pi]` rescaling, `RESCALE` maps `[0, N]` into `[0, N]`. -/
theorem RESCALE_range (env : FloatEnv) (x : ℚ) (N : ℤ) (h0 : 0 ≤ x) (h1 : x ≤ (N : ℚ)) :
    0 ≤ RESCALE env x N 0 ∧ RESCALE env x N 0 ≤ (N : ℚ) := by
  unfold RESCALE
  rw [if_neg (by simp), if_neg (not_lt.mpr h0)]
  by_cases h : x ≥ (N : ℚ)
  · rw [if_pos h]
    constructor <;> linarith
  · rw [if_neg h]
    exact ⟨h0, h1⟩

/-- In rank 2, when no bin size is negative, `init_spreader_subproblem` writes the
index array that `init_spreader_nupts_driven` writes with sorting. -/
theorem init_spreader_subproblem_idxnupts (env : FloatEnv) (order1 order2 order3 fresh : ℤ → ℤ)
    (P : GpuPlan) (hrank : P.rank_ = 2)
    (hsort : P.spread_params_.sort_points = SortPoints.YES)
    (hbx : 0 ≤ P.options_.gpu_bin_size.x) (hby : 0 ≤ P.options_.gpu_bin_size.y)
    (hbz : 0 ≤ P.options_.gpu_bin_size.z) :
    (init_spreader_subproblem env order1 order2 order3 fresh P).1 = Status.OK ∧
    (init_spreader_subproblem env order1 order2 order3 fresh P).2.idxnupts =
      (init_spreader_nupts_driven env order1 order2 P).2.idxnupts := by
  have e0 : gpu_bin_size_array P.options_ 0 = P.options_.gpu_bin_size.x := rfl
  have e1 : gpu_bin_size_array P.options_ 1 = P.options_.gpu_bin_size.y := rfl
  have e2 : gpu_bin_size_array P.options_ 2 = P.options_.gpu_bin_size.z := rfl
  have hneg : ¬ (gpu_bin_size_array P.options_ 0 < 0 ∨ gpu_bin_size_array P.options_ 1 < 0 ∨
      gpu_bin_size_array P.options_ 2 < 0) := by
    rw [e0, e1, e2]
    omega
  unfold init_spreader_subproblem init_spreader_nupts_driven
  rw [if_pos hsort]
  dsimp only
  rw [if_neg hneg, if_pos hrank, if_neg hneg, if_pos hrank]
  exact ⟨rfl, rfl⟩

/-- Claim C27: in rank 2, with positive bin sizes, rescaled coordinates in
`[0, nf]`, and the work-items of the two kernels run in any orders `order1` and
`order2` (so the atomic increments are serialised in any order), the index array
that `CalcInvertofGlobalSortIdx2DKernel` writes from the slots of
`CalcBinSizeNoGhost2DKernel` and the exclusive prefix sum of the bin counts is a
permutation of `0..M-1`, and the bin numbers of the points it lists are ascending;
this for `init_spreader_nupts_driven` with sorting, and `init_spreader_subproblem`
writes the same array. -/
theorem device_bin_sort_rank2 (env : FloatEnv) (order1 order2 order3 fresh : ℤ → ℤ) (P : GpuPlan)
    (hrank : P.rank_ = 2) (hsort : P.spread_params_.sort_points = SortPoints.YES)
    (hM : 0 ≤ P.num_points_)
    (hbx : 1 ≤ P.options_.gpu_bin_size.x) (hby : 1 ≤ P.options_.gpu_bin_size.y)
    (hbz : 0 ≤ P.options_.gpu_bin_size.z)
    (hn1 : 1 ≤ P.grid_dims_ 0) (hn2 : 1 ≤ P.grid_dims_ 1)
    (hx : ∀ i, 0 ≤ i → i < P.num_points_ →
      0 ≤ RESCALE env (P.points_ 0 i) (P.grid_dims_ 0) P.spread_params_.pirange ∧
      RESCALE env (P.points_ 0 i) (P.grid_dims_ 0) P.spread_params_.pirange ≤
        (P.grid_dims_ 0 : ℚ))
    (hy : ∀ i, 0 ≤ i → i < P.num_points_ →
      0 ≤ RESCALE env (P.points_ 1 i) (P.grid_dims_ 1) P.spread_params_.pirange ∧
      RESCALE env (P.points_ 1 i) (P.grid_dims_ 1) P.spread_params_.pirange ≤
        (P.grid_dims_ 1 : ℚ))
    (ho1 : IsPermutation order1 P.num_points_) (ho2 : IsPermutation order2 P.num_points_) :
    (init_spreader_nupts_driven env order1 order2 P).1 = Status.OK ∧
    IsPermutation (init_spreader_nupts_driven env order1 order2 P).2.idxnupts P.num_points_ ∧
    (∀ p q, 0 ≤ p → p ≤ q → q < P.num_points_ →
      binId2D env (P.grid_dims_ 0) (P.grid_dims_ 1) P.options_.gpu_bin_size.x
          P.options_.gpu_bin_size.y
          (cdiv (P.grid_dims_ 0 + P.options_.gpu_bin_size.x - 1) P.options_.gpu_bin_size.x)
          (cdiv (P.grid_dims_ 1 + P.options_.gpu_bin_size.y - 1) P.options_.gpu_bin_size.y)
          (P.points_ 0 ((init_spreader_nupts_driven env order1 order2 P).2.idxnupts p))
          (P.points_ 1 ((init_spreader_nupts_driven env order1 order2 P).2.idxnupts p))
          P.spread_params_.pirange ≤
        binId2D env (P.grid_dims_ 0) (P.grid_dims_ 1) P.options_.gpu_bin_size.x
          P.options_.gpu_bin_size.y
          (cdiv (P.grid_dims_ 0 + P.options_.gpu_bin_size.x - 1) P.options_.gpu_bin_size.x)
          (cdiv (P.grid_dims_ 1 + P.options_.gpu_bin_size.y - 1) P.options_.gpu_bin_size.y)
          (P.points_ 0 ((init_spreader_nupts_driven env order1 order2 P).2.idxnupts q))
          (P.points_ 1 ((init_spreader_nupts_driven env order1 order2 P).2.idxnupts q))
          P.spread_params_.pirange) ∧
    (init_spreader_subproblem env order1 order2 order3 fresh P).1 = Status.OK ∧
    (init_spreader_subproblem env order1 order2 order3 fresh P).2.idxnupts =
      (init_spreader_nupts_driven env order1 order2 P).2.idxnupts := by
  obtain ⟨hst, hidx⟩ := init_spreader_nupts_driven_rank2 env order1 order2 P hrank hsort
    (by omega) (by omega) hbz
  have bx := fun i i0 i1 => binCoord_range _ P.options_.gpu_bin_size.x (P.grid_dims_ 0) hbx hn1
    (hx i i0 i1).1 (hx i i0 i1).2
  have by1 := fun i i0 i1 => binCoord_range _ P.options_.gpu_bin_size.y (P.grid_dims_ 1) hby hn2
    (hy i i0 i1).1 (hy i i0 i1).2
  have nx : 0 ≤ cdiv (P.grid_dims_ 0 + P.options_.gpu_bin_size.x - 1)
      P.options_.gpu_bin_size.x := by
    rw [cdiv_of_nonneg _ _ (by omega) (by omega)]
    exact Int.ediv_nonneg (by omega) (by omega)
  have ny : 0 ≤ cdiv (P.grid_dims_ 1 + P.options_.gpu_bin_size.y - 1)
      P.options_.gpu_bin_size.y := by
    rw [cdiv_of_nonneg _ _ (by omega) (by omega)]
    exact Int.ediv_nonneg (by omega) (by omega)
  obtain ⟨hperm, hasc⟩ := gpu_bin_sort_2d env order1 order2 P.num_points_ (P.grid_dims_ 0)
    (P.grid_dims_ 1) P.options_.gpu_bin_size.x P.options_.gpu_bin_size.y
    (cdiv (P.grid_dims_ 0 + P.options_.gpu_bin_size.x - 1) P.options_.gpu_bin_size.x)
    (cdiv (P.grid_dims_ 1 + P.options_.gpu_bin_size.y - 1) P.options_.gpu_bin_size.y)
    (memset_zero P.binsize
      (cdiv (P.grid_dims_ 0 + P.options_.gpu_bin_size.x - 1) P.options_.gpu_bin_size.x *
       cdiv (P.grid_dims_ 1 + P.options_.gpu_bin_size.y - 1) P.options_.gpu_bin_size.y))
    (P.points_ 0) (P.points_ 1) P.sortidx P.binstartpts P.idxnupts P.spread_params_.pirange hM
    (fun i i0 i1 => ⟨bx i i0 i1, by1 i i0 i1⟩) nx ny
    (fun b b0 b1 => by
      unfold memset_zero
      rw [if_pos ⟨b0, b1⟩])
    ho1 ho2
  rw [← hidx] at hperm hasc
  exact ⟨hst, hperm, hasc,
    init_spreader_subproblem_idxnupts env order1 order2 order3 fresh P hrank hsort (by omega)
      (by omega) hbz⟩

/-- Claim C27, witness: the sample plan of two points, with the counting pass run
in the order 1, 0. -/
theorem device_bin_sort_rank2_witness :
    gpuSamplePlan.rank_ = 2 ∧ IsPermutation swapTwo gpuSamplePlan.num_points_ ∧
    (init_spreader_nupts_driven sampleEnv swapTwo (fun i => i) gpuSamplePlan).1 = Status.OK ∧
    IsPermutation (init_spreader_nupts_driven sampleEnv swapTwo (fun i => i)
      gpuSamplePlan).2.idxnupts gpuSamplePlan.num_points_ :=
  have h := device_bin_sort_rank2 sampleEnv swapTwo (fun i => i) (fun i => i) (fun _ => 0)
    gpuSamplePlan rfl rfl (by decide) (by decide) (by decide) (by decide) (by decide) (by decide)
    (fun i i0 i1 => RESCALE_range sampleEnv _ 4 (sampleCoords_range i i0 i1).1
      (sampleCoords_range i i0 i1).2)
    (fun i i0 i1 => RESCALE_range sampleEnv _ 4 (sampleCoords_range i i0 i1).1
      (sampleCoords_range i i0 i1).2)
    swapTwo_isPermutation (isPermutation_of_identity _ 2 (fun _ _ _ => rfl))
  ⟨rfl, swapTwo_isPermutation, h.1, h.2.1⟩

/-- The device `init_spreader_nupts_driven` without sorting returns `OK`, whatever
the bin sizes. -/
theorem init_spreader_nupts_driven_unsorted (env : FloatEnv) (order1 order2 : ℤ → ℤ)
    (P : GpuPlan) (hsort : P.spread_params_.sort_points ≠ SortPoints.YES) :
    init_spreader_nupts_driven env order1 order2 P =
      (Status.OK, { P with idxnupts := TrivialGlobalSortIdxKernel P.num_points_ P.idxnupts }) := by
  unfold init_spreader_nupts_driven
  rw [if_neg hsort]

/-- Claim C29, as the code has it: when one of the three configured bin sizes is
negative, the device `init_spreader` returns the InvalidArgument error "Invalid
bin size: (x, y, z)" for the subproblem method, and for the point-driven method
when the points are sorted (`sort_points` is YES); for the point-driven method
without sorting the bin sizes are not read and the result is `OK`. -/
theorem init_spreader_negative_bin_size (env : FloatEnv) (order1 order2 order3 fresh : ℤ → ℤ)
    (P : GpuPlan)
    (hneg : P.options_.gpu_bin_size.x < 0 ∨ P.options_.gpu_bin_size.y < 0 ∨
      P.options_.gpu_bin_size.z < 0) :
    (P.options_.spread_method = SpreadMethod.SUBPROBLEM →
      init_spreader env order1 order2 order3 fresh P =
        (Status.InvalidArgument
          ("Invalid bin size: (" ++ toString P.options_.gpu_bin_size.x ++ ", " ++
            toString P.options_.gpu_bin_size.y ++ ", " ++
            toString P.options_.gpu_bin_size.z ++ ")"), P)) ∧
    (P.options_.spread_method = SpreadMethod.NUPTS_DRIVEN →
      P.spread_params_.sort_points = SortPoints.YES →
      init_spreader env order1 order2 order3 fresh P =
        (Status.InvalidArgument
          ("Invalid bin size: (" ++ toString P.options_.gpu_bin_size.x ++ ", " ++
            toString P.options_.gpu_bin_size.y ++ ", " ++
            toString P.options_.gpu_bin_size.z ++ ")"), P)) ∧
    (P.options_.spread_method = SpreadMethod.NUPTS_DRIVEN →
      P.spread_params_.sort_points ≠ SortPoints.YES →
      (init_spreader env order1 order2 order3 fresh P).1 = Status.OK) := by
  have e0 : gpu_bin_size_array P.options_ 0 = P.options_.gpu_bin_size.x := rfl
  have e1 : gpu_bin_size_array P.options_ 1 = P.options_.gpu_bin_size.y := rfl
  have e2 : gpu_bin_size_array P.options_ 2 = P.options_.gpu_bin_size.z := rfl
  have hneg' : gpu_bin_size_array P.options_ 0 < 0 ∨ gpu_bin_size_array P.options_ 1 < 0 ∨
      gpu_bin_size_array P.options_ 2 < 0 := by
    rw [e0, e1, e2]
    exact hneg
  refine ⟨fun hm => ?_, fun hm hs => ?_, fun hm hs => ?_⟩
  · unfold init_spreader
    rw [hm]
    dsimp only
    unfold init_spreader_subproblem
    dsimp only
    rw [if_pos hneg']
    rfl
  · unfold init_spreader
    rw [hm]
    dsimp only
    unfold init_spreader_nupts_driven
    rw [if_pos hs]
    dsimp only
    rw [if_pos hneg']
    rfl
  · unfold init_spreader
    rw [hm]
    dsimp only
    rw [init_spreader_nupts_driven_unsorted env order1 order2 P hs]

/-- Claim C29, witness: the sample plan with the bin size `x` set to `-1`, for the
subproblem method. -/
theorem init_spreader_negative_bin_size_witness :
    ((-1 : ℤ) < 0) ∧
    init_spreader sampleEnv (fun i => i) (fun i => i) (fun i => i) (fun _ => 0)
        { gpuSamplePlan with
          options_ :=
            { spread_method := SpreadMethod.SUBPROBLEM
              gpu_bin_size := { x := -1, y := 2, z := 1 }
              gpu_max_subproblem_size := 1024 } } =
      (Status.InvalidArgument
        ("Invalid bin size: (" ++ toString (-1 : ℤ) ++ ", " ++ toString (2 : ℤ) ++ ", " ++
          toString (1 : ℤ) ++ ")"),
        { gpuSamplePlan with
          options_ :=
            { spread_method := SpreadMethod.SUBPROBLEM
              gpu_bin_size := { x := -1, y := 2, z := 1 }
              gpu_max_subproblem_size := 1024 } }) :=
  ⟨by decide,
   (init_spreader_negative_bin_size sampleEnv (fun i => i) (fun i => i) (fun i => i)
      (fun _ => 0)
      { gpuSamplePlan with
        options_ :=
          { spread_method := SpreadMethod.SUBPROBLEM
            gpu_bin_size := { x := -1, y := 2, z := 1 }
            gpu_max_subproblem_size := 1024 } }
      (Or.inl (by decide))).1 rfl⟩

/-- Claim C29, counterexample to the wording of the specification: for the
point-driven method without sorting, `init_spreader` returns `OK` although the
configured bin size `x` is `-1`. -/
theorem init_spreader_unsorted_ignores_bin_size :
    unsortedPlan.options_.spread_method = SpreadMethod.NUPTS_DRIVEN ∧
    unsortedPlan.options_.gpu_bin_size.x < 0 ∧
    (init_spreader sampleEnv (fun i => i) (fun i => i) (fun i => i) (fun _ => 0)
      unsortedPlan).1 = Status.OK := by
  refine ⟨rfl, by decide, ?_⟩
  unfold init_spreader
  have hm : unsortedPlan.options_.spread_method = SpreadMethod.NUPTS_DRIVEN := rfl
  rw [hm]
  dsimp only
  rw [init_spreader_nupts_driven_unsorted sampleEnv _ _ unsortedPlan (by decide)]

/-! ## The device subproblems -/

/-- The kernel `CalcSubproblemKernel`, in closed form. -/
theorem CalcSubproblemKernel_eq (bin_size num_subprob : ℤ → ℤ) (m B : ℤ) (hB : 0 ≤ B) :
    ∀ i, 0 ≤ i → i < B →
      CalcSubproblemKernel bin_size num_subprob m B i = ⌈(bin_size i : ℚ) / (m : ℚ)⌉ := by
  unfold CalcSubproblemKernel
  refine forRange_induct
    (fun K (st : ℤ → ℤ) => ∀ i, 0 ≤ i → i < K → st i = ⌈(bin_size i : ℚ) / (m : ℚ)⌉)
    0 B _ num_subprob hB (by intro i h h'; omega) ?_
  intro K st hK0 hK1 ih i i0 i1
  beta_reduce
  by_cases h : i = K
  · rw [h, Function.update_same]
  · rw [Function.update_noteq h]
    exact ih i i0 (by omega)

/-- The inclusive prefix sum, in closed form. -/
theorem inclusive_scan_eq (a : ℤ → ℤ) (n : ℤ) (hn : 0 ≤ n) (result : ℤ → ℤ) (off : ℤ) :
    ∀ i, 0 ≤ i → i < n → inclusive_scan a n result off (off + i) = prefixSum a (i + 1) := by
  unfold inclusive_scan
  have key := forRange_induct
    (fun K (st : (ℤ → ℤ) × ℤ) =>
      st.2 = prefixSum a K ∧ ∀ i, 0 ≤ i → i < K → st.1 (off + i) = prefixSum a (i + 1))
    0 n (fun i (st : (ℤ → ℤ) × ℤ) => (Function.update st.1 (off + i) (st.2 + a i), st.2 + a i))
    (result, 0) hn ?_ ?_
  · exact key.2
  · refine ⟨?_, fun i h0 h1 => ?_⟩
    · simp [prefixSum]
    · omega
  · intro K st hK0 hK1 ih
    obtain ⟨ih1, ih2⟩ := ih
    have hsum : prefixSum a (K + 1) = prefixSum a K + a K := by
      unfold prefixSum
      have : (K + 1).toNat = K.toNat + 1 := by omega
      rw [this, Finset.sum_range_succ]
      have hK : ((K.toNat : ℕ) : ℤ) = K := by omega
      rw [hK]
    refine ⟨?_, fun i h0 h1 => ?_⟩
    · dsimp only
      rw [ih1, hsum]
    · dsimp only
      by_cases hi : i = K
      · rw [hi, Function.update_same, ih1, hsum]
      · have hne : off + i ≠ off + K := by omega
        rw [Function.update_noteq hne]
        exact ih2 i h0 (by omega)

/-- One more term of a prefix sum. -/
theorem prefixSum_succ (a : ℤ → ℤ) (K : ℤ) (hK : 0 ≤ K) :
    prefixSum a (K + 1) = prefixSum a K + a K := by
  unfold prefixSum
  have : (K + 1).toNat = K.toNat + 1 := by omega
  rw [this, Finset.sum_range_succ]
  have hK : ((K.toNat : ℕ) : ℤ) = K := by omega
  rw [hK]

/-- The kernel `MapBinToSubproblemKernel`, run over the bins in any order: the
subproblems `S i, ..., S i + num i - 1` are mapped to bin `i`. -/
theorem map_bin_loop (order S num fresh : ℤ → ℤ) (B : ℤ) (hB : 0 ≤ B)
    (ho : IsPermutation order B) (hnum : ∀ i, 0 ≤ i → i < B → 0 ≤ num i)
    (hS : ∀ i, 0 ≤ i → i < B → S (i + 1) = S i + num i) :
    ∀ i, 0 ≤ i → i < B → ∀ j, 0 ≤ j → j < num i →
      MapBinToSubproblemKernel order fresh S num B (S i + j) = i := by
  have hmono := mono_of_step S 0 B (fun p p0 p1 => by
    have := hS p p0 p1
    have := hnum p p0 p1
    omega)
  have inj := isPermutation_inj order B ho
  have key : ∀ k, 0 ≤ k → k < B → ∀ j, 0 ≤ j → j < num (order k) →
      MapBinToSubproblemKernel order fresh S num B (S (order k) + j) = order k := by
    unfold MapBinToSubproblemKernel
    have key := forRange_induct
      (fun K (st : ℤ → ℤ) =>
        (∀ k, 0 ≤ k → k < K → ∀ j, 0 ≤ j → j < num (order k) →
          st (S (order k) + j) = order k) ∧ K ≤ B)
      0 B
      (fun k (d_subprob_to_bin : ℤ → ℤ) =>
        forRange 0 (num (order k))
          (fun j (d_subprob_to_bin : ℤ → ℤ) =>
            Function.update d_subprob_to_bin (S (order k) + j) (order k))
          d_subprob_to_bin)
      fresh hB ?_ ?_
    · exact key.1
    · exact ⟨fun k h0 h1 => by omega, hB⟩
    · intro K st hK0 hK1 ih
      obtain ⟨ih1, _⟩ := ih
      refine ⟨fun k k0 k1 j j0 j1 => ?_, by omega⟩
      have hfill := forRange_fill_any 0 (num (order K)) (S (order K)) (fun _ => order K) st
      beta_reduce at hfill
      beta_reduce
      rw [hfill]
      beta_reduce
      by_cases hk : k = K
      · rw [hk] at j1 ⊢
        rw [if_pos (by constructor <;> omega)]
      · have hne : order k ≠ order K := fun h => hk (inj k K k0 (by omega) hK0 hK1 h)
        have ok := ho.1 k k0 (by omega)
        have oK := ho.1 K hK0 hK1
        have s1 := hS (order k) ok.1 ok.2
        have s2 := hS (order K) oK.1 oK.2
        have hdis : ¬ (0 ≤ S (order k) + j - S (order K) ∧
            S (order k) + j - S (order K) < num (order K)) := by
          rcases lt_or_gt_of_ne hne with hlt | hgt
          · have := hmono (order k + 1) (order K) (by omega) (by omega) (by omega)
            omega
          · have := hmono (order K + 1) (order k) (by omega) (by omega) (by omega)
            omega
        rw [if_neg hdis]
        exact ih1 k k0 (by omega) j j0 j1
  intro i i0 i1 j j0 j1
  obtain ⟨k, ⟨⟨k0, k1⟩, hk⟩, _⟩ := ho.2 i i0 i1
  rw [← hk] at j1 ⊢
  exact key k k0 k1 j j0 j1

/-- Claim C28: in `init_spreader_subproblem`, for all bin counts `count_i ≥ 0` and
every maximum subproblem size `m ≥ 1`, in exact arithmetic and with the bins
handled in any order by the mapping kernel: bin `i` gets `ceil(count_i / m)`
subproblems; `subprobstartpts[0] = 0` and `subprobstartpts[i+1]` is the sum of the
subproblem counts of the bins `0..i`; `totalnumsubprob` is the sum over all bins;
`subprob_to_bin[s] = i` exactly for the `s` with
`subprobstartpts[i] ≤ s < subprobstartpts[i+1]`; so every subproblem index of
`[0, totalnumsubprob)` is mapped to one bin of `[0, bin_count)`. -/
theorem init_subproblems_spec (order3 d_binsize d_numsubprob d_subprobstartpts fresh : ℤ → ℤ)
    (m B : ℤ) (hm : 1 ≤ m) (hB : 0 ≤ B)
    (hcnt : ∀ i, 0 ≤ i → i < B → 0 ≤ d_binsize i) (ho : IsPermutation order3 B) :
    (∀ i, 0 ≤ i → i < B →
      (init_subproblems order3 d_binsize d_numsubprob d_subprobstartpts fresh m B).1 i =
        ⌈(d_binsize i : ℚ) / (m : ℚ)⌉) ∧
    (init_subproblems order3 d_binsize d_numsubprob d_subprobstartpts fresh m B).2.1 0 = 0 ∧
    (∀ i, 0 ≤ i → i < B →
      (init_subproblems order3 d_binsize d_numsubprob d_subprobstartpts fresh m B).2.1 (i + 1) =
        prefixSum
          (init_subproblems order3 d_binsize d_numsubprob d_subprobstartpts fresh m B).1
          (i + 1)) ∧
    (init_subproblems order3 d_binsize d_numsubprob d_subprobstartpts fresh m B).2.2.1 =
      prefixSum (init_subproblems order3 d_binsize d_numsubprob d_subprobstartpts fresh m B).1
        B ∧
    (∀ s, 0 ≤ s →
      s < (init_subproblems order3 d_binsize d_numsubprob d_subprobstartpts fresh m B).2.2.1 →
      (0 ≤ (init_subproblems order3 d_binsize d_numsubprob d_subprobstartpts fresh m B).2.2.2 s ∧
        (init_subproblems order3 d_binsize d_numsubprob d_subprobstartpts fresh m B).2.2.2 s <
          B) ∧
      ∀ i, 0 ≤ i → i < B →
        ((init_subproblems order3 d_binsize d_numsubprob d_subprobstartpts fresh m B).2.2.2 s =
            i ↔
          (init_subproblems order3 d_binsize d_numsubprob d_subprobstartpts fresh m B).2.1 i ≤
              s ∧
            s < (init_subproblems order3 d_binsize d_numsubprob d_subprobstartpts fresh m
              B).2.1 (i + 1))) := by
  unfold init_subproblems
  dsimp only
  have hnumeq := CalcSubproblemKernel_eq d_binsize d_numsubprob m B hB
  generalize CalcSubproblemKernel d_binsize d_numsubprob m B = num at hnumeq ⊢
  have hm' : (0 : ℚ) < (m : ℚ) := by exact_mod_cast (by omega : (0 : ℤ) < m)
  have hnum : ∀ i, 0 ≤ i → i < B → 0 ≤ num i := by
    intro i i0 i1
    rw [hnumeq i i0 i1]
    apply Int.ceil_nonneg
    exact div_nonneg (by exact_mod_cast hcnt i i0 i1) (le_of_lt hm')
  have hscan := inclusive_scan_eq num B hB d_subprobstartpts 1
  generalize inclusive_scan num B d_subprobstartpts 1 = sc at hscan ⊢
  -- the start offsets
  have hS0 : memset_zero sc 1 0 = 0 := by
    unfold memset_zero
    rw [if_pos (by omega)]
  have hS1 : ∀ i, 0 ≤ i → i < B → memset_zero sc 1 (i + 1) = prefixSum num (i + 1) := by
    intro i i0 i1
    unfold memset_zero
    rw [if_neg (by omega), add_comm i 1, hscan i i0 i1, add_comm 1 i]
  have hSall : ∀ i, 0 ≤ i → i ≤ B → memset_zero sc 1 i = prefixSum num i := by
    intro i i0 i1
    by_cases hi : i = 0
    · rw [hi, hS0]
      simp [prefixSum]
    · have := hS1 (i - 1) (by omega) (by omega)
      rw [sub_add_cancel] at this
      exact this
  generalize memset_zero sc 1 = S at hS0 hS1 hSall ⊢
  have hstep : ∀ i, 0 ≤ i → i < B → S (i + 1) = S i + num i := by
    intro i i0 i1
    rw [hS1 i i0 i1, hSall i i0 (by omega), prefixSum_succ num i i0]
  have hmap := map_bin_loop order3 S num fresh B hB ho hnum hstep
  generalize MapBinToSubproblemKernel order3 fresh S num B = stb at hmap ⊢
  refine ⟨hnumeq, hS0, hS1, hSall B hB (le_refl _), ?_⟩
  intro s s0 s1
  obtain ⟨p, ⟨p0, p1, hp0, hp1⟩, huniq⟩ := slices_partition S B (S B) hB hS0 rfl
    (fun q q0 q1 => by
      have := hstep q q0 q1
      have := hnum q q0 q1
      omega) s s0 s1
  have hsp : stb s = p := by
    have := hmap p p0 p1 (s - S p) (by omega) (by
      have := hstep p p0 p1
      omega)
    rw [add_sub_cancel] at this
    exact this
  refine ⟨by rw [hsp]; exact ⟨p0, p1⟩, ?_⟩
  intro i i0 i1
  constructor
  · intro h
    have : i = p := by rw [← h, hsp]
    rw [this]
    exact ⟨hp0, hp1⟩
  · rintro ⟨h1, h2⟩
    rw [hsp]
    exact (huniq i ⟨i0, i1, h1, h2⟩).symm

/-- Claim C28, witness: three bins with the counts 0, 5, 10 and subproblems of at
most 4 points, the bins handled in ascending order. -/
theorem init_subproblems_spec_witness :
    ((1 : ℤ) ≤ 4) ∧
    (init_subproblems (fun i => i) sampleCounts (fun _ => 0) (fun _ => 0) (fun _ => 0) 4
      3).2.1 0 = 0 ∧
    (init_subproblems (fun i => i) sampleCounts (fun _ => 0) (fun _ => 0) (fun _ => 0) 4
      3).2.2.1 =
      prefixSum (init_subproblems (fun i => i) sampleCounts (fun _ => 0) (fun _ => 0)
        (fun _ => 0) 4 3).1 3 :=
  have h := init_subproblems_spec (fun i => i) sampleCounts (fun _ => 0) (fun _ => 0)
    (fun _ => 0) 4 3 (by decide) (by decide)
    (fun i i0 _ => by unfold sampleCounts; omega)
    (isPermutation_of_identity _ 3 (fun _ _ _ => rfl))
  ⟨by decide, h.2.1, h.2.2.2.1⟩

/-! ## Kernel shift, equal sorts, non-empty subproblems, deconvolution round trip -/

/-- The loop of `set_kernel_args`, entry by entry. -/
theorem set_kernel_args_eq (args : ℤ → ℚ) (x : ℚ) (opts : SpreadParameters) (dx : ℤ)
    (h0 : 0 ≤ dx) (h1 : dx < opts.kernel_width) :
    set_kernel_args args x opts dx = x + (dx : ℚ) := by
  unfold set_kernel_args
  have key := forRange_induct
    (fun K (st : ℤ → ℚ) => ∀ d, 0 ≤ d → d < K → st d = x + (d : ℚ))
    0 opts.kernel_width
    (fun i (args : ℤ → ℚ) => Function.update args i (x + (i : ℚ))) args (by omega)
    (by intro d h h'; omega) ?_
  · exact key dx h0 h1
  · intro K st hK0 hK1 ih d d0 d1
    beta_reduce
    by_cases h : d = K
    · rw [h, Function.update_same]
    · rw [Function.update_noteq h]
      exact ih d d0 (by omega)

/-- C31: in exact arithmetic, for every coordinate `x` and kernel width `ns`, the
leftmost cell `i1 = ceil(x - ns/2)` gives a kernel shift `x1 = i1 - x` with
`-ns/2 ≤ x1 < -ns/2 + 1`; the clipping of `x1` in `spread_subproblem_1d` never
changes it, so that function is the one that evaluates the kernel at the
unclipped shift; and the `ns` kernel arguments `x1 + dx`, `0 ≤ dx < ns`, written
by `set_kernel_args` lie in `[-ns/2, ns/2)`. -/
theorem kernel_shift_range (K : ℚ → ℚ) (x : ℚ) (opts : SpreadParameters) (args : ℤ → ℚ)
    (off1 size1 M : ℤ) (du kx dd : ℤ → ℚ) :
    (-((opts.kernel_width : ℚ) / 2) ≤ ((⌈x - (opts.kernel_width : ℚ) / 2⌉ : ℤ) : ℚ) - x ∧
      ((⌈x - (opts.kernel_width : ℚ) / 2⌉ : ℤ) : ℚ) - x < -((opts.kernel_width : ℚ) / 2) + 1) ∧
    (∀ dx, 0 ≤ dx → dx < opts.kernel_width →
      -((opts.kernel_width : ℚ) / 2) ≤
          set_kernel_args args (((⌈x - (opts.kernel_width : ℚ) / 2⌉ : ℤ) : ℚ) - x) opts dx ∧
        set_kernel_args args (((⌈x - (opts.kernel_width : ℚ) / 2⌉ : ℤ) : ℚ) - x) opts dx <
          (opts.kernel_width : ℚ) / 2) ∧
    spread_subproblem_1d K off1 size1 du M kx dd opts =
      forRange 0 M
        (fun i (du : ℤ → ℚ) =>
          (forRange 0 opts.kernel_width
            (spreadStep (dd (2 * i)) (dd (2 * i + 1))
              (kernel_values K
                (((⌈kx i - (opts.kernel_width : ℚ) / 2⌉ : ℤ) : ℚ) - kx i)))
            (du, ⌈kx i - (opts.kernel_width : ℚ) / 2⌉ - off1)).1)
        (forRange 0 (2 * size1) (fun i (a : ℤ → ℚ) => Function.update a i 0) du) := by
  have hlo := Int.le_ceil (x - (opts.kernel_width : ℚ) / 2)
  have hhi := Int.ceil_lt_add_one (x - (opts.kernel_width : ℚ) / 2)
  refine ⟨⟨by linarith, by linarith⟩, ?_, ?_⟩
  · intro dx h0 h1
    rw [set_kernel_args_eq args _ opts dx h0 h1]
    have d0 : (0 : ℚ) ≤ (dx : ℚ) := by exact_mod_cast h0
    have d1 : (dx : ℚ) + 1 ≤ (opts.kernel_width : ℚ) := by exact_mod_cast (by omega : dx + 1 ≤ opts.kernel_width)
    constructor <;> linarith
  · unfold spread_subproblem_1d
    dsimp only
    apply forRange_congr
    intro i st _ _
    beta_reduce
    rw [clip_noop]

/-- The single-thread bin sort inverts the slots of the stable bin sort. -/
theorem bin_sort_single_core_slots (bin : ℤ → ℤ) (B M : ℤ) (hB : 1 ≤ B) (hM : 0 ≤ M)
    (hbin : ∀ j, 0 ≤ j → j < M → 0 ≤ bin j ∧ bin j < B) (ret : ℤ → ℤ) :
    bin_sort_single_core bin B M ret = invert_map (sortSlot bin M) M ret := by
  unfold bin_sort_single_core
  dsimp only
  apply invert_map_congr
  intro i h0 h1
  refine fill_inverse_loop bin B M hM hbin _ _ ?_ i h0 h1
  refine bin_offsets_eq bin M B hB _ ?_
  intro b _ _
  rw [count_loop bin M hM]

/-- The multi-thread bin sort inverts the slots of the stable bin sort. -/
theorem bin_sort_multi_core_slots (bin : ℤ → ℤ) (B M nt0 : ℤ) (hB : 1 ≤ B) (hM : 1 ≤ M)
    (hnt : 1 ≤ nt0) (hbin : ∀ j, 0 ≤ j → j < M → 0 ≤ bin j ∧ bin j < B) (ret : ℤ → ℤ) :
    bin_sort_multi_core bin B M nt0 ret = invert_map (sortSlot bin M) M ret := by
  rw [bin_sort_multi_core_eq]
  apply invert_map_congr
  exact (multithread_closed_forms bin B M nt0 hB hM hnt hbin).2.2

/-- C33: for every point set with `num_points ≥ 1` whose coordinates lie in the
grid, and every `num_threads ≥ 1`, with each thread processing its contiguous
slice in ascending index order, `bin_sort_multithread` writes exactly the same
array as `bin_sort_singlethread` on the same input. -/
theorem bin_sort_multithread_eq_singlethread (ret : ℤ → ℤ) (num_points : ℤ)
    (kx ky kz : ℤ → ℚ) (n1 n2 n3 : ℤ) (bin_size_x bin_size_y bin_size_z : ℚ) (num_threads : ℤ)
    (hbx : 0 < bin_size_x) (hby : 0 < bin_size_y) (hbz : 0 < bin_size_z)
    (hn1 : 1 ≤ n1) (hM : 1 ≤ num_points) (hnt : 1 ≤ num_threads)
    (hx : ∀ i, 0 ≤ i → i < num_points → 0 ≤ kx i ∧ kx i ≤ (n1 : ℚ))
    (hy : n2 > 1 → ∀ i, 0 ≤ i → i < num_points → 0 ≤ ky i ∧ ky i ≤ (n2 : ℚ))
    (hz : n3 > 1 → ∀ i, 0 ≤ i → i < num_points → 0 ≤ kz i ∧ kz i ≤ (n3 : ℚ)) :
    bin_sort_multithread ret num_points kx ky kz n1 n2 n3 bin_size_x bin_size_y bin_size_z
        num_threads =
      bin_sort_singlethread ret num_points kx ky kz n1 n2 n3 bin_size_x bin_size_y
        bin_size_z := by
  obtain ⟨hB, hbin⟩ := bin_index_range kx ky kz n1 n2 n3 bin_size_x bin_size_y bin_size_z
    num_points hbx hby hbz hn1 hx hy hz
  unfold bin_sort_multithread bin_sort_singlethread
  dsimp only
  rw [bin_sort_multi_core_slots _ _ _ _ hB hM hnt hbin,
    bin_sort_single_core_slots _ _ _ hB (by omega) hbin]

/-- C33, witness: three points on a grid of 40 cells, sorted by two threads. -/
theorem bin_sort_multithread_eq_singlethread_witness :
    (∀ i : ℤ, 0 ≤ i → i < 3 → 0 ≤ sortCoords i ∧ sortCoords i ≤ ((40 : ℤ) : ℚ)) ∧
    bin_sort_multithread (fun _ => 0) 3 sortCoords sortCoords sortCoords 40 1 1 16 4 4 2 =
      bin_sort_singlethread (fun _ => 0) 3 sortCoords sortCoords sortCoords 40 1 1 16 4 4 :=
  ⟨sortCoords_range,
    bin_sort_multithread_eq_singlethread (fun _ => 0) 3 sortCoords sortCoords sortCoords 40 1 1
      16 4 4 2 (by norm_num) (by norm_num) (by norm_num) (by decide) (by decide) (by decide)
      sortCoords_range (fun h => absurd h (by decide)) (fun h => absurd h (by decide))⟩

/-- C36: for every `M ≥ 1`, thread count `nthr ≥ 1` and `max_subproblem_size ≥ 1`,
the number `nb` of subproblems chosen by `spreadSorted` satisfies `1 ≤ nb ≤ M`,
and every subproblem is non-empty: `brk[p+1] - brk[p] ≥ 1` for every `p` of
`[0, nb)`, which is the number of points passed to `get_subgrid`. -/
theorem spread_subproblems_nonempty (nthr N M : ℤ) (opts : SpreadParameters)
    (did_sort : Bool) (hthr : 1 ≤ nthr) (hM : 1 ≤ M) (hmax : 1 ≤ opts.max_subproblem_size) :
    1 ≤ spread_num_subproblems nthr N M opts did_sort ∧
    spread_num_subproblems nthr N M opts did_sort ≤ M ∧
    ∀ p, 0 ≤ p → p < spread_num_subproblems nthr N M opts did_sort →
      fill_brk M (spread_num_subproblems nthr N M opts did_sort) (p + 1) -
        fill_brk M (spread_num_subproblems nthr N M opts did_sort) p ≥ 1 := by
  obtain ⟨h1, h2⟩ := spread_num_subproblems_range nthr N M opts did_sort hthr hM hmax
  refine ⟨h1, h2, ?_⟩
  intro p p0 p1
  have := fill_brk_strict M _ h1 h2 p p0 p1
  omega

/-- C36, witness: five points, two threads, subproblems of at most two points. -/
theorem spread_subproblems_nonempty_witness :
    (1 : ℤ) ≤ cappedOpts.max_subproblem_size ∧
    1 ≤ spread_num_subproblems 2 4 5 cappedOpts true ∧
    spread_num_subproblems 2 4 5 cappedOpts true ≤ 5 :=
  have h := spread_subproblems_nonempty 2 4 5 cappedOpts true (by decide) (by decide)
    (by decide)
  ⟨by decide, h.1, h.2.1⟩

/-- C38: on a plan with `0 ≤ ms ≤ nf` and non-zero coefficients, in both mode
orders, backward `deconvolve_1d` with prefactor `p` followed by forward
`deconvolve_1d` with prefactor `q` returns at every index `i` of `[0, ms)` the
value `p * q * fk[i] / fseries[|k(i)|]^2` (real and imaginary part), where
`k(i)` is the mode stored at position `i`. -/
theorem deconvolve_1d_backward_forward (P : Plan)
    (hms : 0 ≤ P.grid_dims_ 0) (hnf : P.grid_dims_ 0 ≤ P.fine_dims_ 0)
    (hc : ∀ k, 0 ≤ k → k ≤ P.grid_dims_ 0 / 2 → P.fseries_data_ 0 k ≠ 0)
    (fk fw out : ℤ → DType) (p q : ℚ) (i : ℤ) (h0 : 0 ≤ i) (h1 : i < P.grid_dims_ 0) :
    ((deconvolve_1d { P with spread_direction := SpreadDirection.SPREAD } out
      (deconvolve_1d { P with spread_direction := SpreadDirection.INTERP } fk fw 0 0 p).2
      0 0 q).1 i).re =
      p * q * (fk i).re / (P.fseries_data_ 0 |modeAt P.mode_order (P.grid_dims_ 0) i|) ^ 2 ∧
    ((deconvolve_1d { P with spread_direction := SpreadDirection.SPREAD } out
      (deconvolve_1d { P with spread_direction := SpreadDirection.INTERP } fk fw 0 0 p).2
      0 0 q).1 i).im =
      p * q * (fk i).im / (P.fseries_data_ 0 |modeAt P.mode_order (P.grid_dims_ 0) i|) ^ 2 := by
  obtain ⟨a, b, c⟩ := modePos_modeAt P.mode_order (P.grid_dims_ 0) i h0 h1
  have hf := deconvolve_1d_spread_at { P with spread_direction := SpreadDirection.SPREAD }
    rfl hms hnf out
    (deconvolve_1d { P with spread_direction := SpreadDirection.INTERP } fk fw 0 0 p).2
    q i h0 h1
  have hb := (deconvolve_1d_interp_modes { P with spread_direction := SpreadDirection.INTERP }
    rfl hms hnf fk fw p).1 _ a b
  simp only at hf hb
  rw [c] at hb
  rw [hb] at hf
  have hne : P.fseries_data_ 0 |modeAt P.mode_order (P.grid_dims_ 0) i| ≠ 0 := by
    apply hc _ (abs_nonneg _)
    rw [abs_le]
    constructor <;> omega
  rw [hf]
  simp only [deconvVal, DType.scale, DType.divReal]
  constructor
  · field_simp
    ring
  · field_simp
    ring

/-- C38, witness: the four-mode plan in CMCL order, position 3, prefactors 1
and 4. -/
theorem deconvolve_1d_backward_forward_witness :
    (planFourModes ModeOrder.CMCL SpreadDirection.SPREAD).grid_dims_ 0 ≤
      (planFourModes ModeOrder.CMCL SpreadDirection.SPREAD).fine_dims_ 0 ∧
    ((deconvolve_1d { planFourModes ModeOrder.CMCL SpreadDirection.SPREAD with
        spread_direction := SpreadDirection.SPREAD } sampleArray
      (deconvolve_1d { planFourModes ModeOrder.CMCL SpreadDirection.SPREAD with
        spread_direction := SpreadDirection.INTERP } sampleArray sampleArray 0 0 1).2
      0 0 4).1 3).im =
      1 * 4 * (sampleArray 3).im /
        ((planFourModes ModeOrder.CMCL SpreadDirection.SPREAD).fseries_data_ 0
          |modeAt (planFourModes ModeOrder.CMCL SpreadDirection.SPREAD).mode_order
            ((planFourModes ModeOrder.CMCL SpreadDirection.SPREAD).grid_dims_ 0) 3|) ^ 2 :=
  ⟨by decide,
    (deconvolve_1d_backward_forward (planFourModes ModeOrder.CMCL SpreadDirection.SPREAD)
      (by decide) (by decide) (fun k k0 _ => by
        have : (0 : ℚ) ≤ (k : ℚ) := by exact_mod_cast k0
        simp only [planFourModes]
        linarith)
      sampleArray sampleArray sampleArray 1 4 3 (by decide) (by decide)).2⟩

/-! ## Index safety of the deconvolver -/

/-! ## Spreading is the transpose of interpolation -/

theorem sumRange_comm (n m : ℤ) (f : ℤ → ℤ → ℚ) :
    sumRange n (fun a => sumRange m (fun b => f a b)) =
      sumRange m (fun b => sumRange n (fun a => f a b)) := by
  unfold sumRange
  exact Finset.sum_comm

theorem sumRange_mul_right (n : ℤ) (f : ℤ → ℚ) (c : ℚ) :
    sumRange n f * c = sumRange n (fun a => f a * c) := by
  unfold sumRange
  exact Finset.sum_mul _ _ _

theorem sumRange_mul_left (n : ℤ) (f : ℤ → ℚ) (c : ℚ) :
    c * sumRange n f = sumRange n (fun a => c * f a) := by
  unfold sumRange
  exact Finset.mul_sum _ _ _

theorem sumRange_sub (n : ℤ) (f g : ℤ → ℚ) :
    sumRange n (fun d => f d - g d) = sumRange n f - sumRange n g := by
  unfold sumRange
  exact Finset.sum_sub_distrib

/-- The pairing of the rank-1 spreading sum with a grid is the pairing of the
weights with the rank-1 interpolation sum of that grid. -/
theorem spreadRef_transpose (K : ℚ → ℚ) (N1 ns M : ℤ) (hN : 1 ≤ N1) (kx w G : ℤ → ℚ)
    (scale : ℚ) (c c' : ℤ) :
    sumRange N1 (fun g => scale * spreadRef K N1 ns M kx w g c * G (2 * g + c')) =
      sumRange M (fun j => w (2 * j + c) * interpRef K G N1 ns scale (kx j) c') := by
  have hcell : ∀ j dx : ℤ, 0 ≤ (⌈kx j - (ns : ℚ) / 2⌉ + dx) % N1 ∧
      (⌈kx j - (ns : ℚ) / 2⌉ + dx) % N1 < N1 := fun j dx =>
    ⟨Int.emod_nonneg _ (by omega), Int.emod_lt_of_pos _ (by omega)⟩
  -- the left side as a triple sum
  have hL : ∀ g : ℤ, scale * spreadRef K N1 ns M kx w g c * G (2 * g + c') =
      sumRange M (fun j => sumRange ns (fun dx =>
        if (⌈kx j - (ns : ℚ) / 2⌉ + dx) % N1 = g then
          scale * (w (2 * j + c) *
            K (((⌈kx j - (ns : ℚ) / 2⌉ : ℤ) : ℚ) - kx j + (dx : ℚ))) * G (2 * g + c')
        else 0)) := by
    intro g
    unfold spreadRef pointTerm
    rw [sumRange_mul_left, sumRange_mul_right]
    apply sumRange_congr
    intro j _ _
    beta_reduce
    rw [sumRange_mul_left, sumRange_mul_right]
    apply sumRange_congr
    intro dx _ _
    beta_reduce
    split_ifs
    · rfl
    · ring
  rw [sumRange_congr N1 _ _ (fun g _ _ => hL g), sumRange_comm]
  apply sumRange_congr
  intro j _ _
  beta_reduce
  rw [sumRange_comm]
  unfold interpRef
  rw [sumRange_mul_left, sumRange_mul_left]
  apply sumRange_congr
  intro dx _ _
  beta_reduce
  rw [sumRange_single N1 _ ((⌈kx j - (ns : ℚ) / 2⌉ + dx) % N1) (hcell j dx).1 (hcell j dx).2]
  · rw [if_pos rfl]
    ring
  · intro g _ _ hne
    beta_reduce
    rw [if_neg (Ne.symm hne)]

/-- C37: in rank 1 and exact arithmetic, with the same points, kernel and
spread-only setting, spreading is the transpose of interpolation: for every
weight vector `c` and every grid `g`, the sum over the grid cells of
`spreadSorted(c)[cell] * g[cell]` equals the sum over the points `j` of
`c[j] * interpSorted(g)[j]`, as complex products without conjugation (real
part, then imaginary part). -/
theorem spread_interp_transpose (K : ℚ → ℚ) (omp_max_threads : ℤ) (s s2 : ℤ → ℤ) (N1 : ℤ)
    (data_uniform : ℤ → ℚ) (M : ℤ) (kx ky kz c : ℤ → ℚ) (g dn : ℤ → ℚ)
    (opts : SpreadParameters) (did_sort did_sort2 : Bool)
    (hN : 1 ≤ N1) (hM : 1 ≤ M) (homp : 1 ≤ omp_max_threads)
    (hmax : 1 ≤ opts.max_subproblem_size) (hs : IsPermutation s M) (hs2 : IsPermutation s2 M)
    (hns0 : 0 ≤ opts.kernel_width) (hns1 : opts.kernel_width ≤ N1)
    (hx : ∀ j, 0 ≤ j → j < M → 0 ≤ kx j ∧ kx j ≤ (N1 : ℚ)) :
    sumRange N1 (fun cell =>
        (spreadSorted K omp_max_threads s N1 1 1 data_uniform M kx ky kz c opts did_sort).2
            (2 * cell) * g (2 * cell) -
          (spreadSorted K omp_max_threads s N1 1 1 data_uniform M kx ky kz c opts did_sort).2
            (2 * cell + 1) * g (2 * cell + 1)) =
      sumRange M (fun j =>
        c (2 * j) * (interpSorted K s2 N1 1 1 g M kx ky kz dn opts did_sort2).2 (2 * j) -
          c (2 * j + 1) *
            (interpSorted K s2 N1 1 1 g M kx ky kz dn opts did_sort2).2 (2 * j + 1)) ∧
    sumRange N1 (fun cell =>
        (spreadSorted K omp_max_threads s N1 1 1 data_uniform M kx ky kz c opts did_sort).2
            (2 * cell) * g (2 * cell + 1) +
          (spreadSorted K omp_max_threads s N1 1 1 data_uniform M kx ky kz c opts did_sort).2
            (2 * cell + 1) * g (2 * cell)) =
      sumRange M (fun j =>
        c (2 * j) * (interpSorted K s2 N1 1 1 g M kx ky kz dn opts did_sort2).2 (2 * j + 1) +
          c (2 * j + 1) *
            (interpSorted K s2 N1 1 1 g M kx ky kz dn opts did_sort2).2 (2 * j)) := by
  have hS : ∀ cell cc, 0 ≤ cell → cell < N1 → 0 ≤ cc → cc ≤ 1 →
      (spreadSorted K omp_max_threads s N1 1 1 data_uniform M kx ky kz c opts did_sort).2
          (2 * cell + cc) =
        scaleOf opts * spreadRef K N1 opts.kernel_width M kx c cell cc :=
    fun cell cc h0 h1 c0 c1 =>
      (spreadSorted_rank1_scaled K omp_max_threads s N1 data_uniform M kx ky kz c opts did_sort
        hM homp hmax hs hns0 hns1 hx cell cc h0 h1 c0 c1).2
  have hI := interpSortedChunked_spec K CHUNK_SIZE s2 N1 1 1 g M kx ky kz dn opts rfl
    (by decide) (by omega) hs2 hx hns0 hns1
  have hI' : ∀ j, 0 ≤ j → j < M →
      (interpSorted K s2 N1 1 1 g M kx ky kz dn opts did_sort2).2 (2 * j) =
        interpRef K g N1 opts.kernel_width (scaleOf opts) (kx j) 0 ∧
      (interpSorted K s2 N1 1 1 g M kx ky kz dn opts did_sort2).2 (2 * j + 1) =
        interpRef K g N1 opts.kernel_width (scaleOf opts) (kx j) 1 := hI.1
  have T := fun a b => spreadRef_transpose K N1 opts.kernel_width M hN kx c g (scaleOf opts) a b
  have e0 : ∀ z : ℤ, 2 * z + 0 = 2 * z := fun z => add_zero _
  constructor
  · rw [sumRange_congr N1 _
      (fun cell =>
        scaleOf opts * spreadRef K N1 opts.kernel_width M kx c cell 0 * g (2 * cell + 0) -
          scaleOf opts * spreadRef K N1 opts.kernel_width M kx c cell 1 * g (2 * cell + 1))
      (fun cell h0 h1 => by
        beta_reduce
        have a := hS cell 0 h0 h1 (by decide) (by decide)
        have b := hS cell 1 h0 h1 (by decide) (by decide)
        rw [e0] at a
        rw [a, b, e0]),
      sumRange_congr M _
      (fun j =>
        c (2 * j + 0) * interpRef K g N1 opts.kernel_width (scaleOf opts) (kx j) 0 -
          c (2 * j + 1) * interpRef K g N1 opts.kernel_width (scaleOf opts) (kx j) 1)
      (fun j h0 h1 => by
        beta_reduce
        rw [(hI' j h0 h1).1, (hI' j h0 h1).2, e0]),
      sumRange_sub, sumRange_sub, T 0 0, T 1 1]
  · rw [sumRange_congr N1 _
      (fun cell =>
        scaleOf opts * spreadRef K N1 opts.kernel_width M kx c cell 0 * g (2 * cell + 1) +
          scaleOf opts * spreadRef K N1 opts.kernel_width M kx c cell 1 * g (2 * cell + 0))
      (fun cell h0 h1 => by
        beta_reduce
        have a := hS cell 0 h0 h1 (by decide) (by decide)
        have b := hS cell 1 h0 h1 (by decide) (by decide)
        rw [e0] at a
        rw [a, b, e0]),
      sumRange_congr M _
      (fun j =>
        c (2 * j + 0) * interpRef K g N1 opts.kernel_width (scaleOf opts) (kx j) 1 +
          c (2 * j + 1) * interpRef K g N1 opts.kernel_width (scaleOf opts) (kx j) 0)
      (fun j h0 h1 => by
        beta_reduce
        rw [(hI' j h0 h1).1, (hI' j h0 h1).2, e0]),
      sumRange_add, sumRange_add, T 0 1, T 1 0]

/-- C37, witness: two points on a grid of four cells, kernel `K = id` of width 2,
spread-only scaling by 3. -/
theorem spread_interp_transpose_witness :
    IsPermutation swapTwo 2 ∧
    (∀ j : ℤ, 0 ≤ j → j < 2 → 0 ≤ sampleCoords j ∧ sampleCoords j ≤ ((4 : ℤ) : ℚ)) ∧
    sumRange 4 (fun cell =>
        (spreadSorted id 2 swapTwo 4 1 1 sampleGrid 2 sampleCoords sampleCoords sampleCoords
            sampleKer sampleOpts true).2 (2 * cell) * sampleGrid (2 * cell) -
          (spreadSorted id 2 swapTwo 4 1 1 sampleGrid 2 sampleCoords sampleCoords sampleCoords
            sampleKer sampleOpts true).2 (2 * cell + 1) * sampleGrid (2 * cell + 1)) =
      sumRange 2 (fun j =>
        sampleKer (2 * j) *
            (interpSorted id swapTwo 4 1 1 sampleGrid 2 sampleCoords sampleCoords sampleCoords
              sampleGrid sampleOpts false).2 (2 * j) -
          sampleKer (2 * j + 1) *
            (interpSorted id swapTwo 4 1 1 sampleGrid 2 sampleCoords sampleCoords sampleCoords
              sampleGrid sampleOpts false).2 (2 * j + 1)) :=
  have h := spread_interp_transpose id 2 swapTwo swapTwo 4 sampleGrid 2 sampleCoords
    sampleCoords sampleCoords sampleKer sampleGrid sampleGrid sampleOpts true false
    (by decide) (by decide) (by decide) (by decide) swapTwo_isPermutation swapTwo_isPermutation
    (by decide) (by decide) sampleCoords_range
  ⟨swapTwo_isPermutation, sampleCoords_range, h.1⟩

/-! ## Index safety of the subproblem spreaders -/

/-- A property of the loop state that every pass preserves holds on exit. -/
theorem forRange_keeps {σ : Type} (lo hi : ℤ) (body : ℤ → σ → σ) (s : σ) (Q : σ → Prop)
    (hs : Q s) (h : ∀ k st, lo ≤ k → k < hi → Q st → Q (body k st)) :
    Q (forRange lo hi body s) := by
  by_cases hle : lo ≤ hi
  · exact forRange_induct (fun _ st => Q st) lo hi body s hle hs h
  · rw [forRange_empty _ _ _ _ (by omega)]
    exact hs

/-- The zeroing loop of a subproblem spreader leaves everything outside `[0, n)`
as it is. -/
theorem zero_fill_frame (n : ℤ) (du : ℤ → ℚ) (q : ℤ) (hq : q < 0 ∨ n ≤ q) :
    forRange 0 n (fun i (a : ℤ → ℚ) => Function.update a i 0) du q = du q := by
  refine forRange_keeps 0 n _ du (fun (a : ℤ → ℚ) => a q = du q) rfl ?_
  intro k st k0 k1 ih
  beta_reduce
  rw [Function.update_noteq (by omega)]
  exact ih

/-- The inner loop of `spread_subproblem_1d` writes the floats
`[2*j, 2*(j + ns))` only. -/
theorem spreadStep_frame (re0 im0 : ℚ) (ker : ℤ → ℚ) (ns j : ℤ) (du : ℤ → ℚ) (q : ℤ)
    (hq : q < 2 * j ∨ 2 * (j + ns) ≤ q) :
    (forRange 0 ns (spreadStep re0 im0 ker) (du, j)).1 q = du q := by
  by_cases hns : 0 ≤ ns
  · have key := forRange_induct
      (fun K (st : (ℤ → ℚ) × ℤ) => st.1 q = du q ∧ st.2 = j + K)
      0 ns (spreadStep re0 im0 ker) (du, j) hns ⟨rfl, by simp⟩ ?_
    · exact key.1
    · intro K st K0 K1 ih
      obtain ⟨ih1, ih2⟩ := ih
      unfold spreadStep
      dsimp only
      refine ⟨?_, by omega⟩
      rw [Function.update_noteq (by omega), Function.update_noteq (by omega)]
      exact ih1
  · rw [forRange_empty _ _ _ _ (by omega)]

/-- The row loop of the 2-D and 3-D subproblem spreaders writes the floats
`[2*j, 2*j + 2*ns)` only. -/
theorem spreadRow_frame (re0 im0 kerval : ℚ) (ker1 : ℤ → ℚ) (ns j : ℤ) (du : ℤ → ℚ) (q : ℤ)
    (hq : q < 2 * j ∨ 2 * j + 2 * ns ≤ q) :
    spreadRow re0 im0 kerval ker1 ns j du q = du q := by
  unfold spreadRow
  refine forRange_keeps 0 (2 * ns) _ du (fun (a : ℤ → ℚ) => a q = du q) rfl ?_
  intro k st k0 k1 ih
  beta_reduce
  rw [Function.update_noteq (by omega)]
  exact ih

/-- A footprint inside the subgrid on every axis has its row of `ns` cells
inside the index range of the subgrid. -/
theorem cell_index_range (size1 size2 size3 a b c ns : ℤ) (hns : 1 ≤ ns) (ha : 0 ≤ a)
    (ha1 : a + ns ≤ size1) (hb : 0 ≤ b) (hb1 : b < size2) (hc : 0 ≤ c) (hc1 : c < size3) :
    0 ≤ size1 * size2 * c + size1 * b + a ∧
      size1 * size2 * c + size1 * b + a + ns ≤ size1 * size2 * size3 := by
  have s1 : 0 ≤ size1 := by omega
  have s2 : 0 ≤ size2 := by omega
  have p1 : 0 ≤ size1 * b := mul_nonneg s1 hb
  have p2 : 0 ≤ size1 * size2 * c := mul_nonneg (mul_nonneg s1 s2) hc
  have p3 : size1 * (b + 1) ≤ size1 * size2 := mul_le_mul_of_nonneg_left (by omega) s1
  have p4 : size1 * size2 * (c + 1) ≤ size1 * size2 * size3 :=
    mul_le_mul_of_nonneg_left (by omega) (mul_nonneg s1 s2)
  rw [mul_add, mul_one] at p3 p4
  constructor <;> omega

/-- The function `spread_subproblem_1d` writes inside `[0, 2*size1)` when every
footprint lies inside the subgrid. -/
theorem spread_subproblem_1d_frame (K : ℚ → ℚ) (off1 size1 : ℤ) (du : ℤ → ℚ) (M : ℤ)
    (kx dd : ℤ → ℚ) (opts : SpreadParameters)
    (hfoot : ∀ i, 0 ≤ i → i < M → 0 ≤ ⌈kx i - (opts.kernel_width : ℚ) / 2⌉ - off1 ∧
      ⌈kx i - (opts.kernel_width : ℚ) / 2⌉ - off1 + opts.kernel_width ≤ size1)
    (q : ℤ) (hq : q < 0 ∨ 2 * size1 ≤ q) :
    spread_subproblem_1d K off1 size1 du M kx dd opts q = du q := by
  unfold spread_subproblem_1d
  dsimp only
  refine forRange_keeps 0 M _ _ (fun (a : ℤ → ℚ) => a q = du q) (zero_fill_frame _ du q hq) ?_
  intro i st i0 i1 ih
  beta_reduce
  obtain ⟨f0, f1⟩ := hfoot i i0 i1
  rw [spreadStep_frame _ _ _ _ _ _ q (by omega)]
  exact ih

/-- The function `spread_subproblem_2d` writes inside `[0, 2*size1*size2)` when
every footprint lies inside the subgrid. -/
theorem spread_subproblem_2d_frame (K : ℚ → ℚ) (off1 off2 size1 size2 : ℤ) (du : ℤ → ℚ)
    (M : ℤ) (kx ky dd : ℤ → ℚ) (opts : SpreadParameters)
    (hfoot : ∀ i, 0 ≤ i → i < M →
      (0 ≤ ⌈kx i - (opts.kernel_width : ℚ) / 2⌉ - off1 ∧
        ⌈kx i - (opts.kernel_width : ℚ) / 2⌉ - off1 + opts.kernel_width ≤ size1) ∧
      (0 ≤ ⌈ky i - (opts.kernel_width : ℚ) / 2⌉ - off2 ∧
        ⌈ky i - (opts.kernel_width : ℚ) / 2⌉ - off2 + opts.kernel_width ≤ size2))
    (q : ℤ) (hq : q < 0 ∨ 2 * size1 * size2 ≤ q) :
    spread_subproblem_2d K off1 off2 size1 size2 du M kx ky dd opts q = du q := by
  unfold spread_subproblem_2d
  dsimp only
  refine forRange_keeps 0 M _ _ (fun (a : ℤ → ℚ) => a q = du q) (zero_fill_frame _ du q hq) ?_
  intro i st i0 i1 ih
  beta_reduce
  obtain ⟨⟨f0, f1⟩, ⟨g0, g1⟩⟩ := hfoot i i0 i1
  refine forRange_keeps 0 opts.kernel_width _ _ (fun (a : ℤ → ℚ) => a q = du q) ih ?_
  intro dy st2 dy0 dy1 ih2
  beta_reduce
  have r := cell_index_range size1 size2 1
    (⌈kx i - (opts.kernel_width : ℚ) / 2⌉ - off1)
    (⌈ky i - (opts.kernel_width : ℚ) / 2⌉ - off2 + dy) 0 opts.kernel_width
    (by omega) f0 f1 (by omega) (by omega) (le_refl _) (by norm_num)
  rw [mul_zero, zero_add, mul_one] at r
  have e : 2 * size1 * size2 = 2 * (size1 * size2) := by ring
  rw [spreadRow_frame _ _ _ _ _ _ _ q (by omega)]
  exact ih2

/-- The function `spread_subproblem_3d` writes inside `[0, 2*size1*size2*size3)`
when every footprint lies inside the subgrid. -/
theorem spread_subproblem_3d_frame (K : ℚ → ℚ) (off1 off2 off3 size1 size2 size3 : ℤ)
    (du : ℤ → ℚ) (M : ℤ) (kx ky kz dd : ℤ → ℚ) (opts : SpreadParameters)
    (hfoot : ∀ i, 0 ≤ i → i < M →
      (0 ≤ ⌈kx i - (opts.kernel_width : ℚ) / 2⌉ - off1 ∧
        ⌈kx i - (opts.kernel_width : ℚ) / 2⌉ - off1 + opts.kernel_width ≤ size1) ∧
      (0 ≤ ⌈ky i - (opts.kernel_width : ℚ) / 2⌉ - off2 ∧
        ⌈ky i - (opts.kernel_width : ℚ) / 2⌉ - off2 + opts.kernel_width ≤ size2) ∧
      (0 ≤ ⌈kz i - (opts.kernel_width : ℚ) / 2⌉ - off3 ∧
        ⌈kz i - (opts.kernel_width : ℚ) / 2⌉ - off3 + opts.kernel_width ≤ size3))
    (q : ℤ) (hq : q < 0 ∨ 2 * size1 * size2 * size3 ≤ q) :
    spread_subproblem_3d K off1 off2 off3 size1 size2 size3 du M kx ky kz dd opts q =
      du q := by
  unfold spread_subproblem_3d
  dsimp only
  refine forRange_keeps 0 M _ _ (fun (a : ℤ → ℚ) => a q = du q) (zero_fill_frame _ du q hq) ?_
  intro i st i0 i1 ih
  beta_reduce
  obtain ⟨⟨f0, f1⟩, ⟨g0, g1⟩, ⟨h0, h1⟩⟩ := hfoot i i0 i1
  refine forRange_keeps 0 opts.kernel_width _ _ (fun (a : ℤ → ℚ) => a q = du q) ih ?_
  intro dz st3 dz0 dz1 ih3
  beta_reduce
  refine forRange_keeps 0 opts.kernel_width _ _ (fun (a : ℤ → ℚ) => a q = du q) ih3 ?_
  intro dy st2 dy0 dy1 ih2
  beta_reduce
  have r := cell_index_range size1 size2 size3
    (⌈kx i - (opts.kernel_width : ℚ) / 2⌉ - off1)
    (⌈ky i - (opts.kernel_width : ℚ) / 2⌉ - off2 + dy)
    (⌈kz i - (opts.kernel_width : ℚ) / 2⌉ - off3 + dz) opts.kernel_width
    (by omega) f0 f1 (by omega) (by omega) (by omega) (by omega)
  have e : 2 * size1 * size2 * size3 = 2 * (size1 * size2 * size3) := by ring
  rw [spreadRow_frame _ _ _ _ _ _ _ q (by omega)]
  exact ih2

/-- C34: for a non-empty subproblem and in exact arithmetic, with `(offset, size)`
as returned by `get_subgrid` for its points, every point's footprint lies inside
the subgrid on each active axis: `0 ≤ ceil(x - ns/2) - offset` and
`ceil(x - ns/2) - offset + ns ≤ size`; hence `spread_subproblem_1d`, `_2d` and
`_3d` write no float outside `[0, 2*size1*size2*size3)`: whatever the buffer
held there before, it holds afterwards. -/
theorem subgrid_holds_writes (K : ℚ → ℚ) (M : ℤ) (kx ky kz dd du : ℤ → ℚ)
    (opts : SpreadParameters) (ndims : ℤ) (hM : 1 ≤ M) :
    (∀ i, 0 ≤ i → i < M →
      0 ≤ ⌈kx i - (opts.kernel_width : ℚ) / 2⌉ -
        (get_subgrid M kx ky kz opts.kernel_width ndims).1.1 ∧
      ⌈kx i - (opts.kernel_width : ℚ) / 2⌉ -
          (get_subgrid M kx ky kz opts.kernel_width ndims).1.1 + opts.kernel_width ≤
        (get_subgrid M kx ky kz opts.kernel_width ndims).2.1) ∧
    (ndims > 1 → ∀ i, 0 ≤ i → i < M →
      0 ≤ ⌈ky i - (opts.kernel_width : ℚ) / 2⌉ -
        (get_subgrid M kx ky kz opts.kernel_width ndims).1.2.1 ∧
      ⌈ky i - (opts.kernel_width : ℚ) / 2⌉ -
          (get_subgrid M kx ky kz opts.kernel_width ndims).1.2.1 + opts.kernel_width ≤
        (get_subgrid M kx ky kz opts.kernel_width ndims).2.2.1) ∧
    (ndims > 2 → ∀ i, 0 ≤ i → i < M →
      0 ≤ ⌈kz i - (opts.kernel_width : ℚ) / 2⌉ -
        (get_subgrid M kx ky kz opts.kernel_width ndims).1.2.2 ∧
      ⌈kz i - (opts.kernel_width : ℚ) / 2⌉ -
          (get_subgrid M kx ky kz opts.kernel_width ndims).1.2.2 + opts.kernel_width ≤
        (get_subgrid M kx ky kz opts.kernel_width ndims).2.2.2) ∧
    (∀ q, q < 0 ∨
        2 * (get_subgrid M kx ky kz opts.kernel_width ndims).2.1 *
          (get_subgrid M kx ky kz opts.kernel_width ndims).2.2.1 *
          (get_subgrid M kx ky kz opts.kernel_width ndims).2.2.2 ≤ q →
      (ndims = 1 →
        spread_subproblem_1d K (get_subgrid M kx ky kz opts.kernel_width ndims).1.1
          (get_subgrid M kx ky kz opts.kernel_width ndims).2.1 du M kx dd opts q = du q) ∧
      (ndims = 2 →
        spread_subproblem_2d K (get_subgrid M kx ky kz opts.kernel_width ndims).1.1
          (get_subgrid M kx ky kz opts.kernel_width ndims).1.2.1
          (get_subgrid M kx ky kz opts.kernel_width ndims).2.1
          (get_subgrid M kx ky kz opts.kernel_width ndims).2.2.1 du M kx ky dd opts q =
          du q) ∧
      (ndims = 3 →
        spread_subproblem_3d K (get_subgrid M kx ky kz opts.kernel_width ndims).1.1
          (get_subgrid M kx ky kz opts.kernel_width ndims).1.2.1
          (get_subgrid M kx ky kz opts.kernel_width ndims).1.2.2
          (get_subgrid M kx ky kz opts.kernel_width ndims).2.1
          (get_subgrid M kx ky kz opts.kernel_width ndims).2.2.1
          (get_subgrid M kx ky kz opts.kernel_width ndims).2.2.2 du M kx ky kz dd opts q =
          du q)) := by
  have hM0 : 0 ≤ M := by omega
  have fx := fun i i0 i1 => subgrid_holds_footprints M hM0 kx opts.kernel_width i i0 i1
  have fy := fun i i0 i1 => subgrid_holds_footprints M hM0 ky opts.kernel_width i i0 i1
  have fz := fun i i0 i1 => subgrid_holds_footprints M hM0 kz opts.kernel_width i i0 i1
  have A : ∀ i, 0 ≤ i → i < M →
      0 ≤ ⌈kx i - (opts.kernel_width : ℚ) / 2⌉ -
        (get_subgrid M kx ky kz opts.kernel_width ndims).1.1 ∧
      ⌈kx i - (opts.kernel_width : ℚ) / 2⌉ -
          (get_subgrid M kx ky kz opts.kernel_width ndims).1.1 + opts.kernel_width ≤
        (get_subgrid M kx ky kz opts.kernel_width ndims).2.1 := by
    intro i i0 i1
    have := fx i i0 i1
    unfold get_subgrid
    dsimp only
    omega
  have B : ndims > 1 → ∀ i, 0 ≤ i → i < M →
      0 ≤ ⌈ky i - (opts.kernel_width : ℚ) / 2⌉ -
        (get_subgrid M kx ky kz opts.kernel_width ndims).1.2.1 ∧
      ⌈ky i - (opts.kernel_width : ℚ) / 2⌉ -
          (get_subgrid M kx ky kz opts.kernel_width ndims).1.2.1 + opts.kernel_width ≤
        (get_subgrid M kx ky kz opts.kernel_width ndims).2.2.1 := by
    intro hd i i0 i1
    have := fy i i0 i1
    unfold get_subgrid
    dsimp only
    rw [if_pos hd, if_pos hd]
    omega
  have C : ndims > 2 → ∀ i, 0 ≤ i → i < M →
      0 ≤ ⌈kz i - (opts.kernel_width : ℚ) / 2⌉ -
        (get_subgrid M kx ky kz opts.kernel_width ndims).1.2.2 ∧
      ⌈kz i - (opts.kernel_width : ℚ) / 2⌉ -
          (get_subgrid M kx ky kz opts.kernel_width ndims).1.2.2 + opts.kernel_width ≤
        (get_subgrid M kx ky kz opts.kernel_width ndims).2.2.2 := by
    intro hd i i0 i1
    have := fz i i0 i1
    unfold get_subgrid
    dsimp only
    rw [if_pos hd, if_pos hd]
    omega
  have S2 : ¬ ndims > 1 → (get_subgrid M kx ky kz opts.kernel_width ndims).2.2.1 = 1 := by
    intro hd
    unfold get_subgrid
    dsimp only
    rw [if_neg hd]
  have S3 : ¬ ndims > 2 → (get_subgrid M kx ky kz opts.kernel_width ndims).2.2.2 = 1 := by
    intro hd
    unfold get_subgrid
    dsimp only
    rw [if_neg hd]
  refine ⟨A, B, C, ?_⟩
  intro q hq
  refine ⟨fun hd => ?_, fun hd => ?_, fun hd => ?_⟩
  · rw [S2 (by omega), S3 (by omega), mul_one, mul_one] at hq
    exact spread_subproblem_1d_frame K _ _ du M kx dd opts A q hq
  · rw [S3 (by omega), mul_one] at hq
    exact spread_subproblem_2d_frame K _ _ _ _ du M kx ky dd opts
      (fun i i0 i1 => ⟨A i i0 i1, B (by omega) i i0 i1⟩) q hq
  · exact spread_subproblem_3d_frame K _ _ _ _ _ _ du M kx ky kz dd opts
      (fun i i0 i1 => ⟨A i i0 i1, B (by omega) i i0 i1, C (by omega) i i0 i1⟩) q hq

/-- C34, witness: the two sample points in rank 1, kernel width 2. -/
theorem subgrid_holds_writes_witness :
    ((1 : ℤ) ≤ 2) ∧
    (∀ i, 0 ≤ i → i < 2 →
      0 ≤ ⌈exampleCoords i - (sampleOpts.kernel_width : ℚ) / 2⌉ -
        (get_subgrid 2 exampleCoords exampleCoords exampleCoords sampleOpts.kernel_width
          1).1.1 ∧
      ⌈exampleCoords i - (sampleOpts.kernel_width : ℚ) / 2⌉ -
          (get_subgrid 2 exampleCoords exampleCoords exampleCoords sampleOpts.kernel_width
            1).1.1 + sampleOpts.kernel_width ≤
        (get_subgrid 2 exampleCoords exampleCoords exampleCoords sampleOpts.kernel_width
          1).2.1) :=
  ⟨by decide,
    (subgrid_holds_writes id 2 exampleCoords exampleCoords exampleCoords sampleGrid sampleGrid
      sampleOpts 1 (by decide)).1⟩

/-! ## Backward `deconvolve_2d` -/

/-- Backward (INTERP) `deconvolve_1d` at arbitrary base offsets: the used modes,
the zero padding, the frame, and the independence of the old content of the
block. -/
theorem deconvolve_1d_interp_off (P : Plan)
    (hdir : P.spread_direction = SpreadDirection.INTERP)
    (hms : 0 ≤ P.grid_dims_ 0) (hnf : P.grid_dims_ 0 ≤ P.fine_dims_ 0)
    (fk fw : ℤ → DType) (fkOff fwOff : ℤ) (prefactor : ℚ) :
    (∀ k, -(P.grid_dims_ 0 / 2) ≤ k → k ≤ (P.grid_dims_ 0 - 1) / 2 →
      (deconvolve_1d P fk fw fkOff fwOff prefactor).2 (fwOff + k % P.fine_dims_ 0) =
        deconvVal prefactor (fk (fkOff + modePos P.mode_order (P.grid_dims_ 0) k))
          (P.fseries_data_ 0 |k|)) ∧
    (∀ j, (P.grid_dims_ 0 - 1) / 2 < j → j < P.fine_dims_ 0 - P.grid_dims_ 0 / 2 →
      (deconvolve_1d P fk fw fkOff fwOff prefactor).2 (fwOff + j) = DType.zero) ∧
    (∀ i, i < fwOff ∨ fwOff + P.fine_dims_ 0 ≤ i →
      (deconvolve_1d P fk fw fkOff fwOff prefactor).2 i = fw i) ∧
    (deconvolve_1d P fk fw fkOff fwOff prefactor).1 = fk ∧
    (∀ fw2 j, 0 ≤ j → j < P.fine_dims_ 0 →
      (deconvolve_1d P fk fw fkOff fwOff prefactor).2 (fwOff + j) =
        (deconvolve_1d P fk fw2 fkOff fwOff prefactor).2 (fwOff + j)) := by
  refine ⟨?_, ?_, ?_, ?_, ?_⟩
  · intro k h0 h1
    rw [deconvolve_1d_interp P hdir hms, modePos_eq _ _ k h0 h1, fwIndex_eq _ _ k hnf h0 h1]
    by_cases hk : 0 ≤ k
    · simp only [if_pos hk]
      have c1 : ¬ (-(P.grid_dims_ 0 / 2) ≤ fwOff + k - (fwOff + P.fine_dims_ 0) ∧
          fwOff + k - (fwOff + P.fine_dims_ 0) < 0) := by omega
      have c2 : 0 ≤ fwOff + k - fwOff ∧ fwOff + k - fwOff < (P.grid_dims_ 0 - 1) / 2 + 1 := by
        omega
      have e : fwOff + k - fwOff = k := by ring
      rw [if_neg c1, if_pos c2, abs_of_nonneg hk, e]
    · simp only [if_neg hk]
      have c1 : -(P.grid_dims_ 0 / 2) ≤ fwOff + (P.fine_dims_ 0 + k) - (fwOff + P.fine_dims_ 0) ∧
          fwOff + (P.fine_dims_ 0 + k) - (fwOff + P.fine_dims_ 0) < 0 := by omega
      have e : fwOff + (P.fine_dims_ 0 + k) - (fwOff + P.fine_dims_ 0) = k := by ring
      rw [if_pos c1, abs_of_neg (by omega), e]
  · intro j h0 h1
    rw [deconvolve_1d_interp P hdir hms]
    have c1 : ¬ (-(P.grid_dims_ 0 / 2) ≤ fwOff + j - (fwOff + P.fine_dims_ 0) ∧
        fwOff + j - (fwOff + P.fine_dims_ 0) < 0) := by omega
    have c2 : ¬ (0 ≤ fwOff + j - fwOff ∧ fwOff + j - fwOff < (P.grid_dims_ 0 - 1) / 2 + 1) := by
      omega
    have c3 : (P.grid_dims_ 0 - 1) / 2 + 1 ≤ fwOff + j - fwOff ∧
        fwOff + j - fwOff < P.fine_dims_ 0 + -(P.grid_dims_ 0 / 2) := by omega
    simp only [if_neg c1, if_neg c2, if_pos c3]
  · intro i hi
    rw [deconvolve_1d_interp P hdir hms]
    have c1 : ¬ (-(P.grid_dims_ 0 / 2) ≤ i - (fwOff + P.fine_dims_ 0) ∧
        i - (fwOff + P.fine_dims_ 0) < 0) := by omega
    have c2 : ¬ (0 ≤ i - fwOff ∧ i - fwOff < (P.grid_dims_ 0 - 1) / 2 + 1) := by omega
    have c3 : ¬ ((P.grid_dims_ 0 - 1) / 2 + 1 ≤ i - fwOff ∧
        i - fwOff < P.fine_dims_ 0 + -(P.grid_dims_ 0 / 2)) := by omega
    simp only [if_neg c1, if_neg c2, if_neg c3]
  · rw [deconvolve_1d_interp P hdir hms]
  · intro fw2 j h0 h1
    rw [deconvolve_1d_interp P hdir hms, deconvolve_1d_interp P hdir hms]
    by_cases c1 : -(P.grid_dims_ 0 / 2) ≤ fwOff + j - (fwOff + P.fine_dims_ 0) ∧
        fwOff + j - (fwOff + P.fine_dims_ 0) < 0
    · simp only [if_pos c1]
    · by_cases c2 : 0 ≤ fwOff + j - fwOff ∧ fwOff + j - fwOff < (P.grid_dims_ 0 - 1) / 2 + 1
      · simp only [if_neg c1, if_pos c2]
      · have c3 : (P.grid_dims_ 0 - 1) / 2 + 1 ≤ fwOff + j - fwOff ∧
            fwOff + j - fwOff < P.fine_dims_ 0 + -(P.grid_dims_ 0 / 2) := by omega
        simp only [if_neg c1, if_neg c2, if_pos c3]

/-- A loop whose pass `k` rewrites the row `[start k, start k + W)` of the second
array from the first array and a counter advanced by `w`, and nothing else:
afterwards every row holds what its pass alone writes, and everything outside
the rows is untouched. -/
theorem forRange_rows {α : Type} (lo hi : ℤ) (hle : lo ≤ hi) (W w pp0 : ℤ)
    (start : ℤ → ℤ) (hstart : ∀ k, start (k + 1) = start k + W) (hW : 0 ≤ W)
    (op : ℤ → ℤ → (ℤ → α) × (ℤ → α) → (ℤ → α) × (ℤ → α))
    (hind : ∀ k pp (s s2 : (ℤ → α) × (ℤ → α)), lo ≤ k → k < hi → s.1 = s2.1 →
      ∀ j, 0 ≤ j → j < W → (op k pp s).2 (start k + j) = (op k pp s2).2 (start k + j))
    (hframe : ∀ k pp (s : (ℤ → α) × (ℤ → α)), lo ≤ k → k < hi →
      (∀ i, i < start k ∨ start k + W ≤ i → (op k pp s).2 i = s.2 i) ∧ (op k pp s).1 = s.1)
    (s : (ℤ → α) × (ℤ → α)) :
    (∀ k j, lo ≤ k → k < hi → 0 ≤ j → j < W →
      (forRange lo hi (fun k (st : ((ℤ → α) × (ℤ → α)) × ℤ) => (op k st.2 st.1, st.2 + w))
        (s, pp0)).1.2 (start k + j) = (op k (pp0 + w * (k - lo)) s).2 (start k + j)) ∧
    (∀ i, i < start lo ∨ start hi ≤ i →
      (forRange lo hi (fun k (st : ((ℤ → α) × (ℤ → α)) × ℤ) => (op k st.2 st.1, st.2 + w))
        (s, pp0)).1.2 i = s.2 i) ∧
    (forRange lo hi (fun k (st : ((ℤ → α) × (ℤ → α)) × ℤ) => (op k st.2 st.1, st.2 + w))
      (s, pp0)).1.1 = s.1 := by
  have hmono : ∀ a b, lo ≤ a → a ≤ b → b ≤ hi → start a ≤ start b :=
    mono_of_step start lo hi (fun p _ _ => by rw [hstart p]; omega)
  have key := forRange_induct
    (fun K (st : ((ℤ → α) × (ℤ → α)) × ℤ) =>
      st.2 = pp0 + w * (K - lo) ∧
      (∀ k j, lo ≤ k → k < K → 0 ≤ j → j < W →
        st.1.2 (start k + j) = (op k (pp0 + w * (k - lo)) s).2 (start k + j)) ∧
      (∀ i, i < start lo ∨ start K ≤ i → st.1.2 i = s.2 i) ∧ st.1.1 = s.1)
    lo hi (fun k (st : ((ℤ → α) × (ℤ → α)) × ℤ) => (op k st.2 st.1, st.2 + w)) (s, pp0) hle
    ?_ ?_
  · exact key.2
  · refine ⟨by simp, ?_, fun i _ => rfl, rfl⟩
    intro k j h0 h1
    omega
  · rintro K st hK0 hK1 ⟨ihP, ihA, ihB, ihC⟩
    obtain ⟨fA, fB⟩ := hframe K st.2 st.1 hK0 hK1
    refine ⟨?_, ?_, ?_, ?_⟩
    · dsimp only
      rw [ihP]
      ring
    · intro k j h0 h1 j0 j1
      dsimp only
      by_cases hk : k = K
      · subst hk
        rw [hind k st.2 st.1 s hK0 hK1 ihC j j0 j1, ihP]
      · have hm := hmono (k + 1) K (by omega) (by omega) (by omega)
        rw [hstart k] at hm
        rw [fA _ (Or.inl (by omega))]
        exact ihA k j h0 (by omega) j0 j1
    · intro i hi
      dsimp only
      have hm := hmono lo K (le_refl _) hK0 (by omega)
      rw [hstart K] at hi
      rw [fA i (by omega)]
      exact ihB i (by omega)
    · dsimp only
      rw [fB]
      exact ihC

/-- The two row loops of backward `deconvolve_2d`, from any start counters that
place the non-negative and the negative chunk as the mode order prescribes. -/
theorem deconvolve_2d_interp_loops (P : Plan)
    (hdir : P.spread_direction = SpreadDirection.INTERP)
    (hms : 0 ≤ P.grid_dims_ 0) (hnf1 : P.grid_dims_ 0 ≤ P.fine_dims_ 0)
    (hmt : 0 ≤ P.grid_dims_ 1) (hnf2 : P.grid_dims_ 1 ≤ P.fine_dims_ 1)
    (s : (ℤ → DType) × (ℤ → DType)) (fkOff fwOff : ℤ) (prefactor : ℚ) (pp0 pn0 : ℤ)
    (hpp : pp0 = P.grid_dims_ 0 * posBase P.mode_order (P.grid_dims_ 1))
    (hpn : pn0 = P.grid_dims_ 0 * (negBase P.mode_order (P.grid_dims_ 1) - P.grid_dims_ 1 / 2)) :
    (∀ k1 k2, -(P.grid_dims_ 0 / 2) ≤ k1 → k1 ≤ (P.grid_dims_ 0 - 1) / 2 →
      -(P.grid_dims_ 1 / 2) ≤ k2 → k2 ≤ (P.grid_dims_ 1 - 1) / 2 →
      (forRange (-(P.grid_dims_ 1 / 2)) 0
        (fun k2 (st : ((ℤ → DType) × (ℤ → DType)) × ℤ) =>
          (deconvolve_1d P st.1.1 st.1.2 (fkOff + st.2)
            (fwOff + P.fine_dims_ 0 * (P.fine_dims_ 1 + k2))
            (prefactor / P.fseries_data_ 1 (-k2)), st.2 + P.grid_dims_ 0))
        ((forRange 0 ((P.grid_dims_ 1 - 1) / 2 + 1)
          (fun k2 (st : ((ℤ → DType) × (ℤ → DType)) × ℤ) =>
            (deconvolve_1d P st.1.1 st.1.2 (fkOff + st.2) (fwOff + P.fine_dims_ 0 * k2)
              (prefactor / P.fseries_data_ 1 k2), st.2 + P.grid_dims_ 0))
          (s, pp0)).1, pn0)).1.2
        (fwOff + (k1 % P.fine_dims_ 0 + P.fine_dims_ 0 * (k2 % P.fine_dims_ 1))) =
        deconvVal (prefactor / P.fseries_data_ 1 |k2|)
          (s.1 (fkOff + (modePos P.mode_order (P.grid_dims_ 0) k1 +
            P.grid_dims_ 0 * modePos P.mode_order (P.grid_dims_ 1) k2)))
          (P.fseries_data_ 0 |k1|)) ∧
    (∀ j k2, (P.grid_dims_ 0 - 1) / 2 < j → j < P.fine_dims_ 0 - P.grid_dims_ 0 / 2 →
      -(P.grid_dims_ 1 / 2) ≤ k2 → k2 ≤ (P.grid_dims_ 1 - 1) / 2 →
      (forRange (-(P.grid_dims_ 1 / 2)) 0
        (fun k2 (st : ((ℤ → DType) × (ℤ → DType)) × ℤ) =>
          (deconvolve_1d P st.1.1 st.1.2 (fkOff + st.2)
            (fwOff + P.fine_dims_ 0 * (P.fine_dims_ 1 + k2))
            (prefactor / P.fseries_data_ 1 (-k2)), st.2 + P.grid_dims_ 0))
        ((forRange 0 ((P.grid_dims_ 1 - 1) / 2 + 1)
          (fun k2 (st : ((ℤ → DType) × (ℤ → DType)) × ℤ) =>
            (deconvolve_1d P st.1.1 st.1.2 (fkOff + st.2) (fwOff + P.fine_dims_ 0 * k2)
              (prefactor / P.fseries_data_ 1 k2), st.2 + P.grid_dims_ 0))
          (s, pp0)).1, pn0)).1.2
        (fwOff + (j + P.fine_dims_ 0 * (k2 % P.fine_dims_ 1))) = DType.zero) ∧
    (∀ i, i < fwOff ∨ fwOff + P.fine_dims_ 0 * ((P.grid_dims_ 1 - 1) / 2 + 1) ≤ i →
      i < fwOff + P.fine_dims_ 0 * (P.fine_dims_ 1 - P.grid_dims_ 1 / 2) ∨
        fwOff + P.fine_dims_ 0 * P.fine_dims_ 1 ≤ i →
      (forRange (-(P.grid_dims_ 1 / 2)) 0
        (fun k2 (st : ((ℤ → DType) × (ℤ → DType)) × ℤ) =>
          (deconvolve_1d P st.1.1 st.1.2 (fkOff + st.2)
            (fwOff + P.fine_dims_ 0 * (P.fine_dims_ 1 + k2))
            (prefactor / P.fseries_data_ 1 (-k2)), st.2 + P.grid_dims_ 0))
        ((forRange 0 ((P.grid_dims_ 1 - 1) / 2 + 1)
          (fun k2 (st : ((ℤ → DType) × (ℤ → DType)) × ℤ) =>
            (deconvolve_1d P st.1.1 st.1.2 (fkOff + st.2) (fwOff + P.fine_dims_ 0 * k2)
              (prefactor / P.fseries_data_ 1 k2), st.2 + P.grid_dims_ 0))
          (s, pp0)).1, pn0)).1.2 i = s.2 i) ∧
    (forRange (-(P.grid_dims_ 1 / 2)) 0
        (fun k2 (st : ((ℤ → DType) × (ℤ → DType)) × ℤ) =>
          (deconvolve_1d P st.1.1 st.1.2 (fkOff + st.2)
            (fwOff + P.fine_dims_ 0 * (P.fine_dims_ 1 + k2))
            (prefactor / P.fseries_data_ 1 (-k2)), st.2 + P.grid_dims_ 0))
        ((forRange 0 ((P.grid_dims_ 1 - 1) / 2 + 1)
          (fun k2 (st : ((ℤ → DType) × (ℤ → DType)) × ℤ) =>
            (deconvolve_1d P st.1.1 st.1.2 (fkOff + st.2) (fwOff + P.fine_dims_ 0 * k2)
              (prefactor / P.fseries_data_ 1 k2), st.2 + P.grid_dims_ 0))
          (s, pp0)).1, pn0)).1.1 = s.1 := by
  have hnf1' : 0 ≤ P.fine_dims_ 0 := by omega
  -- the loop over the non-negative modes
  obtain ⟨pA, pB, pC⟩ := forRange_rows 0 ((P.grid_dims_ 1 - 1) / 2 + 1) (by omega)
    (P.fine_dims_ 0) (P.grid_dims_ 0) pp0 (fun k2 => fwOff + P.fine_dims_ 0 * k2)
    (fun k => by ring) hnf1'
    (fun k2 pp (st : (ℤ → DType) × (ℤ → DType)) =>
      deconvolve_1d P st.1 st.2 (fkOff + pp) (fwOff + P.fine_dims_ 0 * k2)
        (prefactor / P.fseries_data_ 1 k2))
    (fun k pp s s2 _ _ h j j0 j1 => by
      beta_reduce
      rw [h]
      exact (deconvolve_1d_interp_off P hdir hms hnf1 s2.1 s.2 _ _ _).2.2.2.2 s2.2 j j0 j1)
    (fun k pp s _ _ =>
      ⟨(deconvolve_1d_interp_off P hdir hms hnf1 s.1 s.2 _ _ _).2.2.1,
        (deconvolve_1d_interp_off P hdir hms hnf1 s.1 s.2 _ _ _).2.2.2.1⟩)
    s
  -- the loop over the negative modes
  obtain ⟨nA, nB, nC⟩ := forRange_rows (-(P.grid_dims_ 1 / 2)) 0 (by omega)
    (P.fine_dims_ 0) (P.grid_dims_ 0) pn0
    (fun k2 => fwOff + P.fine_dims_ 0 * (P.fine_dims_ 1 + k2))
    (fun k => by ring) hnf1'
    (fun k2 pp (st : (ℤ → DType) × (ℤ → DType)) =>
      deconvolve_1d P st.1 st.2 (fkOff + pp) (fwOff + P.fine_dims_ 0 * (P.fine_dims_ 1 + k2))
        (prefactor / P.fseries_data_ 1 (-k2)))
    (fun k pp s s2 _ _ h j j0 j1 => by
      beta_reduce
      rw [h]
      exact (deconvolve_1d_interp_off P hdir hms hnf1 s2.1 s.2 _ _ _).2.2.2.2 s2.2 j j0 j1)
    (fun k pp s _ _ =>
      ⟨(deconvolve_1d_interp_off P hdir hms hnf1 s.1 s.2 _ _ _).2.2.1,
        (deconvolve_1d_interp_off P hdir hms hnf1 s.1 s.2 _ _ _).2.2.2.1⟩)
    (forRange 0 ((P.grid_dims_ 1 - 1) / 2 + 1)
      (fun k2 (st : ((ℤ → DType) × (ℤ → DType)) × ℤ) =>
        (deconvolve_1d P st.1.1 st.1.2 (fkOff + st.2) (fwOff + P.fine_dims_ 0 * k2)
          (prefactor / P.fseries_data_ 1 k2), st.2 + P.grid_dims_ 0))
      (s, pp0)).1
  -- rows of the non-negative modes lie below the rows of the negative modes
  have hrow : ∀ k2, 0 ≤ k2 → k2 ≤ (P.grid_dims_ 1 - 1) / 2 →
      P.fine_dims_ 0 * k2 + P.fine_dims_ 0 ≤
        P.fine_dims_ 0 * (P.fine_dims_ 1 + -(P.grid_dims_ 1 / 2)) := by
    intro k2 _ h
    have : P.fine_dims_ 0 * (k2 + 1) ≤
        P.fine_dims_ 0 * (P.fine_dims_ 1 + -(P.grid_dims_ 1 / 2)) :=
      mul_le_mul_of_nonneg_left (by omega) hnf1'
    rw [mul_add, mul_one] at this
    exact this
  -- a cell of a row, whatever its column
  have cell : ∀ j k2, 0 ≤ j → j < P.fine_dims_ 0 →
      -(P.grid_dims_ 1 / 2) ≤ k2 → k2 ≤ (P.grid_dims_ 1 - 1) / 2 →
      (forRange (-(P.grid_dims_ 1 / 2)) 0
        (fun k2 (st : ((ℤ → DType) × (ℤ → DType)) × ℤ) =>
          (deconvolve_1d P st.1.1 st.1.2 (fkOff + st.2)
            (fwOff + P.fine_dims_ 0 * (P.fine_dims_ 1 + k2))
            (prefactor / P.fseries_data_ 1 (-k2)), st.2 + P.grid_dims_ 0))
        ((forRange 0 ((P.grid_dims_ 1 - 1) / 2 + 1)
          (fun k2 (st : ((ℤ → DType) × (ℤ → DType)) × ℤ) =>
            (deconvolve_1d P st.1.1 st.1.2 (fkOff + st.2) (fwOff + P.fine_dims_ 0 * k2)
              (prefactor / P.fseries_data_ 1 k2), st.2 + P.grid_dims_ 0))
          (s, pp0)).1, pn0)).1.2
        (fwOff + (j + P.fine_dims_ 0 * (k2 % P.fine_dims_ 1))) =
      (deconvolve_1d P s.1 s.2
        (fkOff + P.grid_dims_ 0 * modePos P.mode_order (P.grid_dims_ 1) k2)
        (fwOff + P.fine_dims_ 0 * (k2 % P.fine_dims_ 1))
        (prefactor / P.fseries_data_ 1 |k2|)).2
        (fwOff + P.fine_dims_ 0 * (k2 % P.fine_dims_ 1) + j) := by
    intro j k2 j0 j1 h0 h1
    rw [fwIndex_eq _ _ k2 hnf2 h0 h1, modePos_eq _ _ k2 h0 h1]
    by_cases hk : 0 ≤ k2
    · rw [if_pos hk, if_pos hk, abs_of_nonneg hk]
      have e : fwOff + (j + P.fine_dims_ 0 * k2) = fwOff + P.fine_dims_ 0 * k2 + j := by ring
      have hr := hrow k2 hk h1
      rw [e, nB _ (Or.inl (by omega)), pA k2 j hk (by omega) j0 j1, hpp]
      have e2 : fkOff + (P.grid_dims_ 0 * posBase P.mode_order (P.grid_dims_ 1) +
          P.grid_dims_ 0 * (k2 - 0)) =
          fkOff + P.grid_dims_ 0 * (posBase P.mode_order (P.grid_dims_ 1) + k2) := by ring
      rw [e2]
    · rw [if_neg hk, if_neg hk, abs_of_neg (by omega)]
      have e : fwOff + (j + P.fine_dims_ 0 * (P.fine_dims_ 1 + k2)) =
          fwOff + P.fine_dims_ 0 * (P.fine_dims_ 1 + k2) + j := by ring
      rw [e, nA k2 j h0 (by omega) j0 j1, hpn]
      have e2 : fkOff + (P.grid_dims_ 0 *
            (negBase P.mode_order (P.grid_dims_ 1) - P.grid_dims_ 1 / 2) +
          P.grid_dims_ 0 * (k2 - -(P.grid_dims_ 1 / 2))) =
          fkOff + P.grid_dims_ 0 * (negBase P.mode_order (P.grid_dims_ 1) + k2) := by ring
      rw [e2, pC]
      exact (deconvolve_1d_interp_off P hdir hms hnf1 s.1 _ _ _ _).2.2.2.2 s.2 j j0 j1
  refine ⟨?_, ?_, ?_, ?_⟩
  · intro k1 k2 a0 a1 b0 b1
    have hj : 0 ≤ k1 % P.fine_dims_ 0 ∧ k1 % P.fine_dims_ 0 < P.fine_dims_ 0 := by
      rw [fwIndex_eq _ _ k1 hnf1 a0 a1]
      split_ifs <;> omega
    rw [cell _ k2 hj.1 hj.2 b0 b1,
      (deconvolve_1d_interp_off P hdir hms hnf1 s.1 s.2 _ _ _).1 k1 a0 a1]
    have e : fkOff + P.grid_dims_ 0 * modePos P.mode_order (P.grid_dims_ 1) k2 +
        modePos P.mode_order (P.grid_dims_ 0) k1 =
        fkOff + (modePos P.mode_order (P.grid_dims_ 0) k1 +
          P.grid_dims_ 0 * modePos P.mode_order (P.grid_dims_ 1) k2) := by ring
    rw [e]
  · intro j k2 j0 j1 b0 b1
    rw [cell j k2 (by omega) (by omega) b0 b1,
      (deconvolve_1d_interp_off P hdir hms hnf1 s.1 s.2 _ _ _).2.1 j j0 j1]
  · intro i h1 h2
    have e : P.fine_dims_ 0 * (P.fine_dims_ 1 + -(P.grid_dims_ 1 / 2)) =
        P.fine_dims_ 0 * (P.fine_dims_ 1 - P.grid_dims_ 1 / 2) := by ring
    have e2 : P.fine_dims_ 0 * (P.fine_dims_ 1 + 0) = P.fine_dims_ 0 * P.fine_dims_ 1 := by ring
    have e3 : P.fine_dims_ 0 * (0 : ℤ) = 0 := mul_zero _
    rw [nB i (by rw [e, e2]; exact h2), pB i (by rw [e3]; omega)]
  · rw [nC, pC]

/-- Backward (INTERP) `deconvolve_2d` at arbitrary base offsets: the cells of the
used mode pairs, the zero cells, the frame. -/
theorem deconvolve_2d_interp_off (P : Plan)
    (hdir : P.spread_direction = SpreadDirection.INTERP)
    (hms : 0 ≤ P.grid_dims_ 0) (hnf1 : P.grid_dims_ 0 ≤ P.fine_dims_ 0)
    (hmt : 0 ≤ P.grid_dims_ 1) (hnf2 : P.grid_dims_ 1 ≤ P.fine_dims_ 1)
    (fk fw : ℤ → DType) (fkOff fwOff : ℤ) (prefactor : ℚ) :
    (∀ k1 k2, -(P.grid_dims_ 0 / 2) ≤ k1 → k1 ≤ (P.grid_dims_ 0 - 1) / 2 →
      -(P.grid_dims_ 1 / 2) ≤ k2 → k2 ≤ (P.grid_dims_ 1 - 1) / 2 →
      (deconvolve_2d P fk fw fkOff fwOff prefactor).2
        (fwOff + (k1 % P.fine_dims_ 0 + P.fine_dims_ 0 * (k2 % P.fine_dims_ 1))) =
        deconvVal (prefactor / P.fseries_data_ 1 |k2|)
          (fk (fkOff + (modePos P.mode_order (P.grid_dims_ 0) k1 +
            P.grid_dims_ 0 * modePos P.mode_order (P.grid_dims_ 1) k2)))
          (P.fseries_data_ 0 |k1|)) ∧
    (∀ j r, 0 ≤ j → j < P.fine_dims_ 0 → 0 ≤ r → r < P.fine_dims_ 1 →
      ((P.grid_dims_ 0 - 1) / 2 < j ∧ j < P.fine_dims_ 0 - P.grid_dims_ 0 / 2) ∨
        ((P.grid_dims_ 1 - 1) / 2 < r ∧ r < P.fine_dims_ 1 - P.grid_dims_ 1 / 2) →
      (deconvolve_2d P fk fw fkOff fwOff prefactor).2 (fwOff + (j + P.fine_dims_ 0 * r)) =
        DType.zero) ∧
    (∀ i, i < fwOff ∨ fwOff + P.fine_dims_ 0 * P.fine_dims_ 1 ≤ i →
      (deconvolve_2d P fk fw fkOff fwOff prefactor).2 i = fw i) ∧
    (deconvolve_2d P fk fw fkOff fwOff prefactor).1 = fk := by
  have hnf1' : 0 ≤ P.fine_dims_ 0 := by omega
  have key : ∀ pp0 pn0 : ℤ,
      pp0 = P.grid_dims_ 0 * posBase P.mode_order (P.grid_dims_ 1) →
      pn0 = P.grid_dims_ 0 * (negBase P.mode_order (P.grid_dims_ 1) - P.grid_dims_ 1 / 2) →
      (∀ k1 k2, -(P.grid_dims_ 0 / 2) ≤ k1 → k1 ≤ (P.grid_dims_ 0 - 1) / 2 →
        -(P.grid_dims_ 1 / 2) ≤ k2 → k2 ≤ (P.grid_dims_ 1 - 1) / 2 →
        (forRange (-(P.grid_dims_ 1 / 2)) 0
          (fun k2 (st : ((ℤ → DType) × (ℤ → DType)) × ℤ) =>
            (deconvolve_1d P st.1.1 st.1.2 (fkOff + st.2)
              (fwOff + P.fine_dims_ 0 * (P.fine_dims_ 1 + k2))
              (prefactor / P.fseries_data_ 1 (-k2)), st.2 + P.grid_dims_ 0))
          ((forRange 0 ((P.grid_dims_ 1 - 1) / 2 + 1)
            (fun k2 (st : ((ℤ → DType) × (ℤ → DType)) × ℤ) =>
              (deconvolve_1d P st.1.1 st.1.2 (fkOff + st.2) (fwOff + P.fine_dims_ 0 * k2)
                (prefactor / P.fseries_data_ 1 k2), st.2 + P.grid_dims_ 0))
            ((fk, forRange (P.fine_dims_ 0 * ((P.grid_dims_ 1 - 1) / 2 + 1))
              (P.fine_dims_ 0 * (P.fine_dims_ 1 + -(P.grid_dims_ 1 / 2)))
              (fun j (a : ℤ → DType) => Function.update a (fwOff + j) DType.zero) fw),
              pp0)).1, pn0)).1.2
          (fwOff + (k1 % P.fine_dims_ 0 + P.fine_dims_ 0 * (k2 % P.fine_dims_ 1))) =
          deconvVal (prefactor / P.fseries_data_ 1 |k2|)
            (fk (fkOff + (modePos P.mode_order (P.grid_dims_ 0) k1 +
              P.grid_dims_ 0 * modePos P.mode_order (P.grid_dims_ 1) k2)))
            (P.fseries_data_ 0 |k1|)) ∧
      (∀ j r, 0 ≤ j → j < P.fine_dims_ 0 → 0 ≤ r → r < P.fine_dims_ 1 →
        ((P.grid_dims_ 0 - 1) / 2 < j ∧ j < P.fine_dims_ 0 - P.grid_dims_ 0 / 2) ∨
          ((P.grid_dims_ 1 - 1) / 2 < r ∧ r < P.fine_dims_ 1 - P.grid_dims_ 1 / 2) →
        (forRange (-(P.grid_dims_ 1 / 2)) 0
          (fun k2 (st : ((ℤ → DType) × (ℤ → DType)) × ℤ) =>
            (deconvolve_1d P st.1.1 st.1.2 (fkOff + st.2)
              (fwOff + P.fine_dims_ 0 * (P.fine_dims_ 1 + k2))
              (prefactor / P.fseries_data_ 1 (-k2)), st.2 + P.grid_dims_ 0))
          ((forRange 0 ((P.grid_dims_ 1 - 1) / 2 + 1)
            (fun k2 (st : ((ℤ → DType) × (ℤ → DType)) × ℤ) =>
              (deconvolve_1d P st.1.1 st.1.2 (fkOff + st.2) (fwOff + P.fine_dims_ 0 * k2)
                (prefactor / P.fseries_data_ 1 k2), st.2 + P.grid_dims_ 0))
            ((fk, forRange (P.fine_dims_ 0 * ((P.grid_dims_ 1 - 1) / 2 + 1))
              (P.fine_dims_ 0 * (P.fine_dims_ 1 + -(P.grid_dims_ 1 / 2)))
              (fun j (a : ℤ → DType) => Function.update a (fwOff + j) DType.zero) fw),
              pp0)).1, pn0)).1.2
          (fwOff + (j + P.fine_dims_ 0 * r)) = DType.zero) ∧
      (∀ i, i < fwOff ∨ fwOff + P.fine_dims_ 0 * P.fine_dims_ 1 ≤ i →
        (forRange (-(P.grid_dims_ 1 / 2)) 0
          (fun k2 (st : ((ℤ → DType) × (ℤ → DType)) × ℤ) =>
            (deconvolve_1d P st.1.1 st.1.2 (fkOff + st.2)
              (fwOff + P.fine_dims_ 0 * (P.fine_dims_ 1 + k2))
              (prefactor / P.fseries_data_ 1 (-k2)), st.2 + P.grid_dims_ 0))
          ((forRange 0 ((P.grid_dims_ 1 - 1) / 2 + 1)
            (fun k2 (st : ((ℤ → DType) × (ℤ → DType)) × ℤ) =>
              (deconvolve_1d P st.1.1 st.1.2 (fkOff + st.2) (fwOff + P.fine_dims_ 0 * k2)
                (prefactor / P.fseries_data_ 1 k2), st.2 + P.grid_dims_ 0))
            ((fk, forRange (P.fine_dims_ 0 * ((P.grid_dims_ 1 - 1) / 2 + 1))
              (P.fine_dims_ 0 * (P.fine_dims_ 1 + -(P.grid_dims_ 1 / 2)))
              (fun j (a : ℤ → DType) => Function.update a (fwOff + j) DType.zero) fw),
              pp0)).1, pn0)).1.2 i = fw i) ∧
      (forRange (-(P.grid_dims_ 1 / 2)) 0
          (fun k2 (st : ((ℤ → DType) × (ℤ → DType)) × ℤ) =>
            (deconvolve_1d P st.1.1 st.1.2 (fkOff + st.2)
              (fwOff + P.fine_dims_ 0 * (P.fine_dims_ 1 + k2))
              (prefactor / P.fseries_data_ 1 (-k2)), st.2 + P.grid_dims_ 0))
          ((forRange 0 ((P.grid_dims_ 1 - 1) / 2 + 1)
            (fun k2 (st : ((ℤ → DType) × (ℤ → DType)) × ℤ) =>
              (deconvolve_1d P st.1.1 st.1.2 (fkOff + st.2) (fwOff + P.fine_dims_ 0 * k2)
                (prefactor / P.fseries_data_ 1 k2), st.2 + P.grid_dims_ 0))
            ((fk, forRange (P.fine_dims_ 0 * ((P.grid_dims_ 1 - 1) / 2 + 1))
              (P.fine_dims_ 0 * (P.fine_dims_ 1 + -(P.grid_dims_ 1 / 2)))
              (fun j (a : ℤ → DType) => Function.update a (fwOff + j) DType.zero) fw),
              pp0)).1, pn0)).1.1 = fk := by
    intro pp0 pn0 hpp hpn
    obtain ⟨lA, lB, lC, lD⟩ := deconvolve_2d_interp_loops P hdir hms hnf1 hmt hnf2
      (fk, forRange (P.fine_dims_ 0 * ((P.grid_dims_ 1 - 1) / 2 + 1))
        (P.fine_dims_ 0 * (P.fine_dims_ 1 + -(P.grid_dims_ 1 / 2)))
        (fun j (a : ℤ → DType) => Function.update a (fwOff + j) DType.zero) fw)
      fkOff fwOff prefactor pp0 pn0 hpp hpn
    have hfill := forRange_fill_any (P.fine_dims_ 0 * ((P.grid_dims_ 1 - 1) / 2 + 1))
      (P.fine_dims_ 0 * (P.fine_dims_ 1 + -(P.grid_dims_ 1 / 2))) fwOff
      (fun _ => DType.zero) fw
    have m1 : 0 ≤ P.fine_dims_ 0 * ((P.grid_dims_ 1 - 1) / 2 + 1) :=
      mul_nonneg hnf1' (by omega)
    have m2 : P.fine_dims_ 0 * (P.fine_dims_ 1 - P.grid_dims_ 1 / 2) ≤
        P.fine_dims_ 0 * P.fine_dims_ 1 := mul_le_mul_of_nonneg_left (by omega) hnf1'
    have m3 : P.fine_dims_ 0 * (P.fine_dims_ 1 + -(P.grid_dims_ 1 / 2)) =
        P.fine_dims_ 0 * (P.fine_dims_ 1 - P.grid_dims_ 1 / 2) := by ring
    have m4 : P.fine_dims_ 0 * ((P.grid_dims_ 1 - 1) / 2 + 1) ≤
        P.fine_dims_ 0 * P.fine_dims_ 1 := mul_le_mul_of_nonneg_left (by omega) hnf1'
    have m5 : 0 ≤ P.fine_dims_ 0 * (P.fine_dims_ 1 - P.grid_dims_ 1 / 2) :=
      mul_nonneg hnf1' (by omega)
    refine ⟨lA, ?_, ?_, lD⟩
    · intro j r j0 j1 r0 r1 h
      by_cases hr : (P.grid_dims_ 1 - 1) / 2 < r ∧ r < P.fine_dims_ 1 - P.grid_dims_ 1 / 2
      · -- a row of the zero padding
        have a1 : P.fine_dims_ 0 * ((P.grid_dims_ 1 - 1) / 2 + 1) ≤ P.fine_dims_ 0 * r :=
          mul_le_mul_of_nonneg_left (by omega) hnf1'
        have a2 : P.fine_dims_ 0 * (r + 1) ≤
            P.fine_dims_ 0 * (P.fine_dims_ 1 - P.grid_dims_ 1 / 2) :=
          mul_le_mul_of_nonneg_left (by omega) hnf1'
        rw [mul_add, mul_one] at a2
        rw [lC _ (Or.inr (by omega)) (Or.inl (by omega))]
        dsimp only
        rw [hfill]
        beta_reduce
        rw [if_pos (by rw [m3]; constructor <;> omega)]
      · -- a row of a used mode, outside the used columns
        have hj : (P.grid_dims_ 0 - 1) / 2 < j ∧ j < P.fine_dims_ 0 - P.grid_dims_ 0 / 2 := by
          rcases h with h | h
          · exact h
          · exact absurd h hr
        by_cases hlow : r ≤ (P.grid_dims_ 1 - 1) / 2
        · have := lB j r hj.1 hj.2 (by omega) hlow
          rw [emod_of_range r _ r0 r1] at this
          exact this
        · have := lB j (r - P.fine_dims_ 1) hj.1 hj.2 (by omega) (by omega)
          rw [emod_of_neg_range _ _ (by omega) (by omega), sub_add_cancel] at this
          exact this
    · intro i hi
      rw [lC i (by omega) (by omega)]
      dsimp only
      rw [hfill]
      beta_reduce
      rw [if_neg (by rw [m3]; omega)]
  have hk1 : (0 : ℤ) ≤ (P.grid_dims_ 1 - 1) / 2 + 1 := by omega
  simp only [deconvolve_2d, hdir, ↓reduceIte, cdiv_neg_two _ hmt, kmax_eq _ hmt]
  cases hmo : P.mode_order
  · simp only []
    have := key 0 (((P.grid_dims_ 1 - 1) / 2 + 1) * P.grid_dims_ 0)
      (by rw [hmo]; simp [posBase])
      (by rw [hmo]; simp only [negBase]
          have : P.grid_dims_ 1 - P.grid_dims_ 1 / 2 = (P.grid_dims_ 1 - 1) / 2 + 1 := by omega
          rw [this]; ring)
    rw [hmo] at this
    exact this
  · simp only []
    have := key (- -(P.grid_dims_ 1 / 2) * P.grid_dims_ 0) 0
      (by rw [hmo]; simp only [posBase]; ring)
      (by rw [hmo]; simp [negBase])
    rw [hmo] at this
    exact this

/-- Dividing the prefactor by one coefficient and the value by another is dividing
by their product. -/
theorem deconvVal_two (p a b : ℚ) (z : DType) :
    (deconvVal (p / b) z a).re = p * z.re / (a * b) ∧
      (deconvVal (p / b) z a).im = p * z.im / (a * b) := by
  simp only [deconvVal, DType.scale, DType.divReal]
  have h : ∀ x : ℚ, p / b * x / a = p * x / (a * b) := by
    intro x
    rw [div_mul_eq_mul_div, div_div, mul_comm b a]
  exact ⟨h _, h _⟩

/-- C40: in the backward (INTERP) direction with `0 ≤ ms ≤ nf1` and
`0 ≤ mt ≤ nf2`, `deconvolve_2d` overwrites every one of the `nf1*nf2` cells of
`fw`: the cell in column `k1 mod nf1` and row `k2 mod nf2` of a used mode pair
`(k1, k2)` receives `prefactor * fk[pos(k1, k2)] / (fseries0[|k1|] *
fseries1[|k2|])`; every cell whose column or row is not that of a used mode
receives exactly `0`; these two cases exhaust the `nf1 * nf2` cells; the result
there is the same whatever `fw` held before; `fk` and the rest of `fw` are left
unchanged. -/
theorem deconvolve_2d_backward_overwrites (P : Plan)
    (hdir : P.spread_direction = SpreadDirection.INTERP)
    (hms : 0 ≤ P.grid_dims_ 0) (hnf1 : P.grid_dims_ 0 ≤ P.fine_dims_ 0)
    (hmt : 0 ≤ P.grid_dims_ 1) (hnf2 : P.grid_dims_ 1 ≤ P.fine_dims_ 1)
    (fk fw : ℤ → DType) (prefactor : ℚ) :
    (∀ k1 k2, -(P.grid_dims_ 0 / 2) ≤ k1 → k1 ≤ (P.grid_dims_ 0 - 1) / 2 →
      -(P.grid_dims_ 1 / 2) ≤ k2 → k2 ≤ (P.grid_dims_ 1 - 1) / 2 →
      ((deconvolve_2d P fk fw 0 0 prefactor).2
          (k1 % P.fine_dims_ 0 + P.fine_dims_ 0 * (k2 % P.fine_dims_ 1))).re =
        prefactor *
          (fk (modePos P.mode_order (P.grid_dims_ 0) k1 +
            P.grid_dims_ 0 * modePos P.mode_order (P.grid_dims_ 1) k2)).re /
          (P.fseries_data_ 0 |k1| * P.fseries_data_ 1 |k2|) ∧
      ((deconvolve_2d P fk fw 0 0 prefactor).2
          (k1 % P.fine_dims_ 0 + P.fine_dims_ 0 * (k2 % P.fine_dims_ 1))).im =
        prefactor *
          (fk (modePos P.mode_order (P.grid_dims_ 0) k1 +
            P.grid_dims_ 0 * modePos P.mode_order (P.grid_dims_ 1) k2)).im /
          (P.fseries_data_ 0 |k1| * P.fseries_data_ 1 |k2|)) ∧
    (∀ j r, 0 ≤ j → j < P.fine_dims_ 0 → 0 ≤ r → r < P.fine_dims_ 1 →
      ((P.grid_dims_ 0 - 1) / 2 < j ∧ j < P.fine_dims_ 0 - P.grid_dims_ 0 / 2) ∨
        ((P.grid_dims_ 1 - 1) / 2 < r ∧ r < P.fine_dims_ 1 - P.grid_dims_ 1 / 2) →
      (deconvolve_2d P fk fw 0 0 prefactor).2 (j + P.fine_dims_ 0 * r) = DType.zero) ∧
    (∀ j r, 0 ≤ j → j < P.fine_dims_ 0 → 0 ≤ r → r < P.fine_dims_ 1 →
      (∃ k1 k2, (-(P.grid_dims_ 0 / 2) ≤ k1 ∧ k1 ≤ (P.grid_dims_ 0 - 1) / 2) ∧
        (-(P.grid_dims_ 1 / 2) ≤ k2 ∧ k2 ≤ (P.grid_dims_ 1 - 1) / 2) ∧
        k1 % P.fine_dims_ 0 = j ∧ k2 % P.fine_dims_ 1 = r) ∨
      (((P.grid_dims_ 0 - 1) / 2 < j ∧ j < P.fine_dims_ 0 - P.grid_dims_ 0 / 2) ∨
        ((P.grid_dims_ 1 - 1) / 2 < r ∧ r < P.fine_dims_ 1 - P.grid_dims_ 1 / 2))) ∧
    (∀ fw2 i, 0 ≤ i → i < P.fine_dims_ 0 * P.fine_dims_ 1 →
      (deconvolve_2d P fk fw 0 0 prefactor).2 i =
        (deconvolve_2d P fk fw2 0 0 prefactor).2 i) ∧
    (∀ i, i < 0 ∨ P.fine_dims_ 0 * P.fine_dims_ 1 ≤ i →
      (deconvolve_2d P fk fw 0 0 prefactor).2 i = fw i) ∧
    (deconvolve_2d P fk fw 0 0 prefactor).1 = fk := by
  have H := fun fw0 => deconvolve_2d_interp_off P hdir hms hnf1 hmt hnf2 fk fw0 0 0 prefactor
  simp only [zero_add] at H
  -- every index of one axis belongs to a used mode or to the padding
  have cover : ∀ (m n i : ℤ), 0 ≤ m → m ≤ n → 0 ≤ i → i < n →
      (∃ k, (-(m / 2) ≤ k ∧ k ≤ (m - 1) / 2) ∧ k % n = i) ∨
        ((m - 1) / 2 < i ∧ i < n - m / 2) := by
    intro m n i _ _ h0 h1
    by_cases ha : i ≤ (m - 1) / 2
    · exact Or.inl ⟨i, ⟨by omega, ha⟩, emod_of_range i _ h0 h1⟩
    · by_cases hb : i < n - m / 2
      · exact Or.inr ⟨by omega, hb⟩
      · refine Or.inl ⟨i - n, ⟨by omega, by omega⟩, ?_⟩
        rw [emod_of_neg_range _ _ (by omega) (by omega)]
        ring
  have hcells : ∀ j r, 0 ≤ j → j < P.fine_dims_ 0 → 0 ≤ r → r < P.fine_dims_ 1 →
      (∃ k1 k2, (-(P.grid_dims_ 0 / 2) ≤ k1 ∧ k1 ≤ (P.grid_dims_ 0 - 1) / 2) ∧
        (-(P.grid_dims_ 1 / 2) ≤ k2 ∧ k2 ≤ (P.grid_dims_ 1 - 1) / 2) ∧
        k1 % P.fine_dims_ 0 = j ∧ k2 % P.fine_dims_ 1 = r) ∨
      (((P.grid_dims_ 0 - 1) / 2 < j ∧ j < P.fine_dims_ 0 - P.grid_dims_ 0 / 2) ∨
        ((P.grid_dims_ 1 - 1) / 2 < r ∧ r < P.fine_dims_ 1 - P.grid_dims_ 1 / 2)) := by
    intro j r j0 j1 r0 r1
    rcases cover _ _ j hms hnf1 j0 j1 with ⟨k1, hk1, e1⟩ | hj
    · rcases cover _ _ r hmt hnf2 r0 r1 with ⟨k2, hk2, e2⟩ | hr
      · exact Or.inl ⟨k1, k2, hk1, hk2, e1, e2⟩
      · exact Or.inr (Or.inr hr)
    · exact Or.inr (Or.inl hj)
  refine ⟨?_, (H fw).2.1, hcells, ?_, (H fw).2.2.1, (H fw).2.2.2⟩
  · intro k1 k2 a0 a1 b0 b1
    rw [(H fw).1 k1 k2 a0 a1 b0 b1]
    exact deconvVal_two _ _ _ _
  · intro fw2 i i0 i1
    have hpos : 0 < P.fine_dims_ 0 := by
      by_contra hc
      have : P.fine_dims_ 0 = 0 := by omega
      rw [this, zero_mul] at i1
      omega
    have hj0 := Int.emod_nonneg i (ne_of_gt hpos)
    have hj1 := Int.emod_lt_of_pos i hpos
    have hr0 : 0 ≤ i / P.fine_dims_ 0 := Int.ediv_nonneg i0 (le_of_lt hpos)
    have hr1 : i / P.fine_dims_ 0 < P.fine_dims_ 1 :=
      Int.ediv_lt_of_lt_mul hpos (by rw [mul_comm]; exact i1)
    have hi : i = i % P.fine_dims_ 0 + P.fine_dims_ 0 * (i / P.fine_dims_ 0) :=
      (Int.emod_add_ediv i _).symm
    rw [hi]
    rcases hcells _ _ hj0 hj1 hr0 hr1 with ⟨k1, k2, hk1, hk2, e1, e2⟩ | hz
    · rw [← e1, ← e2, (H fw).1 k1 k2 hk1.1 hk1.2 hk2.1 hk2.2,
        (H fw2).1 k1 k2 hk1.1 hk1.2 hk2.1 hk2.2]
    · rw [(H fw).2.1 _ _ hj0 hj1 hr0 hr1 hz, (H fw2).2.1 _ _ hj0 hj1 hr0 hr1 hz]

/-- C40, witness: the `2 x 3` modes of the sample plan on its `4 x 6` fine grid,
in CMCL order. -/
theorem deconvolve_2d_backward_overwrites_witness :
    (planCube ModeOrder.CMCL SpreadDirection.INTERP).grid_dims_ 0 ≤
      (planCube ModeOrder.CMCL SpreadDirection.INTERP).fine_dims_ 0 ∧
    (planCube ModeOrder.CMCL SpreadDirection.INTERP).grid_dims_ 1 ≤
      (planCube ModeOrder.CMCL SpreadDirection.INTERP).fine_dims_ 1 ∧
    (deconvolve_2d (planCube ModeOrder.CMCL SpreadDirection.INTERP) sampleArray sampleArray
      0 0 1).2 (2 + (planCube ModeOrder.CMCL SpreadDirection.INTERP).fine_dims_ 0 * 0) =
      DType.zero ∧
    (deconvolve_2d (planCube ModeOrder.CMCL SpreadDirection.INTERP) sampleArray sampleArray
      0 0 1).1 = sampleArray :=
  have h := deconvolve_2d_backward_overwrites (planCube ModeOrder.CMCL SpreadDirection.INTERP)
    rfl (by decide) (by decide) (by decide) (by decide) sampleArray sampleArray 1
  ⟨by decide, by decide,
    h.2.1 2 0 (by decide) (by decide) (by decide) (by decide)
      (Or.inl ⟨by decide, by decide⟩),
    h.2.2.2.2.2⟩

/-! ## Adding a subgrid to the periodic grid, in all ranks -/

/-- An additive loop, without any assumption on its bounds. -/
theorem forRange_additive_any (n : ℤ) (body : ℤ → (ℤ → ℚ) → (ℤ → ℚ))
    (P : ℤ → ℤ → ℚ) (hb : ∀ k a, 0 ≤ k → k < n → body k a = fun q => a q + P k q)
    (a : ℤ → ℚ) (q : ℤ) :
    forRange 0 n body a q = a q + sumRange n (fun d => P d q) := by
  by_cases hn : 0 ≤ n
  · have := forRange_additive 0 n hn body P hb a q
    simp only [sub_zero, zero_add] at this
    exact this
  · rw [forRange_empty _ _ _ _ (by omega)]
    have : sumRange n (fun d => P d q) = 0 := by
      unfold sumRange
      have : n.toNat = 0 := by omega
      rw [this]
      simp
    rw [this, add_zero]

/-- A sum with at most one non-zero term, picked by an equation. -/
theorem sumRange_pick (n a : ℤ) (C : Prop) [Decidable C] (f : ℤ → ℚ) :
    sumRange n (fun dx => if C ∧ dx = a then f dx else 0) =
      if C ∧ 0 ≤ a ∧ a < n then f a else 0 := by
  by_cases h : C ∧ 0 ≤ a ∧ a < n
  · rw [if_pos h, sumRange_single n _ a h.2.1 h.2.2]
    · rw [if_pos ⟨h.1, rfl⟩]
    · intro k _ _ hk
      rw [if_neg (fun hc => hk hc.2)]
  · rw [if_neg h]
    apply sumRange_all_zero
    intro k k0 k1
    beta_reduce
    rw [if_neg]
    rintro ⟨hc, hk⟩
    exact h ⟨hc, by omega, by omega⟩

/-- A wrapped pointer list of `add_wrapped_subgrid` holds the positions
`(offset + i) mod N`. -/
theorem wrap_list_eq (offset N size : ℤ) (hN : 1 ≤ N) (h0 : -N ≤ offset) (h1 : offset ≤ N) :
    ∀ i, 0 ≤ i → i < size → wrap_list offset N size i = (offset + i) % N := by
  by_cases hs : 0 ≤ size
  · unfold wrap_list
    have key := forRange_induct
      (fun K (st : ℤ × (ℤ → ℤ)) =>
        (-N ≤ st.1 ∧ st.1 ≤ N ∧ st.1 % N = (offset + K) % N) ∧
        ∀ i, 0 ≤ i → i < K → st.2 i = (offset + i) % N)
      0 size
      (fun i (st : ℤ × (ℤ → ℤ)) =>
        (wrapOnce st.1 N + 1, Function.update st.2 i (wrapOnce st.1 N)))
      (offset, (fun _ => 0)) hs ?_ ?_
    · exact key.2
    · refine ⟨⟨h0, h1, by simp⟩, ?_⟩
      intro i i0 i1
      omega
    · rintro K st hK0 hK1 ⟨⟨a0, a1, a2⟩, ih⟩
      obtain ⟨w1, w2, w3, w4⟩ := wrapOnce_step st.1 offset K N hN a0 a1 a2
      refine ⟨⟨w2, w3, ?_⟩, ?_⟩
      · dsimp only
        rw [w4]
      · intro i i0 i1
        dsimp only
        by_cases hi : i = K
        · rw [hi, Function.update_same, w1]
        · rw [Function.update_noteq hi]
          exact ih i i0 (by omega)
  · intro i i0 i1
    omega

/-- The three runs of `add_wrapped_subgrid` along the first axis: the amount
added at distance `r` (in floats) from the start of the output line. -/
theorem three_runs_eq (offset1 size1 N1 outOff inOff : ℤ) (du0 out : ℤ → ℚ) (q : ℤ) :
    addRun
        (2 * (size1 - (if offset1 + size1 > N1 then offset1 + size1 - N1 else 0)))
        (2 * size1) (2 * (offset1 - N1)) outOff inOff du0
        (addRun (2 * (if offset1 < 0 then -offset1 else 0))
          (2 * (size1 - (if offset1 + size1 > N1 then offset1 + size1 - N1 else 0)))
          (2 * offset1) outOff inOff du0
          (addRun 0 (2 * (if offset1 < 0 then -offset1 else 0)) (2 * (offset1 + N1)) outOff
            inOff du0 out)) q =
      out q +
        ((if 0 ≤ q - outOff - 2 * (offset1 + N1) ∧
              q - outOff - 2 * (offset1 + N1) < 2 * (if offset1 < 0 then -offset1 else 0) then
            du0 (inOff + (q - outOff - 2 * (offset1 + N1))) else 0) +
          (if 2 * (if offset1 < 0 then -offset1 else 0) ≤ q - outOff - 2 * offset1 ∧
              q - outOff - 2 * offset1 <
                2 * (size1 - (if offset1 + size1 > N1 then offset1 + size1 - N1 else 0)) then
            du0 (inOff + (q - outOff - 2 * offset1)) else 0) +
          (if 2 * (size1 - (if offset1 + size1 > N1 then offset1 + size1 - N1 else 0)) ≤
                q - outOff - 2 * (offset1 - N1) ∧
              q - outOff - 2 * (offset1 - N1) < 2 * size1 then
            du0 (inOff + (q - outOff - 2 * (offset1 - N1))) else 0)) := by
  rw [addRun_eq, addRun_eq, addRun_eq]
  ring

/-- The three runs write inside the output line: at a distance `r` outside
`[0, 2*N1)` from its start they add nothing. -/
theorem three_runs_outside (offset1 size1 N1 inOff : ℤ) (du0 : ℤ → ℚ) (r : ℤ)
    (h0 : -N1 ≤ offset1) (h2 : offset1 + size1 ≤ 2 * N1)
    (hr : r < 0 ∨ 2 * N1 ≤ r) :
    (if 0 ≤ r - 2 * (offset1 + N1) ∧
          r - 2 * (offset1 + N1) < 2 * (if offset1 < 0 then -offset1 else 0) then
        du0 (inOff + (r - 2 * (offset1 + N1))) else 0) +
      (if 2 * (if offset1 < 0 then -offset1 else 0) ≤ r - 2 * offset1 ∧
          r - 2 * offset1 <
            2 * (size1 - (if offset1 + size1 > N1 then offset1 + size1 - N1 else 0)) then
        du0 (inOff + (r - 2 * offset1)) else 0) +
      (if 2 * (size1 - (if offset1 + size1 > N1 then offset1 + size1 - N1 else 0)) ≤
            r - 2 * (offset1 - N1) ∧
          r - 2 * (offset1 - N1) < 2 * size1 then
        du0 (inOff + (r - 2 * (offset1 - N1))) else 0) = 0 := by
  have c1 : ¬ (0 ≤ r - 2 * (offset1 + N1) ∧
      r - 2 * (offset1 + N1) < 2 * (if offset1 < 0 then -offset1 else 0)) := by
    split_ifs <;> omega
  have c2 : ¬ (2 * (if offset1 < 0 then -offset1 else 0) ≤ r - 2 * offset1 ∧
      r - 2 * offset1 <
        2 * (size1 - (if offset1 + size1 > N1 then offset1 + size1 - N1 else 0))) := by
    split_ifs <;> omega
  have c3 : ¬ (2 * (size1 - (if offset1 + size1 > N1 then offset1 + size1 - N1 else 0)) ≤
        r - 2 * (offset1 - N1) ∧ r - 2 * (offset1 - N1) < 2 * size1) := by
    split_ifs <;> omega
  rw [if_neg c1, if_neg c2, if_neg c3]
  norm_num

/-- The three runs add to the float `2*g + c` of the output line the floats of
the subgrid line whose cell is congruent to `g` modulo `N1`. -/
theorem three_runs_inside (offset1 size1 N1 inOff : ℤ) (du0 : ℤ → ℚ) (g c : ℤ)
    (h0 : -N1 ≤ offset1) (h1 : offset1 < N1) (hs : 0 < offset1 + size1)
    (h2 : offset1 + size1 ≤ 2 * N1) (hg0 : 0 ≤ g) (hg1 : g < N1) (hc0 : 0 ≤ c) (hc1 : c ≤ 1) :
    (if 0 ≤ 2 * g + c - 2 * (offset1 + N1) ∧
          2 * g + c - 2 * (offset1 + N1) < 2 * (if offset1 < 0 then -offset1 else 0) then
        du0 (inOff + (2 * g + c - 2 * (offset1 + N1))) else 0) +
      (if 2 * (if offset1 < 0 then -offset1 else 0) ≤ 2 * g + c - 2 * offset1 ∧
          2 * g + c - 2 * offset1 <
            2 * (size1 - (if offset1 + size1 > N1 then offset1 + size1 - N1 else 0)) then
        du0 (inOff + (2 * g + c - 2 * offset1)) else 0) +
      (if 2 * (size1 - (if offset1 + size1 > N1 then offset1 + size1 - N1 else 0)) ≤
            2 * g + c - 2 * (offset1 - N1) ∧
          2 * g + c - 2 * (offset1 - N1) < 2 * size1 then
        du0 (inOff + (2 * g + c - 2 * (offset1 - N1))) else 0) =
      sumRange size1 (fun dx =>
        if (offset1 + dx) % N1 = g then du0 (inOff + (2 * dx + c)) else 0) := by
  -- every term of the sum, through the three runs
  have hterm : ∀ dx, 0 ≤ dx → dx < size1 →
      (if (offset1 + dx) % N1 = g then du0 (inOff + (2 * dx + c)) else 0) =
      (if (0 ≤ 2 * g + c - 2 * (offset1 + N1) ∧
            2 * g + c - 2 * (offset1 + N1) < 2 * (if offset1 < 0 then -offset1 else 0)) ∧
          dx = g - offset1 - N1 then du0 (inOff + (2 * dx + c)) else 0) +
      (if (2 * (if offset1 < 0 then -offset1 else 0) ≤ 2 * g + c - 2 * offset1 ∧
            2 * g + c - 2 * offset1 <
              2 * (size1 - (if offset1 + size1 > N1 then offset1 + size1 - N1 else 0))) ∧
          dx = g - offset1 then du0 (inOff + (2 * dx + c)) else 0) +
      (if (2 * (size1 - (if offset1 + size1 > N1 then offset1 + size1 - N1 else 0)) ≤
              2 * g + c - 2 * (offset1 - N1) ∧
            2 * g + c - 2 * (offset1 - N1) < 2 * size1) ∧
          dx = g - offset1 + N1 then du0 (inOff + (2 * dx + c)) else 0) := by
    intro dx d0 d1
    have w := wrap_cases offset1 size1 N1 (if offset1 < 0 then -offset1 else 0)
      (if offset1 + size1 > N1 then offset1 + size1 - N1 else 0) (offset1 + dx) g c
      (du0 (inOff + (2 * dx + c))) rfl rfl (by omega) (by omega) (by omega) (by omega)
      hg0 hg1 hc0 hc1
    have e : offset1 + dx - offset1 = dx := by ring
    rw [e] at w
    exact w.symm
  rw [sumRange_congr size1 _ _ hterm, sumRange_add, sumRange_add, sumRange_pick, sumRange_pick,
    sumRange_pick]
  congr 1
  · congr 1
    · by_cases hC : 0 ≤ 2 * g + c - 2 * (offset1 + N1) ∧
          2 * g + c - 2 * (offset1 + N1) < 2 * (if offset1 < 0 then -offset1 else 0)
      · have hr : 0 ≤ g - offset1 - N1 ∧ g - offset1 - N1 < size1 := by
          revert hC
          split_ifs <;> intro hC <;> omega
        rw [if_pos hC, if_pos ⟨hC, hr⟩]
        congr 2
        ring
      · rw [if_neg hC, if_neg (fun h => hC h.1)]
    · by_cases hC : 2 * (if offset1 < 0 then -offset1 else 0) ≤ 2 * g + c - 2 * offset1 ∧
          2 * g + c - 2 * offset1 <
            2 * (size1 - (if offset1 + size1 > N1 then offset1 + size1 - N1 else 0))
      · have hr : 0 ≤ g - offset1 ∧ g - offset1 < size1 := by
          revert hC
          split_ifs <;> intro hC <;> omega
        rw [if_pos hC, if_pos ⟨hC, hr⟩]
        congr 2
        ring
      · rw [if_neg hC, if_neg (fun h => hC h.1)]
  · by_cases hC : 2 * (size1 - (if offset1 + size1 > N1 then offset1 + size1 - N1 else 0)) ≤
          2 * g + c - 2 * (offset1 - N1) ∧ 2 * g + c - 2 * (offset1 - N1) < 2 * size1
    · have hr : 0 ≤ g - offset1 + N1 ∧ g - offset1 + N1 < size1 := by
        revert hC
        split_ifs <;> intro hC <;> omega
      rw [if_pos hC, if_pos ⟨hC, hr⟩]
      congr 2
      ring
    · rw [if_neg hC, if_neg (fun h => hC h.1)]

/-- The function `add_wrapped_subgrid`, float by float: every line `(dy, dz)` of
the subgrid adds the amounts of its three runs. -/
theorem add_wrapped_subgrid_eq (offset1 offset2 offset3 size1 size2 size3 N1 N2 N3 : ℤ)
    (out du0 : ℤ → ℚ) (q : ℤ) :
    add_wrapped_subgrid offset1 offset2 offset3 size1 size2 size3 N1 N2 N3 out du0 q =
      out q + sumRange size3 (fun dz => sumRange size2 (fun dy =>
        (if 0 ≤ q - 2 * (N1 * N2 * wrap_list offset3 N3 size3 dz +
                N1 * wrap_list offset2 N2 size2 dy) - 2 * (offset1 + N1) ∧
              q - 2 * (N1 * N2 * wrap_list offset3 N3 size3 dz +
                N1 * wrap_list offset2 N2 size2 dy) - 2 * (offset1 + N1) <
                2 * (if offset1 < 0 then -offset1 else 0) then
            du0 (2 * size1 * (dy + size2 * dz) +
              (q - 2 * (N1 * N2 * wrap_list offset3 N3 size3 dz +
                N1 * wrap_list offset2 N2 size2 dy) - 2 * (offset1 + N1))) else 0) +
          (if 2 * (if offset1 < 0 then -offset1 else 0) ≤
                q - 2 * (N1 * N2 * wrap_list offset3 N3 size3 dz +
                  N1 * wrap_list offset2 N2 size2 dy) - 2 * offset1 ∧
              q - 2 * (N1 * N2 * wrap_list offset3 N3 size3 dz +
                  N1 * wrap_list offset2 N2 size2 dy) - 2 * offset1 <
                2 * (size1 - (if offset1 + size1 > N1 then offset1 + size1 - N1 else 0)) then
            du0 (2 * size1 * (dy + size2 * dz) +
              (q - 2 * (N1 * N2 * wrap_list offset3 N3 size3 dz +
                N1 * wrap_list offset2 N2 size2 dy) - 2 * offset1)) else 0) +
          (if 2 * (size1 - (if offset1 + size1 > N1 then offset1 + size1 - N1 else 0)) ≤
                q - 2 * (N1 * N2 * wrap_list offset3 N3 size3 dz +
                  N1 * wrap_list offset2 N2 size2 dy) - 2 * (offset1 - N1) ∧
              q - 2 * (N1 * N2 * wrap_list offset3 N3 size3 dz +
                  N1 * wrap_list offset2 N2 size2 dy) - 2 * (offset1 - N1) < 2 * size1 then
            du0 (2 * size1 * (dy + size2 * dz) +
              (q - 2 * (N1 * N2 * wrap_list offset3 N3 size3 dz +
                N1 * wrap_list offset2 N2 size2 dy) - 2 * (offset1 - N1))) else 0))) := by
  unfold add_wrapped_subgrid
  dsimp only
  refine forRange_additive_any size3 _
    (fun dz q => sumRange size2 (fun dy =>
        (if 0 ≤ q - 2 * (N1 * N2 * wrap_list offset3 N3 size3 dz +
                N1 * wrap_list offset2 N2 size2 dy) - 2 * (offset1 + N1) ∧
              q - 2 * (N1 * N2 * wrap_list offset3 N3 size3 dz +
                N1 * wrap_list offset2 N2 size2 dy) - 2 * (offset1 + N1) <
                2 * (if offset1 < 0 then -offset1 else 0) then
            du0 (2 * size1 * (dy + size2 * dz) +
              (q - 2 * (N1 * N2 * wrap_list offset3 N3 size3 dz +
                N1 * wrap_list offset2 N2 size2 dy) - 2 * (offset1 + N1))) else 0) +
          (if 2 * (if offset1 < 0 then -offset1 else 0) ≤
                q - 2 * (N1 * N2 * wrap_list offset3 N3 size3 dz +
                N1 * wrap_list offset2 N2 size2 dy) - 2 * offset1 ∧
              q - 2 * (N1 * N2 * wrap_list offset3 N3 size3 dz +
                N1 * wrap_list offset2 N2 size2 dy) - 2 * offset1 <
                2 * (size1 - (if offset1 + size1 > N1 then offset1 + size1 - N1 else 0)) then
            du0 (2 * size1 * (dy + size2 * dz) +
              (q - 2 * (N1 * N2 * wrap_list offset3 N3 size3 dz +
                N1 * wrap_list offset2 N2 size2 dy) - 2 * offset1)) else 0) +
          (if 2 * (size1 - (if offset1 + size1 > N1 then offset1 + size1 - N1 else 0)) ≤
                q - 2 * (N1 * N2 * wrap_list offset3 N3 size3 dz +
                N1 * wrap_list offset2 N2 size2 dy) - 2 * (offset1 - N1) ∧
              q - 2 * (N1 * N2 * wrap_list offset3 N3 size3 dz +
                N1 * wrap_list offset2 N2 size2 dy) - 2 * (offset1 - N1) < 2 * size1 then
            du0 (2 * size1 * (dy + size2 * dz) +
              (q - 2 * (N1 * N2 * wrap_list offset3 N3 size3 dz +
                N1 * wrap_list offset2 N2 size2 dy) - 2 * (offset1 - N1))) else 0))) ?_ out q
  intro dz a _ _
  funext q2
  refine forRange_additive_any size2 _
    (fun dy q =>
        (if 0 ≤ q - 2 * (N1 * N2 * wrap_list offset3 N3 size3 dz +
                N1 * wrap_list offset2 N2 size2 dy) - 2 * (offset1 + N1) ∧
              q - 2 * (N1 * N2 * wrap_list offset3 N3 size3 dz +
                N1 * wrap_list offset2 N2 size2 dy) - 2 * (offset1 + N1) <
                2 * (if offset1 < 0 then -offset1 else 0) then
            du0 (2 * size1 * (dy + size2 * dz) +
              (q - 2 * (N1 * N2 * wrap_list offset3 N3 size3 dz +
                N1 * wrap_list offset2 N2 size2 dy) - 2 * (offset1 + N1))) else 0) +
          (if 2 * (if offset1 < 0 then -offset1 else 0) ≤
                q - 2 * (N1 * N2 * wrap_list offset3 N3 size3 dz +
                N1 * wrap_list offset2 N2 size2 dy) - 2 * offset1 ∧
              q - 2 * (N1 * N2 * wrap_list offset3 N3 size3 dz +
                N1 * wrap_list offset2 N2 size2 dy) - 2 * offset1 <
                2 * (size1 - (if offset1 + size1 > N1 then offset1 + size1 - N1 else 0)) then
            du0 (2 * size1 * (dy + size2 * dz) +
              (q - 2 * (N1 * N2 * wrap_list offset3 N3 size3 dz +
                N1 * wrap_list offset2 N2 size2 dy) - 2 * offset1)) else 0) +
          (if 2 * (size1 - (if offset1 + size1 > N1 then offset1 + size1 - N1 else 0)) ≤
                q - 2 * (N1 * N2 * wrap_list offset3 N3 size3 dz +
                N1 * wrap_list offset2 N2 size2 dy) - 2 * (offset1 - N1) ∧
              q - 2 * (N1 * N2 * wrap_list offset3 N3 size3 dz +
                N1 * wrap_list offset2 N2 size2 dy) - 2 * (offset1 - N1) < 2 * size1 then
            du0 (2 * size1 * (dy + size2 * dz) +
              (q - 2 * (N1 * N2 * wrap_list offset3 N3 size3 dz +
                N1 * wrap_list offset2 N2 size2 dy) - 2 * (offset1 - N1))) else 0)) ?_ a q2
  intro dy b _ _
  funext q3
  exact three_runs_eq offset1 size1 N1 _ _ du0 b q3

/-- C35: for a subgrid that overhangs the periodic box by less than one period on
each side of every axis (`-N_a ≤ offset_a < N_a`, `offset1 + size1 > 0` and
`offset1 + size1 ≤ 2*N1`), `add_wrapped_subgrid` leaves every float outside
`[0, 2*N1*N2*N3)` as it is, and adds to every float `c` of every output cell
`(g1, g2, g3)` exactly the sum of the subgrid entries `(dx, dy, dz)` whose
position `offset + d`, reduced modulo `(N1, N2, N3)`, is that cell;
`add_wrapped_subgrid_thread_safe` yields the same grid. -/
theorem add_wrapped_subgrid_periodic
    (offset1 offset2 offset3 size1 size2 size3 N1 N2 N3 : ℤ) (out du0 : ℤ → ℚ)
    (h1a : -N1 ≤ offset1) (h1b : offset1 < N1) (h2a : -N2 ≤ offset2) (h2b : offset2 < N2)
    (h3a : -N3 ≤ offset3) (h3b : offset3 < N3) (hs : 0 < offset1 + size1)
    (hs2 : offset1 + size1 ≤ 2 * N1) :
    (∀ q, q < 0 ∨ 2 * N1 * N2 * N3 ≤ q →
      add_wrapped_subgrid offset1 offset2 offset3 size1 size2 size3 N1 N2 N3 out du0 q =
        out q) ∧
    (∀ g1 g2 g3 c, 0 ≤ g1 → g1 < N1 → 0 ≤ g2 → g2 < N2 → 0 ≤ g3 → g3 < N3 →
      0 ≤ c → c ≤ 1 →
      add_wrapped_subgrid offset1 offset2 offset3 size1 size2 size3 N1 N2 N3 out du0
          (2 * (g1 + N1 * (g2 + N2 * g3)) + c) =
        out (2 * (g1 + N1 * (g2 + N2 * g3)) + c) +
          sumRange size3 (fun dz => sumRange size2 (fun dy => sumRange size1 (fun dx =>
            if (offset1 + dx) % N1 = g1 ∧ (offset2 + dy) % N2 = g2 ∧
                (offset3 + dz) % N3 = g3 then
              du0 (2 * (dx + size1 * (dy + size2 * dz)) + c)
            else 0)))) ∧
    add_wrapped_subgrid_thread_safe offset1 offset2 offset3 size1 size2 size3 N1 N2 N3 out
        du0 =
      add_wrapped_subgrid offset1 offset2 offset3 size1 size2 size3 N1 N2 N3 out du0 := by
  have hN1 : 1 ≤ N1 := by omega
  have hN2 : 1 ≤ N2 := by omega
  have hN3 : 1 ≤ N3 := by omega
  have o2 := wrap_list_eq offset2 N2 size2 hN2 h2a (by omega)
  have o3 := wrap_list_eq offset3 N3 size3 hN3 h3a (by omega)
  have r2 : ∀ dy : ℤ, 0 ≤ (offset2 + dy) % N2 ∧ (offset2 + dy) % N2 < N2 := fun dy =>
    ⟨Int.emod_nonneg _ (by omega), Int.emod_lt_of_pos _ (by omega)⟩
  have r3 : ∀ dz : ℤ, 0 ≤ (offset3 + dz) % N3 ∧ (offset3 + dz) % N3 < N3 := fun dz =>
    ⟨Int.emod_nonneg _ (by omega), Int.emod_lt_of_pos _ (by omega)⟩
  refine ⟨?_, ?_, rfl⟩
  · intro q hq
    rw [add_wrapped_subgrid_eq]
    have hz : sumRange size3 (fun dz => sumRange size2 (fun dy =>
        (if 0 ≤ q - 2 * (N1 * N2 * wrap_list offset3 N3 size3 dz +
                N1 * wrap_list offset2 N2 size2 dy) - 2 * (offset1 + N1) ∧
              q - 2 * (N1 * N2 * wrap_list offset3 N3 size3 dz +
                N1 * wrap_list offset2 N2 size2 dy) - 2 * (offset1 + N1) <
                2 * (if offset1 < 0 then -offset1 else 0) then
            du0 (2 * size1 * (dy + size2 * dz) +
              (q - 2 * (N1 * N2 * wrap_list offset3 N3 size3 dz +
                N1 * wrap_list offset2 N2 size2 dy) - 2 * (offset1 + N1))) else 0) +
          (if 2 * (if offset1 < 0 then -offset1 else 0) ≤
                q - 2 * (N1 * N2 * wrap_list offset3 N3 size3 dz +
                  N1 * wrap_list offset2 N2 size2 dy) - 2 * offset1 ∧
              q - 2 * (N1 * N2 * wrap_list offset3 N3 size3 dz +
                  N1 * wrap_list offset2 N2 size2 dy) - 2 * offset1 <
                2 * (size1 - (if offset1 + size1 > N1 then offset1 + size1 - N1 else 0)) then
            du0 (2 * size1 * (dy + size2 * dz) +
              (q - 2 * (N1 * N2 * wrap_list offset3 N3 size3 dz +
                N1 * wrap_list offset2 N2 size2 dy) - 2 * offset1)) else 0) +
          (if 2 * (size1 - (if offset1 + size1 > N1 then offset1 + size1 - N1 else 0)) ≤
                q - 2 * (N1 * N2 * wrap_list offset3 N3 size3 dz +
                  N1 * wrap_list offset2 N2 size2 dy) - 2 * (offset1 - N1) ∧
              q - 2 * (N1 * N2 * wrap_list offset3 N3 size3 dz +
                  N1 * wrap_list offset2 N2 size2 dy) - 2 * (offset1 - N1) < 2 * size1 then
            du0 (2 * size1 * (dy + size2 * dz) +
              (q - 2 * (N1 * N2 * wrap_list offset3 N3 size3 dz +
                N1 * wrap_list offset2 N2 size2 dy) - 2 * (offset1 - N1))) else 0))) = 0 := by
      apply sumRange_all_zero
      intro dz z0 z1
      apply sumRange_all_zero
      intro dy y0 y1
      beta_reduce
      rw [o2 dy y0 y1, o3 dz z0 z1]
      have cr := cell_index_range N1 N2 N3 0 ((offset2 + dy) % N2) ((offset3 + dz) % N3) N1
        hN1 (le_refl _) (by omega) (r2 dy).1 (r2 dy).2 (r3 dz).1 (r3 dz).2
      have e : 2 * N1 * N2 * N3 = 2 * (N1 * N2 * N3) := by ring
      exact three_runs_outside offset1 size1 N1 _ du0 _ h1a hs2 (by omega)
    rw [hz, add_zero]
  · intro g1 g2 g3 c a0 a1 b0 b1 c0 c1 hc0 hc1
    rw [add_wrapped_subgrid_eq]
    congr 1
    apply sumRange_congr
    intro dz z0 z1
    apply sumRange_congr
    intro dy y0 y1
    beta_reduce
    rw [o2 dy y0 y1, o3 dz z0 z1]
    by_cases hcell : (offset2 + dy) % N2 = g2 ∧ (offset3 + dz) % N3 = g3
    · -- the line of the subgrid lands on the output line of the cell
      rw [hcell.1, hcell.2]
      have e : 2 * (g1 + N1 * (g2 + N2 * g3)) + c - 2 * (N1 * N2 * g3 + N1 * g2) =
          2 * g1 + c := by ring
      rw [e, three_runs_inside offset1 size1 N1 _ du0 g1 c h1a h1b hs hs2 a0 a1 hc0 hc1]
      apply sumRange_congr
      intro dx _ _
      beta_reduce
      by_cases hx : (offset1 + dx) % N1 = g1
      · rw [if_pos hx, if_pos ⟨hx, rfl, rfl⟩]
        congr 1
        ring
      · rw [if_neg hx, if_neg (fun h => hx h.1)]
    · -- the line lands on another output line
      have hm : (g2 - (offset2 + dy) % N2) + N2 * (g3 - (offset3 + dz) % N3) ≥ 1 ∨
          (g2 - (offset2 + dy) % N2) + N2 * (g3 - (offset3 + dz) % N3) ≤ -1 := by
        by_cases h3 : (offset3 + dz) % N3 = g3
        · have h2 : (offset2 + dy) % N2 ≠ g2 := fun h => hcell ⟨h, h3⟩
          rw [h3, sub_self, mul_zero, add_zero]
          omega
        · rcases lt_or_gt_of_ne h3 with h | h
          · have : N2 * 1 ≤ N2 * (g3 - (offset3 + dz) % N3) :=
              mul_le_mul_of_nonneg_left (by omega) (by omega)
            have := r2 dy
            omega
          · have : N2 * (g3 - (offset3 + dz) % N3) ≤ N2 * (-1) :=
              mul_le_mul_of_nonneg_left (by omega) (by omega)
            have := r2 dy
            omega
      have hNm : N1 * ((g2 - (offset2 + dy) % N2) + N2 * (g3 - (offset3 + dz) % N3)) ≥ N1 ∨
          N1 * ((g2 - (offset2 + dy) % N2) + N2 * (g3 - (offset3 + dz) % N3)) ≤ -N1 := by
        rcases hm with h | h
        · left
          have : N1 * 1 ≤
              N1 * ((g2 - (offset2 + dy) % N2) + N2 * (g3 - (offset3 + dz) % N3)) :=
            mul_le_mul_of_nonneg_left h (by omega)
          omega
        · right
          have : N1 * ((g2 - (offset2 + dy) % N2) + N2 * (g3 - (offset3 + dz) % N3)) ≤
              N1 * (-1) := mul_le_mul_of_nonneg_left h (by omega)
          omega
      have e : 2 * (g1 + N1 * (g2 + N2 * g3)) + c -
          2 * (N1 * N2 * ((offset3 + dz) % N3) + N1 * ((offset2 + dy) % N2)) =
          2 * (g1 + N1 * ((g2 - (offset2 + dy) % N2) + N2 * (g3 - (offset3 + dz) % N3))) +
            c := by ring
      rw [e, three_runs_outside offset1 size1 N1 _ du0 _ h1a hs2 (by omega)]
      symm
      apply sumRange_all_zero
      intro dx _ _
      beta_reduce
      rw [if_neg (fun h => hcell ⟨h.2.1, h.2.2⟩)]

/-- C35, witness: a subgrid of five cells at offset `-2` on a line of four cells
(rank 1), which wraps below and above. -/
theorem add_wrapped_subgrid_periodic_witness :
    ((-4 : ℤ) ≤ -2) ∧ ((0 : ℤ) < -2 + 5) ∧ ((-2 : ℤ) + 5 ≤ 2 * 4) ∧
    (∀ q, q < 0 ∨ 2 * 4 * 1 * 1 ≤ q →
      add_wrapped_subgrid (-2) 0 0 5 1 1 4 1 1 sampleGrid sampleKer q = sampleGrid q) ∧
    add_wrapped_subgrid (-2) 0 0 5 1 1 4 1 1 sampleGrid sampleKer
        (2 * (2 + 4 * (0 + 1 * 0)) + 0) =
      sampleGrid (2 * (2 + 4 * (0 + 1 * 0)) + 0) +
        sumRange 1 (fun dz => sumRange 1 (fun dy => sumRange 5 (fun dx =>
          if (-2 + dx) % 4 = 2 ∧ (0 + dy) % 1 = 0 ∧ (0 + dz) % 1 = 0 then
            sampleKer (2 * (dx + 5 * (dy + 1 * dz)) + 0)
          else 0))) ∧
    add_wrapped_subgrid_thread_safe (-2) 0 0 5 1 1 4 1 1 sampleGrid sampleKer =
      add_wrapped_subgrid (-2) 0 0 5 1 1 4 1 1 sampleGrid sampleKer :=
  have h := add_wrapped_subgrid_periodic (-2) 0 0 5 1 1 4 1 1 sampleGrid sampleKer
    (by decide) (by decide) (by decide) (by decide) (by decide) (by decide) (by decide)
    (by decide)
  ⟨by decide, by decide, by decide, h.1,
    h.2.1 2 0 0 0 (by decide) (by decide) (by decide) (by decide) (by decide) (by decide)
      (by decide) (by decide), h.2.2⟩

/-! ## Index safety of the deconvolver -/

theorem readAt_in {α : Type} (len : ℤ) (a : ℤ → α) (i : ℤ) (h0 : 0 ≤ i) (h1 : i < len) :
    readAt len a i = some (a i) := by
  unfold readAt
  rw [if_pos ⟨h0, h1⟩]

theorem writeAt_in {α : Type} (len : ℤ) (a : ℤ → α) (i : ℤ) (v : α) (h0 : 0 ≤ i)
    (h1 : i < len) : writeAt len a i v = some (Function.update a i v) := by
  unfold writeAt
  rw [if_pos ⟨h0, h1⟩]

/-- A checked loop none of whose passes leaves its buffers returns the state of
the unchecked loop; `I` is an invariant of the loop state. -/
theorem forRangeChecked_eq {σ : Type} (I : ℤ → σ → Prop) (lo hi : ℤ)
    (body : ℤ → σ → Option σ) (run : ℤ → σ → σ) (s : σ) (hle : lo ≤ hi) (h0 : I lo s)
    (hstep : ∀ k st, lo ≤ k → k < hi → I k st →
      body k st = some (run k st) ∧ I (k + 1) (run k st)) :
    forRangeChecked lo hi body s = some (forRange lo hi run s) ∧
      I hi (forRange lo hi run s) := by
  have key : ∀ n : ℕ, lo + (n : ℤ) ≤ hi →
      forRangeChecked lo (lo + (n : ℤ)) body s = some (forRange lo (lo + (n : ℤ)) run s) ∧
        I (lo + (n : ℤ)) (forRange lo (lo + (n : ℤ)) run s) := by
    intro n
    induction n with
    | zero =>
      intro _
      unfold forRangeChecked
      rw [forRange_empty _ _ _ _ (by simp), forRange_empty _ _ _ _ (by simp)]
      exact ⟨rfl, by simpa using h0⟩
    | succ n ih =>
      intro hn
      have hn' : lo + (n : ℤ) ≤ hi := by push_cast at hn; omega
      obtain ⟨e, hI⟩ := ih hn'
      have hs := hstep (lo + (n : ℤ)) _ (by omega) (by push_cast at hn; omega) hI
      have ec : lo + ((n + 1 : ℕ) : ℤ) = lo + (n : ℤ) + 1 := by push_cast; ring
      rw [ec]
      unfold forRangeChecked at e ⊢
      rw [forRange_succ _ _ _ _ (by omega), forRange_succ _ _ _ _ (by omega), e]
      exact ⟨hs.1, hs.2⟩
  have h := key (hi - lo).toNat (by omega)
  have e : lo + (((hi - lo).toNat : ℕ) : ℤ) = hi := by omega
  rw [e] at h
  exact h

/-- With `fk` of `ms` entries, `fw` of `nf ≥ ms` entries and `nf/2 + 1`
coefficients, the checked deconvolver makes no access out of range and returns
the buffers of `deconvolve_1d`. -/
theorem deconvolve_1d_checked_eq (P : Plan)
    (hms : 0 ≤ P.grid_dims_ 0) (hnf : P.grid_dims_ 0 ≤ P.fine_dims_ 0)
    (fk fw : ℤ → DType) (prefactor : ℚ) :
    deconvolve_1d_checked P (P.grid_dims_ 0) (P.fine_dims_ 0) (cdiv (P.fine_dims_ 0) 2 + 1)
        fk fw prefactor =
      some (deconvolve_1d P fk fw 0 0 prefactor) := by
  have hkmin : cdiv (-(P.grid_dims_ 0)) 2 = -(P.grid_dims_ 0 / 2) := cdiv_neg_two _ hms
  have hkmax : (if P.grid_dims_ 0 = 0 then (-1 : ℤ) else cdiv (P.grid_dims_ 0 - 1) 2) =
      (P.grid_dims_ 0 - 1) / 2 := kmax_eq _ hms
  have hco : cdiv (P.fine_dims_ 0) 2 = P.fine_dims_ 0 / 2 :=
    cdiv_of_nonneg _ _ (by omega) (by norm_num)
  unfold deconvolve_1d_checked deconvolve_1d
  dsimp only
  rw [hkmin, hkmax, hco]
  simp only [zero_add]
  cases hdir : P.spread_direction
  · -- forward
    dsimp only
    have l1 := forRangeChecked_eq
      (fun k (st : (ℤ → DType) × ℤ) => st.2 =
        (match P.mode_order with
          | ModeOrder.FFT => 0
          | ModeOrder.CMCL => - -(P.grid_dims_ 0 / 2)) + k)
      0 ((P.grid_dims_ 0 - 1) / 2 + 1)
      (fun k (st : (ℤ → DType) × ℤ) =>
        (readAt (P.fine_dims_ 0) fw k).bind fun w =>
        (readAt (P.fine_dims_ 0 / 2 + 1) (P.fseries_data_ 0) k).bind fun c =>
        (writeAt (P.grid_dims_ 0) st.1 st.2 (deconvVal prefactor w c)).bind fun a =>
        some (a, st.2 + 1))
      (fun k (st : (ℤ → DType) × ℤ) =>
        (Function.update st.1 st.2 (deconvVal prefactor (fw k) (P.fseries_data_ 0 k)),
          st.2 + 1))
      (fk, match P.mode_order with
        | ModeOrder.FFT => 0
        | ModeOrder.CMCL => - -(P.grid_dims_ 0 / 2))
      (by omega) (by simp)
      (by
        intro k st k0 k1 hI
        dsimp only at hI ⊢
        have hp : 0 ≤ st.2 ∧ st.2 < P.grid_dims_ 0 := by
          rw [hI]
          cases P.mode_order <;> dsimp only <;> omega
        rw [readAt_in _ _ _ k0 (by omega), readAt_in _ _ _ k0 (by omega)]
        dsimp only [Option.bind]
        rw [writeAt_in _ _ _ _ hp.1 hp.2]
        refine ⟨rfl, ?_⟩
        rw [hI]
        ring)
    rw [l1.1, Option.some_bind]
    have l2 := forRangeChecked_eq
      (fun k (st : (ℤ → DType) × ℤ) => st.2 =
        (match P.mode_order with
          | ModeOrder.FFT => (P.grid_dims_ 0 - 1) / 2 + 1
          | ModeOrder.CMCL => 0) + (k - -(P.grid_dims_ 0 / 2)))
      (-(P.grid_dims_ 0 / 2)) 0
      (fun k (st : (ℤ → DType) × ℤ) =>
        (readAt (P.fine_dims_ 0) fw (P.fine_dims_ 0 + k)).bind fun w =>
        (readAt (P.fine_dims_ 0 / 2 + 1) (P.fseries_data_ 0) (-k)).bind fun c =>
        (writeAt (P.grid_dims_ 0) st.1 st.2 (deconvVal prefactor w c)).bind fun a =>
        some (a, st.2 + 1))
      (fun k (st : (ℤ → DType) × ℤ) =>
        (Function.update st.1 st.2
          (deconvVal prefactor (fw (P.fine_dims_ 0 + k)) (P.fseries_data_ 0 (-k))),
          st.2 + 1))
      ((forRange 0 ((P.grid_dims_ 0 - 1) / 2 + 1)
        (fun k (st : (ℤ → DType) × ℤ) =>
          (Function.update st.1 st.2 (deconvVal prefactor (fw k) (P.fseries_data_ 0 k)),
            st.2 + 1))
        (fk, match P.mode_order with
          | ModeOrder.FFT => 0
          | ModeOrder.CMCL => - -(P.grid_dims_ 0 / 2))).1,
        match P.mode_order with
          | ModeOrder.FFT => (P.grid_dims_ 0 - 1) / 2 + 1
          | ModeOrder.CMCL => 0)
      (by omega) (by simp)
      (by
        intro k st k0 k1 hI
        dsimp only at hI ⊢
        have hp : 0 ≤ st.2 ∧ st.2 < P.grid_dims_ 0 := by
          rw [hI]
          cases P.mode_order <;> dsimp only <;> omega
        rw [readAt_in _ _ _ (by omega) (by omega), readAt_in _ _ _ (by omega) (by omega)]
        dsimp only [Option.bind]
        rw [writeAt_in _ _ _ _ hp.1 hp.2]
        refine ⟨rfl, ?_⟩
        rw [hI]
        ring)
    rw [l2.1, Option.some_bind]
  · -- backward
    dsimp only
    have l0 := forRangeChecked_eq (fun _ (_ : ℤ → DType) => True)
      ((P.grid_dims_ 0 - 1) / 2 + 1) (P.fine_dims_ 0 + -(P.grid_dims_ 0 / 2))
      (fun k (a : ℤ → DType) => writeAt (P.fine_dims_ 0) a k DType.zero)
      (fun k (a : ℤ → DType) => Function.update a k DType.zero) fw
      (by omega) trivial
      (by
        intro k st k0 k1 _
        exact ⟨writeAt_in _ _ _ _ (by omega) (by omega), trivial⟩)
    rw [l0.1, Option.some_bind]
    have l1 := forRangeChecked_eq
      (fun k (st : (ℤ → DType) × ℤ) => st.2 =
        (match P.mode_order with
          | ModeOrder.FFT => 0
          | ModeOrder.CMCL => - -(P.grid_dims_ 0 / 2)) + k)
      0 ((P.grid_dims_ 0 - 1) / 2 + 1)
      (fun k (st : (ℤ → DType) × ℤ) =>
        (readAt (P.grid_dims_ 0) fk st.2).bind fun z =>
        (readAt (P.fine_dims_ 0 / 2 + 1) (P.fseries_data_ 0) k).bind fun c =>
        (writeAt (P.fine_dims_ 0) st.1 k (deconvVal prefactor z c)).bind fun a =>
        some (a, st.2 + 1))
      (fun k (st : (ℤ → DType) × ℤ) =>
        (Function.update st.1 k (deconvVal prefactor (fk st.2) (P.fseries_data_ 0 k)),
          st.2 + 1))
      (forRange ((P.grid_dims_ 0 - 1) / 2 + 1) (P.fine_dims_ 0 + -(P.grid_dims_ 0 / 2))
        (fun k (a : ℤ → DType) => Function.update a k DType.zero) fw,
        match P.mode_order with
        | ModeOrder.FFT => 0
        | ModeOrder.CMCL => - -(P.grid_dims_ 0 / 2))
      (by omega) (by simp)
      (by
        intro k st k0 k1 hI
        dsimp only at hI ⊢
        have hp : 0 ≤ st.2 ∧ st.2 < P.grid_dims_ 0 := by
          rw [hI]
          cases P.mode_order <;> dsimp only <;> omega
        rw [readAt_in _ _ _ hp.1 hp.2, readAt_in _ _ _ k0 (by omega)]
        dsimp only [Option.bind]
        rw [writeAt_in _ _ _ _ k0 (by omega)]
        refine ⟨rfl, ?_⟩
        rw [hI]
        ring)
    rw [l1.1, Option.some_bind]
    have l2 := forRangeChecked_eq
      (fun k (st : (ℤ → DType) × ℤ) => st.2 =
        (match P.mode_order with
          | ModeOrder.FFT => (P.grid_dims_ 0 - 1) / 2 + 1
          | ModeOrder.CMCL => 0) + (k - -(P.grid_dims_ 0 / 2)))
      (-(P.grid_dims_ 0 / 2)) 0
      (fun k (st : (ℤ → DType) × ℤ) =>
        (readAt (P.grid_dims_ 0) fk st.2).bind fun z =>
        (readAt (P.fine_dims_ 0 / 2 + 1) (P.fseries_data_ 0) (-k)).bind fun c =>
        (writeAt (P.fine_dims_ 0) st.1 (P.fine_dims_ 0 + k) (deconvVal prefactor z c)).bind
          fun a => some (a, st.2 + 1))
      (fun k (st : (ℤ → DType) × ℤ) =>
        (Function.update st.1 (P.fine_dims_ 0 + k)
          (deconvVal prefactor (fk st.2) (P.fseries_data_ 0 (-k))), st.2 + 1))
      ((forRange 0 ((P.grid_dims_ 0 - 1) / 2 + 1)
        (fun k (st : (ℤ → DType) × ℤ) =>
          (Function.update st.1 k (deconvVal prefactor (fk st.2) (P.fseries_data_ 0 k)),
            st.2 + 1))
        (forRange ((P.grid_dims_ 0 - 1) / 2 + 1) (P.fine_dims_ 0 + -(P.grid_dims_ 0 / 2))
          (fun k (a : ℤ → DType) => Function.update a k DType.zero) fw,
          match P.mode_order with
          | ModeOrder.FFT => 0
          | ModeOrder.CMCL => - -(P.grid_dims_ 0 / 2))).1,
        match P.mode_order with
          | ModeOrder.FFT => (P.grid_dims_ 0 - 1) / 2 + 1
          | ModeOrder.CMCL => 0)
      (by omega) (by simp)
      (by
        intro k st k0 k1 hI
        dsimp only at hI ⊢
        have hp : 0 ≤ st.2 ∧ st.2 < P.grid_dims_ 0 := by
          rw [hI]
          cases P.mode_order <;> dsimp only <;> omega
        rw [readAt_in _ _ _ hp.1 hp.2, readAt_in _ _ _ (by omega) (by omega)]
        dsimp only [Option.bind]
        rw [writeAt_in _ _ _ _ (by omega) (by omega)]
        refine ⟨rfl, ?_⟩
        rw [hI]
        ring)
    rw [l2.1, Option.some_bind]

/-- A buffer one entry too short makes the checked deconvolver fail: on the
four-mode plan with `nf = 8` (which needs 4 entries of `fk`, 8 of `fw` and the
coefficients `0..2`), a run with `fk` of 3 entries, with `fw` of 7 entries or with
2 coefficients returns `none`, in both directions. -/
theorem deconvolve_1d_checked_overrun :
    (deconvolve_1d_checked (planFourModes ModeOrder.CMCL SpreadDirection.INTERP) 3 8 5
      sampleArray sampleArray 1).isSome = false ∧
    (deconvolve_1d_checked (planFourModes ModeOrder.CMCL SpreadDirection.INTERP) 4 7 5
      sampleArray sampleArray 1).isSome = false ∧
    (deconvolve_1d_checked (planFourModes ModeOrder.CMCL SpreadDirection.INTERP) 4 8 2
      sampleArray sampleArray 1).isSome = false ∧
    (deconvolve_1d_checked (planFourModes ModeOrder.FFT SpreadDirection.SPREAD) 3 8 5
      sampleArray sampleArray 1).isSome = false ∧
    (deconvolve_1d_checked (planFourModes ModeOrder.FFT SpreadDirection.SPREAD) 4 7 5
      sampleArray sampleArray 1).isSome = false ∧
    (deconvolve_1d_checked (planFourModes ModeOrder.FFT SpreadDirection.SPREAD) 4 8 2
      sampleArray sampleArray 1).isSome = false ∧
    (deconvolve_1d_checked (planFourModes ModeOrder.FFT SpreadDirection.SPREAD) 4 8 3
      sampleArray sampleArray 1).isSome = true := by
  refine ⟨?_, ?_, ?_, ?_, ?_, ?_, ?_⟩ <;> decide

/-- C39: for every `ms ≥ 0` and `nf ≥ ms`, every index used by `deconvolve_1d` is
in range: run with each access checked against a buffer `fk` of `ms` entries, a
buffer `fw` of `nf` entries and the `nf/2 + 1` coefficients allocated by
`initialize`, the routine makes no access out of range (no `fk` position outside
`[0, ms)`, no `fw` position outside `[0, nf)`, no coefficient index above
`floor(nf/2)`) and returns the buffers of `deconvolve_1d`; the `fw` blocks
`[0, kmax]` of the non-negative modes and `[nf + kmin, nf)` of the negative modes
do not overlap (`kmax < nf + kmin`); accordingly the forward direction leaves
`fk` outside `[0, ms)` and all of `fw` unchanged, and the backward direction
leaves `fw` outside `[0, nf)` and all of `fk` unchanged. -/
theorem deconvolve_1d_indices_in_range (P : Plan)
    (hms : 0 ≤ P.grid_dims_ 0) (hnf : P.grid_dims_ 0 ≤ P.fine_dims_ 0)
    (fk fw : ℤ → DType) (prefactor : ℚ) :
    deconvolve_1d_checked P (P.grid_dims_ 0) (P.fine_dims_ 0) (cdiv (P.fine_dims_ 0) 2 + 1)
        fk fw prefactor =
      some (deconvolve_1d P fk fw 0 0 prefactor) ∧
    (if P.grid_dims_ 0 = 0 then -1 else cdiv (P.grid_dims_ 0 - 1) 2) <
      P.fine_dims_ 0 + cdiv (-(P.grid_dims_ 0)) 2 ∧
    (P.spread_direction = SpreadDirection.SPREAD →
      (∀ i, i < 0 ∨ P.grid_dims_ 0 ≤ i → (deconvolve_1d P fk fw 0 0 prefactor).1 i = fk i) ∧
      (deconvolve_1d P fk fw 0 0 prefactor).2 = fw) ∧
    (P.spread_direction = SpreadDirection.INTERP →
      (∀ i, i < 0 ∨ P.fine_dims_ 0 ≤ i → (deconvolve_1d P fk fw 0 0 prefactor).2 i = fw i) ∧
      (deconvolve_1d P fk fw 0 0 prefactor).1 = fk) := by
  have hkmin : cdiv (-(P.grid_dims_ 0)) 2 = -(P.grid_dims_ 0 / 2) := cdiv_neg_two _ hms
  have hkmax : (if P.grid_dims_ 0 = 0 then (-1 : ℤ) else cdiv (P.grid_dims_ 0 - 1) 2) =
      (P.grid_dims_ 0 - 1) / 2 := kmax_eq _ hms
  refine ⟨deconvolve_1d_checked_eq P hms hnf fk fw prefactor, ?_, ?_, ?_⟩
  · rw [hkmin, hkmax]
    omega
  · intro hdir
    have h := deconvolve_1d_spread_modes P hdir hms hnf fk fw prefactor
    exact ⟨h.2.2.1, h.2.2.2⟩
  · intro hdir
    rw [deconvolve_1d_interp P hdir hms]
    refine ⟨?_, rfl⟩
    intro i hi
    dsimp only
    have c1 : ¬ (-(P.grid_dims_ 0 / 2) ≤ i - (0 + P.fine_dims_ 0) ∧
        i - (0 + P.fine_dims_ 0) < 0) := by omega
    have c2 : ¬ (0 ≤ i - 0 ∧ i - 0 < (P.grid_dims_ 0 - 1) / 2 + 1) := by omega
    have c3 : ¬ ((P.grid_dims_ 0 - 1) / 2 + 1 ≤ i - 0 ∧
        i - 0 < P.fine_dims_ 0 + -(P.grid_dims_ 0 / 2)) := by omega
    rw [if_neg c1, if_neg c2, if_neg c3]

/-- C39, witness: the four-mode plan with `nf = 8`, in CMCL order, in the backward
direction. -/
theorem deconvolve_1d_indices_in_range_witness :
    (0 : ℤ) ≤ (planFourModes ModeOrder.CMCL SpreadDirection.INTERP).grid_dims_ 0 ∧
    (planFourModes ModeOrder.CMCL SpreadDirection.INTERP).grid_dims_ 0 ≤
      (planFourModes ModeOrder.CMCL SpreadDirection.INTERP).fine_dims_ 0 ∧
    deconvolve_1d_checked (planFourModes ModeOrder.CMCL SpreadDirection.INTERP)
        ((planFourModes ModeOrder.CMCL SpreadDirection.INTERP).grid_dims_ 0)
        ((planFourModes ModeOrder.CMCL SpreadDirection.INTERP).fine_dims_ 0)
        (cdiv ((planFourModes ModeOrder.CMCL SpreadDirection.INTERP).fine_dims_ 0) 2 + 1)
        sampleArray sampleArray 1 =
      some (deconvolve_1d (planFourModes ModeOrder.CMCL SpreadDirection.INTERP) sampleArray
        sampleArray 0 0 1) :=
  ⟨by decide, by decide,
    (deconvolve_1d_indices_in_range (planFourModes ModeOrder.CMCL SpreadDirection.INTERP)
      (by decide) (by decide) sampleArray sampleArray 1).1⟩

/-! ## Batch sizes and the blocks they address -/

theorem batch_count_facts (P : PlanState) (hbs : 1 ≤ P.batch_size_)
    (hnt : 1 ≤ P.num_transforms_) :
    (∀ b, b * P.batch_size_ < P.num_transforms_ ↔
      b < 1 + cdiv (P.num_transforms_ - 1) P.batch_size_) ∧
    0 ≤ cdiv (P.num_transforms_ - 1) P.batch_size_ := by
  rw [cdiv_of_nonneg _ _ (by omega) (by omega)]
  obtain ⟨q0, q1, q2⟩ := pred_div_bounds P.num_transforms_ P.batch_size_ hnt hbs
  generalize (P.num_transforms_ - 1) / P.batch_size_ = q at q0 q1 q2 ⊢
  have h1 : (1 + q - 1) * P.batch_size_ < P.num_transforms_ := by
    have e : (1 + q - 1) * P.batch_size_ = q * P.batch_size_ := by ring
    rw [e]
    exact q1
  have h2 : P.num_transforms_ ≤ P.batch_size_ * (1 + q) := by
    have e : P.batch_size_ * (1 + q) = (q + 1) * P.batch_size_ := by ring
    rw [e]
    exact q2
  exact ⟨fun b => batch_cond_iff P.batch_size_ P.num_transforms_ (1 + q) b hbs h1 h2, q0⟩

/-- The loop of `spread_or_interp` runs its body for the batches
`0, ..., nb - 1`. -/
theorem spread_or_interp_run {σ : Type} (ops : BatchOps σ) (P : PlanState)
    (hbs : 1 ≤ P.batch_size_) (hnt : 1 ≤ P.num_transforms_) (s : σ) (fuel : ℕ)
    (hfuel : 1 + cdiv (P.num_transforms_ - 1) P.batch_size_ < (fuel : ℤ)) :
    spread_or_interp ops P fuel s =
      some (Status.OK,
        forRange 0 (1 + cdiv (P.num_transforms_ - 1) P.batch_size_)
          (fun b s => (spread_or_interp_batch ops P b s).2) s) := by
  obtain ⟨hcond, hq⟩ := batch_count_facts P hbs hnt
  unfold spread_or_interp
  apply forWhile_run
  · intro b _
    rw [decide_eq_true_iff]
    exact hcond b
  · intro b s _ _
    rfl
  · exact le_refl _
  · omega
  · omega

/-- The loop of `execute` runs its body for the batches `0, ..., nb - 1` when the
steps succeed. -/
theorem execute_run {σ : Type} (ops : BatchOps σ) (P : PlanState)
    (hbs : 1 ≤ P.batch_size_) (hnt : 1 ≤ P.num_transforms_) (s : σ) (fuel : ℕ)
    (hty : P.type_ ≠ TransformType.TYPE_3)
    (hok : ∀ b s, (execute_batch ops P b s).1 = Status.OK)
    (hfuel : 1 + cdiv (P.num_transforms_ - 1) P.batch_size_ < (fuel : ℤ)) :
    execute ops P fuel s =
      some (Status.OK,
        forRange 0 (1 + cdiv (P.num_transforms_ - 1) P.batch_size_)
          (fun b s => (execute_batch ops P b s).2) s) := by
  obtain ⟨hcond, hq⟩ := batch_count_facts P hbs hnt
  unfold execute
  rw [if_pos hty]
  apply forWhile_run
  · intro b _
    rw [decide_eq_true_iff]
    exact hcond b
  · intro b s _ _
    exact hok b s
  · exact le_refl _
  · omega
  · omega

/-- The calls made by `spread_or_interp`, batch by batch. -/
theorem spread_or_interp_batches {σ : Type} (E : ElemOps σ) (P : PlanState) (fine_size_ : ℤ)
    (hbs : 1 ≤ P.batch_size_) (hnt : 1 ≤ P.num_transforms_) (s : σ) (fuel : ℕ)
    (hfuel : 1 + cdiv (P.num_transforms_ - 1) P.batch_size_ < (fuel : ℤ)) :
    spread_or_interp (planOps E P fine_size_) P fuel s =
      some (Status.OK,
        forRange 0 (1 + cdiv (P.num_transforms_ - 1) P.batch_size_)
          (fun b s =>
            forRange 0 (min (P.num_transforms_ - b * P.batch_size_) P.batch_size_)
              (fun i s =>
                E.spreadinterpSorted
                  (GridPtr.fk (b * P.batch_size_ * P.grid_size_ + i * fine_size_))
                  ((b * P.batch_size_ + i) * P.num_points_) s) s) s) := by
  rw [spread_or_interp_run _ P hbs hnt s fuel hfuel]
  have e := forRange_congr 0 (1 + cdiv (P.num_transforms_ - 1) P.batch_size_)
    (fun b s => (spread_or_interp_batch (planOps E P fine_size_) P b s).2)
    (fun b s =>
      forRange 0 (min (P.num_transforms_ - b * P.batch_size_) P.batch_size_)
        (fun i s =>
          E.spreadinterpSorted
            (GridPtr.fk (b * P.batch_size_ * P.grid_size_ + i * fine_size_))
            ((b * P.batch_size_ + i) * P.num_points_) s) s) s
    (by
      intro b st _ _
      have e1 : ∀ i : ℤ, b * P.batch_size_ * P.num_points_ + i * P.num_points_ =
          (b * P.batch_size_ + i) * P.num_points_ := fun i => by ring
      simp only [spread_or_interp_batch, planOps, spread_or_interp_sorted_batch,
        current_batch_size, e1])
  rw [e]

/-- The calls made by one batch of `execute` on a plan of TYPE_1. -/
theorem execute_batch_type1 {σ : Type} (E : ElemOps σ) (P : PlanState) (fine_size_ : ℤ)
    (hty : P.type_ = TransformType.TYPE_1) (b : ℤ) (s : σ) :
    execute_batch (planOps E P fine_size_) P b s =
      (Status.OK,
        forRange 0 (min (P.num_transforms_ - b * P.batch_size_) P.batch_size_)
          (fun i s =>
            if P.rank_ = 1 then
              E.deconvolve_1d ((b * P.batch_size_ + i) * P.grid_size_) (i * fine_size_) s
            else if P.rank_ = 2 then
              E.deconvolve_2d ((b * P.batch_size_ + i) * P.grid_size_) (i * fine_size_) s
            else if P.rank_ = 3 then
              E.deconvolve_3d ((b * P.batch_size_ + i) * P.grid_size_) (i * fine_size_) s
            else s)
          (E.fftw_execute
            (forRange 0 (min (P.num_transforms_ - b * P.batch_size_) P.batch_size_)
              (fun i s =>
                E.spreadinterpSorted (GridPtr.fine_data_ (i * fine_size_))
                  ((b * P.batch_size_ + i) * P.num_points_) s) s))) := by
  have e1 : ∀ i : ℤ, b * P.batch_size_ * P.num_points_ + i * P.num_points_ =
      (b * P.batch_size_ + i) * P.num_points_ := fun i => by ring
  have e2 : ∀ i : ℤ, b * P.batch_size_ * P.grid_size_ + i * P.grid_size_ =
      (b * P.batch_size_ + i) * P.grid_size_ := fun i => by ring
  simp only [execute_batch, planOps, spread_or_interp_sorted_batch, deconvolve_batch,
    current_batch_size, hty, if_true, ne_eq, not_true_eq_false, if_false, e1, e2]

/-- The calls made by one batch of `execute` on a plan of TYPE_2. -/
theorem execute_batch_type2 {σ : Type} (E : ElemOps σ) (P : PlanState) (fine_size_ : ℤ)
    (hty : P.type_ = TransformType.TYPE_2) (b : ℤ) (s : σ) :
    execute_batch (planOps E P fine_size_) P b s =
      (Status.OK,
        forRange 0 (min (P.num_transforms_ - b * P.batch_size_) P.batch_size_)
          (fun i s =>
            E.spreadinterpSorted (GridPtr.fine_data_ (i * fine_size_))
              ((b * P.batch_size_ + i) * P.num_points_) s)
          (E.fftw_execute
            (forRange 0 (min (P.num_transforms_ - b * P.batch_size_) P.batch_size_)
              (fun i s =>
                if P.rank_ = 1 then
                  E.deconvolve_1d ((b * P.batch_size_ + i) * P.grid_size_) (i * fine_size_) s
                else if P.rank_ = 2 then
                  E.deconvolve_2d ((b * P.batch_size_ + i) * P.grid_size_) (i * fine_size_) s
                else if P.rank_ = 3 then
                  E.deconvolve_3d ((b * P.batch_size_ + i) * P.grid_size_) (i * fine_size_) s
                else s) s))) := by
  have e1 : ∀ i : ℤ, b * P.batch_size_ * P.num_points_ + i * P.num_points_ =
      (b * P.batch_size_ + i) * P.num_points_ := fun i => by ring
  have e2 : ∀ i : ℤ, b * P.batch_size_ * P.grid_size_ + i * P.grid_size_ =
      (b * P.batch_size_ + i) * P.grid_size_ := fun i => by ring
  simp only [execute_batch, planOps, spread_or_interp_sorted_batch, deconvolve_batch,
    current_batch_size, hty, if_true, ne_eq, not_true_eq_false, if_false, e1, e2,
    reduceCtorEq]

/-- The calls made by `spread_or_interp`, transform by transform: the batches
laid end to end are the transforms `0, ..., num_transforms_ - 1`. -/
theorem spread_or_interp_blocks {σ : Type} (E : ElemOps σ) (P : PlanState) (fine_size_ : ℤ)
    (hbs : 1 ≤ P.batch_size_) (hnt : 1 ≤ P.num_transforms_) (s : σ) (fuel : ℕ)
    (hfuel : 1 + cdiv (P.num_transforms_ - 1) P.batch_size_ < (fuel : ℤ)) :
    spread_or_interp (planOps E P fine_size_) P fuel s =
      some (Status.OK,
        forRange 0 P.num_transforms_
          (fun t s =>
            E.spreadinterpSorted
              (GridPtr.fk (t / P.batch_size_ * P.batch_size_ * P.grid_size_ +
                t % P.batch_size_ * fine_size_))
              (t * P.num_points_) s) s) := by
  rw [spread_or_interp_batches E P fine_size_ hbs hnt s fuel hfuel]
  have t := forRange_tiled P.num_transforms_ P.batch_size_ (by omega) hbs
    (fun t s =>
      E.spreadinterpSorted
        (GridPtr.fk (t / P.batch_size_ * P.batch_size_ * P.grid_size_ +
          t % P.batch_size_ * fine_size_))
        (t * P.num_points_) s) s
  have hn : (P.num_transforms_ - 0 + P.batch_size_ - 1) / P.batch_size_ =
      1 + cdiv (P.num_transforms_ - 1) P.batch_size_ := by
    have e : P.num_transforms_ - 0 + P.batch_size_ - 1 =
        (P.num_transforms_ - 1) + P.batch_size_ * 1 := by ring
    rw [e, Int.add_mul_ediv_left _ _ (by omega), cdiv_of_nonneg _ _ (by omega) (by omega)]
    ring
  rw [← t, hn]
  have e := forRange_congr 0 (1 + cdiv (P.num_transforms_ - 1) P.batch_size_)
    (fun b s =>
      forRange 0 (min (P.num_transforms_ - b * P.batch_size_) P.batch_size_)
        (fun i s =>
          E.spreadinterpSorted
            (GridPtr.fk (b * P.batch_size_ * P.grid_size_ + i * fine_size_))
            ((b * P.batch_size_ + i) * P.num_points_) s) s)
    (fun c st =>
      forRange 0
        (if 0 + P.batch_size_ * c + P.batch_size_ > P.num_transforms_ then
          P.num_transforms_ - (0 + P.batch_size_ * c) else P.batch_size_)
        (fun t st =>
          (fun t s =>
            E.spreadinterpSorted
              (GridPtr.fk (t / P.batch_size_ * P.batch_size_ * P.grid_size_ +
                t % P.batch_size_ * fine_size_))
              (t * P.num_points_) s) (0 + P.batch_size_ * c + t) st) st) s
    (by
      intro b st _ _
      dsimp only
      have hsz : (if 0 + P.batch_size_ * b + P.batch_size_ > P.num_transforms_ then
          P.num_transforms_ - (0 + P.batch_size_ * b) else P.batch_size_) =
          min (P.num_transforms_ - b * P.batch_size_) P.batch_size_ := by
        have ec : P.batch_size_ * b = b * P.batch_size_ := mul_comm _ _
        rw [ec]
        split_ifs <;> omega
      rw [hsz]
      apply forRange_congr
      intro i st2 i0 i1
      have hi : i < P.batch_size_ := by omega
      have ez : 0 + P.batch_size_ * b + i = i + P.batch_size_ * b := by ring
      have e3 : i + P.batch_size_ * b = b * P.batch_size_ + i := by ring
      rw [ez, Int.add_mul_ediv_left _ _ (by omega), Int.add_mul_emod_self_left,
        Int.ediv_eq_zero_of_lt i0 hi, Int.emod_eq_of_lt i0 hi, zero_add, e3])
  rw [e]

theorem batch_sizes_arith (P : PlanState) (hbs : 1 ≤ P.batch_size_)
    (hnt : 1 ≤ P.num_transforms_) :
    (∀ b, 0 ≤ b → (b * P.batch_size_ < P.num_transforms_ ↔
      b < 1 + cdiv (P.num_transforms_ - 1) P.batch_size_)) ∧
    (∀ b, 0 ≤ b → b < 1 + cdiv (P.num_transforms_ - 1) P.batch_size_ →
      1 ≤ current_batch_size P b ∧ current_batch_size P b ≤ P.batch_size_) ∧
    (∀ b, 0 ≤ b → b < 1 + cdiv (P.num_transforms_ - 1) P.batch_size_ →
      current_batch_size P b < P.batch_size_ →
      b = 1 + cdiv (P.num_transforms_ - 1) P.batch_size_ - 1) ∧
    (∑ b in Finset.range (1 + cdiv (P.num_transforms_ - 1) P.batch_size_).toNat,
      current_batch_size P (b : ℤ)) = P.num_transforms_ ∧
    (∀ b i, 0 ≤ b → b < 1 + cdiv (P.num_transforms_ - 1) P.batch_size_ → 0 ≤ i →
      i < current_batch_size P b → b * P.batch_size_ + i < P.num_transforms_) := by
  rw [cdiv_of_nonneg _ _ (by omega) (by omega)]
  obtain ⟨q0, q1, q2⟩ := pred_div_bounds P.num_transforms_ P.batch_size_ hnt hbs
  generalize (P.num_transforms_ - 1) / P.batch_size_ = q at q0 q1 q2 ⊢
  have h1 : (1 + q - 1) * P.batch_size_ < P.num_transforms_ := by
    have e : (1 + q - 1) * P.batch_size_ = q * P.batch_size_ := by ring
    rw [e]
    exact q1
  have h2 : P.num_transforms_ ≤ P.batch_size_ * (1 + q) := by
    have e : P.batch_size_ * (1 + q) = (q + 1) * P.batch_size_ := by ring
    rw [e]
    exact q2
  have hcond := fun b => batch_cond_iff P.batch_size_ P.num_transforms_ (1 + q) b hbs h1 h2
  have hle : ∀ b, 0 ≤ b → b < 1 + q → b * P.batch_size_ ≤ q * P.batch_size_ := by
    intro b _ hb
    exact mul_le_mul_of_nonneg_right (by omega) (by omega)
  refine ⟨fun b _ => hcond b, ?_, ?_, ?_, ?_⟩
  · intro b hb0 hb1
    have := hle b hb0 hb1
    unfold current_batch_size
    omega
  · intro b hb0 hb1 hlt
    unfold current_batch_size at hlt
    by_contra hc
    have hb2 : b + 1 ≤ q := by omega
    have : (b + 1) * P.batch_size_ ≤ q * P.batch_size_ :=
      mul_le_mul_of_nonneg_right hb2 (by omega)
    have e : (b + 1) * P.batch_size_ = b * P.batch_size_ + P.batch_size_ := by ring
    omega
  · have hk := batch_sizes_partial_sum P hbs (by omega) (1 + q).toNat
      (by
        have e : (((1 + q).toNat : ℕ) : ℤ) = 1 + q := by omega
        rw [e]
        have e2 : (1 + q) * P.batch_size_ = q * P.batch_size_ + P.batch_size_ := by ring
        omega)
    rw [hk]
    have e : (((1 + q).toNat : ℕ) : ℤ) = 1 + q := by omega
    rw [e]
    have e2 : (1 + q) * P.batch_size_ = P.batch_size_ * (1 + q) := by ring
    omega
  · intro b i hb0 hb1 hi0 hi1
    unfold current_batch_size at hi1
    omega

/-- C15: in `execute` and in `spread_or_interp`, on a plan with
`batch_size_ ≥ 1` and `num_transforms_ ≥ 1`, the batches are
`b = 0, ..., nb - 1` with `nb = 1 + (num_transforms_ - 1) / batch_size_`, and
batch `b` has size `min(num_transforms_ - b*batch_size_, batch_size_)`: every
size is between 1 and `batch_size_`, only the last can be smaller, the sizes sum
to `num_transforms_`, and every transform index `b*batch_size_ + i` with `i`
below the size of batch `b` is below `num_transforms_`.  These are the sizes and
the blocks the loops address: `spread_or_interp` returns `OK` after calling
`spreadinterpSorted`, for each batch `b < nb` in turn and each `i` below its
size, on the weight block `b*batch_size_ + i`, which are the blocks
`0, ..., num_transforms_ - 1`, each once and in order; `execute` on a plan of
TYPE_1 returns `OK` after running, for each batch `b < nb` in turn,
`spreadinterpSorted` on the weight blocks `b*batch_size_ + i`, the FFT, and the
deconvolver of the rank on the mode blocks `b*batch_size_ + i`, for `i` below
the size of the batch, and on a plan of TYPE_2 the same calls with the
deconvolver first and `spreadinterpSorted` last. -/
theorem batch_sizes_cover (P : PlanState) (hbs : 1 ≤ P.batch_size_)
    (hnt : 1 ≤ P.num_transforms_) :
    (∀ b, 0 ≤ b → (b * P.batch_size_ < P.num_transforms_ ↔
      b < 1 + cdiv (P.num_transforms_ - 1) P.batch_size_)) ∧
    (∀ b, 0 ≤ b → b < 1 + cdiv (P.num_transforms_ - 1) P.batch_size_ →
      1 ≤ current_batch_size P b ∧ current_batch_size P b ≤ P.batch_size_) ∧
    (∀ b, 0 ≤ b → b < 1 + cdiv (P.num_transforms_ - 1) P.batch_size_ →
      current_batch_size P b < P.batch_size_ →
      b = 1 + cdiv (P.num_transforms_ - 1) P.batch_size_ - 1) ∧
    (∑ b in Finset.range (1 + cdiv (P.num_transforms_ - 1) P.batch_size_).toNat,
      current_batch_size P (b : ℤ)) = P.num_transforms_ ∧
    (∀ b i, 0 ≤ b → b < 1 + cdiv (P.num_transforms_ - 1) P.batch_size_ → 0 ≤ i →
      i < current_batch_size P b → b * P.batch_size_ + i < P.num_transforms_) ∧
    (∀ (σ : Type) (E : ElemOps σ) (fine_size_ : ℤ) (s : σ) (fuel : ℕ),
      1 + cdiv (P.num_transforms_ - 1) P.batch_size_ < (fuel : ℤ) →
      spread_or_interp (planOps E P fine_size_) P fuel s =
        some (Status.OK,
          forRange 0 (1 + cdiv (P.num_transforms_ - 1) P.batch_size_)
            (fun b s =>
              forRange 0 (min (P.num_transforms_ - b * P.batch_size_) P.batch_size_)
                (fun i s =>
                  E.spreadinterpSorted
                    (GridPtr.fk (b * P.batch_size_ * P.grid_size_ + i * fine_size_))
                    ((b * P.batch_size_ + i) * P.num_points_) s) s) s)) ∧
    (∀ (σ : Type) (E : ElemOps σ) (fine_size_ : ℤ) (s : σ) (fuel : ℕ),
      1 + cdiv (P.num_transforms_ - 1) P.batch_size_ < (fuel : ℤ) →
      spread_or_interp (planOps E P fine_size_) P fuel s =
        some (Status.OK,
          forRange 0 P.num_transforms_
            (fun t s =>
              E.spreadinterpSorted
                (GridPtr.fk (t / P.batch_size_ * P.batch_size_ * P.grid_size_ +
                  t % P.batch_size_ * fine_size_))
                (t * P.num_points_) s) s)) ∧
    (∀ (σ : Type) (E : ElemOps σ) (fine_size_ : ℤ) (s : σ) (fuel : ℕ),
      P.type_ = TransformType.TYPE_1 →
      1 + cdiv (P.num_transforms_ - 1) P.batch_size_ < (fuel : ℤ) →
      execute (planOps E P fine_size_) P fuel s =
        some (Status.OK,
          forRange 0 (1 + cdiv (P.num_transforms_ - 1) P.batch_size_)
            (fun b s =>
              forRange 0 (min (P.num_transforms_ - b * P.batch_size_) P.batch_size_)
                (fun i s =>
                  if P.rank_ = 1 then
                    E.deconvolve_1d ((b * P.batch_size_ + i) * P.grid_size_)
                      (i * fine_size_) s
                  else if P.rank_ = 2 then
                    E.deconvolve_2d ((b * P.batch_size_ + i) * P.grid_size_)
                      (i * fine_size_) s
                  else if P.rank_ = 3 then
                    E.deconvolve_3d ((b * P.batch_size_ + i) * P.grid_size_)
                      (i * fine_size_) s
                  else s)
                (E.fftw_execute
                  (forRange 0 (min (P.num_transforms_ - b * P.batch_size_) P.batch_size_)
                    (fun i s =>
                      E.spreadinterpSorted (GridPtr.fine_data_ (i * fine_size_))
                        ((b * P.batch_size_ + i) * P.num_points_) s) s))) s)) ∧
    (∀ (σ : Type) (E : ElemOps σ) (fine_size_ : ℤ) (s : σ) (fuel : ℕ),
      P.type_ = TransformType.TYPE_2 →
      1 + cdiv (P.num_transforms_ - 1) P.batch_size_ < (fuel : ℤ) →
      execute (planOps E P fine_size_) P fuel s =
        some (Status.OK,
          forRange 0 (1 + cdiv (P.num_transforms_ - 1) P.batch_size_)
            (fun b s =>
              forRange 0 (min (P.num_transforms_ - b * P.batch_size_) P.batch_size_)
                (fun i s =>
                  E.spreadinterpSorted (GridPtr.fine_data_ (i * fine_size_))
                    ((b * P.batch_size_ + i) * P.num_points_) s)
                (E.fftw_execute
                  (forRange 0 (min (P.num_transforms_ - b * P.batch_size_) P.batch_size_)
                    (fun i s =>
                      if P.rank_ = 1 then
                        E.deconvolve_1d ((b * P.batch_size_ + i) * P.grid_size_)
                          (i * fine_size_) s
                      else if P.rank_ = 2 then
                        E.deconvolve_2d ((b * P.batch_size_ + i) * P.grid_size_)
                          (i * fine_size_) s
                      else if P.rank_ = 3 then
                        E.deconvolve_3d ((b * P.batch_size_ + i) * P.grid_size_)
                          (i * fine_size_) s
                      else s) s))) s)) := by
  obtain ⟨a1, a2, a3, a4, a5⟩ := batch_sizes_arith P hbs hnt
  refine ⟨a1, a2, a3, a4, a5, ?_, ?_, ?_, ?_⟩
  · intro σ E fine_size_ s fuel hfuel
    exact spread_or_interp_batches E P fine_size_ hbs hnt s fuel hfuel
  · intro σ E fine_size_ s fuel hfuel
    exact spread_or_interp_blocks E P fine_size_ hbs hnt s fuel hfuel
  · intro σ E fine_size_ s fuel hty hfuel
    rw [execute_run (planOps E P fine_size_) P hbs hnt s fuel (by rw [hty]; decide)
      (fun b s => by rw [execute_batch_type1 E P fine_size_ hty]) hfuel]
    simp only [execute_batch_type1 E P fine_size_ hty]
  · intro σ E fine_size_ s fuel hty hfuel
    rw [execute_run (planOps E P fine_size_) P hbs hnt s fuel (by rw [hty]; decide)
      (fun b s => by rw [execute_batch_type2 E P fine_size_ hty]) hfuel]
    simp only [execute_batch_type2 E P fine_size_ hty]

/-- C15, witness: 5 transforms with at most 2 per batch give 3 batches of sizes
2, 2, 1; `execute` on 3 points, 8 modes and a fine grid of 16 cells addresses the
weight blocks at offsets `0, 3, 6, 9, 12` and the mode blocks at offsets
`0, 8, 16, 24, 32`. -/
theorem batch_sizes_cover_witness :
    samplePlan5Points.num_transforms_ = 5 ∧ samplePlan5Points.batch_size_ = 2 ∧
    samplePlan5Points.num_batches_ = 3 ∧
    1 + cdiv (samplePlan5Points.num_transforms_ - 1) samplePlan5Points.batch_size_ = 3 ∧
    current_batch_size samplePlan5Points 0 = 2 ∧ current_batch_size samplePlan5Points 1 = 2 ∧
    current_batch_size samplePlan5Points 2 = 1 ∧
    (∑ b in Finset.range (1 + cdiv (samplePlan5Points.num_transforms_ - 1)
        samplePlan5Points.batch_size_).toNat,
      current_batch_size samplePlan5Points (b : ℤ)) = samplePlan5Points.num_transforms_ ∧
    spread_or_interp (planOps recordElems samplePlan5Points 8) samplePlan5Points 4 [] =
      some (Status.OK,
        forRange 0 samplePlan5Points.num_transforms_
          (fun t s =>
            recordElems.spreadinterpSorted
              (GridPtr.fk (t / samplePlan5Points.batch_size_ * samplePlan5Points.batch_size_ *
                  samplePlan5Points.grid_size_ + t % samplePlan5Points.batch_size_ * 8))
              (t * samplePlan5Points.num_points_) s) []) ∧
    spread_or_interp (planOps recordElems samplePlan5Points 8) samplePlan5Points 4 [] =
      some (Status.OK,
        [ElemCall.spreadinterp (GridPtr.fk 0) 0, ElemCall.spreadinterp (GridPtr.fk 8) 3,
          ElemCall.spreadinterp (GridPtr.fk 16) 6, ElemCall.spreadinterp (GridPtr.fk 24) 9,
          ElemCall.spreadinterp (GridPtr.fk 32) 12]) ∧
    execute (planOps recordElems samplePlan5Points 16) samplePlan5Points 4 [] =
      some (Status.OK,
        [ElemCall.spreadinterp (GridPtr.fine_data_ 0) 0,
          ElemCall.spreadinterp (GridPtr.fine_data_ 16) 3, ElemCall.fft,
          ElemCall.deconvolve 1 0 0, ElemCall.deconvolve 1 8 16,
          ElemCall.spreadinterp (GridPtr.fine_data_ 0) 6,
          ElemCall.spreadinterp (GridPtr.fine_data_ 16) 9, ElemCall.fft,
          ElemCall.deconvolve 1 16 0, ElemCall.deconvolve 1 24 16,
          ElemCall.spreadinterp (GridPtr.fine_data_ 0) 12, ElemCall.fft,
          ElemCall.deconvolve 1 32 0]) :=
  have h := batch_sizes_cover samplePlan5Points (by decide) (by decide)
  ⟨by decide, by decide, by decide, by decide, by decide, by decide, by decide,
    h.2.2.2.1, h.2.2.2.2.2.2.1 (List ElemCall) recordElems 8 [] 4 (by decide), by decide,
    by decide⟩

end NufftPlan
